import Mathlib

/-! # Duality RPFP solver (`src/duality/duality_solver.cpp`)

A shallow embedding of the solver's data model and of the operations of
`Duality`, `Duality::Heuristic` and `Duality::Covering`, followed by theorems
about them.

Conventions of the embedding.

* A `Node *` is a natural number (the address); the fields of the nodes of one
  RPFP are functions of the address.  The null pointer is `none`.
* A `hash_map<Node *, X>` that is only read through `operator[]` is a total
  function returning the default-constructed `X` where nothing was stored; one
  that is tested with `find` is a function into `Option`.
* A `Transformer` is an element of a Boolean algebra `T` with a decidable
  order: `SetEmpty` is `⊥`, `SetFull` is `⊤`, `UnionWith` is `⊔`,
  `IntersectWith` is `⊓`, `SubsetEq` is `≤`.
* Recursive descents over the (possibly cyclic) graph take a fuel argument;
  `none` is returned when the fuel runs out or a null pointer is dereferenced.
* Calls on the `Reporter` only print and are left out.
-/

namespace Z3Duality

/-! ## Data model -/

/-- An edge of an RPFP.  `map` is the input edge of which an unwinding edge is
an instance (`none` for `e->map = 0`, a lower-bound edge). -/
structure Edge where
  map : Option Nat
  Parent : Nat
  Children : List Nat
deriving DecidableEq, Repr

/-- The nodes of one RPFP (input graph, unwinding, or derivation tree): the
allocated addresses and, per address, the fields of `RPFP::Node` that the solver
reads. -/
structure RPFP (T : Type) where
  nodes : List Nat
  number : Nat → Int
  map : Nat → Nat
  Annotation : Nat → T
  Bound : Nat → T
  Underapprox : Nat → T
  Outgoing : Nat → Option Edge
  Incoming : Nat → List Edge
  Name : Nat → List Char := fun _ => []

/-- The record `Covering::cover_info`. -/
structure cover_info where
  covered_by : Option Nat
  covers : List Nat
  dominated : Bool
  dominates : List Nat
deriving DecidableEq, Repr

/-- The constructor `cover_info()`: `covered_by = 0`, `dominated = false`. -/
def cover_info.default : cover_info :=
  { covered_by := none, covers := [], dominated := false, dominates := [] }

/-- An edge of the input RPFP.  The transformer `F` is only handed on to the backend;
it is named by a token that the backend interprets. -/
structure InputEdge where
  F : Nat
  Parent : Nat
  Children : List Nat
deriving DecidableEq, Repr

/-- The struct `Duality::Candidate`: an input edge and the children of the new
instance. -/
structure Candidate where
  edge : InputEdge
  Children : List Nat
deriving DecidableEq, Repr

/-- The members of `Duality` that stay fixed while candidates are generated; the
defaults of the options are the values that the constructor `Duality(RPFP *)` assigns.
`nodes` and `edges` are those of the input RPFP, a `std::map<Node *, Counter>` of
`back_edges` is the list of its entries, `cex_tree` is the pointer `cex.tree`, and
`TopoSort` is read with `operator[]`, which yields 0 for a node without an entry. -/
structure Duality (T : Type) where
  unwinding : RPFP T
  insts_of_node : Nat → List Nat
  all_of_node : Nat → List Nat
  underapprox_map : Nat → Option Nat
  nodes : List Nat := []
  edges : List InputEdge := []
  back_edges : Nat → List (Nat × Int) := fun _ => []
  cex_tree : Option Nat := none
  FullExpand : Bool := false
  NoConj : Bool := false
  FeasibleEdges : Bool := true
  UseUnderapprox : Bool := true
  Report : Bool := false
  StratifiedInlining : Bool := false
  RecursionBound : Int := -1
  TopoSort : Nat → Int := fun _ => 0
  unexpanded : List Nat := []

/-- The members `candidates`, `postponed_candidates` and `updated_nodes` of
`Duality`. -/
structure Worklist where
  candidates : List Candidate := []
  postponed_candidates : List Candidate := []
  updated_nodes : List Nat := []

/-- The state of a `Covering` object: the map `cm` and the flag
`some_updates`. -/
structure Covering where
  cm : Nat → cover_info
  some_updates : Bool

/-- The constructor `Covering(Duality *)`. -/
def Covering.new : Covering :=
  { cm := fun _ => cover_info.default, some_updates := false }

/-- The accessor `covered_by(node)`, read. -/
def Covering.covered_by (c : Covering) (node : Nat) : Option Nat :=
  (c.cm node).covered_by

/-- The assignment `covered_by(node) = v`. -/
def Covering.set_covered_by (c : Covering) (node : Nat) (v : Option Nat) : Covering :=
  { c with cm := Function.update c.cm node { c.cm node with covered_by := v } }

/-! ## Covering -/

/-- The method `Covering::CoverOrder(covering, covered)` (with `UNDERAPPROX_NODES`). -/
def CoverOrder {T : Type} (d : Duality T) (covering covered : Nat) : Bool :=
  if (d.underapprox_map covered).isSome then false
  else if (d.underapprox_map covering).isSome then
    decide (d.unwinding.number covering < d.unwinding.number covered)
      || decide (d.underapprox_map covering = some covered)
  else decide (d.unwinding.number covering < d.unwinding.number covered)

/-- The loop `for(i...) if(IsCoveredRec(memo, Children[i])) return true; return false;`
of `IsCoveredRec`, over the recursive call `call`. -/
def IsCoveredLoop (call : List Nat → Nat → Option (Bool × List Nat)) :
    List Nat → List Nat → Option (Bool × List Nat)
  | [], memo => some (false, memo)
  | ch :: chs, memo =>
    match call memo ch with
    | none => none
    | some (true, memo2) => some (true, memo2)
    | some (false, memo2) => IsCoveredLoop call chs memo2

/-- The method `Covering::IsCoveredRec(memo, node)`; the result carries the memo set
as the call leaves it. -/
def IsCoveredRec {T : Type} (d : Duality T) (c : Covering) :
    Nat → List Nat → Nat → Option (Bool × List Nat)
  | 0, _, _ => none
  | fuel + 1, memo, node =>
    if node ∈ memo then some (false, memo)
    else if (c.covered_by node).isSome then some (true, node :: memo)
    else
      match d.unwinding.Outgoing node with
      | none => none
      | some e => IsCoveredLoop (IsCoveredRec d c fuel) e.Children (node :: memo)

/-- The method `Covering::IsCovered(node)`.  The fuel is one more than the number of
nodes of the unwinding. -/
def IsCovered {T : Type} (d : Duality T) (c : Covering) (node : Nat) : Option Bool :=
  (IsCoveredRec d c (d.unwinding.nodes.length + 1) [] node).map Prod.fst

/-- The method `Covering::RemoveCoveringsBy(node)` (with `UNDERAPPROX_NODES`). -/
def RemoveCoveringsBy {T : Type} (d : Duality T) (c : Covering) (node : Nat) : Covering :=
  (d.all_of_node (d.unwinding.map node)).foldl
    (fun c1 other =>
      if (c1.covered_by other).isSome && CoverOrder d node other
      then c1.set_covered_by other none else c1) c

/-- The loop over `node->Incoming` of `RemoveAscendantCoveringsRec`, over the
recursive call `call`. -/
def RemoveAscendantLoop (call : List Nat → Covering → Nat → Option (Covering × List Nat)) :
    List Edge → List Nat → Covering → Option (Covering × List Nat)
  | [], memo, c => some (c, memo)
  | e :: es, memo, c =>
    match call memo c e.Parent with
    | none => none
    | some (c2, memo2) => RemoveAscendantLoop call es memo2 c2

/-- The method `Covering::RemoveAscendantCoveringsRec(memo, node)`. -/
def RemoveAscendantCoveringsRec {T : Type} (d : Duality T) :
    Nat → List Nat → Covering → Nat → Option (Covering × List Nat)
  | 0, _, _, _ => none
  | fuel + 1, memo, c, node =>
    if node ∈ memo then some (c, memo)
    else
      RemoveAscendantLoop (RemoveAscendantCoveringsRec d fuel) (d.unwinding.Incoming node)
        (node :: memo) (RemoveCoveringsBy d c node)

/-- The method `Covering::RemoveAscendantCoverings(node)`. -/
def RemoveAscendantCoverings {T : Type} (d : Duality T) (c : Covering) (node : Nat) :
    Option Covering :=
  (RemoveAscendantCoveringsRec d (d.unwinding.nodes.length + 1) [] c node).map Prod.fst

/-- The call `a.SubsetEq(b)` of `Transformer`. -/
def SubsetEq {T : Type} [LE T] [DecidableRel ((· ≤ ·) : T → T → Prop)] (a b : T) : Bool :=
  decide (a ≤ b)

/-- The method `Covering::CheckCover(covered, covering)`; `&&` evaluates its right
operand only when the left one is true. -/
def CheckCover {T : Type} [BooleanAlgebra T] [DecidableRel ((· ≤ ·) : T → T → Prop)]
    (d : Duality T) (c : Covering) (covered covering : Nat) : Option Bool :=
  if CoverOrder d covering covered
      && SubsetEq (d.unwinding.Annotation covered) (d.unwinding.Annotation covering) then
    (IsCovered d c covering).map (fun b => !b)
  else some false

/-- The statement `covers(covering).push_back(covered)`. -/
def Covering.push_covers (c : Covering) (covering covered : Nat) : Covering :=
  { c with
    cm := Function.update c.cm covering
      { c.cm covering with covers := (c.cm covering).covers ++ [covered] } }

/-- The method `Covering::CoverByNode(covered, covering)`. -/
def CoverByNode {T : Type} [BooleanAlgebra T] [DecidableRel ((· ≤ ·) : T → T → Prop)]
    (d : Duality T) (c : Covering) (covered covering : Nat) : Option (Bool × Covering) :=
  match CheckCover d c covered covering with
  | none => none
  | some true =>
    (RemoveAscendantCoverings d
      ((c.set_covered_by covered (some covering)).push_covers covering covered) covered).map
      (fun c2 => (true, c2))
  | some false => some (false, c)

/-- The first loop of `CoverByAll`: collects in `others` the expanded instances that
may cover and unions their annotations into `all`. -/
def CoverByAllLoop {T : Type} [BooleanAlgebra T] (d : Duality T) (c : Covering) (covered : Nat) :
    List Nat → List Nat × T → Option (List Nat × T)
  | [], acc => some acc
  | covering :: insts, (others, all) =>
    if CoverOrder d covering covered then
      match IsCovered d c covering with
      | none => none
      | some true => CoverByAllLoop d c covered insts (others, all)
      | some false =>
        CoverByAllLoop d c covered insts
          (others ++ [covering], all ⊔ d.unwinding.Annotation covering)
    else CoverByAllLoop d c covered insts (others, all)

/-- The method `Covering::CoverByAll(covered)`. -/
def CoverByAll {T : Type} [BooleanAlgebra T] [DecidableRel ((· ≤ ·) : T → T → Prop)]
    (d : Duality T) (c : Covering) (covered : Nat) : Option (Bool × Covering) :=
  match CoverByAllLoop d c covered (d.insts_of_node (d.unwinding.map covered)) ([], ⊥) with
  | none => none
  | some (others, all) =>
    if !others.isEmpty && SubsetEq (d.unwinding.Annotation covered) all then
      (RemoveAscendantCoverings d (c.set_covered_by covered (some covered)) covered).map
        (fun c2 => (true, c2))
    else some (false, c)

/-- The method `Covering::Close(node)` (with `UNDERAPPROX_NODES`). -/
def Close {T : Type} [BooleanAlgebra T] [DecidableRel ((· ≤ ·) : T → T → Prop)]
    (d : Duality T) (c : Covering) (node : Nat) : Option (Bool × Covering) :=
  if (c.covered_by node).isSome then some (true, c)
  else CoverByAll d c node

/-- The loop over the children of `CloseDescendantsRec`, over the recursive call
`call`. -/
def CloseDescendantsLoop
    (call : List Nat → Covering → Nat → Option (Bool × Covering × List Nat)) :
    List Nat → List Nat → Covering → Option (Bool × Covering × List Nat)
  | [], memo, c => some (false, c, memo)
  | ch :: chs, memo, c =>
    match call memo c ch with
    | none => none
    | some (true, c2, memo2) => some (true, c2, memo2)
    | some (false, c2, memo2) => CloseDescendantsLoop call chs memo2 c2

/-- The method `Covering::CloseDescendantsRec(memo, node)`. -/
def CloseDescendantsRec {T : Type} [BooleanAlgebra T]
    [DecidableRel ((· ≤ ·) : T → T → Prop)] (d : Duality T) :
    Nat → List Nat → Covering → Nat → Option (Bool × Covering × List Nat)
  | 0, _, _, _ => none
  | fuel + 1, memo, c, node =>
    if node ∈ memo then some (false, c, memo)
    else
      match d.unwinding.Outgoing node with
      | none => none
      | some e =>
        match CloseDescendantsLoop (CloseDescendantsRec d fuel) e.Children memo c with
        | none => none
        | some (true, c2, memo2) => some (true, c2, memo2)
        | some (false, c2, memo2) =>
          match Close d c2 node with
          | none => none
          | some (true, c3) => some (true, c3, memo2)
          | some (false, c3) => some (false, c3, node :: memo2)

/-- The method `Covering::CloseDescendants(node)`. -/
def CloseDescendants {T : Type} [BooleanAlgebra T]
    [DecidableRel ((· ≤ ·) : T → T → Prop)] (d : Duality T) (c : Covering) (node : Nat) :
    Option (Bool × Covering) :=
  (CloseDescendantsRec d (d.unwinding.nodes.length + 1) [] c node).map
    (fun r => (r.1, r.2.1))

/-- The method `Covering::Contains(node)`. -/
def Contains {T : Type} (d : Duality T) (c : Covering) (node : Nat) : Option Bool :=
  (IsCovered d c node).map (fun b => !b)

/-- The method `Covering::Update(node, update)`; the argument `update` is not used
by the method. -/
def Covering.Update {T : Type} (d : Duality T) (c : Covering) (node : Nat) : Covering :=
  { (RemoveCoveringsBy d c node) with some_updates := true }


/-- Example state for `CoverOrder`: three instances numbered 1, 2, 3, the last
two distinct from the first. -/
def exCoverOrder : Duality Bool :=
  { unwinding :=
      { nodes := [0, 1, 2], number := fun n => (n : Int) + 1, map := fun _ => 0,
        Annotation := fun _ => true, Bound := fun _ => true, Underapprox := fun _ => false,
        Outgoing := fun _ => none, Incoming := fun _ => [] },
    insts_of_node := fun _ => [], all_of_node := fun _ => [0, 1, 2],
    underapprox_map := fun _ => none }

/-! ## Graph relations used in the statements -/

/-- The node `y` is a child of `x`: `y` occurs in `x->Outgoing->Children`. -/
def Child {T : Type} (d : Duality T) (x y : Nat) : Prop :=
  ∃ e, d.unwinding.Outgoing x = some e ∧ y ∈ e.Children

/-- The node `y` is reachable from `x` through `Outgoing` children (`x` included). -/
def Reach {T : Type} (d : Duality T) : Nat → Nat → Prop :=
  Relation.ReflTransGen (Child d)

/-- The node `p` is the parent of one of the `Incoming` edges of `x`. -/
def ParentOf {T : Type} (d : Duality T) (x p : Nat) : Prop :=
  ∃ e ∈ d.unwinding.Incoming x, e.Parent = p

/-- The node `p` is an ascendant of `x`: reachable from `x` through the parents of
`Incoming` edges (`x` included). -/
def Ascendant {T : Type} (d : Duality T) : Nat → Nat → Prop :=
  Relation.ReflTransGen (ParentOf d)

/-- The number of nodes of the unwinding that are not in the memo set. -/
def unvisited {T : Type} (d : Duality T) (memo : List Nat) : Nat :=
  (d.unwinding.nodes.filter (fun x => decide (x ∉ memo))).length

/-- The children of every allocated node are allocated nodes. -/
def ChildrenClosed {T : Type} (d : Duality T) : Prop :=
  ∀ x ∈ d.unwinding.nodes, ∀ y, Child d x y → y ∈ d.unwinding.nodes

/-- The parents of the incoming edges of every allocated node are allocated
nodes. -/
def ParentsClosed {T : Type} (d : Duality T) : Prop :=
  ∀ x ∈ d.unwinding.nodes, ∀ p, ParentOf d x p → p ∈ d.unwinding.nodes

/-- The result of `IsCoveredRec(memo, node)` meets its contract: the memo set grows;
a `true` answer comes from a covered node reachable from `node`; after a `false`
answer `node` is in the memo set, and every node added to the memo set is not covered
and has all its children in the memo set. -/
def IsCoveredPost {T : Type} (d : Duality T) (c : Covering) (memo : List Nat) (node : Nat)
    (r : Bool × List Nat) : Prop :=
  memo ⊆ r.2
    ∧ (r.1 = true → ∃ x, Reach d node x ∧ (c.covered_by x).isSome)
    ∧ (r.1 = false → node ∈ r.2
        ∧ ∀ x ∈ r.2, x ∉ memo → c.covered_by x = none ∧ ∀ y, Child d x y → y ∈ r.2)

/-- Executable form of `ChildrenClosed`. -/
def ChildrenClosedB {T : Type} (d : Duality T) : Bool :=
  d.unwinding.nodes.all fun x =>
    match d.unwinding.Outgoing x with
    | none => true
    | some e => e.Children.all fun y => decide (y ∈ d.unwinding.nodes)

/-- Executable form of `ParentsClosed`. -/
def ParentsClosedB {T : Type} (d : Duality T) : Bool :=
  d.unwinding.nodes.all fun x =>
    (d.unwinding.Incoming x).all fun e => decide (e.Parent ∈ d.unwinding.nodes)

/-- Every allocated node has an `Outgoing` edge. -/
def AllOutgoingB {T : Type} (d : Duality T) : Bool :=
  d.unwinding.nodes.all fun x => (d.unwinding.Outgoing x).isSome

/-- Example unwinding with a shared child and a cycle: `0 -> [1, 2]`, `1 -> [2]`,
`2 -> [0]`, `3 -> []`; the instance at address `n` has number `n + 1`, and all are
instances of input node 0 with annotation `true`. -/
def exCyclic : Duality Bool :=
  { unwinding :=
      { nodes := [0, 1, 2, 3], number := fun n => (n : Int) + 1, map := fun _ => 0,
        Annotation := fun _ => true, Bound := fun _ => true, Underapprox := fun _ => false,
        Outgoing := fun n =>
          some { map := none, Parent := n,
                 Children := if n = 0 then [1, 2] else if n = 1 then [2]
                             else if n = 2 then [0] else [] },
        Incoming := fun n =>
          if n = 0 then [{ map := none, Parent := 2, Children := [0] }]
          else if n = 1 then [{ map := none, Parent := 0, Children := [1, 2] }]
          else if n = 2 then [{ map := none, Parent := 0, Children := [1, 2] },
                              { map := none, Parent := 1, Children := [2] }]
          else [] },
    insts_of_node := fun m => if m = 0 then [0, 1, 2] else [],
    all_of_node := fun m => if m = 0 then [0, 1, 2, 3] else [],
    underapprox_map := fun _ => none }

/-- Going from `c` to `c2` no cover was added or changed: each `covered_by` entry is
kept or reset to null. -/
def OnlyRemoves (c c2 : Covering) : Prop :=
  ∀ x, c2.covered_by x = c.covered_by x ∨ c2.covered_by x = none

/-- No instance listed in `all_of_node[p->map]` that `p` precedes in the cover order
is recorded as covered. -/
def Cleared {T : Type} (d : Duality T) (c : Covering) (p : Nat) : Prop :=
  ∀ x ∈ d.all_of_node (d.unwinding.map p), CoverOrder d p x = true → c.covered_by x = none

/-- Every `covered_by` entry that differs between `c` and `c2` belongs to an instance
listed in `all_of_node[p->map]` for an ascendant `p` of `node` that precedes it in the
cover order. -/
def RemovedByAscendant {T : Type} (d : Duality T) (node : Nat) (c c2 : Covering) : Prop :=
  ∀ x, c2.covered_by x ≠ c.covered_by x →
    ∃ p, Ascendant d node p ∧ x ∈ d.all_of_node (d.unwinding.map p)
      ∧ CoverOrder d p x = true

/-- The contract of `RemoveAscendantCoveringsRec(memo, node)`. -/
def RemoveAscendantPost {T : Type} (d : Duality T) (c : Covering) (memo : List Nat)
    (node : Nat) (r : Covering × List Nat) : Prop :=
  memo ⊆ r.2 ∧ node ∈ r.2 ∧ OnlyRemoves c r.1 ∧ RemovedByAscendant d node c r.1
    ∧ ∀ p ∈ r.2, p ∉ memo → Cleared d r.1 p ∧ ∀ q, ParentOf d p q → q ∈ r.2

/-- No node reachable from `i` through `Outgoing` children (`i` included) has a cover
recorded. -/
def NotCovered {T : Type} (d : Duality T) (c : Covering) (i : Nat) : Prop :=
  ∀ x, Reach d i x → c.covered_by x = none

/-- Every instance listed in `all_of_node[m]` is an instance of `m`. -/
def AllOfNodeSound {T : Type} (d : Duality T) : Prop :=
  ∀ m, ∀ x ∈ d.all_of_node m, d.unwinding.map x = m

/-- Every allocated instance is listed in `all_of_node` of its input node. -/
def AllOfNodeComplete {T : Type} (d : Duality T) : Prop :=
  ∀ x ∈ d.unwinding.nodes, x ∈ d.all_of_node (d.unwinding.map x)

/-- No ascendant of `covered` is an instance of the same input node that precedes
`covered` in the cover order. -/
def NoPrecedingAscendant {T : Type} (d : Duality T) (covered : Nat) : Prop :=
  ∀ p, Ascendant d covered p → d.unwinding.map p = d.unwinding.map covered →
    CoverOrder d p covered = false

/-- Executable sufficient condition for `NoPrecedingAscendant`: `s` contains
`covered`, is closed under the parents of incoming edges, and holds no instance of the
input node of `covered` that precedes it. -/
def NoPrecedingAscendantB {T : Type} (d : Duality T) (s : List Nat) (covered : Nat) : Bool :=
  decide (covered ∈ s)
    && (s.all fun x => (d.unwinding.Incoming x).all fun e => decide (e.Parent ∈ s))
    && s.all fun p =>
        !(decide (d.unwinding.map p = d.unwinding.map covered) && CoverOrder d p covered)

/-- Executable form of `AllOfNodeSound` for the input nodes `ms`, outside of which
`all_of_node` is empty. -/
def AllOfNodeSoundB {T : Type} (d : Duality T) (ms : List Nat) : Bool :=
  ms.all fun m => (d.all_of_node m).all fun x => decide (d.unwinding.map x = m)

/-- The union of the annotations of the instances in `others`, as `CoverByAll`
accumulates it in `all`. -/
def UnionOfAnnotations {T : Type} [BooleanAlgebra T] (d : Duality T) (others : List Nat) : T :=
  others.foldl (fun acc i => acc ⊔ d.unwinding.Annotation i) ⊥

/-- Example unwinding: instances 0 and 1 of input node 0 (numbers 1 and 2, both
leaves) and instance 2 of input node 1 (number 3) whose only child is instance 1. -/
def exTree : Duality Bool :=
  { unwinding :=
      { nodes := [0, 1, 2], number := fun n => (n : Int) + 1,
        map := fun n => if n = 2 then 1 else 0,
        Annotation := fun _ => true, Bound := fun _ => true, Underapprox := fun _ => false,
        Outgoing := fun n =>
          if n = 2 then some { map := some 0, Parent := 2, Children := [1] }
          else some { map := none, Parent := n, Children := [] },
        Incoming := fun n =>
          if n = 1 then [{ map := some 0, Parent := 2, Children := [1] }] else [] },
    insts_of_node := fun m => if m = 0 then [0] else [],
    all_of_node := fun m => if m = 0 then [0, 1] else if m = 1 then [2] else [],
    underapprox_map := fun _ => none }

/-- Example state in which an instance has an ascendant that is an older instance of
the same input node: instance 0 (number 1) has the only child instance 1 (number 5),
both instances of input node 0, and instance 0 is expanded.  The solver does not build
such an unwinding, it creates a parent after its children. -/
def exOlderParent : Duality Bool :=
  { unwinding :=
      { nodes := [0, 1], number := fun n => if n = 0 then 1 else 5,
        map := fun _ => 0,
        Annotation := fun _ => true, Bound := fun _ => true, Underapprox := fun _ => false,
        Outgoing := fun n =>
          if n = 0 then some { map := some 0, Parent := 0, Children := [1] }
          else some { map := none, Parent := n, Children := [] },
        Incoming := fun n =>
          if n = 1 then [{ map := some 0, Parent := 0, Children := [1] }] else [] },
    insts_of_node := fun m => if m = 0 then [0] else [],
    all_of_node := fun m => if m = 0 then [0, 1] else [],
    underapprox_map := fun _ => none }

/-- Every `Outgoing` edge of an allocated node is listed among the `Incoming` edges
of its children. -/
def IncomingCompleteOn {T : Type} (d : Duality T) : Prop :=
  ∀ x ∈ d.unwinding.nodes, ∀ y, Child d x y → ParentOf d y x

/-- Executable form of `IncomingCompleteOn`. -/
def IncomingCompleteB {T : Type} (d : Duality T) : Bool :=
  d.unwinding.nodes.all fun x =>
    match d.unwinding.Outgoing x with
    | none => true
    | some e => e.Children.all fun y =>
        (d.unwinding.Incoming y).any fun e2 => decide (e2.Parent = x)

/-- Executable form of `AllOfNodeComplete`. -/
def AllOfNodeCompleteB {T : Type} (d : Duality T) : Bool :=
  d.unwinding.nodes.all fun x => decide (x ∈ d.all_of_node (d.unwinding.map x))

/-- Executable check that the expanded instances of the input nodes `ms` are
allocated. -/
def InstsAllocatedB {T : Type} (d : Duality T) (ms : List Nat) : Bool :=
  ms.all fun m => (d.insts_of_node m).all fun i => decide (i ∈ d.unwinding.nodes)

/-- Well-formedness of the unwinding and of the side tables, as `CreateNodeInstance`,
`CreateEdge` and `CreateLowerBoundEdge` maintain it: edges connect allocated nodes,
`Incoming` mirrors `Outgoing`, every allocated node has an `Outgoing` edge and is
listed in `all_of_node` of its input node, and expanded instances are allocated. -/
structure UnwindingWF {T : Type} (d : Duality T) : Prop where
  children : ChildrenClosed d
  parents : ParentsClosed d
  incoming : IncomingCompleteOn d
  all_of_node : AllOfNodeComplete d
  outgoing : ∀ x ∈ d.unwinding.nodes, (d.unwinding.Outgoing x).isSome
  insts : ∀ m, ∀ i ∈ d.insts_of_node m, i ∈ d.unwinding.nodes

/-- The states of a `Covering` object that its operations produce from the state
built by the constructor, on a fixed unwinding. -/
inductive CoveringReachable {T : Type} [BooleanAlgebra T]
    [DecidableRel ((· ≤ ·) : T → T → Prop)] (d : Duality T) : Covering → Prop
  | init : CoveringReachable d Covering.new
  | coverByNode (c : Covering) (covered covering : Nat) (r : Bool × Covering) :
      CoveringReachable d c → covered ∈ d.unwinding.nodes → covering ∈ d.unwinding.nodes →
      CoverByNode d c covered covering = some r → CoveringReachable d r.2
  | coverByAll (c : Covering) (covered : Nat) (r : Bool × Covering) :
      CoveringReachable d c → covered ∈ d.unwinding.nodes →
      CoverByAll d c covered = some r → CoveringReachable d r.2
  | close (c : Covering) (node : Nat) (r : Bool × Covering) :
      CoveringReachable d c → node ∈ d.unwinding.nodes →
      Close d c node = some r → CoveringReachable d r.2
  | closeDescendants (c : Covering) (node : Nat) (r : Bool × Covering) :
      CoveringReachable d c → node ∈ d.unwinding.nodes →
      CloseDescendants d c node = some r → CoveringReachable d r.2
  | update (c : Covering) (node : Nat) :
      CoveringReachable d c → CoveringReachable d (Covering.Update d c node)

/-- The invariant of the cover relation: a recorded cover joins allocated nodes, and a
cover by another node `a` of `b` respects the cover order and the annotations, and, for
instances of the same input node, no node reachable from `a` is covered. -/
def CoverInv {T : Type} [BooleanAlgebra T] (d : Duality T) (c : Covering) : Prop :=
  ∀ b a, c.covered_by b = some a →
    b ∈ d.unwinding.nodes ∧ (a ≠ b →
      a ∈ d.unwinding.nodes ∧ CoverOrder d a b = true
        ∧ d.unwinding.Annotation b ≤ d.unwinding.Annotation a
        ∧ (d.unwinding.map a = d.unwinding.map b → NotCovered d c a))

/-- Example unwinding for the cover relation.  Instances 0, 3, 4 of input node 0 and
1, 2 of input node 1, with numbers 1 to 5 in the order of the addresses; instance 2 has
the only child 0, the others are leaves; instance 4 is the underapproximation node
made for instance 3; instances 0 and 1 are expanded. -/
def exCover : Duality Bool :=
  { unwinding :=
      { nodes := [0, 1, 2, 3, 4], number := fun n => (n : Int) + 1,
        map := fun n => if n = 1 ∨ n = 2 then 1 else 0,
        Annotation := fun _ => true, Bound := fun _ => true, Underapprox := fun _ => false,
        Outgoing := fun n =>
          if n = 2 then some { map := some 0, Parent := 2, Children := [0] }
          else some { map := none, Parent := n, Children := [] },
        Incoming := fun n =>
          if n = 0 then [{ map := some 0, Parent := 2, Children := [0] }] else [] },
    insts_of_node := fun m => if m = 0 then [0] else if m = 1 then [1] else [],
    all_of_node := fun m => if m = 0 then [0, 3, 4] else if m = 1 then [1, 2] else [],
    underapprox_map := fun n => if n = 4 then some 3 else none }

/-- The state of the cover relation of `exCover` after `CoverByAll(2)`. -/
def exCover_c1 : Covering :=
  ((CoverByAll exCover Covering.new 2).map Prod.snd).getD Covering.new

/-- The state of the cover relation of `exCover` after `CoverByAll(2)` and
`CoverByNode(3, 0)`. -/
def exCover_c2 : Covering :=
  ((CoverByNode exCover exCover_c1 3 0).map Prod.snd).getD Covering.new

/-! ## Heuristic -/

/-- The constant `INT_MAX` of a 32-bit `int`. -/
def INT_MAX : Int := 2147483647

/-- The state of a `Heuristic` object: the map `scores`, holding for each node the
field `updates` (0 where nothing was stored). -/
structure Heuristic where
  scores : Nat → Int

/-- The constructor `Heuristic(RPFP *)`: the map `scores` is empty. -/
def Heuristic.new : Heuristic :=
  { scores := fun _ => 0 }

/-- The method `Heuristic::Update(node)`: `scores[node].updates++`. -/
def Heuristic.Update (h : Heuristic) (node : Nat) : Heuristic :=
  { scores := Function.update h.scores node (h.scores node + 1) }

/-- The first loop of `Heuristic::ChooseExpand`, from the initial values of
`best_score` and `worst_score`. -/
def ChooseExpandScan {T : Type} (tree : RPFP T) (h : Heuristic) (choices : List Nat)
    (init : Int × Int) : Int × Int :=
  choices.foldl
    (fun acc it =>
      let score := h.scores (tree.map it)
      (min acc.1 score, max acc.2 score)) init

/-- The method `Heuristic::ChooseExpand(choices, best, high_priority, best_only)` of the
default heuristic; the sets are lists read as sets, `best.insert` adds a node that is not
yet in `best`, and the integer division of C++ truncates. -/
def ChooseExpand {T : Type} (tree : RPFP T) (h : Heuristic) (choices best : List Nat)
    (high_priority best_only : Bool) : List Nat :=
  if high_priority then best
  else
    let scan := ChooseExpandScan tree h choices (INT_MAX, 0)
    let best_score := scan.1
    let worst_score := scan.2
    let cutoff :=
      if best_only then best_score else best_score + (worst_score - best_score).tdiv 2
    choices.foldl
      (fun b it => if h.scores (tree.map it) ≤ cutoff then List.insert it b else b) best

/-- The score of the derivation-tree node `n` after the calls `Update(u)` for `u` in
`us`: the number of those calls made on `n.map`. -/
def scoreAfter {T : Type} (tree : RPFP T) (us : List Nat) (n : Nat) : Nat :=
  us.count (tree.map n)

/-- Example derivation tree for the heuristic: the node at address `n` maps to the
unwinding node `n`. -/
def exHeurTree : RPFP Bool :=
  { nodes := [0, 1, 2], number := fun n => (n : Int) + 1, map := fun n => n,
    Annotation := fun _ => true, Bound := fun _ => true, Underapprox := fun _ => false,
    Outgoing := fun _ => none, Incoming := fun _ => [] }

/-! ## Solution from the inductive subset and candidates from induction failure -/

/-- The answers of the backend to a satisfiability check. -/
inductive check_result where
  | sat
  | unsat
  | unknown
deriving DecidableEq, Repr

/-- A formula that may mention node markers, given by its value under each assignment
of the markers; the marker of a node is named by the node's `number`. -/
abbrev MarkerFormula (T : Type) := (Int → Bool) → T

/-- A Boolean formula read as a transformer formula. -/
def boolT {T : Type} [BooleanAlgebra T] (b : Bool) : T :=
  if b then ⊤ else ⊥

/-- The method `NodeMarker(node)`: the Boolean constant `@m_<number>`. -/
def NodeMarker {T : Type} (d : Duality T) (node : Nat) : (Int → Bool) → Bool :=
  fun mu => mu (d.unwinding.number node)

/-- The method `UnionAnnotations(dst, src, with_markers)`. -/
def UnionAnnotations {T : Type} [BooleanAlgebra T] (d : Duality T) (dst : MarkerFormula T)
    (src : Nat) (with_markers : Bool) : MarkerFormula T :=
  if !with_markers then fun mu => dst mu ⊔ d.unwinding.Annotation src
  else fun mu => dst mu ⊔ (d.unwinding.Annotation src ⊓ boolT (NodeMarker d src mu))

/-- The loop of `GenNodeSolutionFromIndSet` over `insts`. -/
def GenNodeSolutionFromIndSetLoop {T : Type} [BooleanAlgebra T] (d : Duality T)
    (c : Covering) (with_markers : Bool) :
    List Nat → MarkerFormula T → Option (MarkerFormula T)
  | [], annot => some annot
  | inst :: insts, annot =>
    match Contains d c inst with
    | none => none
    | some true =>
      GenNodeSolutionFromIndSetLoop d c with_markers insts
        (UnionAnnotations d annot inst with_markers)
    | some false => GenNodeSolutionFromIndSetLoop d c with_markers insts annot

/-- The method `GenNodeSolutionFromIndSet(node, annot, with_markers)`; the result is the
value left in `annot` (`Simplify` keeps the meaning). -/
def GenNodeSolutionFromIndSet {T : Type} [BooleanAlgebra T] (d : Duality T) (c : Covering)
    (node : Nat) (with_markers : Bool) : Option (MarkerFormula T) :=
  GenNodeSolutionFromIndSetLoop d c with_markers (d.insts_of_node node) (fun _ => ⊥)

/-- The loop of `GenSolutionFromIndSet` over the input nodes; `ann` holds the
`Annotation` of the input nodes. -/
def GenSolutionFromIndSetLoop {T : Type} [BooleanAlgebra T] (d : Duality T) (c : Covering)
    (with_markers : Bool) :
    List Nat → (Nat → MarkerFormula T) → Option (Nat → MarkerFormula T)
  | [], ann => some ann
  | node :: nodes, ann =>
    match GenNodeSolutionFromIndSet d c node with_markers with
    | none => none
    | some annot =>
      GenSolutionFromIndSetLoop d c with_markers nodes (Function.update ann node annot)

/-- The method `GenSolutionFromIndSet(with_markers)`. -/
def GenSolutionFromIndSet {T : Type} [BooleanAlgebra T] (d : Duality T) (c : Covering)
    (with_markers : Bool) (ann : Nat → MarkerFormula T) : Option (Nat → MarkerFormula T) :=
  GenSolutionFromIndSetLoop d c with_markers d.nodes ann

/-- The method `NodePastRecursionBound(node)`. -/
def NodePastRecursionBound {T : Type} (d : Duality T) (node : Nat) : Bool :=
  if d.RecursionBound < 0 then false
  else (d.back_edges node).any fun it => decide (it.2 > d.RecursionBound)

/-- The method `GenNodeSolutionWithMarkersAux(node, annot, marker_disjunction)`. -/
def GenNodeSolutionWithMarkersAux {T : Type} [BooleanAlgebra T] (d : Duality T) (node : Nat)
    (acc : MarkerFormula T × ((Int → Bool) → Bool)) :
    MarkerFormula T × ((Int → Bool) → Bool) :=
  if decide (d.RecursionBound ≥ 0) && NodePastRecursionBound d node then acc
  else
    (fun mu => acc.1 mu ⊓ (boolT (!NodeMarker d node mu) ⊔ d.unwinding.Annotation node),
     fun mu => acc.2 mu || NodeMarker d node mu)

/-- The loop of `GenNodeSolutionWithMarkers` over `insts`; the state is `annot`,
`marker_disjunction` and `res`. -/
def GenNodeSolutionWithMarkersLoop {T : Type} [BooleanAlgebra T] (d : Duality T)
    (c : Covering) :
    List Nat → (MarkerFormula T × ((Int → Bool) → Bool)) × Bool →
      Option ((MarkerFormula T × ((Int → Bool) → Bool)) × Bool)
  | [], st => some st
  | inst :: insts, st =>
    match Contains d c inst with
    | none => none
    | some true =>
      GenNodeSolutionWithMarkersLoop d c insts (GenNodeSolutionWithMarkersAux d inst st.1, true)
    | some false => GenNodeSolutionWithMarkersLoop d c insts st

/-- The method `GenNodeSolutionWithMarkers(node, annot, expanded_only)`: the returned
flag and the value left in `annot`. -/
def GenNodeSolutionWithMarkers {T : Type} [BooleanAlgebra T] (d : Duality T) (c : Covering)
    (node : Nat) (expanded_only : Bool) : Option (Bool × MarkerFormula T) :=
  match GenNodeSolutionWithMarkersLoop d c
      (if expanded_only then d.insts_of_node node else d.all_of_node node)
      ((fun _ => ⊤, fun _ => false), false) with
  | none => none
  | some ((annot, marker_disjunction), res) =>
    some (res, fun mu => annot mu ⊓ boolT (marker_disjunction mu))

/-- The checker RPFP that `CheckerForEdge` builds for an input edge: the `Bound` of the
root, the annotations of the cloned children (each asserted through a lower-bound edge)
and the transformer of the edge from the children to the root. -/
structure Checker (T : Type) where
  Bound : MarkerFormula T
  Children : List (MarkerFormula T)
  F : Nat

/-- The loop of `CheckerForEdge` over `edge->Children`. -/
def CheckerForEdgeLoop {T : Type} [BooleanAlgebra T] (d : Duality T) (c : Covering) :
    List Nat → List (MarkerFormula T) → Option (List (MarkerFormula T))
  | [], cs => some cs
  | oc :: ocs, cs =>
    match GenNodeSolutionWithMarkers d c oc true with
    | none => none
    | some (_, annot) => CheckerForEdgeLoop d c ocs (cs ++ [annot])

/-- The method `CheckerForEdge(edge, checker)` (the variant compiled without
`MINIMIZE_CANDIDATES_HARDER`). -/
def CheckerForEdge {T : Type} [BooleanAlgebra T] (d : Duality T) (c : Covering)
    (edge : InputEdge) : Option (Checker T) :=
  match GenNodeSolutionFromIndSet d c edge.Parent false with
  | none => none
  | some bound =>
    match CheckerForEdgeLoop d c edge.Children [] with
    | none => none
    | some cs => some { Bound := bound, Children := cs, F := edge.F }

/-- The calls on the backend whose answers the solver loop branches on.  `Check` is
`checker->Check(root)` on a checker built by `CheckerForEdge`; `Empty q j` is
`checker->Empty` of the child at position `j` and `Eval q j n` tells whether the marker
`@m_n` evaluates to true on the lower-bound edge of that child, both in the model that
the check found; `CheckFeasible` is the check made by `CandidateFeasible` on the bound of
the root, the annotations of the children and the transformer. -/
structure Backend (T : Type) where
  Check : Checker T → check_result
  Empty : Checker T → Nat → Bool
  Eval : Checker T → Nat → Int → Bool
  CheckFeasible : MarkerFormula T → List T → Nat → check_result

/-- The inner loop of `ExtractCandidateFromCex` over `insts` in forward order
(`MINIMIZE_CANDIDATES`): the first instance taken for child position `j`, `some none`
when the loop ends without one. -/
def ExtractCandidateInst {T : Type} (d : Duality T) (c : Covering) (be : Backend T)
    (q : Checker T) (j : Nat) : List Nat → Option (Option Nat)
  | [] => some none
  | inst :: insts =>
    match Contains d c inst with
    | none => none
    | some true =>
      if be.Empty q j || be.Eval q j (d.unwinding.number inst) then some (some inst)
      else ExtractCandidateInst d c be q j insts
    | some false => ExtractCandidateInst d c be q j insts

/-- The outer loop of `ExtractCandidateFromCex` over the child positions from `j`
on. -/
def ExtractCandidateLoop {T : Type} (d : Duality T) (c : Covering) (be : Backend T)
    (q : Checker T) : Nat → List Nat → List Nat → Option (Except String (List Nat))
  | _, [], children => some (.ok children)
  | j, ch :: chs, children =>
    match ExtractCandidateInst d c be q j (d.insts_of_node ch) with
    | none => none
    | some none => some (.error "No candidate from induction failure")
    | some (some inst) => ExtractCandidateLoop d c be q (j + 1) chs (children ++ [inst])

/-- The method `ExtractCandidateFromCex(edge, checker, root, candidate)`. -/
def ExtractCandidateFromCex {T : Type} (d : Duality T) (c : Covering) (be : Backend T)
    (edge : InputEdge) (q : Checker T) : Option (Except String Candidate) :=
  match ExtractCandidateLoop d c be q 0 edge.Children [] with
  | none => none
  | some (.error e) => some (.error e)
  | some (.ok children) => some (.ok { edge := edge, Children := children })

/-- The method `CandidateFeasible(cand)`; `level` is the scope level of the backend
solver on entry and the result carries the level at return. -/
def CandidateFeasible {T : Type} [BooleanAlgebra T] (d : Duality T) (c : Covering)
    (be : Backend T) (cand : Candidate) (level : Nat) : Option (Bool × Nat) :=
  if !d.FeasibleEdges then some (true, level)
  else
    let level1 := level + 1
    if cand.Children.any (NodePastRecursionBound d) then some (false, level1)
    else
      match GenNodeSolutionFromIndSet d c cand.edge.Parent false with
      | none => none
      | some bound =>
        let res := be.CheckFeasible bound (cand.Children.map d.unwinding.Annotation)
          cand.edge.F != check_result.unsat
        some (res, level1 - 1)

/-- The loop over the input edges of `GenCandidatesFromInductionFailure`. -/
def GenCandidatesScan {T : Type} [BooleanAlgebra T] (d : Duality T) (c : Covering)
    (be : Backend T) (full_scan : Bool) (updated_nodes : List Nat) :
    List InputEdge → List Candidate → Option (Except String (List Candidate))
  | [], candidates => some (.ok candidates)
  | edge :: edges, candidates =>
    if !full_scan && !decide (edge.Parent ∈ updated_nodes) then
      GenCandidatesScan d c be full_scan updated_nodes edges candidates
    else
      match CheckerForEdge d c edge with
      | none => none
      | some checker =>
        if be.Check checker != check_result.unsat then
          match ExtractCandidateFromCex d c be edge checker with
          | none => none
          | some (.error e) => some (.error e)
          | some (.ok candidate) =>
            GenCandidatesScan d c be full_scan updated_nodes edges (candidates ++ [candidate])
        else GenCandidatesScan d c be full_scan updated_nodes edges candidates

/-- The loop of `GenCandidatesFromInductionFailure` compiled with
`CHECK_CANDS_FROM_IND_SET`. -/
def CheckCandsFromIndSet {T : Type} [BooleanAlgebra T] (d : Duality T) (c : Covering)
    (be : Backend T) : List Candidate → Nat → Option (Except String Nat)
  | [], level => some (.ok level)
  | cand :: cands, level =>
    match CandidateFeasible d c be cand level with
    | none => none
    | some (false, _) => some (.error "produced infeasible candidate")
    | some (true, level1) => CheckCandsFromIndSet d c be cands level1

/-- The body of `GenCandidatesFromInductionFailure(full_scan)` up to its last
statement, the recursive call. -/
def GenCandidatesFromInductionFailureBody {T : Type} [BooleanAlgebra T] (d : Duality T)
    (c : Covering) (be : Backend T) (full_scan : Bool) (w : Worklist)
    (ann : Nat → MarkerFormula T) (level : Nat) :
    Option (Except String (Worklist × (Nat → MarkerFormula T) × Nat)) :=
  match GenSolutionFromIndSet d c true ann with
  | none => none
  | some ann1 =>
    match GenCandidatesScan d c be full_scan w.updated_nodes d.edges w.candidates with
    | none => none
    | some (.error e) => some (.error e)
    | some (.ok candidates) =>
      match CheckCandsFromIndSet d c be candidates level with
      | none => none
      | some (.error e) => some (.error e)
      | some (.ok level1) =>
        some (.ok ({ w with candidates := candidates, updated_nodes := [] }, ann1, level1))

/-- The method `GenCandidatesFromInductionFailure(full_scan)`; the recursive call is
made with `full_scan` true and therefore does not recur again. -/
def GenCandidatesFromInductionFailure {T : Type} [BooleanAlgebra T] (d : Duality T)
    (c : Covering) (be : Backend T) (full_scan : Bool) (w : Worklist)
    (ann : Nat → MarkerFormula T) (level : Nat) :
    Option (Except String (Worklist × (Nat → MarkerFormula T) × Nat)) :=
  match GenCandidatesFromInductionFailureBody d c be full_scan w ann level with
  | none => none
  | some (.error e) => some (.error e)
  | some (.ok (w1, ann1, level1)) =>
    if !full_scan && w1.candidates.isEmpty then
      GenCandidatesFromInductionFailureBody d c be true w1 ann1 level1
    else some (.ok (w1, ann1, level1))

/-- The last statement of `ProduceCandidatesForExtension` (with `DEPTH_FIRST_EXPAND`),
executed after the unexpanded nodes have been tried. -/
def ProduceCandidatesFromPostponed {T : Type} [BooleanAlgebra T] (d : Duality T)
    (c : Covering) (be : Backend T) (w : Worklist) (ann : Nat → MarkerFormula T)
    (level : Nat) : Option (Except String (Worklist × (Nat → MarkerFormula T) × Nat)) :=
  if w.candidates.isEmpty then
    let moveFront := fun (r : Worklist × (Nat → MarkerFormula T) × Nat) =>
      match r.1.postponed_candidates with
      | [] => r
      | cand :: rest =>
        ({ r.1 with candidates := r.1.candidates ++ [cand], postponed_candidates := rest },
          r.2)
    if w.postponed_candidates.isEmpty then
      match GenCandidatesFromInductionFailure d c be false w ann level with
      | none => none
      | some (.error e) => some (.error e)
      | some (.ok (w1, ann1, level1)) =>
        some (.ok (moveFront
          ({ w1 with candidates := w1.postponed_candidates,
                     postponed_candidates := w1.candidates }, ann1, level1)))
    else some (.ok (moveFront (w, ann, level)))
  else some (.ok (w, ann, level))

/-- The exit of the loop of `SolveMain`: from the point in `ProduceCandidatesForExtension`
where the unexpanded nodes have been tried, the rest of that call and the test
`if(candidates.empty()){ GenSolutionFromIndSet(); return true; }`.  The result is the
annotation written to the input nodes when `SolveMain` returns true, and `none` when the
loop goes on with a candidate. -/
def SolveMainExit {T : Type} [BooleanAlgebra T] (d : Duality T) (c : Covering)
    (be : Backend T) (w : Worklist) (ann : Nat → MarkerFormula T) (level : Nat) :
    Option (Except String (Option (Nat → MarkerFormula T))) :=
  match ProduceCandidatesFromPostponed d c be w ann level with
  | none => none
  | some (.error e) => some (.error e)
  | some (.ok (w1, ann1, _)) =>
    if w1.candidates.isEmpty then
      match GenSolutionFromIndSet d c false ann1 with
      | none => none
      | some sol => some (.ok (some sol))
    else some (.ok none)

/-! ## Meaning of the backend's answers, for relations given as finite sets of tuples -/

/-- The query that `Check(root)` decides on a checker built by `CheckerForEdge`, for
transformer tokens interpreted by `sem`: there are tuples for the children, one in the
annotation of each child under some assignment of the markers of that child's
lower-bound edge, that the transformer of the edge maps to a tuple outside the bound of
the root. -/
def CheckerSat {V : Type} [Fintype V] [DecidableEq V] (sem : Nat → List V → V → Prop)
    (q : Checker (Finset V)) : Prop :=
  ∃ (mur : Int → Bool) (xms : List (V × (Int → Bool))) (y : V),
    List.Forall₂ (fun xm A => xm.1 ∈ A xm.2) xms q.Children
      ∧ sem q.F (xms.map Prod.fst) y ∧ y ∉ q.Bound mur

/-- The answers of `Check` to the queries that `CheckerForEdge` builds for the input
edges are correct: `unsat` is answered exactly when the query has no solution. -/
def BackendCorrect {V : Type} [Fintype V] [DecidableEq V] (sem : Nat → List V → V → Prop)
    (d : Duality (Finset V)) (c : Covering) (be : Backend (Finset V)) : Prop :=
  ∀ e ∈ d.edges, ∀ q, CheckerForEdge d c e = some q →
    (be.Check q = check_result.unsat ↔ ¬ CheckerSat sem q)

/-- The current proposed solution fails to be inductive for the input edge `e` on
instances that are not past the recursion bound: the transformer maps tuples of the
annotations of such instances of the children, all in the inductive subset, to a tuple
outside the annotations of the instances of the parent that are in the inductive
subset. -/
def EdgeViolation {V : Type} [Fintype V] [DecidableEq V] (sem : Nat → List V → V → Prop)
    (d : Duality (Finset V)) (c : Covering) (e : InputEdge) : Prop :=
  ∃ (xs : List V) (y : V),
    List.Forall₂ (fun x ch => ∃ i ∈ d.insts_of_node ch, Contains d c i = some true
        ∧ NodePastRecursionBound d i = false ∧ x ∈ d.unwinding.Annotation i) xs e.Children
      ∧ sem e.F xs y
      ∧ ¬ ∃ i ∈ d.insts_of_node e.Parent, Contains d c i = some true
          ∧ y ∈ d.unwinding.Annotation i

/-- The annotation `sol` of the input nodes is inductive with respect to every input
edge: the transformer of the edge maps tuples of the children's annotations into the
parent's annotation. -/
def SolutionInductive {V : Type} [Fintype V] [DecidableEq V]
    (sem : Nat → List V → V → Prop) (edges : List InputEdge)
    (sol : Nat → MarkerFormula (Finset V)) : Prop :=
  ∀ e ∈ edges, ∀ (mu : Int → Bool) (xs : List V) (y : V),
    List.Forall₂ (fun x ch => x ∈ sol ch mu) xs e.Children → sem e.F xs y →
    y ∈ sol e.Parent mu

/-- The expanded instances of one input node have different numbers. -/
def NumbersInjective {T : Type} (d : Duality T) : Prop :=
  ∀ m, ∀ i ∈ d.insts_of_node m, ∀ j ∈ d.insts_of_node m,
    d.unwinding.number i = d.unwinding.number j → i = j

/-- The edges of the input RPFP connect nodes of the input RPFP. -/
def InputClosed {T : Type} (d : Duality T) : Prop :=
  ∀ e ∈ d.edges, e.Parent ∈ d.nodes ∧ ∀ ch ∈ e.Children, ch ∈ d.nodes

/-- Example unwinding for the rules `P(0)` and `P(x + 1) :- P(x)` over the tuples
0, 1, 2: the leaf instance 0 (annotation empty), instance 1 of the nullary rule
(annotation `{0}`) and instance 2 of the recursive rule with child 1 (annotation
`{1}`), numbered 1, 2, 3. -/
def exChainUnwinding : RPFP (Finset (Fin 3)) :=
  { nodes := [0, 1, 2], number := fun n => (n : Int) + 1, map := fun _ => 0,
    Annotation := fun n => if n = 1 then {0} else if n = 2 then {1} else ∅,
    Bound := fun _ => Finset.univ, Underapprox := fun _ => ∅,
    Outgoing := fun n =>
      if n = 1 then some { map := some 1, Parent := 1, Children := [] }
      else if n = 2 then some { map := some 2, Parent := 2, Children := [1] }
      else some { map := none, Parent := n, Children := [] },
    Incoming := fun n =>
      if n = 1 then [{ map := some 2, Parent := 2, Children := [1] }] else [] }

/-- Example solver state with `RecursionBound = 0`: one input node 0 with the nullary
edge 1 and the recursive edge 2; the three instances of `exChainUnwinding` are expanded,
and instance 2, reached through one back edge, is past the recursion bound. -/
def exBounded : Duality (Finset (Fin 3)) :=
  { unwinding := exChainUnwinding,
    insts_of_node := fun m => if m = 0 then [0, 1, 2] else [],
    all_of_node := fun m => if m = 0 then [0, 1, 2] else [],
    underapprox_map := fun _ => none,
    nodes := [0],
    edges := [{ F := 1, Parent := 0, Children := [] }, { F := 2, Parent := 0, Children := [0] }],
    back_edges := fun n => if n = 2 then [(0, 1)] else [],
    RecursionBound := 0 }

/-- The state `exBounded` with bounded recursion disabled (`RecursionBound = -1`). -/
def exUnbounded : Duality (Finset (Fin 3)) :=
  { exBounded with back_edges := fun _ => [], RecursionBound := -1 }

/-- The transformers of the rules `P(0)` (token 1) and `P(x + 1) :- P(x)` (token 2). -/
def exSemSucc (f : Nat) (xs : List (Fin 3)) (y : Fin 3) : Prop :=
  (f = 1 ∧ xs = [] ∧ y = 0) ∨ (f = 2 ∧ ∃ x : Fin 3, xs = [x] ∧ y.val = x.val + 1)

/-- The transformers of the rules `P(0)` (token 1) and `P(x + 1) :- P(x), x < 1`
(token 2). -/
def exSemCapped (f : Nat) (xs : List (Fin 3)) (y : Fin 3) : Prop :=
  (f = 1 ∧ xs = [] ∧ y = 0) ∨ (f = 2 ∧ ∃ x : Fin 3, xs = [x] ∧ y.val = x.val + 1 ∧ x.val < 1)

/-- A backend that answers `unsat` to every check of `CheckerForEdge`. -/
def exBackendUnsat {T : Type} : Backend T :=
  { Check := fun _ => check_result.unsat, Empty := fun _ _ => false,
    Eval := fun _ _ _ => false, CheckFeasible := fun _ _ _ => check_result.sat }

/-- The annotation that `SolveMain` writes to the input nodes in the state `d`, with
the backend `exBackendUnsat` and empty work lists. -/
def exSolution {V : Type} [Fintype V] [DecidableEq V] (d : Duality (Finset V)) :
    Nat → MarkerFormula (Finset V) :=
  match SolveMainExit d Covering.new exBackendUnsat {} (fun _ _ => ∅) 0 with
  | some (.ok (some sol)) => sol
  | _ => fun _ _ => ∅

/-- Example for the input with one node `P` (address 0), the rule `P(x) :- x >= 0`
(token 1) and the bound `P(x) -> x < 0`, over two tuples: 0 stands for a negative `x`
and 1 for a non-negative one, so the bound is `{0}`.  The state is the one in which
`SolveMain` leaves its loop when `feasible_edges` is off: instance 1 is the leaf made by
`CreateLeaves` (annotation empty), instance 2 is the instance of the rule made by
`Extend` in `InstantiateAllEdges`; its annotation is still the full one that
`CreateNodeInstance` sets, because `SatisfyUpperBound` found a counterexample and
`UpdateWithInterpolant` never ran.  Both have been expanded by `TryExpandNode`. -/
def exUnsafe : Duality (Finset (Fin 2)) :=
  { unwinding :=
      { nodes := [1, 2], number := fun n => (n : Int), map := fun _ => 0,
        Annotation := fun n => if n = 2 then Finset.univ else ∅,
        Bound := fun _ => {0}, Underapprox := fun _ => ∅,
        Outgoing := fun n =>
          if n = 2 then some { map := some 1, Parent := 2, Children := [] }
          else some { map := none, Parent := n, Children := [] },
        Incoming := fun _ => [] },
    insts_of_node := fun m => if m = 0 then [1, 2] else [],
    all_of_node := fun m => if m = 0 then [1, 2] else [],
    underapprox_map := fun _ => none,
    nodes := [0],
    edges := [{ F := 1, Parent := 0, Children := [] }],
    FeasibleEdges := false }

/-- The cover state of the run that ends in `exUnsafe`: nothing is covered, and `Add`
has recorded that instance 2 dominates the leaf 1. -/
def exUnsafeCovering : Covering :=
  { cm := fun n =>
      if n = 1 then { cover_info.default with dominated := true }
      else if n = 2 then { cover_info.default with dominates := [1] }
      else cover_info.default,
    some_updates := false }

/-- The work lists of the run that ends in `exUnsafe`: no candidates, and
`updated_nodes` holds the leaf instance 1 that `MakeLeaf` inserted. -/
def exUnsafeWorklist : Worklist :=
  { updated_nodes := [1] }

/-- The annotation that `SolveMain` writes to the input nodes in the state `exUnsafe`. -/
def exUnsafeSolution : Nat → MarkerFormula (Finset (Fin 2)) :=
  match SolveMainExit exUnsafe exUnsafeCovering exBackendUnsat exUnsafeWorklist
      (fun _ _ => ∅) 0 with
  | some (.ok (some sol)) => sol
  | _ => fun _ _ => ∅

/-- The transformer of the rule `P(x) :- x >= 0` (token 1). -/
def exSemUnsafe (f : Nat) (xs : List (Fin 2)) (y : Fin 2) : Prop :=
  f = 1 ∧ xs = [] ∧ y = 1

/-! ## Control flow of `Solve` around the counterexample

The functions below follow the control flow of `Solve` and of the methods it calls as
far as the members `cex.tree` and `underapprox_map` are concerned.  Every test on data
that this part of the model does not hold (annotations, the cover relation, answers of
the backend, sizes of vectors) is answered by an oracle `o`, read at the position
`tick`, so that every run of the program is a run of the model for some oracle.  A
result `none` means that the fuel ran out, `some (.error msg)` that `msg` was thrown,
`some (.ok (a, s))` a normal return of `a` in state `s`. -/

namespace Flow

/-- The options that the control flow tests. -/
structure Options where
  UseUnderapprox : Bool
  StratifiedInlining : Bool
  FeasibleEdges : Bool
  NoConj : Bool
deriving DecidableEq, Repr

/-- The members `cex.tree` (`none` is the null pointer) and `underapprox_map` of
`Duality`, the number of RPFP objects allocated so far, the position in the
oracle, and the scope level of the backend solver. -/
structure SolverState where
  cex_tree : Option Nat
  underapprox_map : List (Nat × Nat)
  trees : Nat
  tick : Nat
  level : Nat := 0
deriving DecidableEq, Repr

/-- A computation on the solver state. -/
abbrev M (α : Type) := SolverState → Option (Except String (α × SolverState))

/-- Normal return of `a`. -/
def pureM {α : Type} (a : α) : M α :=
  fun s => some (.ok (a, s))

/-- Sequencing: the exception or the lack of fuel of the first computation ends the
run. -/
def bindM {α β : Type} (m : M α) (f : α → M β) : M β :=
  fun s =>
    match m s with
    | none => none
    | some (.error e) => some (.error e)
    | some (.ok (a, s1)) => f a s1

/-- A `throw`. -/
def throwM {α : Type} (msg : String) : M α :=
  fun _ => some (.error msg)

/-- The fuel ran out. -/
def outOfFuel {α : Type} : M α :=
  fun _ => none

/-- A number supplied by the oracle. -/
def choose (o : Nat → Nat) : M Nat :=
  fun s => some (.ok (o s.tick, { s with tick := s.tick + 1 }))

/-- The outcome, supplied by the oracle, of a test on data outside the model. -/
def chooseBool (o : Nat → Nat) : M Bool :=
  fun s => some (.ok (o s.tick != 0, { s with tick := s.tick + 1 }))

/-- The expression `new RPFP(...)`: a fresh address, never null. -/
def newTree : M Nat :=
  fun s => some (.ok (s.trees + 1, { s with trees := s.trees + 1 }))

/-- The assignment `cex.tree = t`. -/
def setCex (t : Option Nat) : M Unit :=
  fun s => some (.ok ((), { s with cex_tree := t }))

/-- The value of `cex.tree`. -/
def getCex : M (Option Nat) :=
  fun s => some (.ok (s.cex_tree, s))

/-- A loop that runs its body `k` times. -/
def repeatM : Nat → M Unit → M Unit
  | 0, _ => pureM ()
  | k + 1, m => bindM m fun _ => repeatM k m

/-- A loop that runs its body up to `k` times and returns false as soon as the body
does. -/
def allM : Nat → M Bool → M Bool
  | 0, _ => pureM true
  | k + 1, m => bindM m fun r => if r then allM k m else pureM false

/-- The method `Duality::ExpandNode(node)` (with `NEW_EXPAND`): it touches neither
`cex` nor `underapprox_map`; `ExtractCandidateFromCex` may throw. -/
def ExpandNode (o : Nat → Nat) : M Unit :=
  bindM (chooseBool o) fun thrown =>
  if thrown then throwM "No candidate from induction failure" else pureM ()

/-- The method `ExpandNodeFromCoverFail(node)` (with `UNDERAPPROX_NODES`). -/
def ExpandNodeFromCoverFail (o : Nat → Nat) : M Bool :=
  bindM (chooseBool o) fun has_children =>
  if !has_children then pureM false
  else
    bindM (chooseBool o) fun other =>
    if !other then pureM false
    else
      bindM (choose o) fun under_node =>
      bindM (choose o) fun node =>
      bindM (fun s => some (.ok ((), { s with
          underapprox_map := (under_node, node) :: s.underapprox_map }))) fun _ =>
      bindM (ExpandNode o) fun _ =>
      pureM true

/-- The method `SatisfyUpperBound(node)`, over the call `derive` of `dt.Derive`, which
returns its result and `dt.tree`. -/
def SatisfyUpperBoundBody (o : Nat → Nat) (derive : M (Bool × Nat)) : M Bool :=
  bindM (chooseBool o) fun full =>
  if full then pureM true
  else
    bindM derive fun r =>
    bindM (if r.1 then setCex (some r.2) else pureM ()) fun _ =>
    pureM (!r.1)

/-- The method `ProveConjecture(node, t)` as `Conjecture` calls it (`_cex` null), over
the call `sat` of `SatisfyUpperBound`. -/
def ProveConjectureWith (opt : Options) (o : Nat → Nat) (sat : M Bool) : M Bool :=
  bindM sat fun ok =>
  if ok then pureM true
  else
    bindM (if opt.UseUnderapprox then
        bindM (chooseBool o) fun many_decisions =>
        if many_decisions then bindM (ExpandNodeFromCoverFail o) fun _ => pureM ()
        else pureM ()
      else pureM ()) fun _ =>
    bindM (setCex none) fun _ =>
    pureM false

/-- The method `Covering::Conjecture(node)` (with `UNDERAPPROX_NODES`). -/
def ConjectureWith (opt : Options) (o : Nat → Nat) (sat : M Bool) : M Bool :=
  bindM (chooseBool o) fun some_other =>
  if some_other then
    bindM (ProveConjectureWith opt o sat) fun proved =>
    if proved then pureM true else pureM false
  else pureM false

/-- The method `TryExpandNode(node)`. -/
def TryExpandNodeWith (opt : Options) (o : Nat → Nat) (sat : M Bool) : M Unit :=
  bindM (chooseBool o) fun closed =>
  if closed then pureM ()
  else
    bindM (if !opt.NoConj then ConjectureWith opt o sat else pureM false) fun conjectured =>
    if conjectured then pureM ()
    else
      bindM (chooseBool o) fun contains =>
      if !contains then pureM ()
      else ExpandNode o

/-- The method `MakeLeaf(node, do_not_expand)`. -/
def MakeLeafWith (opt : Options) (o : Nat → Nat) (sat : M Bool) (do_not_expand : Bool) :
    M Unit :=
  if !do_not_expand then TryExpandNodeWith opt o sat else pureM ()

/-- The method `GetNodeOutgoing(node, last_decs)`: for a node still in `overapproxes`,
one `MakeLeaf` per child that gets a fresh stratified leaf. -/
def GetNodeOutgoingWith (opt : Options) (o : Nat → Nat) (sat : M Bool) : M Unit :=
  bindM (chooseBool o) fun overapprox =>
  if !overapprox then pureM ()
  else
    bindM (chooseBool o) fun covered_leaf =>
    if covered_leaf then pureM ()
    else
      bindM (choose o) fun fresh_leaves =>
      repeatM fresh_leaves (MakeLeafWith opt o sat false)

/-- The method `DerivationTree::Derive(rpfp, root, _underapprox, _constrained, _tree)`:
the tree is `_tree` when that is not null and a new RPFP otherwise; `Build` calls
`ExpandNode`, hence `GetNodeOutgoing`, some number of times.  The result is the
returned flag and `dt.tree`. -/
def DeriveWith (opt : Options) (o : Nat → Nat) (sat : M Bool) (_tree : Option Nat) :
    M (Bool × Nat) :=
  bindM (match _tree with
    | some t => pureM t
    | none => newTree) fun tree =>
  bindM (choose o) fun expansions =>
  bindM (repeatM expansions (GetNodeOutgoingWith opt o sat)) fun _ =>
  bindM (chooseBool o) fun res =>
  pureM (res, tree)

/-- The method `SatisfyUpperBound(node)`; the fuel bounds the depth of the nested calls
that reach it again through `Derive`, `GetNodeOutgoing`, `MakeLeaf`, `TryExpandNode`,
`Conjecture` and `ProveConjecture`. -/
def SatisfyUpperBound (opt : Options) (o : Nat → Nat) : Nat → M Bool
  | 0 => outOfFuel
  | fuel + 1 =>
    SatisfyUpperBoundBody o (DeriveWith opt o (SatisfyUpperBound opt o fuel) none)

/-- The method `Derive` with the nested calls of `SatisfyUpperBound` at depth `fuel`. -/
def Derive (opt : Options) (o : Nat → Nat) (fuel : Nat) (_tree : Option Nat) :
    M (Bool × Nat) :=
  DeriveWith opt o (SatisfyUpperBound opt o fuel) _tree

/-- The method `TryExpandNode` with the nested calls of `SatisfyUpperBound` at depth
`fuel`. -/
def TryExpandNode (opt : Options) (o : Nat → Nat) (fuel : Nat) : M Unit :=
  TryExpandNodeWith opt o (SatisfyUpperBound opt o fuel)

/-- The method `MakeLeaf` with the nested calls of `SatisfyUpperBound` at depth
`fuel`. -/
def MakeLeaf (opt : Options) (o : Nat → Nat) (fuel : Nat) (do_not_expand : Bool) : M Unit :=
  MakeLeafWith opt o (SatisfyUpperBound opt o fuel) do_not_expand

/-- The method `ExpandUnderapproxNodes(tree, root)`; `underapprox_map.find` can succeed
only in a non-empty map. -/
def ExpandUnderapproxNodes (opt : Options) (o : Nat → Nat) (fuel : Nat) :
    Nat → Option Nat → M Unit
  | 0, _ => outOfFuel
  | depth + 1, tree =>
    bindM (chooseBool o) fun found =>
    fun s =>
      if found && !s.underapprox_map.isEmpty then
        (bindM (Derive opt o fuel tree) fun r =>
          if !r.1 then throwM "bogus underapprox!"
          else ExpandUnderapproxNodes opt o fuel depth tree) s
      else
        (bindM (choose o) fun children =>
          repeatM children (ExpandUnderapproxNodes opt o fuel depth tree)) s

/-- The method `BuildFullCex(node)`. -/
def BuildFullCex (opt : Options) (o : Nat → Nat) (fuel : Nat) : M Unit :=
  bindM (Derive opt o fuel none) fun r =>
  if !r.1 then throwM "Duality internal error in BuildFullCex"
  else setCex (some r.2)

/-- The method `Extend(cand)`. -/
def Extend (opt : Options) (o : Nat → Nat) (fuel : Nat) : M Bool :=
  bindM (SatisfyUpperBound opt o fuel) fun res =>
  if res then
    bindM (TryExpandNode opt o fuel) fun _ => pureM true
  else
    bindM getCex fun tree =>
    bindM (ExpandUnderapproxNodes opt o fuel fuel tree) fun _ =>
    bindM (if opt.UseUnderapprox then BuildFullCex opt o fuel else pureM ()) fun _ =>
    pureM false

/-- The method `DoStratifiedInlining()`. -/
def DoStratifiedInlining (opt : Options) (o : Nat → Nat) (fuel : Nat) : M Bool :=
  bindM (choose o) fun leaves =>
  bindM (allM leaves (SatisfyUpperBound opt o fuel)) fun ok =>
  if !ok then pureM false
  else
    bindM (choose o) fun dangling =>
    bindM (repeatM dangling (MakeLeaf opt o fuel true)) fun _ =>
    pureM true

/-- The method `ProduceCandidatesForExtension()`: calls of `TryExpandNode`, then the
generation of candidates from induction failure, which touches neither `cex` nor
`underapprox_map` and may throw. -/
def ProduceCandidatesForExtension (opt : Options) (o : Nat → Nat) (fuel : Nat) : M Unit :=
  bindM (choose o) fun tried =>
  bindM (repeatM tried (TryExpandNode opt o fuel)) fun _ =>
  bindM (chooseBool o) fun thrown =>
  if thrown then throwM "produced infeasible candidate" else pureM ()

/-- The loop `while(true)` of `SolveMain`, for at most `iters` iterations. -/
def SolveMainLoop (opt : Options) (o : Nat → Nat) (fuel : Nat) : Nat → M Bool
  | 0 => outOfFuel
  | iters + 1 =>
    bindM (ProduceCandidatesForExtension opt o fuel) fun _ =>
    bindM (chooseBool o) fun no_candidates =>
    if no_candidates then pureM true
    else
      bindM (chooseBool o) fun feasible =>
      if feasible then
        bindM (Extend opt o fuel) fun extended =>
        if !extended then pureM false else SolveMainLoop opt o fuel iters
      else SolveMainLoop opt o fuel iters

/-- The method `SolveMain()`. -/
def SolveMain (opt : Options) (o : Nat → Nat) (fuel iters : Nat) : M Bool :=
  bindM (if opt.StratifiedInlining then DoStratifiedInlining opt o fuel else pureM true)
    fun inlined =>
  if opt.StratifiedInlining && !inlined then pureM false
  else SolveMainLoop opt o fuel iters

/-- The method `CreateLeaves()`. -/
def CreateLeaves (opt : Options) (o : Nat → Nat) (fuel : Nat) : M Unit :=
  bindM (choose o) fun nodes =>
  repeatM nodes (if !opt.StratifiedInlining then MakeLeaf opt o fuel false else pureM ())

/-- The method `InstantiateAllEdges()`: the result of `Extend` is not used. -/
def InstantiateAllEdges (opt : Options) (o : Nat → Nat) (fuel : Nat) : M Unit :=
  bindM (choose o) fun edges =>
  repeatM edges (bindM (Extend opt o fuel) fun _ => pureM ())

/-- The method `Solve()`. -/
def Solve (opt : Options) (o : Nat → Nat) (fuel iters : Nat) : M Bool :=
  bindM (setCex none) fun _ =>
  bindM (CreateLeaves opt o fuel) fun _ =>
  bindM (if !opt.StratifiedInlining then
      (if opt.FeasibleEdges then pureM () else InstantiateAllEdges opt o fuel)
    else pureM ()) fun _ =>
  SolveMain opt o fuel iters

/-- The method `GetCounterexample()`: returns the counterexample, here its `tree`, and
resets `cex.tree`. -/
def GetCounterexample : M (Option Nat) :=
  bindM getCex fun res =>
  bindM (setCex none) fun _ =>
  pureM res

/-- The state of a `Duality` object as its constructor leaves it, before
`LearnFrom`. -/
def SolverState.new : SolverState :=
  { cex_tree := none, underapprox_map := [], trees := 0, tick := 0 }

/-- The postcondition `Q` holds at every normal return of `m` from a state that
satisfies `P`. -/
def Holds {α : Type} (m : M α) (P : SolverState → Prop) (Q : α → SolverState → Prop) : Prop :=
  ∀ s, P s → ∀ a s1, m s = some (.ok (a, s1)) → Q a s1

/-- A predicate on the state that does not depend on the oracle position and on the
number of allocated trees. -/
def Stable (P : SolverState → Prop) : Prop :=
  ∀ s tick trees, P s → P { s with tick := tick, trees := trees }

/-- The invariant of `underapprox_map`: it is empty when underapproximations are
switched off. -/
def UnderapproxInv (opt : Options) (s : SolverState) : Prop :=
  opt.UseUnderapprox = false → s.underapprox_map = []

/-- The invariant together with the fact that, with underapproximations switched off,
`cex.tree` has the value `t`. -/
def CexKept (opt : Options) (t : Option Nat) (s : SolverState) : Prop :=
  UnderapproxInv opt s ∧ (opt.UseUnderapprox = false → s.cex_tree = t)

/-- The invariant together with the contract of the methods that return false on a
refutation: `cex.tree` is not null when the result is false. -/
def Refuted (opt : Options) (b : Bool) (s : SolverState) : Prop :=
  UnderapproxInv opt s ∧ (b = false → s.cex_tree ≠ none)

/-- Example options (the defaults of the constructor) and an oracle for a run in which
one leaf is created and expanded, the first candidate is feasible, and the derivation
for its bound finds a counterexample. -/
def exOptions : Options :=
  { UseUnderapprox := true, StratifiedInlining := false, FeasibleEdges := true,
    NoConj := false }

/-- The oracle of the example run: the answers at positions 0, 3, 8, 11 and 15 are 1
(one input node; the leaf is in the inductive subset; the candidate is feasible; the two
derivations find a counterexample), all others 0. -/
def exOracle (n : Nat) : Nat :=
  if n = 0 ∨ n = 3 ∨ n = 8 ∨ n = 11 ∨ n = 15 then 1 else 0

/-- Example options with stratified inlining, and the oracle of a run in which the
derivation for the first of two leaves finds a counterexample. -/
def exOptionsSI : Options :=
  { UseUnderapprox := false, StratifiedInlining := true, FeasibleEdges := true,
    NoConj := false }

/-- The oracle of the stratified example run: no input node is visited by
`CreateLeaves` (position 0), `DoStratifiedInlining` has 2 leaves (position 1), and the
first derivation finds a counterexample (position 4). -/
def exOracleSI (n : Nat) : Nat :=
  if n = 1 then 2 else if n = 4 then 1 else 0

/-- The options of the run on `exUnsafe`: the defaults with `feasible_edges` off. -/
def exOptionsAllEdges : Options :=
  { UseUnderapprox := true, StratifiedInlining := false, FeasibleEdges := false,
    NoConj := false }

/-- The oracle of the run on `exUnsafe`: one input node (position 0), whose leaf is
in the inductive subset (3); one input edge (5); the derivation for the bound of its
instance expands one node (7) and finds a counterexample (9), and so does the one of
`BuildFullCex` (12, 14); one unexpanded node is tried in the main loop (15) and is in
the inductive subset (18); no candidate is left (21). -/
def exOracleAllEdges (n : Nat) : Nat :=
  if n = 0 ∨ n = 3 ∨ n = 5 ∨ n = 7 ∨ n = 9 ∨ n = 12 ∨ n = 14 ∨ n = 15 ∨ n = 18 ∨ n = 21
  then 1 else 0

end Flow

/-- The instance `other` is covered on account of `node`: either `covered_by(other)` is
`node` itself, another instance, or `other` carries the mark of `CoverByAll` and `node`
is an instance of the same input node that precedes `other` in the cover order, as
every instance that `CoverByAll(other)` counts among its witnesses does. -/
def CoveredOnAccountOf {T : Type} (d : Duality T) (c : Covering) (node other : Nat) : Prop :=
  (other ≠ node ∧ c.covered_by other = some node)
    ∨ (c.covered_by other = some other ∧ d.unwinding.map node = d.unwinding.map other
        ∧ CoverOrder d node other = true)

/-- Recorded covers join instances of the same input node, as they do when
`CoverByNode` is called for the underapproximation node made for the covered node. -/
def SameNodeCovers {T : Type} (d : Duality T) (c : Covering) : Prop :=
  ∀ b a, c.covered_by b = some a → d.unwinding.map a = d.unwinding.map b

/-- The loop over the children of `CloseEveryDescendantRec`, over the recursive call
`call`. -/
def CloseEveryLoop (call : List Nat → Covering → Nat → Option (Covering × List Nat)) :
    List Nat → List Nat → Covering → Option (Covering × List Nat)
  | [], memo, c => some (c, memo)
  | ch :: chs, memo, c =>
    match call memo c ch with
    | none => none
    | some (c2, memo2) => CloseEveryLoop call chs memo2 c2

/-- The traversal that the specification describes for `CloseDescendants`: a
post-order walk over the nodes reachable through `Outgoing` children that applies
`Close` to every node it reaches, each node once, whatever the earlier calls of
`Close` returned. -/
def CloseEveryDescendantRec {T : Type} [BooleanAlgebra T]
    [DecidableRel ((· ≤ ·) : T → T → Prop)] (d : Duality T) :
    Nat → List Nat → Covering → Nat → Option (Covering × List Nat)
  | 0, _, _, _ => none
  | fuel + 1, memo, c, node =>
    if node ∈ memo then some (c, memo)
    else
      match d.unwinding.Outgoing node with
      | none => none
      | some e =>
        match CloseEveryLoop (CloseEveryDescendantRec d fuel) e.Children memo c with
        | none => none
        | some (c2, memo2) =>
          match Close d c2 node with
          | none => none
          | some (_, c3) => some (c3, node :: memo2)

/-- The specification's `CloseDescendants(node)`: `Close` applied to every descendant
in post-order. -/
def CloseEveryDescendant {T : Type} [BooleanAlgebra T]
    [DecidableRel ((· ≤ ·) : T → T → Prop)] (d : Duality T) (c : Covering) (node : Nat) :
    Option Covering :=
  (CloseEveryDescendantRec d (d.unwinding.nodes.length + 1) [] c node).map Prod.fst

/-- `Close(x)` fails in the state `c`. -/
def CloseFails {T : Type} [BooleanAlgebra T] [DecidableRel ((· ≤ ·) : T → T → Prop)]
    (d : Duality T) (c : Covering) (x : Nat) : Prop :=
  ∃ cx, Close d c x = some (false, cx)

/-- A height function of the unwinding: children have a smaller height than their
parent, and no height exceeds the number of nodes.  An unwinding has one exactly when
its `Outgoing` edges form no cycle. -/
def IsHeight {T : Type} (d : Duality T) (rank : Nat → Nat) : Prop :=
  (∀ x ∈ d.unwinding.nodes, ∀ y, Child d x y → rank y < rank x)
    ∧ ∀ x ∈ d.unwinding.nodes, rank x ≤ d.unwinding.nodes.length

/-- Executable form of `IsHeight`. -/
def IsHeightB {T : Type} (d : Duality T) (rank : Nat → Nat) : Bool :=
  d.unwinding.nodes.all fun x =>
    decide (rank x ≤ d.unwinding.nodes.length)
      && match d.unwinding.Outgoing x with
         | none => true
         | some e => e.Children.all fun y => decide (rank y < rank x)

/-- Example unwinding: instances 0, 1, 2 of input node 0 (numbers 1, 2, 3, all leaves)
and instance 3 of input node 1 (number 4) with the children 1 and 2; instance 0 is
expanded. -/
def exTwoChildren : Duality Bool :=
  { unwinding :=
      { nodes := [0, 1, 2, 3], number := fun n => (n : Int) + 1,
        map := fun n => if n = 3 then 1 else 0,
        Annotation := fun _ => true, Bound := fun _ => true, Underapprox := fun _ => false,
        Outgoing := fun n =>
          if n = 3 then some { map := some 0, Parent := 3, Children := [1, 2] }
          else some { map := none, Parent := n, Children := [] },
        Incoming := fun n =>
          if n = 1 ∨ n = 2 then [{ map := some 0, Parent := 3, Children := [1, 2] }]
          else [] },
    insts_of_node := fun m => if m = 0 then [0] else [],
    all_of_node := fun m => if m = 0 then [0, 1, 2] else if m = 1 then [3] else [],
    underapprox_map := fun _ => none }

/-- The test `dominates(x, y)`: `y` is in the set `cm[x].dominates`. -/
def Covering.dominates (c : Covering) (x y : Nat) : Bool :=
  decide (y ∈ (c.cm x).dominates)

/-- The loop over the child positions of `Covering::Dominates`; the vectors have the
same length (the `assert` of the source). -/
def DominatesLoop {T : Type} (d : Duality T) (c : Covering) :
    List Nat → List Nat → Option Bool
  | [], [] => some true
  | nc :: ncs, oc :: ocs =>
    if nc = oc then DominatesLoop d c ncs ocs
    else
      match d.unwinding.Outgoing oc with
      | none => none
      | some e =>
        if e.map = none || c.dominates nc oc then DominatesLoop d c ncs ocs
        else some false
  | _, _ => none

/-- The method `Covering::Dominates(node, other)`. -/
def Dominates {T : Type} (d : Duality T) (c : Covering) (node other : Nat) : Option Bool :=
  if node = other then some false
  else
    match d.unwinding.Outgoing other with
    | none => none
    | some oe =>
      if oe.map = none then some true
      else
        match d.unwinding.Outgoing node with
        | none => none
        | some ne =>
          if ne.map = oe.map then DominatesLoop d c ne.Children oe.Children
          else some false

/-- The loop of `Covering::Add(node)` over `insts_of_node(node->map)`; `dominates` is
a set, so an instance is inserted once. -/
def AddLoop {T : Type} (d : Duality T) (node : Nat) : List Nat → Covering → Option Covering
  | [], c => some c
  | other :: insts, c =>
    match Dominates d c node other with
    | none => none
    | some true =>
      let c1 : Covering :=
        { c with
          cm := Function.update c.cm node
            { c.cm node with
              dominates := if other ∈ (c.cm node).dominates then (c.cm node).dominates
                else (c.cm node).dominates ++ [other] } }
      let c2 : Covering :=
        { c1 with
          cm := Function.update c1.cm other { c1.cm other with dominated := true } }
      AddLoop d node insts c2
    | some false => AddLoop d node insts c

/-- The method `Covering::Add(node)`. -/
def Covering.Add {T : Type} (d : Duality T) (c : Covering) (node : Nat) : Option Covering :=
  AddLoop d node (d.insts_of_node (d.unwinding.map node)) c

/-- The test that `Dominates` makes on a pair of children: they are equal, or the
second has a lower-bound `Outgoing` edge, or the first is recorded as dominating the
second. -/
def ChildDominated {T : Type} (d : Duality T) (c : Covering) (nc oc : Nat) : Prop :=
  nc = oc ∨ ∃ e, d.unwinding.Outgoing oc = some e ∧ (e.map = none ∨ c.dominates nc oc = true)

/-- The relation that the claim describes: as `Dominates`, with the dominance of the
children read as the relation itself, to the depth `n`. -/
def DominatesRec {T : Type} (d : Duality T) : Nat → Nat → Nat → Prop
  | 0, _, _ => False
  | n + 1, a, b =>
    a ≠ b ∧ ∃ oe, d.unwinding.Outgoing b = some oe ∧
      (oe.map = none ∨ ∃ ne, d.unwinding.Outgoing a = some ne ∧ ne.map = oe.map
        ∧ List.Forall₂ (fun nc oc => nc = oc
            ∨ (∃ e, d.unwinding.Outgoing oc = some e ∧ e.map = none)
            ∨ DominatesRec d n nc oc) ne.Children oe.Children)

/-- Example unwinding: instances 0 and 1 of input node 0, both made from the input
edge 5 without children, and instances 2 and 3 of input node 1, both made from the
input edge 6, with the children 0 and 1; instance 1 was added after instance 0, so
that `Add(1)` recorded that 1 dominates 0. -/
def exDominates : Duality Bool :=
  { unwinding :=
      { nodes := [0, 1, 2, 3], number := fun n => (n : Int) + 1,
        map := fun n => if n = 2 ∨ n = 3 then 1 else 0,
        Annotation := fun _ => true, Bound := fun _ => true, Underapprox := fun _ => false,
        Outgoing := fun n =>
          if n = 2 then some { map := some 6, Parent := 2, Children := [0] }
          else if n = 3 then some { map := some 6, Parent := 3, Children := [1] }
          else some { map := some 5, Parent := n, Children := [] },
        Incoming := fun n =>
          if n = 0 then [{ map := some 6, Parent := 2, Children := [0] }]
          else if n = 1 then [{ map := some 6, Parent := 3, Children := [1] }] else [] },
    insts_of_node := fun m => if m = 0 then [0, 1] else if m = 1 then [3] else [],
    all_of_node := fun m => if m = 0 then [0, 1] else if m = 1 then [2, 3] else [],
    underapprox_map := fun _ => none }

/-- The cover state of `exDominates` after `Add(0)` (no instance was expanded then) and
`Add(1)` with instance 0 expanded. -/
def exDominates_c : Covering :=
  ((AddLoop exDominates 1 [0] Covering.new)).getD Covering.new

/-! ## Back-edge counters and the extension of the unwinding -/

/-- The read `m[k].val` of a `NodeToCounter`: the value of the entry of `k`, and 0, the
value of a new `Counter`, when there is none. -/
def counterGet : List (Nat × Int) → Nat → Int
  | [], _ => 0
  | (k1, v) :: m, k => if k1 = k then v else counterGet m k

/-- The assignment `m[k].val = v` of a `NodeToCounter`: the entry of `k` is replaced,
or added when there is none. -/
def counterSet : List (Nat × Int) → Nat → Int → List (Nat × Int)
  | [], k, v => [(k, v)]
  | (k1, v1) :: m, k, v => if k1 = k then (k, v) :: m else (k1, v1) :: counterSet m k v

/-- The body of the loop of `UpdateBackEdges(node)` for one child: the copy `chv` of
the counters of the child, incremented at `child->map` over a back edge, is joined
into the counters `nov` of `node` by pointwise maximum. -/
def UpdateBackEdgesStep {T : Type} (d : Duality T) (node : Nat)
    (back_edges : Nat → List (Nat × Int)) (child : Nat) : Nat → List (Nat × Int) :=
  let is_back := decide (d.TopoSort (d.unwinding.map child) ≥ d.TopoSort (d.unwinding.map node))
  let chv0 := back_edges child
  let chv :=
    if is_back then
      counterSet chv0 (d.unwinding.map child) (counterGet chv0 (d.unwinding.map child) + 1)
    else chv0
  let nov := chv.foldl
    (fun nov it => counterSet nov it.1 (max (counterGet nov it.1) it.2)) (back_edges node)
  Function.update back_edges node nov

/-- The method `UpdateBackEdges(node)` (with `BOUNDED`). -/
def UpdateBackEdges {T : Type} (d : Duality T) (node : Nat) : Option (Duality T) :=
  match d.unwinding.Outgoing node with
  | none => none
  | some e =>
    some { d with back_edges := e.Children.foldl (UpdateBackEdgesStep d node) d.back_edges }

/-- The method `CreateNodeInstance(node)`.  `RPFP::CloneNode` is not part of this
file: the address `inst` of the clone, its `number` and the `Bound` it copies from the
input node are parameters. -/
def CreateNodeInstance {T : Type} [BooleanAlgebra T] (d : Duality T) (node inst : Nat)
    (number : Int) (bound : T) : Duality T :=
  { d with
    unwinding :=
      { d.unwinding with
        nodes := d.unwinding.nodes ++ [inst],
        number := Function.update d.unwinding.number inst number,
        map := Function.update d.unwinding.map inst node,
        Annotation := Function.update d.unwinding.Annotation inst ⊤,
        Bound := Function.update d.unwinding.Bound inst bound,
        Outgoing := Function.update d.unwinding.Outgoing inst none,
        Incoming := Function.update d.unwinding.Incoming inst [] },
    unexpanded := d.unexpanded ++ [inst],
    all_of_node := Function.update d.all_of_node node (d.all_of_node node ++ [inst]) }

/-- The method `CreateEdgeInstance(edge, parent, children)`: `RPFP::CreateEdge` makes
the edge the `Outgoing` edge of `parent` and adds it to `Incoming` of the children. -/
def CreateEdgeInstance {T : Type} (d : Duality T) (edge : InputEdge) (parent : Nat)
    (children : List Nat) : Duality T :=
  let inst : Edge := { map := some edge.F, Parent := parent, Children := children }
  { d with
    unwinding :=
      { d.unwinding with
        Outgoing := Function.update d.unwinding.Outgoing parent (some inst),
        Incoming := fun x =>
          if x ∈ children then d.unwinding.Incoming x ++ [inst] else d.unwinding.Incoming x } }

/-- The first three statements of `Extend(cand)`: the new instance, its edge and its
back-edge counters, before `SatisfyUpperBound` is called. -/
def ExtendInstance {T : Type} [BooleanAlgebra T] (d : Duality T) (cand : Candidate)
    (inst : Nat) (number : Int) (bound : T) : Option (Duality T) :=
  UpdateBackEdges
    (CreateEdgeInstance (CreateNodeInstance d cand.edge.Parent inst number bound)
      cand.edge inst cand.Children) inst

/-- The value `v_i(m)` that the child `ch` contributes to the counter of `m` at its
new parent `node`. -/
def childCounter {T : Type} (d : Duality T) (node ch m : Nat) : Int :=
  if m = d.unwinding.map ch
      ∧ d.TopoSort (d.unwinding.map ch) ≥ d.TopoSort (d.unwinding.map node)
  then counterGet (d.back_edges ch) m + 1 else counterGet (d.back_edges ch) m

/-- The entries of a `NodeToCounter` have different keys and values that are not
negative. -/
def CounterWF (m : List (Nat × Int)) : Prop :=
  (m.map Prod.fst).Nodup ∧ ∀ it ∈ m, 0 ≤ it.2

/-- The state `exBounded` before the back-edge counters of instance 2 are computed. -/
def exBeforeCounters : Duality (Finset (Fin 3)) :=
  { exBounded with back_edges := fun _ => [] }

/-- A backend that answers `sat` to every check. -/
def exBackendSat {T : Type} : Backend T :=
  { Check := fun _ => check_result.sat, Empty := fun _ _ => false,
    Eval := fun _ _ _ => true, CheckFeasible := fun _ _ _ => check_result.sat }

/-- The state of the solver for the rules `P(0)` (token 1) and `P(x + 1) :- P(x)`
(token 2) with `RecursionBound = 0` after the leaf 0 and the instance 1 of the first
rule have been made and expanded, and before the second rule is instantiated. -/
def exBeforeExtend : Duality (Finset (Fin 3)) :=
  { unwinding :=
      { nodes := [0, 1], number := fun n => (n : Int) + 1, map := fun _ => 0,
        Annotation := fun n => if n = 1 then {0} else ∅,
        Bound := fun _ => Finset.univ, Underapprox := fun _ => ∅,
        Outgoing := fun n =>
          if n = 1 then some { map := some 1, Parent := 1, Children := [] }
          else some { map := none, Parent := n, Children := [] },
        Incoming := fun _ => [] },
    insts_of_node := fun m => if m = 0 then [0, 1] else [],
    all_of_node := fun m => if m = 0 then [0, 1] else [],
    underapprox_map := fun _ => none,
    nodes := [0],
    edges := [{ F := 1, Parent := 0, Children := [] }, { F := 2, Parent := 0, Children := [0] }],
    RecursionBound := 0 }

/-- The candidate that instantiates the rule `P(x + 1) :- P(x)` on instance 1. -/
def exCandidate : Candidate :=
  { edge := { F := 2, Parent := 0, Children := [0] }, Children := [1] }

/-- The candidate that instantiates the rule `P(x + 1) :- P(x)` on instance 2 of
`exBounded`, which is past the recursion bound. -/
def exCandidatePastBound : Candidate :=
  { edge := { F := 2, Parent := 0, Children := [0] }, Children := [2] }

/-! ## Updates of the unwinding -/

/-- The statement `s.insert(x)` of a `std::set`. -/
def setInsert (s : List Nat) (x : Nat) : List Nat :=
  if x ∈ s then s else s ++ [x]

/-- The method `UpdateNodeToNode(node, top)`; `top` is a node of the derivation tree,
of which only the `Annotation` is read.  The result is the returned flag and the
unwinding, the cover state and the work lists at return. -/
def UpdateNodeToNode {T : Type} [BooleanAlgebra T] [DecidableRel ((· ≤ ·) : T → T → Prop)]
    (d : Duality T) (c : Covering) (w : Worklist) (node : Nat) (top : T) :
    Bool × Duality T × Covering × Worklist :=
  if !SubsetEq (d.unwinding.Annotation node) top then
    (true,
     { d with
       unwinding :=
         { d.unwinding with
           Annotation := Function.update d.unwinding.Annotation node
             (d.unwinding.Annotation node ⊓ top) } },
     Covering.Update d c node,
     { w with updated_nodes := setInsert w.updated_nodes (d.unwinding.map node) })
  else (false, d, c, w)

/-- The method `MakeLeaf(node, do_not_expand)` for `do_not_expand = true`, where
`TryExpandNode` is not called.  `RPFP::CreateLowerBoundEdge` is not part of this file:
it gives the node an `Outgoing` edge without children. -/
def MakeLeafNoExpand {T : Type} [BooleanAlgebra T] (d : Duality T) (w : Worklist)
    (node : Nat) : Duality T × Worklist :=
  let e : Edge := { map := none, Parent := node, Children := [] }
  let d1 : Duality T :=
    { d with
      unwinding :=
        { d.unwinding with
          Annotation := Function.update d.unwinding.Annotation node ⊥,
          Outgoing := Function.update d.unwinding.Outgoing node (some e) } }
  if d.StratifiedInlining then
    ({ d1 with
       unwinding :=
         { d1.unwinding with
           Annotation := Function.update d1.unwinding.Annotation node ⊤ } }, w)
  else (d1, { w with updated_nodes := setInsert w.updated_nodes node })

/-! ## Options -/

/-- The method `SetBoolOption(opt, value)`: the returned flag and the value of `opt`
at return. -/
def SetBoolOption (opt : Bool) (value : String) : Bool × Bool :=
  if value = "0" then (true, false)
  else if value = "1" then (true, true)
  else (false, opt)

/-- The method `SetIntOption(opt, value)`; `atoi` is the function of the C library. -/
def SetIntOption (atoi : String → Int) (_opt : Int) (value : String) : Bool × Int :=
  (true, atoi value)

/-- The method `SetOption(option, value)`: the returned flag and the solver at
return. -/
def SetOption {T : Type} (atoi : String → Int) (d : Duality T) (option value : String) :
    Bool × Duality T :=
  if option = "full_expand" then
    ((SetBoolOption d.FullExpand value).1,
      { d with FullExpand := (SetBoolOption d.FullExpand value).2 })
  else if option = "no_conj" then
    ((SetBoolOption d.NoConj value).1, { d with NoConj := (SetBoolOption d.NoConj value).2 })
  else if option = "feasible_edges" then
    ((SetBoolOption d.FeasibleEdges value).1,
      { d with FeasibleEdges := (SetBoolOption d.FeasibleEdges value).2 })
  else if option = "use_underapprox" then
    ((SetBoolOption d.UseUnderapprox value).1,
      { d with UseUnderapprox := (SetBoolOption d.UseUnderapprox value).2 })
  else if option = "report" then
    ((SetBoolOption d.Report value).1, { d with Report := (SetBoolOption d.Report value).2 })
  else if option = "stratified_inlining" then
    ((SetBoolOption d.StratifiedInlining value).1,
      { d with StratifiedInlining := (SetBoolOption d.StratifiedInlining value).2 })
  else if option = "recursion_bound" then
    ((SetIntOption atoi d.RecursionBound value).1,
      { d with RecursionBound := (SetIntOption atoi d.RecursionBound value).2 })
  else (false, d)

/-- The names of the six Boolean options. -/
def boolOptionNames : List String :=
  ["full_expand", "no_conj", "feasible_edges", "use_underapprox", "report",
    "stratified_inlining"]

/-- The text of a Boolean option value. -/
def boolText (b : Bool) : String :=
  if b then "1" else "0"

/-- The test that `ExtractCandidateFromCex` makes on an instance for the child position
`j`: it is in the inductive subset, and the checker's child node is empty or the marker
of the instance is true in the model. -/
def CandidateInstOK {T : Type} (d : Duality T) (c : Covering) (be : Backend T)
    (q : Checker T) (j : Nat) (inst : Nat) : Bool :=
  (Contains d c inst == some true)
    && (be.Empty q j || be.Eval q j (d.unwinding.number inst))

/-- The choice that the claim describes for each child position of an input edge: the
first instance, in forward order, of `insts_of_node` of the child that passes
`CandidateInstOK`. -/
def CandidatePicks {T : Type} (d : Duality T) (c : Covering) (be : Backend T)
    (q : Checker T) (j : Nat) (children : List Nat) : List (Option Nat) :=
  (children.enumFrom j).map fun p => (d.insts_of_node p.2).find? (CandidateInstOK d c be q p.1)

/-- A checker for the examples of `ExtractCandidateFromCex`; the example backends do
not look at it. -/
def exChecker : Checker (Finset (Fin 3)) :=
  { Bound := fun _ => ∅, Children := [fun _ => Finset.univ], F := 2 }

/-! ## The replay heuristic -/

/-- The position of the first occurrence of `@@` in a name (`name.find("@@")`), `none`
when there is none. -/
def findAtAt : List Char → Option Nat
  | [] => none
  | [_] => none
  | a :: b :: rest =>
    if a = '@' ∧ b = '@' then some 0 else (findAtAt (b :: rest)).map (· + 1)

/-- The method `ReplayHeuristic::BaseName(name)`. -/
def BaseName (name : List Char) : List Char :=
  match findAtAt name with
  | some pos => if pos ≥ 1 then name.take pos else name
  | none => name

/-- The test `cex_map.find(node) != cex_map.end()`. -/
def cexMapHas (m : List (Nat × Option Nat)) (node : Nat) : Bool :=
  m.any fun p => p.1 == node

/-- The read `cex_map[node]`, the null pointer when there is no entry. -/
def cexMapGet (m : List (Nat × Option Nat)) (node : Nat) : Option Nat :=
  match m.find? (fun p => p.1 == node) with
  | some p => p.2
  | none => none

/-- The assignment `cex_map[node] = v`. -/
def cexMapSet (m : List (Nat × Option Nat)) (node : Nat) (v : Option Nat) :
    List (Nat × Option Nat) :=
  if cexMapHas m node then m.map (fun p => if p.1 = node then (node, v) else p)
  else m ++ [(node, v)]

/-- The loop of `ReplayHeuristic::ChooseExpand` that matches the children `chs` of a
node with the children `old_chs` of its partner in the old counterexample, by base
name and in order; `j` is the position reached in `old_chs`. -/
def ReplayMatchChildren {T : Type} (tree old : RPFP T) (old_chs : List Nat) :
    List Nat → Nat → List (Nat × Option Nat) → List (Nat × Option Nat)
  | [], _, m => m
  | ch :: chs, j, m =>
    match old_chs.get? j with
    | some oc =>
      if BaseName (tree.Name ch) = BaseName (old.Name oc) then
        ReplayMatchChildren tree old old_chs chs (j + 1) (cexMapSet m ch (some oc))
      else ReplayMatchChildren tree old old_chs chs j (cexMapSet m ch none)
    | none => ReplayMatchChildren tree old old_chs chs j (cexMapSet m ch none)

/-- The part of the loop body of `ReplayHeuristic::ChooseExpand` before the label
`matching_done`, for the choice `node`. -/
def ReplayMatchNode {T : Type} (tree old : RPFP T) (old_root : Nat)
    (m : List (Nat × Option Nat)) (node : Nat) :
    Option (Except String (List (Nat × Option Nat))) :=
  let m1 := if m.isEmpty then cexMapSet m node (some old_root) else m
  if cexMapHas m1 node then some (.ok m1)
  else
    match tree.Incoming node with
    | [] => none
    | e :: _ =>
      let parent := e.Parent
      if !cexMapHas m1 parent then
        some (.error "catastrophe in ReplayHeuristic::ChooseExpand")
      else
        match tree.Outgoing parent with
        | none => none
        | some pe =>
          let unmatch := pe.Children.foldl (fun acc ch => cexMapSet acc ch none) m1
          match cexMapGet m1 parent with
          | none => some (.ok unmatch)
          | some old_parent =>
            match old.Outgoing old_parent with
            | none => some (.ok unmatch)
            | some oe => some (.ok (ReplayMatchChildren tree old oe.Children pe.Children 0 m1))

/-- The loop of `ReplayHeuristic::ChooseExpand` over `choices`: the sets `matched` and
`unmatched` and the map `cex_map`.  `old_empty` is the answer of
`old_cex.tree->Empty`. -/
def ReplayMatchLoop {T : Type} (tree old : RPFP T) (old_root : Nat) (old_empty : Nat → Bool) :
    List Nat → List Nat × List Nat × List (Nat × Option Nat) →
      Option (Except String (List Nat × List Nat × List (Nat × Option Nat)))
  | [], st => some (.ok st)
  | node :: choices, (matched, unmatched, m) =>
    match ReplayMatchNode tree old old_root m node with
    | none => none
    | some (.error e) => some (.error e)
    | some (.ok m1) =>
      let m2 := if cexMapHas m1 node then m1 else cexMapSet m1 node none
      match cexMapGet m2 node with
      | none => ReplayMatchLoop tree old old_root old_empty choices
          (matched, unmatched ++ [node], m2)
      | some old_node =>
        if old_empty old_node then
          ReplayMatchLoop tree old old_root old_empty choices (matched, unmatched ++ [node], m2)
        else
          ReplayMatchLoop tree old old_root old_empty choices (matched ++ [node], unmatched, m2)

/-- The method `ReplayHeuristic::ChooseExpand(choices, best, high_priority,
best_only)`; `old_tree` is `old_cex.tree` (`none` for the null pointer) with the root
`old_root`.  The result is `best` and `cex_map` at return. -/
def ReplayChooseExpand {T : Type} (tree : RPFP T) (old_tree : Option (RPFP T))
    (old_root : Nat) (old_empty : Nat → Bool) (h : Heuristic)
    (cex_map : List (Nat × Option Nat)) (choices best : List Nat)
    (high_priority _best_only : Bool) :
    Option (Except String (List Nat × List (Nat × Option Nat))) :=
  match old_tree with
  | none => some (.ok (ChooseExpand tree h choices best false false, cex_map))
  | some old =>
    if !high_priority then some (.ok (ChooseExpand tree h choices best false false, cex_map))
    else
      match ReplayMatchLoop tree old old_root old_empty choices ([], [], cex_map) with
      | none => none
      | some (.error e) => some (.error e)
      | some (.ok (matched, unmatched, m)) =>
        if matched.isEmpty && !high_priority then
          some (.ok (ChooseExpand tree h unmatched best false false, m))
        else some (.ok (ChooseExpand tree h matched best false false, m))

/-- Example derivation tree for the replay heuristic: the root 0 with the only child 1,
named `P` and `Q`. -/
def exReplayTree : RPFP Bool :=
  { nodes := [0, 1], number := fun n => (n : Int) + 1, map := fun n => n,
    Annotation := fun _ => true, Bound := fun _ => true, Underapprox := fun _ => false,
    Outgoing := fun n =>
      if n = 0 then some { map := some 1, Parent := 0, Children := [1] } else none,
    Incoming := fun n =>
      if n = 1 then [{ map := some 1, Parent := 0, Children := [1] }] else [],
    Name := fun n => if n = 0 then ['P'] else ['Q'] }

/-- Example old counterexample: as `exReplayTree`, with the child named `R`. -/
def exReplayOld : RPFP Bool :=
  { exReplayTree with Name := fun n => if n = 0 then ['P'] else ['R'] }

/-- Example derivation tree with two leaves: the root 0 named `P` with the children 1
and 2, named `Q` and `S`. -/
def exReplayTree2 : RPFP Bool :=
  { nodes := [0, 1, 2], number := fun n => (n : Int) + 1, map := fun n => n,
    Annotation := fun _ => true, Bound := fun _ => true, Underapprox := fun _ => false,
    Outgoing := fun n =>
      if n = 0 then some { map := some 1, Parent := 0, Children := [1, 2] } else none,
    Incoming := fun n =>
      if n = 1 ∨ n = 2 then [{ map := some 1, Parent := 0, Children := [1, 2] }] else [],
    Name := fun n => if n = 0 then ['P'] else if n = 1 then ['Q'] else ['S'] }

/-- Example old counterexample: as `exReplayTree2`, with the second child named `R`. -/
def exReplayOld2 : RPFP Bool :=
  { exReplayTree2 with Name := fun n => if n = 0 then ['P'] else if n = 1 then ['Q'] else ['R'] }

/-! ## Expansion choices of the derivation tree -/

/-- The elements `l[a..b)` of a vector. -/
def slice (l : List Nat) (a b : Nat) : List Nat :=
  (l.drop a).take (b - a)

/-- The method `DerivationTree::ExpansionChoicesRec(unused_set, used_set, choices,
from, to)`: the vectors `unused_set` and `choices` at return.  `check` is the answer of
`tree->Check(top, unused_set)` and `top_outgoing` tells whether `top->Outgoing` is not
null; the fuel bounds the depth of the recursion. -/
def ExpansionChoicesRec (check : List Nat → check_result) (top_outgoing : Bool)
    (used_set : List Nat) :
    Nat → List Nat → List Nat → Nat → Nat → Option (List Nat × List Nat)
  | 0, _, _, _, _ => none
  | fuel + 1, unused_set, choices, from_, to_ =>
    if from_ = to_ then some (unused_set, choices)
    else if to_ < from_ ∨ used_set.length < to_ then none
    else
      let unused1 := unused_set ++ slice used_set from_ to_
      if !top_outgoing || check unused1 == check_result.unsat then
        if to_ - from_ = 1 then
          some (unused_set, setInsert choices (used_set.getD from_ 0))
        else
          let mid := from_ + (to_ - from_) / 2
          match ExpansionChoicesRec check top_outgoing used_set fuel unused_set choices
              from_ mid with
          | none => none
          | some (unused2, choices2) =>
            ExpansionChoicesRec check top_outgoing used_set fuel unused2 choices2 mid to_
      else some (unused1, choices)

/-- Example check for the bisection: unsat exactly when the leaf 6 is among the
underapproximated leaves. -/
def exCheckLeaves (unused_set : List Nat) : check_result :=
  if 6 ∈ unused_set then check_result.unsat else check_result.sat

/-! ## Scope levels of the backend solver

The functions below follow `SatisfyUpperBound` and the methods it reaches as far as the
scope level of the backend solver is concerned: `Push` raises the level by one,
`Pop(1)` lowers it by one, every other call on the backend leaves it unchanged and is
left out, and tests on data are answered by the oracle.  An access outside a vector
(`stack.back()` on an empty stack, `stack[i]` with `i` out of range) has no defined
behaviour in C++; the model ends the run there with an error that begins with
`undefined:`. -/

namespace Flow

namespace Level

/-- The call `slvr.get_scope_level()`. -/
def getLevel : M Nat :=
  fun s => some (.ok (s.level, s))

/-- The calls `tree->Push()`, `checker->Push()` and `slvr.push()`. -/
def Push : M Unit :=
  fun s => some (.ok ((), { s with level := s.level + 1 }))

/-- The calls `tree->Pop(1)` and `slvr.pop(1)`. -/
def Pop : M Unit :=
  fun s =>
    if s.level = 0 then some (.error "undefined: pop of an empty solver stack")
    else some (.ok ((), { s with level := s.level - 1 }))

/-- The method `Duality::ExpandNode(node)` (with `NEW_EXPAND`): for each edge that has
the node as a child, `slvr.push()`, the check, and `slvr.pop(1)`;
`ExtractCandidateFromCex` may throw in between. -/
def ExpandNode (o : Nat → Nat) : M Unit :=
  bindM (choose o) fun nedges =>
  repeatM nedges
    (bindM Push fun _ =>
     bindM (chooseBool o) fun thrown =>
     if thrown then throwM "No candidate from induction failure" else Pop)

/-- The method `ExpandNodeFromCoverFail(node)` (with `UNDERAPPROX_NODES`). -/
def ExpandNodeFromCoverFail (o : Nat → Nat) : M Bool :=
  bindM (chooseBool o) fun has_children =>
  if !has_children then pureM false
  else
    bindM (chooseBool o) fun other =>
    if !other then pureM false
    else bindM (ExpandNode o) fun _ => pureM true

/-- The method `ProveConjecture(node, t)`, over the call `sat` of
`SatisfyUpperBound`. -/
def ProveConjectureWith (opt : Options) (o : Nat → Nat) (sat : M Bool) : M Bool :=
  bindM sat fun ok =>
  if ok then pureM true
  else
    bindM (if opt.UseUnderapprox then
        bindM (chooseBool o) fun many_decisions =>
        if many_decisions then bindM (ExpandNodeFromCoverFail o) fun _ => pureM ()
        else pureM ()
      else pureM ()) fun _ =>
    pureM false

/-- The method `TryExpandNode(node)`; `Close`, `Contains` and `Add` do not use the
solver stack. -/
def TryExpandNodeWith (opt : Options) (o : Nat → Nat) (sat : M Bool) : M Unit :=
  bindM (chooseBool o) fun closed =>
  if closed then pureM ()
  else
    bindM (if !opt.NoConj then
        bindM (chooseBool o) fun some_other =>
        if some_other then ProveConjectureWith opt o sat else pureM false
      else pureM false) fun conjectured =>
    if conjectured then pureM ()
    else
      bindM (chooseBool o) fun contains =>
      if !contains then pureM ()
      else ExpandNode o

/-- The method `GetNodeOutgoing(node, last_decs)`: for a node still in `overapproxes`,
one `MakeLeaf`, hence one `TryExpandNode`, per child that gets a fresh stratified
leaf. -/
def GetNodeOutgoingWith (opt : Options) (o : Nat → Nat) (sat : M Bool) : M Unit :=
  bindM (chooseBool o) fun overapprox =>
  if !overapprox then pureM ()
  else
    bindM (chooseBool o) fun covered_leaf =>
    if covered_leaf then pureM ()
    else
      bindM (choose o) fun fresh_leaves =>
      repeatM fresh_leaves (TryExpandNodeWith opt o sat)

/-- The method `ExpandSomeNodes(high_priority, max)` as `DerivationTreeSlow::Build`
calls it: `ExpansionChoices` may throw; at most `max` of the chosen leaves are expanded,
each through `DerivationTreeSlow::ExpandNode`, which begins with
`stack.back().expansions.push_back(p)`; the result is `!choices.empty()`.  The argument
`frames` is the number of frames of `stack`. -/
def ExpandSomeNodesWith (opt : Options) (o : Nat → Nat) (sat : M Bool) (max frames : Nat) :
    M Bool :=
  bindM (chooseBool o) fun thrown =>
  if thrown then throwM "error in ExpansionChoices"
  else
    bindM (choose o) fun choices =>
    bindM (repeatM (min choices max)
      (if frames = 0 then throwM "undefined: stack.back() on an empty stack"
       else GetNodeOutgoingWith opt o sat)) fun _ =>
    pureM (choices != 0)

/-- The inner loop `while(1)` of `DerivationTreeSlow::Build` on the unsat path: each
round reads `LevelUsedInProof(stack.size()-2)`, pops the solver and the stack, and
stops when the level below was used in the proof or one frame is left.  The stack is
the list of the recorded levels, the last frame first. -/
def BuildBacktrack (o : Nat → Nat) : List Nat → M (List Nat)
  | [] => throwM "undefined: stack.back() on an empty stack"
  | [_] => throwM "undefined: stack[stack.size()-2] on a stack of one frame"
  | _ :: next :: rest =>
    bindM (chooseBool o) fun prev_level_used =>
    bindM Pop fun _ =>
    if prev_level_used || rest.isEmpty then pureM (next :: rest)
    else BuildBacktrack o (next :: rest)

/-- The loop `while(stack.size() > 1){ tree->Pop(1); stack.pop_back(); }` of
`DerivationTreeSlow::Build`. -/
def BuildPopAll : List Nat → M (List Nat)
  | [] => pureM []
  | [l] => pureM [l]
  | _ :: next :: rest => bindM Pop fun _ => BuildPopAll (next :: rest)

/-- The loop `while (true)` of `DerivationTreeSlow::Build`, for at most `iters`
rounds. -/
def BuildLoop (opt : Options) (o : Nat → Nat) (sat : M Bool) : Nat → List Nat → M Bool
  | 0, _ => outOfFuel
  | iters + 1, stack =>
    match stack with
    | [] => throwM "undefined: stack.back() on an empty stack"
    | top :: rest =>
      bindM getLevel fun slvr_level =>
      if slvr_level ≠ top then throwM "stacks out of sync!"
      else
        bindM (chooseBool o) fun unsat =>
        if unsat then
          bindM (BuildBacktrack o (top :: rest)) fun stack2 =>
          if stack2.length = 1 then pureM false
          else BuildLoop opt o sat iters stack2
        else
          bindM Push fun _ =>
          bindM getLevel fun level =>
          bindM (ExpandSomeNodesWith opt o sat 1 (rest.length + 2)) fun expanded =>
          if expanded then BuildLoop opt o sat iters (level :: top :: rest)
          else bindM (BuildPopAll (level :: top :: rest)) fun _ => pureM true

/-- The method `DerivationTreeSlow::Build()`: the constructor has pushed one frame, and
`Build` begins by recording the scope level in it. -/
def Build (opt : Options) (o : Nat → Nat) (sat : M Bool) (iters : Nat) : M Bool :=
  bindM getLevel fun level => BuildLoop opt o sat iters [level]

/-- The method `DerivationTree::Derive(...)` of a `DerivationTreeSlow`. -/
def DeriveWith (opt : Options) (o : Nat → Nat) (sat : M Bool) (iters : Nat) : M Bool :=
  bindM Push fun _ =>
  bindM (Build opt o sat iters) fun res =>
  bindM Pop fun _ =>
  pureM res

/-- The method `SatisfyUpperBound(node)`; the fuel bounds the depth of the nested
calls that reach it again through `GetNodeOutgoing`. -/
def SatisfyUpperBound (opt : Options) (o : Nat → Nat) (iters : Nat) : Nat → M Bool
  | 0 => outOfFuel
  | fuel + 1 =>
    bindM (chooseBool o) fun full =>
    if full then pureM true
    else
      bindM (DeriveWith opt o (SatisfyUpperBound opt o iters fuel) iters) fun res =>
      pureM (!res)

/-- Every normal return of `m` from a state that satisfies `P` satisfies `Q`, and `m`
does not end with the error `bad`. -/
def Safe {α : Type} (bad : String) (m : M α) (P : SolverState → Prop)
    (Q : α → SolverState → Prop) : Prop :=
  ∀ s, P s →
    match m s with
    | none => True
    | some (.error e) => e ≠ bad
    | some (.ok (a, s1)) => Q a s1

/-- The oracle of a run of `SatisfyUpperBound` that proves the bound: the first check
is sat (position 1), one leaf is expanded (3), the second check is unsat (5), and the
level below was used in the proof (6). -/
def exOracleProved (n : Nat) : Nat :=
  if n = 3 ∨ n = 5 ∨ n = 6 then 1 else 0

/-- The oracle of a run of `SatisfyUpperBound` that finds a counterexample: both
checks are sat, one leaf is expanded after the first (3), none after the second. -/
def exOracleCex (n : Nat) : Nat :=
  if n = 3 then 1 else 0

/-- The oracle of a run of `SatisfyUpperBound` in which the very first check is
unsat (position 1). -/
def exOracleFirstUnsat (n : Nat) : Nat :=
  if n = 1 then 1 else 0

end Level

end Flow

namespace Flow

namespace Level

/-- The scope level of the backend solver is `l`. -/
def AtLevel (l : Nat) (s : SolverState) : Prop :=
  s.level = l

/-- The recorded levels of the frames of `stack`, the last frame first, rise by one
from the level `l0` of the first frame. -/
def StackOK (l0 : Nat) : List Nat → Prop
  | [] => False
  | [l] => l = l0
  | l :: next :: rest => l = next + 1 ∧ StackOK l0 (next :: rest)

/-- The message of the exception that `DerivationTreeSlow::Build` throws when the
recorded level of the top frame differs from the scope level of the solver. -/
def outOfSync : String := "stacks out of sync!"

end Level

end Flow

/-! ## Temporary bounds -/

/-- The loop over the children of `ExpandUnderapproxNodes`, over the recursive call
`call`. -/
def ExpandUnderapproxNodesLoop {T : Type}
    (call : Duality T → RPFP T → Nat → Option (Except String (Duality T × RPFP T))) :
    List Nat → Duality T → RPFP T → Option (Except String (Duality T × RPFP T))
  | [], d, tree => some (.ok (d, tree))
  | ch :: chs, d, tree =>
    match call d tree ch with
    | none => none
    | some (.error e) => some (.error e)
    | some (.ok (d1, tree1)) => ExpandUnderapproxNodesLoop call chs d1 tree1

/-- The method `ExpandUnderapproxNodes(tree, root)` as far as the unwinding is
concerned.  `cnst` is the complement of the constraint that
`tree->EvalNodeAsConstraint(root, cnst)` computes, and `derive` is the call
`dt.Derive(unwinding, orig, UseUnderapprox, true, tree)`, which returns its result,
`dt.top` and the tree as it leaves it; both are answers of the backend.  The local
`save` is assigned and not read again. -/
def ExpandUnderapproxNodes {T : Type} (cnst : Nat → T)
    (derive : RPFP T → Nat → Bool × Nat × RPFP T) :
    Nat → Duality T → RPFP T → Nat → Option (Except String (Duality T × RPFP T))
  | 0, _, _, _ => none
  | fuel + 1, d, tree, root =>
    let node := tree.map root
    match d.underapprox_map node with
    | some orig =>
      let d1 : Duality T :=
        { d with
          unwinding :=
            { d.unwinding with Bound := Function.update d.unwinding.Bound orig (cnst root) } }
      let r := derive tree orig
      if !r.1 then some (.error "bogus underapprox!")
      else ExpandUnderapproxNodes cnst derive fuel d1 r.2.2 r.2.1
    | none =>
      match tree.Outgoing root with
      | none => some (.ok (d, tree))
      | some e =>
        ExpandUnderapproxNodesLoop (fun d2 tree2 ch =>
          ExpandUnderapproxNodes cnst derive fuel d2 tree2 ch) e.Children d tree

/-- The method `ProveConjecture(node, t)` as far as the bounds of the unwinding are
concerned; `sat` is the call `SatisfyUpperBound(node)` together with the call of
`ExpandNodeFromCoverFail` that may follow its failure. -/
def ProveConjecture {T : Type} [BooleanAlgebra T] (sat : Duality T → Bool × Duality T)
    (d : Duality T) (node : Nat) (t : T) : Bool × Duality T :=
  let save := d.unwinding.Bound node
  let d1 : Duality T :=
    { d with
      unwinding :=
        { d.unwinding with
          Bound := Function.update d.unwinding.Bound node (d.unwinding.Bound node ⊓ t) } }
  let r := sat d1
  if r.1 then (true, r.2)
  else
    (false,
      { r.2 with
        unwinding :=
          { r.2.unwinding with Bound := Function.update r.2.unwinding.Bound node save } })

/-- Example counterexample tree for `exCover`: the single node 0, a copy of the
underapproximation node 4. -/
def exCexTree : RPFP Bool :=
  { nodes := [0, 1], number := fun n => (n : Int) + 1, map := fun n => if n = 0 then 4 else 3,
    Annotation := fun _ => true, Bound := fun _ => true, Underapprox := fun _ => false,
    Outgoing := fun _ => some { map := none, Parent := 0, Children := [] },
    Incoming := fun _ => [] }

/-! ## The topological sort of the input nodes -/

/-- The test `TopoSort.find(node) != TopoSort.end()` on the entries of the map. -/
def hasKey (m : List (Nat × Int)) (node : Nat) : Bool :=
  decide (node ∈ m.map Prod.fst)

/-- The loop over the children of `DoTopoSortRec`, and the loop over the nodes of
`DoTopoSort`, over the recursive call `call`.  The state is the map `TopoSort` and
`TopoSortCounter`. -/
def DoTopoSortLoop (call : List (Nat × Int) × Int → Nat → Option (List (Nat × Int) × Int)) :
    List Nat → List (Nat × Int) × Int → Option (List (Nat × Int) × Int)
  | [], st => some st
  | ch :: chs, st =>
    match call st ch with
    | none => none
    | some st1 => DoTopoSortLoop call chs st1

/-- The method `DoTopoSortRec(node)` on the input RPFP `g`. -/
def DoTopoSortRec {T : Type} (g : RPFP T) :
    Nat → List (Nat × Int) × Int → Nat → Option (List (Nat × Int) × Int)
  | 0, _, _ => none
  | fuel + 1, st, node =>
    if hasKey st.1 node then some st
    else
      let st1 := (counterSet st.1 node st.2, st.2 + 1)
      let r :=
        match g.Outgoing node with
        | none => some st1
        | some edge => DoTopoSortLoop (DoTopoSortRec g fuel) edge.Children st1
      match r with
      | none => none
      | some st2 => some (counterSet st2.1 node st2.2, st2.2 + 1)

/-- The method `DoTopoSort()` on the input RPFP `g`; the fuel is one more than the
number of nodes. -/
def DoTopoSort {T : Type} (g : RPFP T) : Option (List (Nat × Int) × Int) :=
  DoTopoSortLoop (DoTopoSortRec g (g.nodes.length + 1)) g.nodes ([], 0)

/-- The invariant of the topological sort, for the nodes `S` whose calls are in
progress: the ranks are below the counter and pairwise different, and, when the graph
has the height function assumed in `A`, every node that is done has its children done,
with smaller ranks. -/
structure TopoInv {T : Type} (g : RPFP T) (A : Prop) (ts : List (Nat × Int)) (ctr : Int)
    (S : List Nat) : Prop where
  keys_nodes : ∀ k ∈ ts.map Prod.fst, k ∈ g.nodes
  lt : ∀ k ∈ ts.map Prod.fst, counterGet ts k < ctr
  inj : ∀ k1 ∈ ts.map Prod.fst, ∀ k2 ∈ ts.map Prod.fst,
    counterGet ts k1 = counterGet ts k2 → k1 = k2
  done : A → ∀ x ∈ ts.map Prod.fst, x ∉ S → ∀ e, g.Outgoing x = some e → ∀ y ∈ e.Children,
    y ∈ ts.map Prod.fst ∧ y ∉ S ∧ counterGet ts y < counterGet ts x

/-- The contract of a call of `DoTopoSortRec(node)`. -/
def TopoPost {T : Type} (g : RPFP T) (A : Prop) (S : List Nat) (st : List (Nat × Int) × Int)
    (node : Nat) (r : List (Nat × Int) × Int) : Prop :=
  TopoInv g A r.1 r.2 S ∧ (∀ k ∈ st.1.map Prod.fst, k ∈ r.1.map Prod.fst)
    ∧ node ∈ r.1.map Prod.fst
    ∧ ∀ k ∈ st.1.map Prod.fst, counterGet r.1 k = counterGet st.1 k

/-- The number of nodes of `g` without an entry in the map. -/
def unranked {T : Type} (g : RPFP T) (ts : List (Nat × Int)) : Nat :=
  (g.nodes.filter (fun x => decide (x ∉ ts.map Prod.fst))).length

/-- The children of the `Outgoing` edge of every node of `g` are nodes of `g`. -/
def GraphClosed {T : Type} (g : RPFP T) : Prop :=
  ∀ x ∈ g.nodes, ∀ e, g.Outgoing x = some e → ∀ y ∈ e.Children, y ∈ g.nodes

/-- Executable form of `GraphClosed`. -/
def GraphClosedB {T : Type} (g : RPFP T) : Bool :=
  g.nodes.all fun x =>
    match g.Outgoing x with
    | none => true
    | some e => e.Children.all fun y => decide (y ∈ g.nodes)

/-- The function `h` is a height function of the graph of the `Outgoing` edges of `g`:
every child is lower than its parent.  A graph has one exactly when it has no
cycle. -/
def GraphHeight {T : Type} (g : RPFP T) (h : Nat → Nat) : Prop :=
  ∀ x ∈ g.nodes, ∀ e, g.Outgoing x = some e → ∀ y ∈ e.Children, h y < h x

/-- Example input graph with a cycle: node 0 has the child 1, node 1 the children 2 and
0, node 2 none. -/
def exInputCyclic : RPFP Bool :=
  { nodes := [0, 1, 2], number := fun n => (n : Int) + 1, map := fun n => n,
    Annotation := fun _ => true, Bound := fun _ => true, Underapprox := fun _ => false,
    Outgoing := fun n =>
      if n = 0 then some { map := none, Parent := 0, Children := [1] }
      else if n = 1 then some { map := none, Parent := 1, Children := [2, 0] }
      else none,
    Incoming := fun _ => [] }

/-- Example input graph without a cycle: node 0 has the children 1 and 2, node 1 the
child 2, node 2 none. -/
def exInputAcyclic : RPFP Bool :=
  { nodes := [0, 1, 2], number := fun n => (n : Int) + 1, map := fun n => n,
    Annotation := fun _ => true, Bound := fun _ => true, Underapprox := fun _ => false,
    Outgoing := fun n =>
      if n = 0 then some { map := none, Parent := 0, Children := [1, 2] }
      else if n = 1 then some { map := none, Parent := 1, Children := [2] }
      else none,
    Incoming := fun _ => [] }

/-! ## The order in which the unwinding is built -/

/-- The unwinding is built from the leaves up, as `Extend` and `GetNodeOutgoing` build
it: `rank` grows from every node to the parents of its incoming edges, among the
instances of one input node a higher rank goes with a higher `number`, and the parent of
an edge is not an underapproximation node (`CreateUnderapproxNode` gives those a
lower-bound edge, which has no children).  For the instances that `Extend` makes the
rank is the `number`, which grows with every new instance. -/
structure BuiltBottomUp {T : Type} (d : Duality T) (rank : Nat → Int) : Prop where
  parent_higher : ∀ x ∈ d.unwinding.nodes, ∀ p, ParentOf d x p → rank x < rank p
  same_node : ∀ x ∈ d.unwinding.nodes, ∀ p ∈ d.unwinding.nodes,
    d.unwinding.map p = d.unwinding.map x → rank x < rank p →
      d.unwinding.number x < d.unwinding.number p
  underapprox_leaf : ∀ x ∈ d.unwinding.nodes, ∀ p, ParentOf d x p →
    d.underapprox_map p = none

/-- Executable form of `BuiltBottomUp`. -/
def BuiltBottomUpB {T : Type} (d : Duality T) (rank : Nat → Int) : Bool :=
  (d.unwinding.nodes.all fun x => (d.unwinding.Incoming x).all fun e =>
      decide (rank x < rank e.Parent) && (d.underapprox_map e.Parent).isNone)
    && d.unwinding.nodes.all fun x => d.unwinding.nodes.all fun p =>
      !(decide (d.unwinding.map p = d.unwinding.map x) && decide (rank x < rank p))
        || decide (d.unwinding.number x < d.unwinding.number p)

/-! ## The states in which dominance is recorded -/

/-- The first two statements of `ExpandNode(node)`: `unexpanded.erase(node)` and
`insts_of_node[node->map].push_back(node)`. -/
def ExpandNodeInsts {T : Type} (d : Duality T) (node : Nat) : Duality T :=
  { d with
    unexpanded := d.unexpanded.erase node,
    insts_of_node := Function.update d.insts_of_node (d.unwinding.map node)
      (d.insts_of_node (d.unwinding.map node) ++ [node]) }

/-- The call `unwinding->CreateLowerBoundEdge(node)` with the assignment `e->map = 0`
that follows it in `MakeLeaf`, `MakeOverapprox` and `CreateUnderapproxNode`.
`RPFP::CreateLowerBoundEdge` is not part of this file: it gives the node an `Outgoing`
edge without children. -/
def CreateLowerBoundEdge {T : Type} (d : Duality T) (node : Nat) : Duality T :=
  { d with
    unwinding :=
      { d.unwinding with
        Outgoing := Function.update d.unwinding.Outgoing node
          (some { map := none, Parent := node, Children := [] }) } }

/-- The states of the unwinding and of the `dominates` sets that the solver reaches
when stratified inlining is off.  A new instance is allocated by `CreateNodeInstance`
and gets its `Outgoing` edge at once, over instances that exist, from
`CreateEdgeInstance` (in `Extend`) or from `CreateLowerBoundEdge` (in `MakeLeaf` and
`CreateUnderapproxNode`), and keeps it; `Add(node)` is called on an instance that is not
expanded (in `TryExpandNode` before `ExpandNode`, and in `InstantiateAllEdges` on the
members of `unexpanded`); `ExpandNode` appends the instance to `insts_of_node`.  The
last rule stands for everything else the solver does: it leaves the nodes, their
`Outgoing` edges and input nodes, the members of `insts_of_node` and the `dominates`
sets as they are. -/
inductive DomReachable {T : Type} [BooleanAlgebra T] : Duality T → Covering → Prop
  | init (d : Duality T) :
      d.unwinding.nodes = [] → (∀ m, d.insts_of_node m = []) → DomReachable d Covering.new
  | extend (d : Duality T) (c : Covering) (edge : InputEdge) (children : List Nat)
      (inst : Nat) (number : Int) (bound : T) :
      DomReachable d c → inst ∉ d.unwinding.nodes →
      (∀ ch ∈ children, ch ∈ d.unwinding.nodes) →
      DomReachable
        (CreateEdgeInstance (CreateNodeInstance d edge.Parent inst number bound) edge inst
          children) c
  | leaf (d : Duality T) (c : Covering) (node inst : Nat) (number : Int) (bound : T) :
      DomReachable d c → inst ∉ d.unwinding.nodes →
      DomReachable (CreateLowerBoundEdge (CreateNodeInstance d node inst number bound) inst) c
  | add (d : Duality T) (c c2 : Covering) (node : Nat) :
      DomReachable d c → node ∈ d.unwinding.nodes →
      node ∉ d.insts_of_node (d.unwinding.map node) →
      Covering.Add d c node = some c2 → DomReachable d c2
  | expand (d : Duality T) (c : Covering) (node : Nat) :
      DomReachable d c → node ∈ d.unwinding.nodes → DomReachable (ExpandNodeInsts d node) c
  | frame (d d2 : Duality T) (c c2 : Covering) :
      DomReachable d c → d2.unwinding.nodes = d.unwinding.nodes →
      d2.unwinding.Outgoing = d.unwinding.Outgoing → d2.unwinding.map = d.unwinding.map →
      (∀ m x, x ∈ d2.insts_of_node m ↔ x ∈ d.insts_of_node m) →
      (∀ x, (c2.cm x).dominates = (c.cm x).dominates) → DomReachable d2 c2

/-- The invariant of the `dominates` sets in the states of `DomReachable`: every
allocated node has an `Outgoing` edge over allocated nodes other than itself, the
members of `insts_of_node` are allocated instances of the right input node, a recorded
pair joins an allocated instance with an expanded instance of its input node, a recorded
pair is one that `Dominates` accepts, and the recorded pairs are closed under
composition between different end points. -/
structure DomInv {T : Type} (d : Duality T) (c : Covering) : Prop where
  out : ∀ x ∈ d.unwinding.nodes, ∃ e, d.unwinding.Outgoing x = some e
    ∧ ∀ y ∈ e.Children, y ∈ d.unwinding.nodes ∧ y ≠ x
  insts : ∀ m, ∀ x ∈ d.insts_of_node m, x ∈ d.unwinding.nodes ∧ d.unwinding.map x = m
  stored_alloc : ∀ x y, c.dominates x y = true → x ∈ d.unwinding.nodes
  stored_insts : ∀ x y, c.dominates x y = true → y ∈ d.insts_of_node (d.unwinding.map x)
  sound : ∀ x y, c.dominates x y = true → Dominates d c x y = some true
  closed : ∀ x y z, c.dominates x y = true → c.dominates y z = true → x ≠ z →
    c.dominates x z = true

/-- The two assignments `cm[node].dominates.insert(other)` and
`cm[other].dominated = true` of the loop of `Add(node)`. -/
def AddInsert (c : Covering) (node other : Nat) : Covering :=
  let c1 : Covering :=
    { c with
      cm := Function.update c.cm node
        { c.cm node with
          dominates := if other ∈ (c.cm node).dominates then (c.cm node).dominates
            else (c.cm node).dominates ++ [other] } }
  { c1 with cm := Function.update c1.cm other { c1.cm other with dominated := true } }

/-- The solver state before the first instance is made. -/
def exDomRun0 : Duality Bool :=
  { unwinding :=
      { nodes := [], number := fun _ => 0, map := fun _ => 0,
        Annotation := fun _ => true, Bound := fun _ => true, Underapprox := fun _ => false,
        Outgoing := fun _ => none, Incoming := fun _ => [] },
    insts_of_node := fun _ => [],
    all_of_node := fun _ => [],
    underapprox_map := fun _ => none }

/-- The input edge 5 of input node 0, without children. -/
def exDomEdge5 : InputEdge := { F := 5, Parent := 0, Children := [] }

/-- The input edge 6 of input node 1, with the child 0. -/
def exDomEdge6 : InputEdge := { F := 6, Parent := 1, Children := [0] }

/-- A run with stratified inlining off: instance 0 is made from the input edge 5 and
expanded (`Add(0)` finds no expanded instance). -/
def exDomRun1 : Duality Bool :=
  ExpandNodeInsts (CreateEdgeInstance (CreateNodeInstance exDomRun0 0 0 1 true) exDomEdge5 0 []) 0

/-- The run goes on: instance 1 is made from the input edge 5. -/
def exDomRun2 : Duality Bool :=
  CreateEdgeInstance (CreateNodeInstance exDomRun1 0 1 2 true) exDomEdge5 1 []

/-- The `dominates` sets after `Add(1)`: instance 1 dominates instance 0. -/
def exDomRun_c1 : Covering :=
  (Covering.Add exDomRun2 Covering.new 1).getD Covering.new

/-- The run goes on: instance 1 is expanded, instance 2 is made from the input edge 6
over the child 0 and expanded (`Add(2)` finds no expanded instance of input node 1), and
instance 3 is made from the input edge 6 over the child 1. -/
def exDomRun3 : Duality Bool :=
  CreateEdgeInstance
    (CreateNodeInstance
      (ExpandNodeInsts
        (CreateEdgeInstance (CreateNodeInstance (ExpandNodeInsts exDomRun2 1) 1 2 3 true)
          exDomEdge6 2 [0]) 2)
      1 3 4 true)
    exDomEdge6 3 [1]

/-- The `dominates` sets after `Add(3)`: instance 3 dominates instance 2, by the pair
recorded for their children. -/
def exDomRun_c2 : Covering :=
  (Covering.Add exDomRun3 exDomRun_c1 3).getD exDomRun_c1

/-- The run goes on: instance 3 is expanded and instance 4 is made from the input edge 6
over the child 0. -/
def exDomRun4 : Duality Bool :=
  CreateEdgeInstance (CreateNodeInstance (ExpandNodeInsts exDomRun3 3) 1 4 5 true) exDomEdge6 4 [0]

/-- The `dominates` sets after `Add(4)`: instance 4 dominates instance 2. -/
def exDomRun_c3 : Covering :=
  (Covering.Add exDomRun4 exDomRun_c2 4).getD exDomRun_c2

/-- The end of the run: instance 4 is expanded. -/
def exDomRun : Duality Bool :=
  ExpandNodeInsts exDomRun4 4

/-- A state of a run with stratified inlining, inside the call `GetNodeOutgoing` on the
leaf 1 of input node 0, at the call `Add` on the stratified leaf 2 that `MakeLeaf` has
just made.  The input nodes are 1 and 0, in this order; input node 1 has the input edge
3 with the child 0, and input node 0 has the input edges 2, without children, and 1,
its `Outgoing` edge, with the child 0.  `CreateLeaves` made the leaves 0 (of input node 1)
and 1 (of input node 0) with lower-bound edges; `GetNodeOutgoing` on the leaf 0 gave
it the edge 3 over the leaf 1, which it appended to `insts_of_node`, the rank of input
node 0 in `TopoSort` being the smaller one; the leaf 1 still has its lower-bound
edge. -/
def exStratifiedBefore : Duality Bool :=
  { unwinding :=
      { nodes := [0, 1, 2], number := fun n => if n = 2 then -1 else (n : Int) + 1,
        map := fun n => if n = 0 then 1 else 0,
        Annotation := fun _ => true, Bound := fun _ => true, Underapprox := fun _ => false,
        Outgoing := fun n =>
          if n = 0 then some { map := some 3, Parent := 0, Children := [1] }
          else some { map := none, Parent := n, Children := [] },
        Incoming := fun n =>
          if n = 1 then [{ map := some 3, Parent := 0, Children := [1] }] else [] },
    insts_of_node := fun m => if m = 0 then [1] else [],
    all_of_node := fun m => if m = 0 then [1, 2] else if m = 1 then [0] else [],
    underapprox_map := fun _ => none,
    StratifiedInlining := true }

/-- A later state of the run of `exStratifiedBefore`: `GetNodeOutgoing` has given the
leaf 1 the edge 1 over the stratified leaf 2, and the main loop has made instance 3 from
the input edge 2, instance 4 from the input edge 1 over the child 1, and instance 5 from
the input edge 1 over the child 3, all instances of input node 0. -/
def exStratified : Duality Bool :=
  { unwinding :=
      { nodes := [0, 1, 2, 3, 4, 5], number := fun n => if n = 2 then -1 else (n : Int) + 1,
        map := fun n => if n = 0 then 1 else 0,
        Annotation := fun _ => true, Bound := fun _ => true, Underapprox := fun _ => false,
        Outgoing := fun n =>
          if n = 0 then some { map := some 3, Parent := 0, Children := [1] }
          else if n = 1 then some { map := some 1, Parent := 1, Children := [2] }
          else if n = 2 then some { map := none, Parent := 2, Children := [] }
          else if n = 3 then some { map := some 2, Parent := 3, Children := [] }
          else if n = 4 then some { map := some 1, Parent := 4, Children := [1] }
          else some { map := some 1, Parent := 5, Children := [3] },
        Incoming := fun n =>
          if n = 1 then [{ map := some 3, Parent := 0, Children := [1] },
            { map := some 1, Parent := 4, Children := [1] }]
          else if n = 2 then [{ map := some 1, Parent := 1, Children := [2] }]
          else if n = 3 then [{ map := some 1, Parent := 5, Children := [3] }] else [] },
    insts_of_node := fun m => if m = 0 then [1, 2, 3, 4] else [],
    all_of_node := fun m => if m = 0 then [1, 2, 3, 4, 5] else if m = 1 then [0] else [],
    underapprox_map := fun _ => none,
    StratifiedInlining := true }

/-- The `dominates` sets of the run of `exStratified`: `Add(2)` ran in the state
`exStratifiedBefore`, where the leaf 1 had its lower-bound edge, and recorded that 2
dominates 1; `Add(3)` ran with the instances 1 and 2 expanded, after the leaf 1 had got
the edge 1. -/
def exStratified_c : Covering :=
  let c1 := (Covering.Add exStratifiedBefore Covering.new 2).getD Covering.new
  (AddLoop exStratified 3 [1, 2] c1).getD c1

/-- The input graph of the run of `exStratified`: the input nodes 1 and 0, in this
order; the `Outgoing` edge of input node 1 has the child 0, and that of input node 0
has the child 0. -/
def exStratifiedInput : RPFP Bool :=
  { nodes := [1, 0], number := fun n => (n : Int) + 1, map := fun n => n,
    Annotation := fun _ => true, Bound := fun _ => true, Underapprox := fun _ => false,
    Outgoing := fun n =>
      if n = 1 then some { map := none, Parent := 1, Children := [0] }
      else some { map := none, Parent := 0, Children := [0] },
    Incoming := fun _ => [] }

/-! ## Theorems -/

/-- A node that is covered in the sense of `CoverOrder` is not an
underapproximation node. -/
theorem CoverOrder_covered_not_underapprox {T : Type} (d : Duality T) (a b : Nat)
    (h : CoverOrder d a b = true) : d.underapprox_map b = none := by
  unfold CoverOrder at h
  cases hb : d.underapprox_map b with
  | none => rfl
  | some v => simp [hb] at h

/-- When the covering node is not an underapproximation node, `CoverOrder` is the
order of the numbers. -/
theorem CoverOrder_number_lt {T : Type} (d : Duality T) (a b : Nat)
    (ha : d.underapprox_map a = none) (h : CoverOrder d a b = true) :
    d.unwinding.number a < d.unwinding.number b := by
  unfold CoverOrder at h
  cases hb : d.underapprox_map b with
  | none => simpa [hb, ha] using h
  | some v => simp [hb] at h

/-- Along a `CoverOrder` chain that starts at a node which is not an
underapproximation node, the numbers increase strictly. -/
theorem CoverOrder_chain_number_lt {T : Type} (d : Duality T) :
    ∀ (ns : List Nat) (a : Nat), d.underapprox_map a = none →
      List.Chain (fun x y => CoverOrder d x y = true) a ns →
      ∀ x ∈ ns, d.unwinding.number a < d.unwinding.number x := by
  intro ns
  induction ns with
  | nil => intro a _ _ x hx; simp at hx
  | cons b rest ih =>
    intro a ha hch x hx
    rw [List.chain_cons] at hch
    have hab := CoverOrder_number_lt d a b ha hch.1
    have hb := CoverOrder_covered_not_underapprox d a b hch.1
    rcases List.mem_cons.1 hx with rfl | hx
    · exact hab
    · exact lt_trans hab (ih b hb hch.2 x hx)

/-- C6: `CoverOrder` has no cycles.  For every state of `underapprox_map` and every
chain `n0, n1, ..., nk` (`k >= 1`) with `CoverOrder(n_i, n_{i+1})`, the last node
differs from `n0`; in particular `CoverOrder(n, n)` never holds and
`CoverOrder(a, b)`, `CoverOrder(b, a)` never hold together. -/
theorem C6_CoverOrder_acyclic {T : Type} (d : Duality T) (n0 : Nat) (ns : List Nat)
    (hne : ns ≠ [])
    (hch : List.Chain (fun x y => CoverOrder d x y = true) n0 ns) :
    ns.getLast hne ≠ n0
      ∧ (∀ n, CoverOrder d n n = false)
      ∧ (∀ a b, CoverOrder d a b = true → CoverOrder d b a = false) := by
  have key : ∀ (m0 : Nat) (ms : List Nat) (hms : ms ≠ []),
      List.Chain (fun x y => CoverOrder d x y = true) m0 ms → ms.getLast hms ≠ m0 := by
    intro m0 ms hms hc heq
    have hmem : m0 ∈ ms := by
      have := List.getLast_mem hms
      rwa [heq] at this
    have hcov : ∀ (l : List Nat) (a : Nat),
        List.Chain (fun x y => CoverOrder d x y = true) a l →
        ∀ x ∈ l, d.underapprox_map x = none := by
      intro l
      induction l with
      | nil => intro a _ x hx; simp at hx
      | cons b rest ih =>
        intro a hc x hx
        rw [List.chain_cons] at hc
        rcases List.mem_cons.1 hx with rfl | hx
        · exact CoverOrder_covered_not_underapprox d a _ hc.1
        · exact ih b hc.2 x hx
    have h0 := hcov ms m0 hc m0 hmem
    exact lt_irrefl _ (CoverOrder_chain_number_lt d ms m0 h0 hc m0 hmem)
  refine ⟨key n0 ns hne hch, ?_, ?_⟩
  · intro n
    by_contra h
    have h1 : CoverOrder d n n = true := by simpa using h
    exact key n [n] (by simp) (by simp [h1]) (by simp)
  · intro a b hab
    by_contra h
    have h1 : CoverOrder d b a = true := by simpa using h
    exact key a [b, a] (by simp) (by simp [hab, h1]) (by simp)

/-- Witness for C6 on the chain 0, 1, 2 of `exCoverOrder`. -/
theorem C6_CoverOrder_acyclic_witness :
    List.Chain (fun x y => CoverOrder exCoverOrder x y = true) 0 [1, 2]
      ∧ ([1, 2] : List Nat).getLast (by simp) ≠ 0 :=
  ⟨List.Chain.cons (by decide) (List.Chain.cons (by decide) List.Chain.nil),
    (C6_CoverOrder_acyclic exCoverOrder 0 [1, 2] (by simp)
      (List.Chain.cons (by decide) (List.Chain.cons (by decide) List.Chain.nil))).1⟩

/-! ### The memoised descent `IsCoveredRec` -/

theorem unvisited_mono {T : Type} (d : Duality T) {m1 m2 : List Nat} (h : m1 ⊆ m2) :
    unvisited d m2 ≤ unvisited d m1 := by
  unfold unvisited
  apply List.Sublist.length_le
  apply List.monotone_filter_right
  intro x hx
  simp only [decide_eq_true_eq] at hx ⊢
  exact fun hm => hx (h hm)

theorem filter_not_mem_cons_lt (node : Nat) (memo : List Nat) (hn : node ∉ memo) :
    ∀ l : List Nat, node ∈ l →
      (l.filter (fun x => decide (x ∉ node :: memo))).length
        < (l.filter (fun x => decide (x ∉ memo))).length := by
  intro l
  induction l with
  | nil => intro h; simp at h
  | cons a l ih =>
    intro h
    by_cases ha : a = node
    · subst ha
      have h1 : (List.filter (fun x => decide (x ∉ a :: memo)) l).length
          ≤ (List.filter (fun x => decide (x ∉ memo)) l).length := by
        apply List.Sublist.length_le
        apply List.monotone_filter_right
        intro x hx
        simp only [decide_eq_true_eq, List.mem_cons, not_or] at hx ⊢
        exact hx.2
      rw [List.filter_cons_of_neg (by simp), List.filter_cons_of_pos (by simpa using hn)]
      rw [List.length_cons]
      omega
    · have hmem : node ∈ l := by
        rcases List.mem_cons.1 h with h | h
        · exact absurd h.symm ha
        · exact h
      have := ih hmem
      by_cases hm : a ∈ memo
      · rw [List.filter_cons_of_neg (by simp [hm]), List.filter_cons_of_neg (by simp [hm])]
        exact this
      · rw [List.filter_cons_of_pos (by simp [hm, ha]), List.filter_cons_of_pos (by simp [hm])]
        rw [List.length_cons, List.length_cons]
        omega

theorem unvisited_cons_lt {T : Type} (d : Duality T) (node : Nat) (memo : List Nat)
    (hn : node ∉ memo) (hmem : node ∈ d.unwinding.nodes) :
    unvisited d (node :: memo) < unvisited d memo :=
  filter_not_mem_cons_lt node memo hn _ hmem

theorem IsCoveredLoop_spec {T : Type} (d : Duality T) (c : Covering) (f : Nat)
    (call : List Nat → Nat → Option (Bool × List Nat))
    (hcall : ∀ memo node, node ∈ d.unwinding.nodes → unvisited d memo < f →
        (∀ x, Reach d node x → (d.unwinding.Outgoing x).isSome) →
        ∃ r, call memo node = some r ∧ IsCoveredPost d c memo node r) :
    ∀ (chs memo : List Nat),
      (∀ ch ∈ chs, ch ∈ d.unwinding.nodes
        ∧ ∀ x, Reach d ch x → (d.unwinding.Outgoing x).isSome) →
      unvisited d memo < f →
      ∃ r, IsCoveredLoop call chs memo = some r ∧ memo ⊆ r.2
        ∧ (r.1 = true → ∃ ch ∈ chs, ∃ x, Reach d ch x ∧ (c.covered_by x).isSome)
        ∧ (r.1 = false → (∀ ch ∈ chs, ch ∈ r.2)
            ∧ ∀ x ∈ r.2, x ∉ memo →
                c.covered_by x = none ∧ ∀ y, Child d x y → y ∈ r.2) := by
  intro chs
  induction chs with
  | nil =>
    intro memo _ _
    refine ⟨(false, memo), rfl, fun _ h => h, by simp, ?_⟩
    intro _
    exact ⟨by simp, fun x hx hxn => absurd hx hxn⟩
  | cons ch chs ih =>
    intro memo hchs hfuel
    obtain ⟨hch, hreach⟩ := hchs ch (List.mem_cons_self _ _)
    obtain ⟨⟨b, memo2⟩, hr, hsub, htrue, hfalse⟩ := hcall memo ch hch hfuel hreach
    dsimp only at hsub htrue hfalse
    cases b with
    | true =>
      refine ⟨(true, memo2), by simp [IsCoveredLoop, hr], hsub, ?_, by simp⟩
      intro _
      obtain ⟨x, hx⟩ := htrue rfl
      exact ⟨ch, List.mem_cons_self _ _, x, hx⟩
    | false =>
      have hfuel2 : unvisited d memo2 < f := lt_of_le_of_lt (unvisited_mono d hsub) hfuel
      obtain ⟨r, hr2, hsub2, htrue2, hfalse2⟩ :=
        ih memo2 (fun x hx => hchs x (List.mem_cons_of_mem _ hx)) hfuel2
      refine ⟨r, by simp [IsCoveredLoop, hr, hr2], fun x hx => hsub2 (hsub hx), ?_, ?_⟩
      · intro hb
        obtain ⟨ch2, hmem, x, hx⟩ := htrue2 hb
        exact ⟨ch2, List.mem_cons_of_mem _ hmem, x, hx⟩
      · intro hb
        obtain ⟨hall, hnew⟩ := hfalse2 hb
        obtain ⟨hchmem, hnew1⟩ := hfalse rfl
        refine ⟨?_, ?_⟩
        · intro x hx
          rcases List.mem_cons.1 hx with rfl | hx
          · exact hsub2 hchmem
          · exact hall x hx
        · intro x hx hxm
          by_cases hx2 : x ∈ memo2
          · obtain ⟨h1, h2⟩ := hnew1 x hx2 hxm
            exact ⟨h1, fun y hy => hsub2 (h2 y hy)⟩
          · exact hnew x hx hx2

theorem IsCoveredRec_spec {T : Type} (d : Duality T) (c : Covering) (hcl : ChildrenClosed d) :
    ∀ (fuel : Nat) (memo : List Nat) (node : Nat), node ∈ d.unwinding.nodes →
      unvisited d memo < fuel →
      (∀ x, Reach d node x → (d.unwinding.Outgoing x).isSome) →
      ∃ r, IsCoveredRec d c fuel memo node = some r ∧ IsCoveredPost d c memo node r := by
  intro fuel
  induction fuel with
  | zero => intro memo node _ h; omega
  | succ f ih =>
    intro memo node hnode hfuel hout
    by_cases hm : node ∈ memo
    · refine ⟨(false, memo), by simp [IsCoveredRec, hm], fun _ h => h, by simp, ?_⟩
      intro _
      exact ⟨hm, fun x hx hxn => absurd hx hxn⟩
    · by_cases hc : (c.covered_by node).isSome
      · refine ⟨(true, node :: memo), by simp [IsCoveredRec, hm, hc],
          fun x hx => List.mem_cons_of_mem _ hx, ?_, by simp⟩
        intro _
        exact ⟨node, Relation.ReflTransGen.refl, hc⟩
      · have hnodeOut := hout node Relation.ReflTransGen.refl
        obtain ⟨e, he⟩ := Option.isSome_iff_exists.1 hnodeOut
        have hfuel1 : unvisited d (node :: memo) < f := by
          have := unvisited_cons_lt d node memo hm hnode
          omega
        have hchs : ∀ ch ∈ e.Children, ch ∈ d.unwinding.nodes
            ∧ ∀ x, Reach d ch x → (d.unwinding.Outgoing x).isSome := by
          intro ch hch
          have hchild : Child d node ch := ⟨e, he, hch⟩
          exact ⟨hcl node hnode ch hchild,
            fun x hx => hout x (Relation.ReflTransGen.head hchild hx)⟩
        obtain ⟨r, hr, hsub, htrue, hfalse⟩ :=
          IsCoveredLoop_spec d c f (IsCoveredRec d c f) ih e.Children (node :: memo) hchs hfuel1
        refine ⟨r, by simp [IsCoveredRec, hm, hc, he, hr],
          fun x hx => hsub (List.mem_cons_of_mem _ hx), ?_, ?_⟩
        · intro hb
          obtain ⟨ch, hch, x, hx, hcov⟩ := htrue hb
          exact ⟨x, Relation.ReflTransGen.head ⟨e, he, hch⟩ hx, hcov⟩
        · intro hb
          obtain ⟨hall, hnew⟩ := hfalse hb
          refine ⟨hsub (List.mem_cons_self _ _), ?_⟩
          intro x hx hxm
          by_cases hxn : x = node
          · subst hxn
            refine ⟨by simpa using hc, ?_⟩
            rintro y ⟨e2, he2, hy⟩
            rw [he] at he2
            cases he2
            exact hall y hy
          · exact hnew x hx (by simp [hxn, hxm])

/-- The descent `IsCovered(node)` returns, and it returns true exactly when a node
reachable from `node` through `Outgoing` children has a cover recorded. -/
theorem IsCovered_spec {T : Type} (d : Duality T) (c : Covering) (hcl : ChildrenClosed d)
    (node : Nat) (hnode : node ∈ d.unwinding.nodes)
    (hout : ∀ x, Reach d node x → (d.unwinding.Outgoing x).isSome) :
    ∃ b, IsCovered d c node = some b
      ∧ (b = true ↔ ∃ x, Reach d node x ∧ (c.covered_by x).isSome) := by
  have hfuel : unvisited d [] < d.unwinding.nodes.length + 1 := by
    unfold unvisited
    have := List.length_filter_le (fun x => decide (x ∉ ([] : List Nat))) d.unwinding.nodes
    omega
  obtain ⟨⟨b, memo⟩, hr, _, htrue, hfalse⟩ :=
    IsCoveredRec_spec d c hcl _ [] node hnode hfuel hout
  dsimp only at htrue hfalse
  refine ⟨b, by simp [IsCovered, hr], htrue, ?_⟩
  rintro ⟨x, hx, hcov⟩
  by_contra hb
  have hb2 : b = false := by simpa using hb
  obtain ⟨hmem, hnew⟩ := hfalse hb2
  have hall : ∀ y, Reach d node y → y ∈ memo := by
    intro y hy
    induction hy with
    | refl => exact hmem
    | tail _ hstep ih => exact (hnew _ ih (by simp)).2 _ hstep
  have := (hnew x (hall x hx) (by simp)).1
  simp [this] at hcov

theorem ChildrenClosed_of_B {T : Type} (d : Duality T) (h : ChildrenClosedB d = true) :
    ChildrenClosed d := by
  intro x hx y hy
  obtain ⟨e, he, hy⟩ := hy
  unfold ChildrenClosedB at h
  rw [List.all_eq_true] at h
  have := h x hx
  rw [he] at this
  simp only [List.all_eq_true, decide_eq_true_eq] at this
  exact this y hy

theorem ParentsClosed_of_B {T : Type} (d : Duality T) (h : ParentsClosedB d = true) :
    ParentsClosed d := by
  intro x hx p hp
  obtain ⟨e, he, rfl⟩ := hp
  unfold ParentsClosedB at h
  simp only [List.all_eq_true, decide_eq_true_eq] at h
  exact h x hx e he

theorem Reach_mem_nodes {T : Type} (d : Duality T) (hcl : ChildrenClosed d) (node : Nat)
    (hnode : node ∈ d.unwinding.nodes) : ∀ x, Reach d node x → x ∈ d.unwinding.nodes := by
  intro x hx
  induction hx with
  | refl => exact hnode
  | tail _ hstep ih => exact hcl _ ih _ hstep

theorem Ascendant_mem_nodes {T : Type} (d : Duality T) (hcl : ParentsClosed d) (node : Nat)
    (hnode : node ∈ d.unwinding.nodes) : ∀ x, Ascendant d node x → x ∈ d.unwinding.nodes := by
  intro x hx
  induction hx with
  | refl => exact hnode
  | tail _ hstep ih => exact hcl _ ih _ hstep

theorem Reach_outgoing_of_B {T : Type} (d : Duality T) (hcl : ChildrenClosed d)
    (hall : AllOutgoingB d = true) (node : Nat) (hnode : node ∈ d.unwinding.nodes) :
    ∀ x, Reach d node x → (d.unwinding.Outgoing x).isSome := by
  intro x hx
  unfold AllOutgoingB at hall
  rw [List.all_eq_true] at hall
  exact hall x (Reach_mem_nodes d hcl node hnode x hx)

/-- C4: `CheckCover(covered, covering)` is true iff `CoverOrder(covering, covered)`
holds, `covered.Annotation` is a subset of `covering.Annotation`, and no node
reachable from `covering` through `Outgoing` children (itself included) has a cover
recorded.  The memoised descent `IsCovered` returns (the fuel, the number of nodes plus
one, is never used up) and computes this reachability test, on every unwinding in which
each node reachable from `covering` has an `Outgoing` edge; nodes may be shared and
the graph may have cycles. -/
theorem C4_CheckCover_iff {T : Type} [BooleanAlgebra T]
    [DecidableRel ((· ≤ ·) : T → T → Prop)] (d : Duality T) (c : Covering)
    (covered covering : Nat) (hcl : ChildrenClosed d)
    (hnode : covering ∈ d.unwinding.nodes)
    (hout : ∀ x, Reach d covering x → (d.unwinding.Outgoing x).isSome) :
    (∃ b, IsCovered d c covering = some b
        ∧ (b = true ↔ ∃ x, Reach d covering x ∧ (c.covered_by x).isSome))
      ∧ ∃ r, CheckCover d c covered covering = some r
        ∧ (r = true ↔
            CoverOrder d covering covered = true
              ∧ d.unwinding.Annotation covered ≤ d.unwinding.Annotation covering
              ∧ ∀ x, Reach d covering x → c.covered_by x = none) := by
  obtain ⟨b, hb, hiff⟩ := IsCovered_spec d c hcl covering hnode hout
  refine ⟨⟨b, hb, hiff⟩, ?_⟩
  have hnone : b = false ↔ ∀ x, Reach d covering x → c.covered_by x = none := by
    constructor
    · intro hbf x hx
      by_contra hne
      have : b = true := hiff.2 ⟨x, hx, by
        cases hcx : c.covered_by x with
        | none => exact absurd hcx hne
        | some v => rfl⟩
      rw [hbf] at this
      cases this
    · intro hall
      by_contra hbt
      have hbt2 : b = true := by simpa using hbt
      obtain ⟨x, hx, hcov⟩ := hiff.1 hbt2
      rw [hall x hx] at hcov
      cases hcov
  unfold CheckCover
  by_cases hcond : (CoverOrder d covering covered
      && SubsetEq (d.unwinding.Annotation covered) (d.unwinding.Annotation covering)) = true
  · rw [if_pos hcond, hb]
    refine ⟨!b, rfl, ?_⟩
    rw [Bool.and_eq_true] at hcond
    have hsub : d.unwinding.Annotation covered ≤ d.unwinding.Annotation covering := by
      simpa [SubsetEq] using hcond.2
    constructor
    · intro h
      exact ⟨hcond.1, hsub, hnone.1 (by simpa using h)⟩
    · intro h
      have := hnone.2 h.2.2
      simp [this]
  · rw [if_neg hcond]
    refine ⟨false, rfl, ?_⟩
    constructor
    · intro h; cases h
    · intro h
      exfalso
      apply hcond
      rw [Bool.and_eq_true]
      exact ⟨h.1, by simpa [SubsetEq] using h.2.1⟩

/-- Witness for C4 on the cyclic unwinding `exCyclic`, with instance 3 as `covered` and
instance 0 (which lies on the cycle `0 -> 2 -> 0` and shares the child 2 with its child
1) as `covering`. -/
theorem C4_CheckCover_iff_witness :
    ChildrenClosed exCyclic ∧ (0 : Nat) ∈ exCyclic.unwinding.nodes
      ∧ CheckCover exCyclic Covering.new 3 0 = some true
      ∧ ∃ r, CheckCover exCyclic Covering.new 3 0 = some r
        ∧ (r = true ↔
            CoverOrder exCyclic 0 3 = true
              ∧ exCyclic.unwinding.Annotation 3 ≤ exCyclic.unwinding.Annotation 0
              ∧ ∀ x, Reach exCyclic 0 x → Covering.new.covered_by x = none) :=
  ⟨ChildrenClosed_of_B exCyclic (by decide), by decide, by decide,
    (C4_CheckCover_iff exCyclic Covering.new 3 0 (ChildrenClosed_of_B exCyclic (by decide))
      (by decide)
      (Reach_outgoing_of_B exCyclic (ChildrenClosed_of_B exCyclic (by decide)) (by decide) 0
        (by decide))).2⟩

/-! ### `RemoveCoveringsBy` and the ascent `RemoveAscendantCoveringsRec` -/

@[simp] theorem covered_by_set_covered_by (c : Covering) (n : Nat) (v : Option Nat) (x : Nat) :
    (c.set_covered_by n v).covered_by x = if x = n then v else c.covered_by x := by
  unfold Covering.set_covered_by Covering.covered_by
  by_cases h : x = n
  · subst h; simp
  · simp [Function.update_noteq h, h]

@[simp] theorem covered_by_push_covers (c : Covering) (a b x : Nat) :
    (c.push_covers a b).covered_by x = c.covered_by x := by
  unfold Covering.push_covers Covering.covered_by
  by_cases h : x = a
  · subst h; simp
  · simp [Function.update_noteq h]

theorem RemoveCoveringsBy_fold_covered_by {T : Type} (d : Duality T) (node : Nat) :
    ∀ (l : List Nat) (c : Covering) (x : Nat),
      (l.foldl (fun c1 other =>
          if (c1.covered_by other).isSome && CoverOrder d node other
          then c1.set_covered_by other none else c1) c).covered_by x
        = if x ∈ l ∧ CoverOrder d node x = true then none else c.covered_by x := by
  intro l
  induction l with
  | nil => intro c x; simp
  | cons o l ih =>
    intro c x
    rw [List.foldl_cons, ih]
    by_cases hx : x ∈ l ∧ CoverOrder d node x = true
    · rw [if_pos hx, if_pos ⟨List.mem_cons_of_mem _ hx.1, hx.2⟩]
    · rw [if_neg hx]
      by_cases hxo : x = o
      · subst hxo
        by_cases hco : CoverOrder d node x = true
        · cases hcx : c.covered_by x with
          | none => simp [hcx, hco]
          | some v => simp [hcx, hco]
        · simp [hco]
      · have : ¬ (x ∈ o :: l ∧ CoverOrder d node x = true) := by
          rintro ⟨h1, h2⟩
          rcases List.mem_cons.1 h1 with h | h
          · exact hxo h
          · exact hx ⟨h, h2⟩
        by_cases hcond : ((c.covered_by o).isSome && CoverOrder d node o) = true
        · rw [if_pos hcond, if_neg this]; simp [hxo]
        · rw [if_neg hcond, if_neg this]

/-- After `RemoveCoveringsBy(node)`, `covered_by(x)` is null for the instances `x` of
`all_of_node[node->map]` that `node` precedes in the cover order, and unchanged for
all others. -/
theorem RemoveCoveringsBy_covered_by {T : Type} (d : Duality T) (c : Covering)
    (node x : Nat) :
    (RemoveCoveringsBy d c node).covered_by x
      = if x ∈ d.all_of_node (d.unwinding.map node) ∧ CoverOrder d node x = true
        then none else c.covered_by x :=
  RemoveCoveringsBy_fold_covered_by d node _ c x

theorem OnlyRemoves_refl (c : Covering) : OnlyRemoves c c := fun _ => Or.inl rfl

theorem OnlyRemoves_trans {c1 c2 c3 : Covering} (h12 : OnlyRemoves c1 c2)
    (h23 : OnlyRemoves c2 c3) : OnlyRemoves c1 c3 := by
  intro x
  rcases h23 x with h | h
  · rw [h]; exact h12 x
  · exact Or.inr h

theorem Cleared_of_OnlyRemoves {T : Type} (d : Duality T) {c c2 : Covering} (p : Nat)
    (h : OnlyRemoves c c2) (hc : Cleared d c p) : Cleared d c2 p := by
  intro x hx hco
  rcases h x with h1 | h1
  · rw [h1]; exact hc x hx hco
  · exact h1

theorem RemoveCoveringsBy_OnlyRemoves {T : Type} (d : Duality T) (c : Covering) (node : Nat) :
    OnlyRemoves c (RemoveCoveringsBy d c node) := by
  intro x
  rw [RemoveCoveringsBy_covered_by]
  by_cases h : x ∈ d.all_of_node (d.unwinding.map node) ∧ CoverOrder d node x = true
  · rw [if_pos h]; exact Or.inr rfl
  · rw [if_neg h]; exact Or.inl rfl

theorem RemoveCoveringsBy_Cleared {T : Type} (d : Duality T) (c : Covering) (node : Nat) :
    Cleared d (RemoveCoveringsBy d c node) node := by
  intro x hx hco
  rw [RemoveCoveringsBy_covered_by, if_pos ⟨hx, hco⟩]

theorem RemoveAscendantLoop_spec {T : Type} (d : Duality T) (f : Nat)
    (call : List Nat → Covering → Nat → Option (Covering × List Nat))
    (hcall : ∀ memo c node, node ∈ d.unwinding.nodes → unvisited d memo < f →
        ∃ r, call memo c node = some r ∧ RemoveAscendantPost d c memo node r) :
    ∀ (es : List Edge) (memo : List Nat) (c : Covering),
      (∀ e ∈ es, e.Parent ∈ d.unwinding.nodes) → unvisited d memo < f →
      ∃ r, RemoveAscendantLoop call es memo c = some r ∧ memo ⊆ r.2
        ∧ (∀ e ∈ es, e.Parent ∈ r.2) ∧ OnlyRemoves c r.1
        ∧ (∀ x, r.1.covered_by x ≠ c.covered_by x →
            ∃ e ∈ es, ∃ p, Ascendant d e.Parent p ∧ x ∈ d.all_of_node (d.unwinding.map p)
              ∧ CoverOrder d p x = true)
        ∧ ∀ p ∈ r.2, p ∉ memo → Cleared d r.1 p ∧ ∀ q, ParentOf d p q → q ∈ r.2 := by
  intro es
  induction es with
  | nil =>
    intro memo c _ _
    exact ⟨(c, memo), rfl, fun _ h => h, by simp, OnlyRemoves_refl c,
      fun x hx => absurd rfl hx, fun p hp hpn => absurd hp hpn⟩
  | cons e es ih =>
    intro memo c hes hfuel
    obtain ⟨⟨c2, memo2⟩, hr, hsub, hmem, hrem, hby, hcomp⟩ :=
      hcall memo c e.Parent (hes e (List.mem_cons_self _ _)) hfuel
    dsimp only at hsub hmem hrem hby hcomp
    have hfuel2 : unvisited d memo2 < f := lt_of_le_of_lt (unvisited_mono d hsub) hfuel
    obtain ⟨⟨c3, memo3⟩, hr3, hsub3, hmem3, hrem3, hby3, hcomp3⟩ :=
      ih memo2 c2 (fun x hx => hes x (List.mem_cons_of_mem _ hx)) hfuel2
    dsimp only at hsub3 hmem3 hrem3 hby3 hcomp3
    refine ⟨(c3, memo3), by simp [RemoveAscendantLoop, hr, hr3],
      fun x hx => hsub3 (hsub hx), ?_, OnlyRemoves_trans hrem hrem3, ?_, ?_⟩
    · intro e2 he2
      rcases List.mem_cons.1 he2 with rfl | he2
      · exact hsub3 hmem
      · exact hmem3 e2 he2
    · intro x hx
      by_cases h2 : c2.covered_by x = c.covered_by x
      · have : c3.covered_by x ≠ c2.covered_by x := by rw [h2]; exact hx
        obtain ⟨e2, he2, p, hp⟩ := hby3 x this
        exact ⟨e2, List.mem_cons_of_mem _ he2, p, hp⟩
      · obtain ⟨p, hp⟩ := hby x h2
        exact ⟨e, List.mem_cons_self _ _, p, hp⟩
    · intro p hp hpn
      by_cases hp2 : p ∈ memo2
      · obtain ⟨h1, h2⟩ := hcomp p hp2 hpn
        exact ⟨Cleared_of_OnlyRemoves d p hrem3 h1, fun q hq => hsub3 (h2 q hq)⟩
      · exact hcomp3 p hp hp2

theorem RemoveAscendantCoveringsRec_spec {T : Type} (d : Duality T) (hcl : ParentsClosed d) :
    ∀ (fuel : Nat) (memo : List Nat) (c : Covering) (node : Nat),
      node ∈ d.unwinding.nodes → unvisited d memo < fuel →
      ∃ r, RemoveAscendantCoveringsRec d fuel memo c node = some r
        ∧ RemoveAscendantPost d c memo node r := by
  intro fuel
  induction fuel with
  | zero => intro memo c node _ h; omega
  | succ f ih =>
    intro memo c node hnode hfuel
    by_cases hm : node ∈ memo
    · exact ⟨(c, memo), by simp [RemoveAscendantCoveringsRec, hm], fun _ h => h, hm,
        OnlyRemoves_refl c, fun x hx => absurd rfl hx, fun p hp hpn => absurd hp hpn⟩
    · have hfuel1 : unvisited d (node :: memo) < f := by
        have := unvisited_cons_lt d node memo hm hnode
        omega
      have hes : ∀ e ∈ d.unwinding.Incoming node, e.Parent ∈ d.unwinding.nodes :=
        fun e he => hcl node hnode e.Parent ⟨e, he, rfl⟩
      obtain ⟨⟨c3, memo3⟩, hr, hsub, hmem, hrem, hby, hcomp⟩ :=
        RemoveAscendantLoop_spec d f (RemoveAscendantCoveringsRec d f) ih
          (d.unwinding.Incoming node) (node :: memo) (RemoveCoveringsBy d c node) hes hfuel1
      dsimp only at hsub hmem hrem hby hcomp
      refine ⟨(c3, memo3), by simp [RemoveAscendantCoveringsRec, hm, hr],
        fun x hx => hsub (List.mem_cons_of_mem _ hx), hsub (List.mem_cons_self _ _),
        OnlyRemoves_trans (RemoveCoveringsBy_OnlyRemoves d c node) hrem, ?_, ?_⟩
      · intro x hx
        by_cases h2 : (RemoveCoveringsBy d c node).covered_by x = c.covered_by x
        · have : c3.covered_by x ≠ (RemoveCoveringsBy d c node).covered_by x := by
            rw [h2]; exact hx
          obtain ⟨e, he, p, hp, hrest⟩ := hby x this
          exact ⟨p, Relation.ReflTransGen.head ⟨e, he, rfl⟩ hp, hrest⟩
        · rw [RemoveCoveringsBy_covered_by] at h2
          by_cases hcond : x ∈ d.all_of_node (d.unwinding.map node)
              ∧ CoverOrder d node x = true
          · exact ⟨node, Relation.ReflTransGen.refl, hcond.1, hcond.2⟩
          · rw [if_neg hcond] at h2
            exact absurd rfl h2
      · intro p hp hpn
        by_cases hpn2 : p = node
        · subst hpn2
          refine ⟨Cleared_of_OnlyRemoves d p hrem (RemoveCoveringsBy_Cleared d c p), ?_⟩
          rintro q ⟨e, he, rfl⟩
          exact hmem e he
        · exact hcomp p hp (by simp [hpn2, hpn])

/-- The ascent `RemoveAscendantCoverings(node)` returns; it only resets `covered_by`
entries, each on account of an ascendant of `node`, and afterwards every ascendant of
`node` is cleared. -/
theorem RemoveAscendantCoverings_spec {T : Type} (d : Duality T) (hcl : ParentsClosed d)
    (c : Covering) (node : Nat) (hnode : node ∈ d.unwinding.nodes) :
    ∃ c2, RemoveAscendantCoverings d c node = some c2 ∧ OnlyRemoves c c2
      ∧ RemovedByAscendant d node c c2 ∧ ∀ p, Ascendant d node p → Cleared d c2 p := by
  have hfuel : unvisited d [] < d.unwinding.nodes.length + 1 := by
    unfold unvisited
    have := List.length_filter_le (fun x => decide (x ∉ ([] : List Nat))) d.unwinding.nodes
    omega
  obtain ⟨⟨c2, memo⟩, hr, _, hmem, hrem, hby, hcomp⟩ :=
    RemoveAscendantCoveringsRec_spec d hcl _ [] c node hnode hfuel
  dsimp only at hmem hrem hby hcomp
  refine ⟨c2, by simp [RemoveAscendantCoverings, hr], hrem, hby, ?_⟩
  have hall : ∀ p, Ascendant d node p → p ∈ memo := by
    intro p hp
    induction hp with
    | refl => exact hmem
    | tail _ hstep ih => exact (hcomp _ ih (by simp)).2 _ hstep
  exact fun p hp => (hcomp p (hall p hp) (by simp)).1

theorem NoPrecedingAscendant_of_B {T : Type} (d : Duality T) (s : List Nat) (covered : Nat)
    (h : NoPrecedingAscendantB d s covered = true) : NoPrecedingAscendant d covered := by
  unfold NoPrecedingAscendantB at h
  simp only [Bool.and_eq_true, decide_eq_true_eq, List.all_eq_true] at h
  obtain ⟨⟨hmem, hclosed⟩, hall⟩ := h
  have hin : ∀ p, Ascendant d covered p → p ∈ s := by
    intro p hp
    induction hp with
    | refl => exact hmem
    | tail _ hstep ih =>
      obtain ⟨e, he, rfl⟩ := hstep
      exact hclosed _ ih e he
  intro p hp hmap
  have := hall p (hin p hp)
  simpa [hmap] using this

theorem IsCovered_false_iff {T : Type} (d : Duality T) (c : Covering) (hcl : ChildrenClosed d)
    (node : Nat) (hnode : node ∈ d.unwinding.nodes)
    (hout : ∀ x, Reach d node x → (d.unwinding.Outgoing x).isSome) :
    ∃ b, IsCovered d c node = some b ∧ (b = false ↔ NotCovered d c node) := by
  obtain ⟨b, hb, hiff⟩ := IsCovered_spec d c hcl node hnode hout
  refine ⟨b, hb, ?_⟩
  constructor
  · intro hbf x hx
    by_contra hne
    have : b = true := hiff.2 ⟨x, hx, by
      cases hcx : c.covered_by x with
      | none => exact absurd hcx hne
      | some v => rfl⟩
    rw [hbf] at this
    cases this
  · intro hall
    by_contra hbt
    have hbt2 : b = true := by simpa using hbt
    obtain ⟨x, hx, hcov⟩ := hiff.1 hbt2
    rw [hall x hx] at hcov
    cases hcov

/-- The first loop of `CoverByAll` returns; it appends to `others` exactly the
instances of the list that precede `covered` in the cover order and are not covered,
and `all` stays the union of the annotations of `others`. -/
theorem CoverByAllLoop_spec {T : Type} [BooleanAlgebra T] (d : Duality T) (c : Covering)
    (covered : Nat) (hcl : ChildrenClosed d) :
    ∀ (insts others : List Nat),
      (∀ i ∈ insts, i ∈ d.unwinding.nodes
        ∧ ∀ x, Reach d i x → (d.unwinding.Outgoing x).isSome) →
      ∃ others2, CoverByAllLoop d c covered insts (others, UnionOfAnnotations d others)
          = some (others2, UnionOfAnnotations d others2)
        ∧ ∀ i, i ∈ others2 ↔
            i ∈ others ∨ (i ∈ insts ∧ CoverOrder d i covered = true ∧ NotCovered d c i) := by
  intro insts
  induction insts with
  | nil => intro others _; exact ⟨others, rfl, by simp⟩
  | cons a insts ih =>
    intro others hin
    have hrest : ∀ i ∈ insts, i ∈ d.unwinding.nodes
        ∧ ∀ x, Reach d i x → (d.unwinding.Outgoing x).isSome :=
      fun i hi => hin i (List.mem_cons_of_mem _ hi)
    by_cases hco : CoverOrder d a covered = true
    · obtain ⟨ha, hout⟩ := hin a (List.mem_cons_self _ _)
      obtain ⟨b, hb, hiff⟩ := IsCovered_false_iff d c hcl a ha hout
      cases b with
      | true =>
        obtain ⟨others2, h2, hmem⟩ := ih others hrest
        refine ⟨others2, by simp [CoverByAllLoop, hco, hb, h2], ?_⟩
        intro i
        rw [hmem i]
        have hna : ¬ NotCovered d c a := fun h => by
          have := hiff.2 h
          cases this
        constructor
        · rintro (h | ⟨h1, h2, h3⟩)
          · exact Or.inl h
          · exact Or.inr ⟨List.mem_cons_of_mem _ h1, h2, h3⟩
        · rintro (h | ⟨h1, h2, h3⟩)
          · exact Or.inl h
          · rcases List.mem_cons.1 h1 with rfl | h1
            · exact absurd h3 hna
            · exact Or.inr ⟨h1, h2, h3⟩
      | false =>
        have hun : UnionOfAnnotations d others ⊔ d.unwinding.Annotation a
            = UnionOfAnnotations d (others ++ [a]) := by
          simp [UnionOfAnnotations, List.foldl_append]
        obtain ⟨others2, h2, hmem⟩ := ih (others ++ [a]) hrest
        refine ⟨others2, by simp [CoverByAllLoop, hco, hb, hun, h2], ?_⟩
        intro i
        rw [hmem i]
        have hna : NotCovered d c a := hiff.1 rfl
        constructor
        · rintro (h | ⟨h1, h2, h3⟩)
          · rcases List.mem_append.1 h with h | h
            · exact Or.inl h
            · have : i = a := by simpa using h
              subst this
              exact Or.inr ⟨List.mem_cons_self _ _, hco, hna⟩
          · exact Or.inr ⟨List.mem_cons_of_mem _ h1, h2, h3⟩
        · rintro (h | ⟨h1, h2, h3⟩)
          · exact Or.inl (List.mem_append_left _ h)
          · rcases List.mem_cons.1 h1 with rfl | h1
            · exact Or.inl (by simp)
            · exact Or.inr ⟨h1, h2, h3⟩
    · obtain ⟨others2, h2, hmem⟩ := ih others hrest
      refine ⟨others2, by simp [CoverByAllLoop, hco, h2], ?_⟩
      intro i
      rw [hmem i]
      constructor
      · rintro (h | ⟨h1, h2, h3⟩)
        · exact Or.inl h
        · exact Or.inr ⟨List.mem_cons_of_mem _ h1, h2, h3⟩
      · rintro (h | ⟨h1, h2, h3⟩)
        · exact Or.inl h
        · rcases List.mem_cons.1 h1 with rfl | h1
          · exact absurd h2 hco
          · exact Or.inr ⟨h1, h2, h3⟩

theorem AllOfNodeSound_of_B {T : Type} (d : Duality T) (ms : List Nat)
    (hempty : ∀ m, m ∉ ms → d.all_of_node m = []) (h : AllOfNodeSoundB d ms = true) :
    AllOfNodeSound d := by
  intro m x hx
  by_cases hm : m ∈ ms
  · unfold AllOfNodeSoundB at h
    simp only [List.all_eq_true, decide_eq_true_eq] at h
    exact h m hm x hx
  · rw [hempty m hm] at hx
    cases hx

/-- The cover of `covered` survives the ascent when no ascendant of `covered` is an
older instance of the same input node. -/
theorem covered_by_survives {T : Type} (d : Duality T) (covered : Nat) (c1 c2 : Covering)
    (hsound : AllOfNodeSound d) (hprov : NoPrecedingAscendant d covered)
    (hby : RemovedByAscendant d covered c1 c2) :
    c2.covered_by covered = c1.covered_by covered := by
  by_contra hne
  obtain ⟨p, hp, hmem, hco⟩ := hby covered hne
  have hmap : d.unwinding.map covered = d.unwinding.map p := hsound _ covered hmem
  have := hprov p hp hmap.symm
  rw [this] at hco
  cases hco

/-- The contract of `CoverByAll(covered)`. -/
theorem CoverByAll_spec {T : Type} [BooleanAlgebra T]
    [DecidableRel ((· ≤ ·) : T → T → Prop)] (d : Duality T) (c : Covering) (covered : Nat)
    (hcl : ChildrenClosed d) (hpcl : ParentsClosed d)
    (hnode : covered ∈ d.unwinding.nodes)
    (hinsts : ∀ i ∈ d.insts_of_node (d.unwinding.map covered), i ∈ d.unwinding.nodes
        ∧ ∀ x, Reach d i x → (d.unwinding.Outgoing x).isSome) :
    ∃ others r,
      (∀ i, i ∈ others ↔ i ∈ d.insts_of_node (d.unwinding.map covered)
          ∧ CoverOrder d i covered = true ∧ NotCovered d c i)
      ∧ CoverByAll d c covered = some r
      ∧ (r.1 = true ↔ others ≠ []
          ∧ d.unwinding.Annotation covered ≤ UnionOfAnnotations d others)
      ∧ (r.1 = false → r.2 = c)
      ∧ (r.1 = true →
          OnlyRemoves (c.set_covered_by covered (some covered)) r.2
            ∧ RemovedByAscendant d covered (c.set_covered_by covered (some covered)) r.2
            ∧ ∀ p, Ascendant d covered p → Cleared d r.2 p) := by
  obtain ⟨others, hloop, hmem⟩ :=
    CoverByAllLoop_spec d c covered hcl (d.insts_of_node (d.unwinding.map covered)) [] hinsts
  have hloop2 : CoverByAllLoop d c covered (d.insts_of_node (d.unwinding.map covered)) ([], ⊥)
      = some (others, UnionOfAnnotations d others) := hloop
  have hmem2 : ∀ i, i ∈ others ↔ i ∈ d.insts_of_node (d.unwinding.map covered)
      ∧ CoverOrder d i covered = true ∧ NotCovered d c i := by
    intro i
    rw [hmem i]
    simp
  by_cases hcond : (!others.isEmpty
      && SubsetEq (d.unwinding.Annotation covered) (UnionOfAnnotations d others)) = true
  · obtain ⟨c2, hc2, hrem, hby, hclr⟩ :=
      RemoveAscendantCoverings_spec d hpcl (c.set_covered_by covered (some covered)) covered
        hnode
    refine ⟨others, (true, c2), hmem2, by simp [CoverByAll, hloop2, hcond, hc2], ?_,
      by simp, fun _ => ⟨hrem, hby, hclr⟩⟩
    simp only [Bool.and_eq_true, Bool.not_eq_true', List.isEmpty_eq_false, SubsetEq,
      decide_eq_true_eq] at hcond
    simpa using hcond
  · refine ⟨others, (false, c), hmem2, by simp [CoverByAll, hloop2, hcond], ?_,
      fun _ => rfl, by simp⟩
    simp only [Bool.and_eq_true, Bool.not_eq_true', List.isEmpty_eq_false, SubsetEq,
      decide_eq_true_eq] at hcond
    simpa using hcond

/-- The contract of `CoverByNode(covered, covering)`. -/
theorem CoverByNode_spec {T : Type} [BooleanAlgebra T]
    [DecidableRel ((· ≤ ·) : T → T → Prop)] (d : Duality T) (c : Covering)
    (covered covering : Nat) (hcl : ChildrenClosed d) (hpcl : ParentsClosed d)
    (hcovered : covered ∈ d.unwinding.nodes) (hcovering : covering ∈ d.unwinding.nodes)
    (hout : ∀ x, Reach d covering x → (d.unwinding.Outgoing x).isSome) :
    ∃ chk r, CheckCover d c covered covering = some chk
      ∧ CoverByNode d c covered covering = some r ∧ r.1 = chk
      ∧ (chk = true ↔ CoverOrder d covering covered = true
          ∧ d.unwinding.Annotation covered ≤ d.unwinding.Annotation covering
          ∧ NotCovered d c covering)
      ∧ (r.1 = false → r.2 = c)
      ∧ (r.1 = true →
          OnlyRemoves (c.set_covered_by covered (some covering)) r.2
            ∧ RemovedByAscendant d covered
                ((c.set_covered_by covered (some covering)).push_covers covering covered) r.2
            ∧ ∀ p, Ascendant d covered p → Cleared d r.2 p) := by
  obtain ⟨b, hb, hiff⟩ := IsCovered_false_iff d c hcl covering hcovering hout
  have hchk : ∃ chk, CheckCover d c covered covering = some chk
      ∧ (chk = true ↔ CoverOrder d covering covered = true
          ∧ d.unwinding.Annotation covered ≤ d.unwinding.Annotation covering
          ∧ NotCovered d c covering) := by
    unfold CheckCover
    by_cases hcond : (CoverOrder d covering covered
        && SubsetEq (d.unwinding.Annotation covered) (d.unwinding.Annotation covering)) = true
    · rw [if_pos hcond, hb]
      refine ⟨!b, rfl, ?_⟩
      rw [Bool.and_eq_true] at hcond
      have hsub : d.unwinding.Annotation covered ≤ d.unwinding.Annotation covering := by
        simpa [SubsetEq] using hcond.2
      constructor
      · intro h
        exact ⟨hcond.1, hsub, hiff.1 (by simpa using h)⟩
      · intro h
        have := hiff.2 h.2.2
        simp [this]
    · rw [if_neg hcond]
      refine ⟨false, rfl, ?_⟩
      constructor
      · intro h; cases h
      · intro h
        exfalso
        apply hcond
        rw [Bool.and_eq_true]
        exact ⟨h.1, by simpa [SubsetEq] using h.2.1⟩
  obtain ⟨chk, hchk1, hchk2⟩ := hchk
  cases chk with
  | true =>
    obtain ⟨c2, hc2, hrem, hby, hclr⟩ :=
      RemoveAscendantCoverings_spec d hpcl
        ((c.set_covered_by covered (some covering)).push_covers covering covered) covered
        hcovered
    refine ⟨true, (true, c2), hchk1, by simp [CoverByNode, hchk1, hc2], rfl, hchk2,
      by simp, fun _ => ⟨?_, hby, hclr⟩⟩
    intro x
    have := hrem x
    simpa using this
  | false =>
    exact ⟨false, (false, c), hchk1, by simp [CoverByNode, hchk1], rfl, hchk2,
      fun _ => rfl, by simp⟩

/-- C10: `CoverByNode(covered, covering)` returns true iff `CheckCover(covered,
covering)` holds; when it returns false the cover relation is unchanged; when it
returns true, `covered` is recorded as covered by `covering` at return, provided no
ascendant of `covered` is an instance of the same input node that precedes `covered`
in the cover order. -/
theorem C10_CoverByNode {T : Type} [BooleanAlgebra T]
    [DecidableRel ((· ≤ ·) : T → T → Prop)] (d : Duality T) (c : Covering)
    (covered covering : Nat) (hcl : ChildrenClosed d) (hpcl : ParentsClosed d)
    (hsound : AllOfNodeSound d)
    (hcovered : covered ∈ d.unwinding.nodes) (hcovering : covering ∈ d.unwinding.nodes)
    (hout : ∀ x, Reach d covering x → (d.unwinding.Outgoing x).isSome) :
    ∃ chk r, CheckCover d c covered covering = some chk
      ∧ CoverByNode d c covered covering = some r
      ∧ (r.1 = true ↔ chk = true)
      ∧ (r.1 = false → r.2 = c)
      ∧ (r.1 = true → NoPrecedingAscendant d covered →
          r.2.covered_by covered = some covering) := by
  obtain ⟨chk, r, h1, h2, h3, _, h5, h6⟩ :=
    CoverByNode_spec d c covered covering hcl hpcl hcovered hcovering hout
  refine ⟨chk, r, h1, h2, by rw [h3], h5, ?_⟩
  intro hr hprov
  obtain ⟨_, hby, _⟩ := h6 hr
  rw [covered_by_survives d covered _ r.2 hsound hprov hby]
  simp

/-- Witness for C10 on `exTree`: instance 1, whose ascendant 2 is an instance of
another input node, is covered by instance 0. -/
theorem C10_CoverByNode_witness :
    ChildrenClosed exTree ∧ ParentsClosed exTree ∧ AllOfNodeSound exTree
      ∧ NoPrecedingAscendant exTree 1
      ∧ (CoverByNode exTree Covering.new 1 0).map (fun r => (r.1, r.2.covered_by 1))
          = some (true, some 0)
      ∧ ∃ chk r, CheckCover exTree Covering.new 1 0 = some chk
        ∧ CoverByNode exTree Covering.new 1 0 = some r
        ∧ (r.1 = true ↔ chk = true)
        ∧ (r.1 = false → r.2 = Covering.new)
        ∧ (r.1 = true → NoPrecedingAscendant exTree 1 → r.2.covered_by 1 = some 0) :=
  ⟨ChildrenClosed_of_B exTree (by decide), ParentsClosed_of_B exTree (by decide),
    AllOfNodeSound_of_B exTree [0, 1]
      (fun m hm => by
        have h0 : m ≠ 0 := fun h => hm (by simp [h])
        have h1 : m ≠ 1 := fun h => hm (by simp [h])
        simp [exTree, h0, h1]) (by decide),
    NoPrecedingAscendant_of_B exTree [1, 2] 1 (by decide),
    by decide,
    C10_CoverByNode exTree Covering.new 1 0 (ChildrenClosed_of_B exTree (by decide))
      (ParentsClosed_of_B exTree (by decide))
      (AllOfNodeSound_of_B exTree [0, 1]
        (fun m hm => by
          have h0 : m ≠ 0 := fun h => hm (by simp [h])
          have h1 : m ≠ 1 := fun h => hm (by simp [h])
          simp [exTree, h0, h1]) (by decide))
      (by decide) (by decide)
      (Reach_outgoing_of_B exTree (ChildrenClosed_of_B exTree (by decide)) (by decide) 0
        (by decide))⟩

/-! ### The order in which the unwinding is built -/

theorem BuiltBottomUp_of_B {T : Type} (d : Duality T) (rank : Nat → Int)
    (h : BuiltBottomUpB d rank = true) : BuiltBottomUp d rank := by
  unfold BuiltBottomUpB at h
  rw [Bool.and_eq_true] at h
  obtain ⟨h1, h2⟩ := h
  refine ⟨?_, ?_, ?_⟩
  · intro x hx p hp
    obtain ⟨e, he, hep⟩ := hp
    have := List.all_eq_true.1 (List.all_eq_true.1 h1 x hx) e he
    rw [Bool.and_eq_true] at this
    rw [← hep]
    simpa using this.1
  · intro x hx p hp hmap hlt
    have := List.all_eq_true.1 (List.all_eq_true.1 h2 x hx) p hp
    simp only [Bool.or_eq_true, Bool.not_eq_true', Bool.and_eq_false_iff,
      decide_eq_false_iff_not, decide_eq_true_eq] at this
    rcases this with (h3 | h3) | h3
    · exact absurd hmap h3
    · exact absurd hlt h3
    · exact h3
  · intro x hx p hp
    obtain ⟨e, he, hep⟩ := hp
    have := List.all_eq_true.1 (List.all_eq_true.1 h1 x hx) e he
    rw [Bool.and_eq_true] at this
    rw [← hep]
    simpa using this.2

theorem CoverOrder_self {T : Type} (d : Duality T) (x : Nat) : CoverOrder d x x = false := by
  unfold CoverOrder
  by_cases h : (d.underapprox_map x).isSome = true
  · simp [h]
  · simp [h]

/-- In an unwinding built from the leaves up no ascendant of a node is an instance of
the same input node that precedes it in the cover order. -/
theorem NoPrecedingAscendant_of_BuiltBottomUp {T : Type} (d : Duality T) (rank : Nat → Int)
    (node : Nat) (hpcl : ParentsClosed d) (hnode : node ∈ d.unwinding.nodes)
    (hb : BuiltBottomUp d rank) : NoPrecedingAscendant d node := by
  have key : ∀ p, Ascendant d node p →
      p ∈ d.unwinding.nodes ∧ (p = node ∨ (rank node < rank p ∧ d.underapprox_map p = none)) := by
    intro p hp
    induction hp with
    | refl => exact ⟨hnode, Or.inl rfl⟩
    | @tail q p2 _ hstep ih =>
      obtain ⟨hq, hcase⟩ := ih
      refine ⟨hpcl q hq p2 hstep, Or.inr ⟨?_, hb.underapprox_leaf q hq p2 hstep⟩⟩
      have hlt := hb.parent_higher q hq p2 hstep
      rcases hcase with e | ⟨h1, _⟩
      · rw [← e]; exact hlt
      · exact lt_trans h1 hlt
  intro p hp hmap
  obtain ⟨hpn, hcase⟩ := key p hp
  rcases hcase with e | ⟨hlt, hu⟩
  · rw [e]; exact CoverOrder_self d node
  · have hnum := hb.same_node node hnode p hpn hmap hlt
    unfold CoverOrder
    by_cases h : (d.underapprox_map node).isSome = true
    · simp [h]
    · have hn : ¬ (d.unwinding.number p < d.unwinding.number node) := by omega
      simp [h, hu, hn]

/-- The allocation `CreateNodeInstance` of a new instance keeps the unwinding built from
the leaves up, when the new `number` and the new rank are above those of the instances
there are. -/
theorem BuiltBottomUp_CreateNodeInstance {T : Type} [BooleanAlgebra T] (d : Duality T)
    (rank : Nat → Int) (node inst : Nat) (number : Int) (bound : T) (R : Int)
    (hb : BuiltBottomUp d rank) (hpcl : ParentsClosed d)
    (hfresh : inst ∉ d.unwinding.nodes)
    (hnum : ∀ x ∈ d.unwinding.nodes, d.unwinding.number x < number)
    (hR : ∀ x ∈ d.unwinding.nodes, rank x < R) :
    BuiltBottomUp (CreateNodeInstance d node inst number bound) (Function.update rank inst R) := by
  have hne : ∀ x ∈ d.unwinding.nodes, x ≠ inst := fun x hx e => hfresh (e ▸ hx)
  have hpar : ∀ x ∈ (CreateNodeInstance d node inst number bound).unwinding.nodes, ∀ p,
      ParentOf (CreateNodeInstance d node inst number bound) x p →
        x ∈ d.unwinding.nodes ∧ ParentOf d x p := by
    intro x hx p hp
    obtain ⟨e, he, hep⟩ := hp
    simp only [CreateNodeInstance, List.mem_append, List.mem_singleton] at hx he
    rcases hx with hx | hx
    · rw [Function.update_noteq (hne x hx)] at he
      exact ⟨hx, e, he, hep⟩
    · rw [hx, Function.update_same] at he
      simp at he
  refine ⟨?_, ?_, ?_⟩
  · intro x hx p hp
    obtain ⟨hx2, hp2⟩ := hpar x hx p hp
    rw [Function.update_noteq (hne x hx2), Function.update_noteq (hne p (hpcl x hx2 p hp2))]
    exact hb.parent_higher x hx2 p hp2
  · intro x hx p hp hmap hlt
    simp only [CreateNodeInstance, List.mem_append, List.mem_singleton] at hx hp hmap ⊢
    rcases hx with hx | hx <;> rcases hp with hp | hp
    · rw [Function.update_noteq (hne x hx), Function.update_noteq (hne p hp)] at hmap hlt
      rw [Function.update_noteq (hne x hx), Function.update_noteq (hne p hp)]
      exact hb.same_node x hx p hp hmap hlt
    · rw [hp, Function.update_same, Function.update_noteq (hne x hx)]
      exact hnum x hx
    · rw [hx, Function.update_same, Function.update_noteq (hne p hp)] at hlt
      have := hR p hp
      omega
    · rw [hx, hp] at hlt
      omega
  · intro x hx p hp
    obtain ⟨hx2, hp2⟩ := hpar x hx p hp
    exact hb.underapprox_leaf x hx2 p hp2

/-- The edge that `CreateEdgeInstance` gives a parent keeps the unwinding built from the
leaves up, when the children rank below the parent and the parent is not an
underapproximation node. -/
theorem BuiltBottomUp_CreateEdgeInstance {T : Type} (d : Duality T) (rank : Nat → Int)
    (edge : InputEdge) (parent : Nat) (children : List Nat)
    (hb : BuiltBottomUp d rank)
    (hrank : ∀ ch ∈ children, rank ch < rank parent)
    (hunder : d.underapprox_map parent = none) :
    BuiltBottomUp (CreateEdgeInstance d edge parent children) rank := by
  have hpar : ∀ x p, ParentOf (CreateEdgeInstance d edge parent children) x p →
      ParentOf d x p ∨ (x ∈ children ∧ p = parent) := by
    intro x p hp
    obtain ⟨e, he, hep⟩ := hp
    simp only [CreateEdgeInstance] at he
    by_cases hx : x ∈ children
    · rw [if_pos hx, List.mem_append, List.mem_singleton] at he
      rcases he with he | he
      · exact Or.inl ⟨e, he, hep⟩
      · rw [he] at hep
        exact Or.inr ⟨hx, hep.symm⟩
    · rw [if_neg hx] at he
      exact Or.inl ⟨e, he, hep⟩
  refine ⟨?_, ?_, ?_⟩
  · intro x hx p hp
    rcases hpar x p hp with h | ⟨h1, h2⟩
    · exact hb.parent_higher x hx p h
    · rw [h2]; exact hrank x h1
  · intro x hx p hp hmap hlt
    exact hb.same_node x hx p hp hmap hlt
  · intro x hx p hp
    rcases hpar x p hp with h | ⟨_, h2⟩
    · exact hb.underapprox_leaf x hx p h
    · rw [h2]; exact hunder

/-- The allocation of a stratified leaf, whose negative `number` is below every
`number` there is, keeps the unwinding built from the leaves up, with a rank below those
of the instances there are. -/
theorem BuiltBottomUp_CreateNodeInstance_below {T : Type} [BooleanAlgebra T] (d : Duality T)
    (rank : Nat → Int) (node inst : Nat) (number : Int) (bound : T) (R : Int)
    (hb : BuiltBottomUp d rank) (hpcl : ParentsClosed d)
    (hfresh : inst ∉ d.unwinding.nodes)
    (hnum : ∀ x ∈ d.unwinding.nodes, number < d.unwinding.number x)
    (hR : ∀ x ∈ d.unwinding.nodes, R < rank x) :
    BuiltBottomUp (CreateNodeInstance d node inst number bound) (Function.update rank inst R) := by
  have hne : ∀ x ∈ d.unwinding.nodes, x ≠ inst := fun x hx e => hfresh (e ▸ hx)
  have hpar : ∀ x ∈ (CreateNodeInstance d node inst number bound).unwinding.nodes, ∀ p,
      ParentOf (CreateNodeInstance d node inst number bound) x p →
        x ∈ d.unwinding.nodes ∧ ParentOf d x p := by
    intro x hx p hp
    obtain ⟨e, he, hep⟩ := hp
    simp only [CreateNodeInstance, List.mem_append, List.mem_singleton] at hx he
    rcases hx with hx | hx
    · rw [Function.update_noteq (hne x hx)] at he
      exact ⟨hx, e, he, hep⟩
    · rw [hx, Function.update_same] at he
      simp at he
  refine ⟨?_, ?_, ?_⟩
  · intro x hx p hp
    obtain ⟨hx2, hp2⟩ := hpar x hx p hp
    rw [Function.update_noteq (hne x hx2), Function.update_noteq (hne p (hpcl x hx2 p hp2))]
    exact hb.parent_higher x hx2 p hp2
  · intro x hx p hp hmap hlt
    simp only [CreateNodeInstance, List.mem_append, List.mem_singleton] at hx hp hmap ⊢
    rcases hx with hx | hx <;> rcases hp with hp | hp
    · rw [Function.update_noteq (hne x hx), Function.update_noteq (hne p hp)] at hmap hlt
      rw [Function.update_noteq (hne x hx), Function.update_noteq (hne p hp)]
      exact hb.same_node x hx p hp hmap hlt
    · rw [hp, Function.update_same, Function.update_noteq (hne x hx)] at hlt
      have := hR x hx
      omega
    · rw [hx, Function.update_same, Function.update_noteq (hne p hp)]
      exact hnum p hp
    · rw [hx, hp] at hlt
      omega
  · intro x hx p hp
    obtain ⟨hx2, hp2⟩ := hpar x hx p hp
    exact hb.underapprox_leaf x hx2 p hp2

/-- A lower-bound edge, which has no children, keeps the unwinding built from the leaves
up. -/
theorem BuiltBottomUp_CreateLowerBoundEdge {T : Type} (d : Duality T) (rank : Nat → Int)
    (node : Nat) (hb : BuiltBottomUp d rank) :
    BuiltBottomUp (CreateLowerBoundEdge d node) rank :=
  ⟨hb.parent_higher, hb.same_node, hb.underapprox_leaf⟩

/-- The assignment `underapprox_map[under_node] = node` of `ExpandNodeFromCoverFail`
keeps the unwinding built from the leaves up: the node that `CreateUnderapproxNode` has
just made is the parent of no edge. -/
theorem BuiltBottomUp_underapprox {T : Type} (d : Duality T) (rank : Nat → Int)
    (under_node node : Nat) (hb : BuiltBottomUp d rank)
    (hleaf : ∀ x ∈ d.unwinding.nodes, ¬ ParentOf d x under_node) :
    BuiltBottomUp
      { d with underapprox_map := Function.update d.underapprox_map under_node (some node) }
      rank := by
  refine ⟨hb.parent_higher, hb.same_node, ?_⟩
  intro x hx p hp
  have hne : p ≠ under_node := fun e => hleaf x hx (e ▸ hp)
  show Function.update d.underapprox_map under_node (some node) p = none
  rw [Function.update_noteq hne]
  exact hb.underapprox_leaf x hx p hp

/-- The instance that `Extend` creates, over children that are allocated, keeps the
unwinding built from the leaves up: its `number` and its rank are above those of every
instance there is. -/
theorem BuiltBottomUp_ExtendInstance {T : Type} [BooleanAlgebra T] (d d2 : Duality T)
    (rank : Nat → Int) (cand : Candidate) (inst : Nat) (number : Int) (bound : T) (R : Int)
    (hb : BuiltBottomUp d rank) (hpcl : ParentsClosed d)
    (hfresh : inst ∉ d.unwinding.nodes)
    (hch : ∀ ch ∈ cand.Children, ch ∈ d.unwinding.nodes)
    (hunder : d.underapprox_map inst = none)
    (hnum : ∀ x ∈ d.unwinding.nodes, d.unwinding.number x < number)
    (hR : ∀ x ∈ d.unwinding.nodes, rank x < R)
    (hext : ExtendInstance d cand inst number bound = some d2) :
    BuiltBottomUp d2 (Function.update rank inst R) := by
  have h1 := BuiltBottomUp_CreateNodeInstance d rank cand.edge.Parent inst number bound R hb
    hpcl hfresh hnum hR
  have h2 := BuiltBottomUp_CreateEdgeInstance
    (CreateNodeInstance d cand.edge.Parent inst number bound) (Function.update rank inst R)
    cand.edge inst cand.Children h1
    (fun ch hc => by
      have hne : ch ≠ inst := fun e => hfresh (e ▸ hch ch hc)
      rw [Function.update_noteq hne, Function.update_same]
      exact hR ch (hch ch hc))
    hunder
  unfold ExtendInstance UpdateBackEdges at hext
  split at hext
  · cases hext
  · cases hext
    exact ⟨h2.parent_higher, h2.same_node, h2.underapprox_leaf⟩

/-- Claim C9: `Close(node)` returns true iff `node` was already recorded as covered or
`CoverByAll(node)` succeeds; `CoverByAll(node)` succeeds iff the list `others` of the
expanded instances of the input node of `node` that precede `node` in the cover order
and are not covered is non-empty and `node.Annotation` is contained in the union of
their annotations; when `Close` returns false the cover relation is unchanged, and when
it returns true `node` is recorded as covered at return.  The unwinding is one built
from the leaves up, as the solver builds it. -/
theorem C9_Close {T : Type} [BooleanAlgebra T]
    [DecidableRel ((· ≤ ·) : T → T → Prop)] (d : Duality T) (c : Covering) (node : Nat)
    (rank : Nat → Int)
    (hcl : ChildrenClosed d) (hpcl : ParentsClosed d) (hsound : AllOfNodeSound d)
    (hnode : node ∈ d.unwinding.nodes)
    (hinsts : ∀ i ∈ d.insts_of_node (d.unwinding.map node), i ∈ d.unwinding.nodes
        ∧ ∀ x, Reach d i x → (d.unwinding.Outgoing x).isSome)
    (hbuilt : BuiltBottomUp d rank) :
    ∃ others rA rC,
      (∀ i, i ∈ others ↔ i ∈ d.insts_of_node (d.unwinding.map node)
          ∧ CoverOrder d i node = true ∧ NotCovered d c i)
      ∧ CoverByAll d c node = some rA ∧ Close d c node = some rC
      ∧ (rC.1 = true ↔ (c.covered_by node).isSome ∨ rA.1 = true)
      ∧ (rA.1 = true ↔ others ≠ []
          ∧ d.unwinding.Annotation node ≤ UnionOfAnnotations d others)
      ∧ (rC.1 = false → rC.2 = c)
      ∧ (rC.1 = true → (rC.2.covered_by node).isSome) := by
  have hprov := NoPrecedingAscendant_of_BuiltBottomUp d rank node hpcl hnode hbuilt
  obtain ⟨others, rA, hmem, hA, hiff, hfalse, htrue⟩ :=
    CoverByAll_spec d c node hcl hpcl hnode hinsts
  by_cases hcov : (c.covered_by node).isSome = true
  · refine ⟨others, rA, (true, c), hmem, hA, by simp [Close, hcov], by simp [hcov], hiff,
      by simp, fun _ => hcov⟩
  · refine ⟨others, rA, rA, hmem, hA, by simp [Close, hcov, hA], by simp [hcov], hiff,
      hfalse, ?_⟩
    intro hr
    obtain ⟨_, hby, _⟩ := htrue hr
    rw [covered_by_survives d node _ rA.2 hsound hprov hby]
    simp

/-- Witness for C9 on `exTree`, which is built from the leaves up with the `number` as
rank: `Close` of instance 1 succeeds through `CoverByAll` with the expanded instance 0,
and instance 1 is recorded as covered. -/
theorem C9_Close_witness :
    ChildrenClosed exTree ∧ ParentsClosed exTree ∧ AllOfNodeSound exTree
      ∧ BuiltBottomUp exTree exTree.unwinding.number
      ∧ (Close exTree Covering.new 1).map (fun r => (r.1, r.2.covered_by 1))
          = some (true, some 1)
      ∧ ∃ others rA rC,
        (∀ i, i ∈ others ↔ i ∈ exTree.insts_of_node (exTree.unwinding.map 1)
            ∧ CoverOrder exTree i 1 = true ∧ NotCovered exTree Covering.new i)
        ∧ CoverByAll exTree Covering.new 1 = some rA
        ∧ Close exTree Covering.new 1 = some rC
        ∧ (rC.1 = true ↔ (Covering.new.covered_by 1).isSome ∨ rA.1 = true)
        ∧ (rA.1 = true ↔ others ≠ []
            ∧ exTree.unwinding.Annotation 1 ≤ UnionOfAnnotations exTree others)
        ∧ (rC.1 = false → rC.2 = Covering.new)
        ∧ (rC.1 = true → (rC.2.covered_by 1).isSome) :=
  ⟨ChildrenClosed_of_B exTree (by decide), ParentsClosed_of_B exTree (by decide),
    AllOfNodeSound_of_B exTree [0, 1]
      (fun m hm => by
        have h0 : m ≠ 0 := fun h => hm (by simp [h])
        have h1 : m ≠ 1 := fun h => hm (by simp [h])
        simp [exTree, h0, h1]) (by decide),
    BuiltBottomUp_of_B exTree exTree.unwinding.number (by decide),
    by decide,
    C9_Close exTree Covering.new 1 exTree.unwinding.number
      (ChildrenClosed_of_B exTree (by decide))
      (ParentsClosed_of_B exTree (by decide))
      (AllOfNodeSound_of_B exTree [0, 1]
        (fun m hm => by
          have h0 : m ≠ 0 := fun h => hm (by simp [h])
          have h1 : m ≠ 1 := fun h => hm (by simp [h])
          simp [exTree, h0, h1]) (by decide))
      (by decide)
      (fun i hi => by
        have hi0 : i = 0 := by simpa [exTree] using hi
        subst hi0
        exact ⟨by decide,
          Reach_outgoing_of_B exTree (ChildrenClosed_of_B exTree (by decide)) (by decide) 0
            (by decide)⟩)
      (BuiltBottomUp_of_B exTree exTree.unwinding.number (by decide))⟩

/-- The state `exOlderParent` is not built from the leaves up: the parent 0 has a
smaller `number` than its child 1, an instance of the same input node.  There
`Close(1)` returns true (through `CoverByAll`, the expanded instance 0 preceding it)
and `covered_by(1)` is null again at return: the ascent `RemoveAscendantCoverings(1)`
reaches the parent 0 and `RemoveCoveringsBy(0)` resets the cover just installed.  The
order in which the unwinding is built is what keeps the cover in place. -/
theorem Close_exOlderParent_not_recorded :
    (∀ rank : Nat → Int, ¬ BuiltBottomUp exOlderParent rank)
      ∧ Covering.new.covered_by 1 = none
      ∧ (Close exOlderParent Covering.new 1).map (fun r => (r.1, r.2.covered_by 1))
          = some (true, none) := by
  refine ⟨?_, by decide, by decide⟩
  intro rank hb
  have hpar : ParentOf exOlderParent 1 0 :=
    ⟨{ map := some 0, Parent := 0, Children := [1] }, by simp [exOlderParent], rfl⟩
  have h1 := hb.parent_higher 1 (by simp [exOlderParent]) 0 hpar
  have h2 := hb.same_node 1 (by simp [exOlderParent]) 0 (by simp [exOlderParent]) rfl h1
  revert h2
  decide

/-! ### The invariant of the cover relation -/

theorem IncomingCompleteOn_of_B {T : Type} (d : Duality T) (h : IncomingCompleteB d = true) :
    IncomingCompleteOn d := by
  intro x hx y hy
  obtain ⟨e, he, hy⟩ := hy
  unfold IncomingCompleteB at h
  rw [List.all_eq_true] at h
  have := h x hx
  rw [he] at this
  simp only [List.all_eq_true, List.any_eq_true, decide_eq_true_eq] at this
  obtain ⟨e2, he2, hp⟩ := this y hy
  exact ⟨e2, he2, hp⟩

theorem AllOfNodeComplete_of_B {T : Type} (d : Duality T) (h : AllOfNodeCompleteB d = true) :
    AllOfNodeComplete d := by
  intro x hx
  unfold AllOfNodeCompleteB at h
  simp only [List.all_eq_true, decide_eq_true_eq] at h
  exact h x hx

theorem UnwindingWF_of_B {T : Type} (d : Duality T) (ms : List Nat)
    (hempty : ∀ m, m ∉ ms → d.insts_of_node m = [])
    (h1 : ChildrenClosedB d = true) (h2 : ParentsClosedB d = true)
    (h3 : IncomingCompleteB d = true) (h4 : AllOfNodeCompleteB d = true)
    (h5 : AllOutgoingB d = true) (h6 : InstsAllocatedB d ms = true) : UnwindingWF d where
  children := ChildrenClosed_of_B d h1
  parents := ParentsClosed_of_B d h2
  incoming := IncomingCompleteOn_of_B d h3
  all_of_node := AllOfNodeComplete_of_B d h4
  outgoing := by
    unfold AllOutgoingB at h5
    rw [List.all_eq_true] at h5
    exact h5
  insts := by
    intro m i hi
    by_cases hm : m ∈ ms
    · unfold InstsAllocatedB at h6
      simp only [List.all_eq_true, decide_eq_true_eq] at h6
      exact h6 m hm i hi
    · rw [hempty m hm] at hi
      cases hi

theorem UnwindingWF.reach_outgoing {T : Type} {d : Duality T} (hwf : UnwindingWF d)
    (node : Nat) (hnode : node ∈ d.unwinding.nodes) :
    ∀ x, Reach d node x → (d.unwinding.Outgoing x).isSome :=
  fun x hx => hwf.outgoing x (Reach_mem_nodes d hwf.children node hnode x hx)

theorem Ascendant_of_Reach {T : Type} {d : Duality T} (hwf : UnwindingWF d) (a : Nat)
    (ha : a ∈ d.unwinding.nodes) : ∀ b, Reach d a b → Ascendant d b a := by
  intro b hab
  induction hab with
  | refl => exact Relation.ReflTransGen.refl
  | tail hay hyb ih =>
    exact Relation.ReflTransGen.head
      (hwf.incoming _ (Reach_mem_nodes d hwf.children a ha _ hay) _ hyb) ih

theorem CoverOrder_cases {T : Type} (d : Duality T) (a b : Nat)
    (h : CoverOrder d a b = true) :
    d.unwinding.number a < d.unwinding.number b ∨ d.underapprox_map a = some b := by
  unfold CoverOrder at h
  cases hb : d.underapprox_map b with
  | some v => simp [hb] at h
  | none =>
    cases ha : d.underapprox_map a with
    | none => left; simpa [hb, ha] using h
    | some v => simpa [hb, ha] using h

theorem CoverInv_new {T : Type} [BooleanAlgebra T] (d : Duality T) :
    CoverInv d Covering.new := by
  intro b a h
  simp [Covering.new, Covering.covered_by, cover_info.default] at h

theorem NotCovered_of_OnlyRemoves {T : Type} (d : Duality T) {c c2 : Covering} (a : Nat)
    (h : OnlyRemoves c c2) (hn : NotCovered d c a) : NotCovered d c2 a := by
  intro x hx
  rcases h x with h1 | h1
  · rw [h1]; exact hn x hx
  · exact h1

theorem CoverInv_of_OnlyRemoves {T : Type} [BooleanAlgebra T] (d : Duality T)
    {c c2 : Covering} (hinv : CoverInv d c) (h : OnlyRemoves c c2) : CoverInv d c2 := by
  intro b a hba
  have hc : c.covered_by b = some a := by
    rcases h b with h1 | h1
    · rw [← h1]; exact hba
    · rw [h1] at hba; cases hba
  obtain ⟨hb, hrest⟩ := hinv b a hc
  refine ⟨hb, fun hne => ?_⟩
  obtain ⟨ha, h1, h2, h3⟩ := hrest hne
  exact ⟨ha, h1, h2, fun hm => NotCovered_of_OnlyRemoves d a h (h3 hm)⟩

/-- Installing the cover `covered_by(b0) = a0` and then running the ascent from `b0`
keeps the invariant. -/
theorem CoverInv_install {T : Type} [BooleanAlgebra T] (d : Duality T) (hwf : UnwindingWF d)
    (c c1 c2 : Covering) (b0 a0 : Nat) (hinv : CoverInv d c)
    (hb0 : b0 ∈ d.unwinding.nodes)
    (hc1 : ∀ x, c1.covered_by x = if x = b0 then some a0 else c.covered_by x)
    (hnew : a0 ≠ b0 → a0 ∈ d.unwinding.nodes ∧ CoverOrder d a0 b0 = true
        ∧ d.unwinding.Annotation b0 ≤ d.unwinding.Annotation a0 ∧ NotCovered d c a0)
    (hrem : OnlyRemoves c1 c2) (hclr : ∀ p, Ascendant d b0 p → Cleared d c2 p) :
    CoverInv d c2 := by
  have hkey : ∀ b a, c2.covered_by b = some a → b ∈ d.unwinding.nodes →
      a ∈ d.unwinding.nodes → CoverOrder d a b = true →
      d.unwinding.map a = d.unwinding.map b → NotCovered d c a → NotCovered d c2 a := by
    intro b a hba hb ha hco hmap hn x hx
    by_cases hxb : x = b0
    · subst hxb
      exfalso
      have hasc := Ascendant_of_Reach hwf a ha x hx
      have hmem : b ∈ d.all_of_node (d.unwinding.map a) := by
        rw [hmap]; exact hwf.all_of_node b hb
      have := hclr a hasc b hmem hco
      rw [this] at hba
      cases hba
    · rcases hrem x with h1 | h1
      · rw [h1, hc1 x, if_neg hxb]; exact hn x hx
      · exact h1
  intro b a hba
  have hc1b : c1.covered_by b = some a := by
    rcases hrem b with h1 | h1
    · rw [← h1]; exact hba
    · rw [h1] at hba; cases hba
  rw [hc1 b] at hc1b
  by_cases hbb : b = b0
  · subst hbb
    rw [if_pos rfl] at hc1b
    cases hc1b
    refine ⟨hb0, fun hne => ?_⟩
    obtain ⟨ha, h1, h2, h3⟩ := hnew hne
    exact ⟨ha, h1, h2, fun hm => hkey b a0 hba hb0 ha h1 hm h3⟩
  · rw [if_neg hbb] at hc1b
    obtain ⟨hb, hrest⟩ := hinv b a hc1b
    refine ⟨hb, fun hne => ?_⟩
    obtain ⟨ha, h1, h2, h3⟩ := hrest hne
    exact ⟨ha, h1, h2, fun hm => hkey b a hba hb ha h1 hm (h3 hm)⟩

theorem CoverInv_CoverByAll {T : Type} [BooleanAlgebra T]
    [DecidableRel ((· ≤ ·) : T → T → Prop)] (d : Duality T) (hwf : UnwindingWF d)
    (c : Covering) (covered : Nat) (r : Bool × Covering) (hinv : CoverInv d c)
    (hnode : covered ∈ d.unwinding.nodes) (h : CoverByAll d c covered = some r) :
    CoverInv d r.2 := by
  obtain ⟨others, r2, _, hA, _, hfalse, htrue⟩ :=
    CoverByAll_spec d c covered hwf.children hwf.parents hnode
      (fun i hi => ⟨hwf.insts _ i hi, hwf.reach_outgoing i (hwf.insts _ i hi)⟩)
  rw [h] at hA
  cases hA
  cases hr : r.1 with
  | false => rw [hfalse hr]; exact hinv
  | true =>
    obtain ⟨hrem, _, hclr⟩ := htrue hr
    exact CoverInv_install d hwf c _ r.2 covered covered hinv hnode (fun x => by simp)
      (fun hne => absurd rfl hne) hrem hclr

theorem CoverInv_CoverByNode {T : Type} [BooleanAlgebra T]
    [DecidableRel ((· ≤ ·) : T → T → Prop)] (d : Duality T) (hwf : UnwindingWF d)
    (c : Covering) (covered covering : Nat) (r : Bool × Covering) (hinv : CoverInv d c)
    (hcovered : covered ∈ d.unwinding.nodes) (hcovering : covering ∈ d.unwinding.nodes)
    (h : CoverByNode d c covered covering = some r) : CoverInv d r.2 := by
  obtain ⟨chk, r2, _, h2, h3, hchk, hfalse, htrue⟩ :=
    CoverByNode_spec d c covered covering hwf.children hwf.parents hcovered hcovering
      (hwf.reach_outgoing covering hcovering)
  rw [h] at h2
  cases h2
  cases hr : r.1 with
  | false => rw [hfalse hr]; exact hinv
  | true =>
    obtain ⟨hrem, _, hclr⟩ := htrue hr
    have hc : chk = true := by rw [← h3, hr]
    obtain ⟨hco, hann, hnc⟩ := hchk.1 hc
    exact CoverInv_install d hwf c _ r.2 covered covering hinv hcovered (fun x => by simp)
      (fun _ => ⟨hcovering, hco, hann, hnc⟩) hrem hclr

theorem CoverInv_Close {T : Type} [BooleanAlgebra T]
    [DecidableRel ((· ≤ ·) : T → T → Prop)] (d : Duality T) (hwf : UnwindingWF d)
    (c : Covering) (node : Nat) (r : Bool × Covering) (hinv : CoverInv d c)
    (hnode : node ∈ d.unwinding.nodes) (h : Close d c node = some r) : CoverInv d r.2 := by
  unfold Close at h
  by_cases hcov : (c.covered_by node).isSome = true
  · rw [if_pos hcov] at h
    cases h
    exact hinv
  · rw [if_neg hcov] at h
    exact CoverInv_CoverByAll d hwf c node r hinv hnode h

theorem CloseDescendantsLoop_preserves (P : Covering → Prop) (nodes : List Nat)
    (call : List Nat → Covering → Nat → Option (Bool × Covering × List Nat))
    (hcall : ∀ memo c n r, n ∈ nodes → P c → call memo c n = some r → P r.2.1) :
    ∀ (chs memo : List Nat) (c : Covering) (r : Bool × Covering × List Nat),
      (∀ ch ∈ chs, ch ∈ nodes) → P c → CloseDescendantsLoop call chs memo c = some r →
      P r.2.1 := by
  intro chs
  induction chs with
  | nil =>
    intro memo c r _ hP h
    simp only [CloseDescendantsLoop, Option.some.injEq] at h
    subst h
    exact hP
  | cons ch chs ih =>
    intro memo c r hchs hP h
    unfold CloseDescendantsLoop at h
    cases hc : call memo c ch with
    | none => rw [hc] at h; cases h
    | some r1 =>
      rw [hc] at h
      have hP1 := hcall memo c ch r1 (hchs ch (List.mem_cons_self _ _)) hP hc
      obtain ⟨b1, c1, m1⟩ := r1
      cases b1 with
      | true =>
        simp only [Option.some.injEq] at h
        subst h
        exact hP1
      | false =>
        exact ih m1 c1 r (fun x hx => hchs x (List.mem_cons_of_mem _ hx)) hP1 h

theorem CloseDescendantsRec_preserves {T : Type} [BooleanAlgebra T]
    [DecidableRel ((· ≤ ·) : T → T → Prop)] (d : Duality T) (hcl : ChildrenClosed d)
    (P : Covering → Prop)
    (hClose : ∀ c n r, n ∈ d.unwinding.nodes → P c → Close d c n = some r → P r.2) :
    ∀ (fuel : Nat) (memo : List Nat) (c : Covering) (node : Nat)
      (r : Bool × Covering × List Nat),
      node ∈ d.unwinding.nodes → P c → CloseDescendantsRec d fuel memo c node = some r →
      P r.2.1 := by
  intro fuel
  induction fuel with
  | zero => intro memo c node r _ _ h; simp [CloseDescendantsRec] at h
  | succ f ih =>
    intro memo c node r hnode hP h
    unfold CloseDescendantsRec at h
    by_cases hm : node ∈ memo
    · rw [if_pos hm] at h
      cases h
      exact hP
    · rw [if_neg hm] at h
      cases hO : d.unwinding.Outgoing node with
      | none => rw [hO] at h; cases h
      | some e =>
        rw [hO] at h
        dsimp only at h
        cases hL : CloseDescendantsLoop (CloseDescendantsRec d f) e.Children memo c with
        | none => rw [hL] at h; cases h
        | some r1 =>
          rw [hL] at h
          have hP1 := CloseDescendantsLoop_preserves P d.unwinding.nodes
            (CloseDescendantsRec d f) (fun memo c n r hn hc hr => ih memo c n r hn hc hr)
            e.Children memo c r1 (fun ch hch => hcl node hnode ch ⟨e, hO, hch⟩) hP hL
          obtain ⟨b1, c1, m1⟩ := r1
          cases b1 with
          | true =>
            simp only [Option.some.injEq] at h
            subst h
            exact hP1
          | false =>
            dsimp only at h
            cases hC : Close d c1 node with
            | none => rw [hC] at h; cases h
            | some r2 =>
              rw [hC] at h
              have hP2 := hClose c1 node r2 hnode hP1 hC
              obtain ⟨b2, c2⟩ := r2
              cases b2 with
              | true =>
                simp only [Option.some.injEq] at h
                subst h
                exact hP2
              | false =>
                simp only [Option.some.injEq] at h
                subst h
                exact hP2

theorem CoverInv_reachable {T : Type} [BooleanAlgebra T]
    [DecidableRel ((· ≤ ·) : T → T → Prop)] (d : Duality T) (hwf : UnwindingWF d)
    (c : Covering) (h : CoveringReachable d c) : CoverInv d c := by
  induction h with
  | init => exact CoverInv_new d
  | coverByNode c covered covering r _ h1 h2 h3 ih =>
    exact CoverInv_CoverByNode d hwf c covered covering r ih h1 h2 h3
  | coverByAll c covered r _ h1 h2 ih => exact CoverInv_CoverByAll d hwf c covered r ih h1 h2
  | close c node r _ h1 h2 ih => exact CoverInv_Close d hwf c node r ih h1 h2
  | closeDescendants c node r _ h1 h2 ih =>
    unfold CloseDescendants at h2
    cases hR : CloseDescendantsRec d (d.unwinding.nodes.length + 1) [] c node with
    | none => rw [hR] at h2; cases h2
    | some r1 =>
      rw [hR] at h2
      simp only [Option.map_some', Option.some.injEq] at h2
      subst h2
      exact CloseDescendantsRec_preserves d hwf.children (CoverInv d)
        (fun c n r hn hc hr => CoverInv_Close d hwf c n r hc hn hr) _ [] c node r1 h1 ih hR
  | update c node _ ih =>
    apply CoverInv_of_OnlyRemoves d ih
    intro x
    have := RemoveCoveringsBy_OnlyRemoves d c node x
    simpa [Covering.Update, Covering.covered_by] using this

/-- C5 (amended): in every state reachable through `CoverByNode`, `CoverByAll`,
`Close`, `CloseDescendants` and `Update`, whenever `covered_by(b) = a` then either
`a = b` (the mark that `CoverByAll` leaves) or `a` precedes `b` in the cover order
(`a.number < b.number`, or `a` is the underapproximation node made for `b`),
`b.Annotation` is a subset of `a.Annotation`, and, `a` and `b` being instances of the
same input node, no node reachable from `a` through `Outgoing` children is covered. -/
theorem C5_cover_invariant {T : Type} [BooleanAlgebra T]
    [DecidableRel ((· ≤ ·) : T → T → Prop)] (d : Duality T) (hwf : UnwindingWF d)
    (c : Covering) (hreach : CoveringReachable d c) (b a : Nat)
    (hba : c.covered_by b = some a) :
    a = b ∨
      ((d.unwinding.number a < d.unwinding.number b ∨ d.underapprox_map a = some b)
        ∧ d.unwinding.Annotation b ≤ d.unwinding.Annotation a
        ∧ (d.unwinding.map a = d.unwinding.map b →
            ∀ x, Reach d a x → c.covered_by x = none)) := by
  by_cases hab : a = b
  · exact Or.inl hab
  · right
    obtain ⟨_, hrest⟩ := CoverInv_reachable d hwf c hreach b a hba
    obtain ⟨_, h1, h2, h3⟩ := hrest hab
    exact ⟨CoverOrder_cases d a b h1, h2, h3⟩

theorem exCover_wf : UnwindingWF exCover :=
  UnwindingWF_of_B exCover [0, 1]
    (fun m hm => by
      have h0 : m ≠ 0 := fun h => hm (by simp [h])
      have h1 : m ≠ 1 := fun h => hm (by simp [h])
      simp [exCover, h0, h1])
    (by decide) (by decide) (by decide) (by decide) (by decide) (by decide)

theorem exCover_c2_reachable : CoveringReachable exCover exCover_c2 :=
  CoveringReachable.coverByNode exCover_c1 3 0 (true, exCover_c2)
    (CoveringReachable.coverByAll Covering.new 2 (true, exCover_c1)
      CoveringReachable.init (by decide) rfl)
    (by decide) (by decide) rfl

/-- Witness for C5 on `exCover`, in the state reached by `CoverByAll(2)` and
`CoverByNode(3, 0)`, for the cover of instance 3 by instance 0. -/
theorem C5_cover_invariant_witness :
    UnwindingWF exCover ∧ CoveringReachable exCover exCover_c2
      ∧ exCover_c2.covered_by 3 = some 0
      ∧ ((0 : Nat) = 3 ∨
        ((exCover.unwinding.number 0 < exCover.unwinding.number 3
            ∨ exCover.underapprox_map 0 = some 3)
          ∧ exCover.unwinding.Annotation 3 ≤ exCover.unwinding.Annotation 0
          ∧ (exCover.unwinding.map 0 = exCover.unwinding.map 3 →
              ∀ x, Reach exCover 0 x → exCover_c2.covered_by x = none))) :=
  ⟨exCover_wf, exCover_c2_reachable, by decide,
    C5_cover_invariant exCover exCover_wf exCover_c2 exCover_c2_reachable 3 0 (by decide)⟩

/-- Counterexample to C5 as stated, on `exCover`.  (1) `CoverByAll(2)` succeeds and
records `covered_by(2) = 2`, and `2.number < 2.number` is false.  (2) Then
`CoverByNode(3, 0)` succeeds and records `covered_by(3) = 0` although the parent 2 of
instance 0 is covered.  (3) From the initial state, `CoverByNode(3, 4)` succeeds for the
underapproximation node 4 of instance 3 and records `covered_by(3) = 4`, and
`4.number < 3.number` is false. -/
theorem C5_cover_invariant_counterexample :
    ((CoverByAll exCover Covering.new 2).map (fun r => (r.1, r.2.covered_by 2))
        = some (true, some 2)
      ∧ ¬ exCover.unwinding.number 2 < exCover.unwinding.number 2)
    ∧ ((CoverByNode exCover exCover_c1 3 0).map
          (fun r => (r.1, r.2.covered_by 3, r.2.covered_by 2))
        = some (true, some 0, some 2)
      ∧ (exCover.unwinding.Incoming 0).map Edge.Parent = [2])
    ∧ ((CoverByNode exCover Covering.new 3 4).map (fun r => (r.1, r.2.covered_by 3))
        = some (true, some 4)
      ∧ ¬ exCover.unwinding.number 4 < exCover.unwinding.number 3) := by
  decide

/-! ### The default heuristic -/

theorem Heuristic_scores_foldl_Update (us : List Nat) :
    ∀ (h : Heuristic) (m : Nat),
      (us.foldl Heuristic.Update h).scores m = h.scores m + (us.count m : Int) := by
  induction us with
  | nil => intro h m; simp
  | cons u us ih =>
    intro h m
    rw [List.foldl_cons, ih]
    by_cases hm : m = u
    · subst hm
      simp [Heuristic.Update, List.count_cons_self]
      ring
    · have hne : u ≠ m := fun h => hm h.symm
      have hc : List.count m (u :: us) = List.count m us := by
        simp [List.count_cons, hne]
      rw [hc]
      simp [Heuristic.Update, Function.update_noteq hm]

/-- After the calls `Update(u)` for `u` in `us` on a fresh heuristic, the score stored
for `m` is the number of calls made on `m`. -/
theorem Heuristic_scores_after (us : List Nat) (m : Nat) :
    (us.foldl Heuristic.Update Heuristic.new).scores m = (us.count m : Int) := by
  rw [Heuristic_scores_foldl_Update]
  simp [Heuristic.new]

/-- The first loop of `ChooseExpand` computes the minimum of `best_score` and the
scores, and the maximum of `worst_score` and the scores. -/
theorem ChooseExpandScan_spec {T : Type} (tree : RPFP T) (h : Heuristic) :
    ∀ (choices : List Nat) (init : Int × Int),
      ((ChooseExpandScan tree h choices init).1 ≤ init.1
        ∧ (∀ n ∈ choices, (ChooseExpandScan tree h choices init).1 ≤ h.scores (tree.map n))
        ∧ ((ChooseExpandScan tree h choices init).1 = init.1
            ∨ ∃ n ∈ choices, (ChooseExpandScan tree h choices init).1 = h.scores (tree.map n)))
      ∧ (init.2 ≤ (ChooseExpandScan tree h choices init).2
        ∧ (∀ n ∈ choices, h.scores (tree.map n) ≤ (ChooseExpandScan tree h choices init).2)
        ∧ ((ChooseExpandScan tree h choices init).2 = init.2
            ∨ ∃ n ∈ choices,
                (ChooseExpandScan tree h choices init).2 = h.scores (tree.map n))) := by
  intro choices
  induction choices with
  | nil => intro init; simp [ChooseExpandScan]
  | cons a choices ih =>
    intro init
    have hstep : ChooseExpandScan tree h (a :: choices) init
        = ChooseExpandScan tree h choices
            (min init.1 (h.scores (tree.map a)), max init.2 (h.scores (tree.map a))) := by
      simp [ChooseExpandScan]
    rw [hstep]
    obtain ⟨⟨h1, h2, h3⟩, ⟨h4, h5, h6⟩⟩ :=
      ih (min init.1 (h.scores (tree.map a)), max init.2 (h.scores (tree.map a)))
    dsimp only at h1 h3 h4 h6
    refine ⟨⟨le_trans h1 (min_le_left _ _), ?_, ?_⟩, ⟨le_trans (le_max_left _ _) h4, ?_, ?_⟩⟩
    · intro n hn
      rcases List.mem_cons.1 hn with rfl | hn
      · exact le_trans h1 (min_le_right _ _)
      · exact h2 n hn
    · rcases h3 with h3 | ⟨n, hn, h3⟩
      · rcases min_choice init.1 (h.scores (tree.map a)) with hm | hm
        · left; rw [h3, hm]
        · right; exact ⟨a, List.mem_cons_self _ _, by rw [h3, hm]⟩
      · right; exact ⟨n, List.mem_cons_of_mem _ hn, h3⟩
    · intro n hn
      rcases List.mem_cons.1 hn with rfl | hn
      · exact le_trans (le_max_right _ _) h4
      · exact h5 n hn
    · rcases h6 with h6 | ⟨n, hn, h6⟩
      · rcases max_choice init.2 (h.scores (tree.map a)) with hm | hm
        · left; rw [h6, hm]
        · right; exact ⟨a, List.mem_cons_self _ _, by rw [h6, hm]⟩
      · right; exact ⟨n, List.mem_cons_of_mem _ hn, h6⟩

/-- The second loop of `ChooseExpand` adds to `best` exactly the choices that pass the
test. -/
theorem mem_foldl_insert_iff (p : Nat → Prop) [DecidablePred p] :
    ∀ (choices best : List Nat) (n : Nat),
      n ∈ choices.foldl (fun b it => if p it then List.insert it b else b) best
        ↔ n ∈ best ∨ (n ∈ choices ∧ p n) := by
  intro choices
  induction choices with
  | nil => intro best n; simp
  | cons a choices ih =>
    intro best n
    rw [List.foldl_cons, ih]
    by_cases hp : p a
    · rw [if_pos hp, List.mem_insert_iff]
      constructor
      · rintro ((rfl | h) | ⟨h1, h2⟩)
        · exact Or.inr ⟨List.mem_cons_self _ _, hp⟩
        · exact Or.inl h
        · exact Or.inr ⟨List.mem_cons_of_mem _ h1, h2⟩
      · rintro (h | ⟨h1, h2⟩)
        · exact Or.inl (Or.inr h)
        · rcases List.mem_cons.1 h1 with rfl | h1
          · exact Or.inl (Or.inl rfl)
          · exact Or.inr ⟨h1, h2⟩
    · rw [if_neg hp]
      constructor
      · rintro (h | ⟨h1, h2⟩)
        · exact Or.inl h
        · exact Or.inr ⟨List.mem_cons_of_mem _ h1, h2⟩
      · rintro (h | ⟨h1, h2⟩)
        · exact Or.inl h
        · rcases List.mem_cons.1 h1 with rfl | h1
          · exact absurd h2 hp
          · exact Or.inr ⟨h1, h2⟩

/-- For scores within the range of `int` and a non-empty set of choices,
`best_score` and `worst_score` are the minimum and the maximum of the scores of the
choices when the first loop ends. -/
theorem ChooseExpandScan_min_max {T : Type} (tree : RPFP T) (h : Heuristic)
    (choices : List Nat) (hne : choices ≠ [])
    (hrange : ∀ n ∈ choices, 0 ≤ h.scores (tree.map n) ∧ h.scores (tree.map n) ≤ INT_MAX) :
    ((∃ n ∈ choices, (ChooseExpandScan tree h choices (INT_MAX, 0)).1 = h.scores (tree.map n))
        ∧ ∀ n ∈ choices, (ChooseExpandScan tree h choices (INT_MAX, 0)).1
            ≤ h.scores (tree.map n))
      ∧ ((∃ n ∈ choices,
            (ChooseExpandScan tree h choices (INT_MAX, 0)).2 = h.scores (tree.map n))
        ∧ ∀ n ∈ choices, h.scores (tree.map n)
            ≤ (ChooseExpandScan tree h choices (INT_MAX, 0)).2) := by
  obtain ⟨⟨_, h2, h3⟩, ⟨_, h5, h6⟩⟩ := ChooseExpandScan_spec tree h choices (INT_MAX, 0)
  obtain ⟨a, ha⟩ := List.exists_mem_of_ne_nil choices hne
  refine ⟨⟨?_, h2⟩, ⟨?_, h5⟩⟩
  · rcases h3 with h3 | h3
    · refine ⟨a, ha, le_antisymm (h2 a ha) ?_⟩
      rw [h3]
      exact (hrange a ha).2
    · exact h3
  · rcases h6 with h6 | h6
    · refine ⟨a, ha, le_antisymm ?_ (h5 a ha)⟩
      rw [h6]
      exact (hrange a ha).1
    · exact h6

/-- C7: for the default heuristic with `high_priority` false and a non-empty set of
choices, `ChooseExpand` adds to `best` exactly the choices whose score is at most the
cutoff, where the score of `n` is the number of earlier `Update` calls made on `n.map`,
`lo` and `hi` are the minimum and the maximum score over the choices, and the cutoff is
`lo` when `best_only` is set and `lo + (hi - lo) / 2` otherwise.  The number of
`Update` calls is assumed to fit in an `int`. -/
theorem C7_ChooseExpand_cutoff {T : Type} (tree : RPFP T) (us : List Nat)
    (choices best : List Nat) (best_only : Bool) (hne : choices ≠ [])
    (hlen : (us.length : Int) ≤ INT_MAX) :
    ∃ lo hi : Nat,
      (∃ n ∈ choices, scoreAfter tree us n = lo)
        ∧ (∀ n ∈ choices, lo ≤ scoreAfter tree us n)
        ∧ (∃ n ∈ choices, scoreAfter tree us n = hi)
        ∧ (∀ n ∈ choices, scoreAfter tree us n ≤ hi)
        ∧ ∀ n, n ∈ ChooseExpand tree (us.foldl Heuristic.Update Heuristic.new) choices best
                  false best_only
            ↔ n ∈ best ∨ (n ∈ choices
                ∧ scoreAfter tree us n ≤ (if best_only then lo else lo + (hi - lo) / 2)) := by
  have hsc : ∀ n, (us.foldl Heuristic.Update Heuristic.new).scores (tree.map n)
      = (scoreAfter tree us n : Int) := fun n => Heuristic_scores_after us (tree.map n)
  have hrange : ∀ n ∈ choices,
      0 ≤ (us.foldl Heuristic.Update Heuristic.new).scores (tree.map n)
        ∧ (us.foldl Heuristic.Update Heuristic.new).scores (tree.map n) ≤ INT_MAX := by
    intro n _
    rw [hsc]
    refine ⟨Int.ofNat_nonneg _, le_trans ?_ hlen⟩
    exact Int.ofNat_le.2 (List.count_le_length _ _)
  obtain ⟨⟨⟨n1, hn1, hlo⟩, hlo2⟩, ⟨⟨n2, hn2, hhi⟩, hhi2⟩⟩ :=
    ChooseExpandScan_min_max tree _ choices hne hrange
  rw [hsc] at hlo hhi
  refine ⟨scoreAfter tree us n1, scoreAfter tree us n2, ⟨n1, hn1, rfl⟩, ?_, ⟨n2, hn2, rfl⟩,
    ?_, ?_⟩
  · intro n hn
    have := hlo2 n hn
    rw [hlo, hsc] at this
    exact Int.ofNat_le.1 this
  · intro n hn
    have := hhi2 n hn
    rw [hhi, hsc] at this
    exact Int.ofNat_le.1 this
  · intro n
    have hle : scoreAfter tree us n1 ≤ scoreAfter tree us n2 := by
      have := hlo2 n2 hn2
      rw [hlo, hsc] at this
      exact Int.ofNat_le.1 this
    unfold ChooseExpand
    simp only [Bool.false_eq_true, if_false]
    rw [mem_foldl_insert_iff, hlo, hhi, hsc]
    have hdiv : ((scoreAfter tree us n2 : Int) - (scoreAfter tree us n1 : Int)).tdiv 2
        = (((scoreAfter tree us n2 - scoreAfter tree us n1) / 2 : Nat) : Int) := by
      rw [Int.tdiv_eq_ediv (by omega) (by omega)]
      omega
    have hiff : ((scoreAfter tree us n : Int)
          ≤ (if best_only = true then (scoreAfter tree us n1 : Int)
              else (scoreAfter tree us n1 : Int)
                + ((scoreAfter tree us n2 : Int) - (scoreAfter tree us n1 : Int)).tdiv 2))
        ↔ scoreAfter tree us n ≤ (if best_only = true then scoreAfter tree us n1
            else scoreAfter tree us n1
              + (scoreAfter tree us n2 - scoreAfter tree us n1) / 2) := by
      cases best_only with
      | true => simp
      | false =>
        simp only [Bool.false_eq_true, if_false]
        rw [hdiv]
        omega
    rw [hiff]

/-- Witness for C7: after three updates of node 0, one of node 1 and two of node 2,
with the choices 0, 1, 2 and `best_only` false, the cutoff is `1 + (3 - 1) / 2 = 2` and
the nodes 1 and 2 are chosen. -/
theorem C7_ChooseExpand_cutoff_witness :
    ([0, 1, 2] : List Nat) ≠ [] ∧ (([0, 0, 0, 1, 2, 2] : List Nat).length : Int) ≤ INT_MAX
      ∧ ChooseExpand exHeurTree
          (([0, 0, 0, 1, 2, 2] : List Nat).foldl Heuristic.Update Heuristic.new)
          [0, 1, 2] [] false false = [2, 1]
      ∧ ∃ lo hi : Nat,
        (∃ n ∈ [0, 1, 2], scoreAfter exHeurTree [0, 0, 0, 1, 2, 2] n = lo)
          ∧ (∀ n ∈ [0, 1, 2], lo ≤ scoreAfter exHeurTree [0, 0, 0, 1, 2, 2] n)
          ∧ (∃ n ∈ [0, 1, 2], scoreAfter exHeurTree [0, 0, 0, 1, 2, 2] n = hi)
          ∧ (∀ n ∈ [0, 1, 2], scoreAfter exHeurTree [0, 0, 0, 1, 2, 2] n ≤ hi)
          ∧ ∀ n, n ∈ ChooseExpand exHeurTree
                    (([0, 0, 0, 1, 2, 2] : List Nat).foldl Heuristic.Update Heuristic.new)
                    [0, 1, 2] [] false false
              ↔ n ∈ ([] : List Nat) ∨ (n ∈ [0, 1, 2]
                  ∧ scoreAfter exHeurTree [0, 0, 0, 1, 2, 2] n
                      ≤ (if false = true then lo else lo + (hi - lo) / 2)) :=
  ⟨by simp, by decide, by decide,
    C7_ChooseExpand_cutoff exHeurTree [0, 0, 0, 1, 2, 2] [0, 1, 2] [] false (by simp)
      (by decide)⟩

/-- C8 (amended): for the default heuristic with `high_priority` false, `ChooseExpand`
started with an empty `best` yields a non-empty `best` that is a subset of `choices`
whenever `choices` is non-empty, for every value of `best_only`; with `high_priority`
true it returns at once and `best` stays empty.  The scores are assumed to be in the
range of a non-negative `int`. -/
theorem C8_ChooseExpand_nonempty {T : Type} (tree : RPFP T) (h : Heuristic)
    (choices : List Nat) (best_only : Bool) (hne : choices ≠ [])
    (hrange : ∀ n ∈ choices, 0 ≤ h.scores (tree.map n) ∧ h.scores (tree.map n) ≤ INT_MAX) :
    ChooseExpand tree h choices [] false best_only ≠ []
      ∧ (∀ n ∈ ChooseExpand tree h choices [] false best_only, n ∈ choices)
      ∧ ChooseExpand tree h choices [] true best_only = [] := by
  obtain ⟨⟨⟨n1, hn1, hlo⟩, hlo2⟩, ⟨⟨n2, hn2, hhi⟩, hhi2⟩⟩ :=
    ChooseExpandScan_min_max tree h choices hne hrange
  have hmem : ∀ n, n ∈ ChooseExpand tree h choices [] false best_only ↔
      n ∈ ([] : List Nat) ∨ (n ∈ choices ∧ h.scores (tree.map n)
        ≤ (if best_only = true then (ChooseExpandScan tree h choices (INT_MAX, 0)).1
            else (ChooseExpandScan tree h choices (INT_MAX, 0)).1
              + ((ChooseExpandScan tree h choices (INT_MAX, 0)).2
                  - (ChooseExpandScan tree h choices (INT_MAX, 0)).1).tdiv 2)) := by
    intro n
    unfold ChooseExpand
    simp only [Bool.false_eq_true, if_false]
    rw [mem_foldl_insert_iff]
  refine ⟨?_, ?_, by simp [ChooseExpand]⟩
  · have hin : n1 ∈ ChooseExpand tree h choices [] false best_only := by
      rw [hmem]
      right
      refine ⟨hn1, ?_⟩
      rw [← hlo]
      cases best_only with
      | true => simp
      | false =>
        simp only [Bool.false_eq_true, if_false]
        have hle : (ChooseExpandScan tree h choices (INT_MAX, 0)).1
            ≤ (ChooseExpandScan tree h choices (INT_MAX, 0)).2 := by
          rw [hhi]; exact hlo2 n2 hn2
        have := Int.tdiv_nonneg (sub_nonneg.2 hle) (by decide : (0 : Int) ≤ 2)
        omega
    intro hnil
    rw [hnil] at hin
    cases hin
  · intro n hn
    rw [hmem] at hn
    rcases hn with hn | hn
    · cases hn
    · exact hn.1

/-- Witness for C8 on the choices 0, 1, 2 with a fresh heuristic. -/
theorem C8_ChooseExpand_nonempty_witness :
    ([0, 1, 2] : List Nat) ≠ []
      ∧ ChooseExpand exHeurTree Heuristic.new [0, 1, 2] [] false true ≠ []
      ∧ (∀ n ∈ ChooseExpand exHeurTree Heuristic.new [0, 1, 2] [] false true, n ∈ [0, 1, 2])
      ∧ ChooseExpand exHeurTree Heuristic.new [0, 1, 2] [] true true = [] :=
  ⟨by simp,
    C8_ChooseExpand_nonempty exHeurTree Heuristic.new [0, 1, 2] true (by simp)
      (fun n _ => by simp [Heuristic.new, INT_MAX])⟩

/-- Counterexample to C8 as stated: with `high_priority` true the default heuristic
returns at once, so for the non-empty choices 0, 1, 2 and an empty `best` the result
is empty. -/
theorem C8_ChooseExpand_counterexample :
    ([0, 1, 2] : List Nat) ≠ []
      ∧ ChooseExpand exHeurTree Heuristic.new [0, 1, 2] [] true false = [] := by
  decide

/-! ### The solution generated from the inductive subset -/

theorem mem_boolT {V : Type} [Fintype V] [DecidableEq V] (b : Bool) (x : V) :
    x ∈ (boolT b : Finset V) ↔ b = true := by
  cases b <;> simp [boolT]

theorem NodePastRecursionBound_guard {T : Type} (d : Duality T) (node : Nat) :
    (decide (d.RecursionBound ≥ 0) && NodePastRecursionBound d node)
      = NodePastRecursionBound d node := by
  unfold NodePastRecursionBound
  by_cases h : d.RecursionBound < 0
  · simp [h]
  · have h2 : d.RecursionBound ≥ 0 := by omega
    simp [h, h2]

theorem NodePastRecursionBound_of_neg {T : Type} (d : Duality T) (h : d.RecursionBound < 0)
    (node : Nat) : NodePastRecursionBound d node = false := by
  simp [NodePastRecursionBound, h]

/-- Without markers, the loop of `GenNodeSolutionFromIndSet` adds to `annot` the
annotations of exactly those instances of the list that `Contains` accepts. -/
theorem GenNodeSolutionFromIndSetLoop_mem {V : Type} [Fintype V] [DecidableEq V]
    (d : Duality (Finset V)) (c : Covering) :
    ∀ (insts : List Nat) (annot f : MarkerFormula (Finset V)),
      GenNodeSolutionFromIndSetLoop d c false insts annot = some f →
      ∀ mu x, x ∈ f mu ↔
        x ∈ annot mu ∨ ∃ i ∈ insts, Contains d c i = some true ∧ x ∈ d.unwinding.Annotation i := by
  intro insts
  induction insts with
  | nil =>
    intro annot f h mu x
    simp only [GenNodeSolutionFromIndSetLoop, Option.some.injEq] at h
    subst h
    simp
  | cons a insts ih =>
    intro annot f h mu x
    unfold GenNodeSolutionFromIndSetLoop at h
    cases hc : Contains d c a with
    | none => rw [hc] at h; cases h
    | some b =>
      rw [hc] at h
      cases b with
      | true =>
        rw [ih _ f h mu x]
        simp only [UnionAnnotations, Bool.not_false, if_true, Finset.sup_eq_union,
          Finset.mem_union, List.mem_cons, exists_eq_or_imp]
        rw [hc]
        simp only [true_and]
        tauto
      | false =>
        rw [ih _ f h mu x]
        simp only [List.mem_cons, exists_eq_or_imp]
        rw [hc]
        simp

/-- The loop of `GenNodeSolutionWithMarkers` intersects `annot` with the implications
`marker => annotation`, and adds to `marker_disjunction` the markers, of exactly those
instances of the list that `Contains` accepts and that are not past the recursion
bound. -/
theorem GenNodeSolutionWithMarkersLoop_mem {V : Type} [Fintype V] [DecidableEq V]
    (d : Duality (Finset V)) (c : Covering) :
    ∀ (insts : List Nat)
      (st st2 : (MarkerFormula (Finset V) × ((Int → Bool) → Bool)) × Bool),
      GenNodeSolutionWithMarkersLoop d c insts st = some st2 →
      (∀ mu x, x ∈ st2.1.1 mu ↔
          x ∈ st.1.1 mu ∧ ∀ i ∈ insts, Contains d c i = some true →
            NodePastRecursionBound d i = false → mu (d.unwinding.number i) = true →
            x ∈ d.unwinding.Annotation i)
        ∧ (∀ mu, st2.1.2 mu = true ↔
            st.1.2 mu = true ∨ ∃ i ∈ insts, Contains d c i = some true
              ∧ NodePastRecursionBound d i = false ∧ mu (d.unwinding.number i) = true) := by
  intro insts
  induction insts with
  | nil =>
    intro st st2 h
    simp only [GenNodeSolutionWithMarkersLoop, Option.some.injEq] at h
    subst h
    simp
  | cons a insts ih =>
    intro st st2 h
    unfold GenNodeSolutionWithMarkersLoop at h
    cases hc : Contains d c a with
    | none => rw [hc] at h; cases h
    | some b =>
      rw [hc] at h
      cases b with
      | true =>
        obtain ⟨h1, h2⟩ := ih _ st2 h
        unfold GenNodeSolutionWithMarkersAux at h1 h2
        rw [NodePastRecursionBound_guard] at h1 h2
        cases hp : NodePastRecursionBound d a with
        | true =>
          rw [hp] at h1 h2
          simp only [if_true] at h1 h2
          constructor
          · intro mu x
            rw [h1 mu x]
            simp only [List.mem_cons, forall_eq_or_imp, hp]
            simp
          · intro mu
            rw [h2 mu]
            simp only [List.mem_cons, exists_eq_or_imp, hp]
            simp
        | false =>
          rw [hp] at h1 h2
          simp only [Bool.false_eq_true, if_false] at h1 h2
          constructor
          · intro mu x
            rw [h1 mu x]
            simp only [Finset.inf_eq_inter, Finset.mem_inter, Finset.sup_eq_union,
              Finset.mem_union, mem_boolT, NodeMarker, List.mem_cons, forall_eq_or_imp, hc, hp,
              Bool.not_eq_true', true_imp_iff]
            constructor
            · rintro ⟨⟨h3, h4⟩, h5⟩
              refine ⟨h3, ?_, h5⟩
              intro hm
              rcases h4 with h4 | h4
              · rw [hm] at h4; cases h4
              · exact h4
            · rintro ⟨h3, h4, h5⟩
              refine ⟨⟨h3, ?_⟩, h5⟩
              cases hm : mu (d.unwinding.number a) with
              | false => exact Or.inl rfl
              | true => exact Or.inr (h4 hm)
          · intro mu
            rw [h2 mu]
            simp only [Bool.or_eq_true, NodeMarker, List.mem_cons, exists_eq_or_imp, hc, hp,
              true_and]
            tauto
      | false =>
        obtain ⟨h1, h2⟩ := ih _ st2 h
        constructor
        · intro mu x
          rw [h1 mu x]
          simp only [List.mem_cons, forall_eq_or_imp, hc]
          simp
        · intro mu
          rw [h2 mu]
          simp only [List.mem_cons, exists_eq_or_imp, hc]
          simp

theorem GenNodeSolutionFromIndSet_mem {V : Type} [Fintype V] [DecidableEq V]
    (d : Duality (Finset V)) (c : Covering) (node : Nat) (f : MarkerFormula (Finset V))
    (h : GenNodeSolutionFromIndSet d c node false = some f) (mu : Int → Bool) (x : V) :
    x ∈ f mu ↔
      ∃ i ∈ d.insts_of_node node, Contains d c i = some true ∧ x ∈ d.unwinding.Annotation i := by
  unfold GenNodeSolutionFromIndSet at h
  rw [GenNodeSolutionFromIndSetLoop_mem d c _ _ f h mu x]
  simp

theorem GenNodeSolutionWithMarkers_mem {V : Type} [Fintype V] [DecidableEq V]
    (d : Duality (Finset V)) (c : Covering) (node : Nat) (res : Bool)
    (A : MarkerFormula (Finset V))
    (h : GenNodeSolutionWithMarkers d c node true = some (res, A)) (mu : Int → Bool) (x : V) :
    x ∈ A mu ↔
      (∀ i ∈ d.insts_of_node node, Contains d c i = some true →
          NodePastRecursionBound d i = false → mu (d.unwinding.number i) = true →
          x ∈ d.unwinding.Annotation i)
        ∧ ∃ i ∈ d.insts_of_node node, Contains d c i = some true
            ∧ NodePastRecursionBound d i = false ∧ mu (d.unwinding.number i) = true := by
  unfold GenNodeSolutionWithMarkers at h
  simp only [if_true] at h
  cases hl : GenNodeSolutionWithMarkersLoop d c (d.insts_of_node node)
      ((fun _ => ⊤, fun _ => false), false) with
  | none => rw [hl] at h; cases h
  | some st2 =>
    rw [hl] at h
    obtain ⟨⟨annot, md⟩, r⟩ := st2
    simp only [Option.some.injEq, Prod.mk.injEq] at h
    obtain ⟨_, hA⟩ := h
    subst hA
    obtain ⟨h1, h2⟩ := GenNodeSolutionWithMarkersLoop_mem d c _ _ _ hl
    simp only [Finset.inf_eq_inter, Finset.mem_inter, mem_boolT]
    rw [h1 mu x, h2 mu]
    simp

/-- A tuple of the union of the annotations of the instances that are in the inductive
subset belongs to the marker formula of the checker under the assignment that sets the
marker of one instance only, when no expanded instance is past the recursion bound. -/
theorem marker_formula_of_solution {V : Type} [Fintype V] [DecidableEq V]
    (d : Duality (Finset V)) (c : Covering) (hinj : NumbersInjective d)
    (hnp : ∀ m, ∀ i ∈ d.insts_of_node m, NodePastRecursionBound d i = false)
    (node : Nat) (f : MarkerFormula (Finset V)) (res : Bool) (A : MarkerFormula (Finset V))
    (hf : GenNodeSolutionFromIndSet d c node false = some f)
    (hA : GenNodeSolutionWithMarkers d c node true = some (res, A))
    (mu : Int → Bool) (x : V) (hx : x ∈ f mu) : ∃ mu2, x ∈ A mu2 := by
  rw [GenNodeSolutionFromIndSet_mem d c node f hf mu x] at hx
  obtain ⟨i, hi, hc, hxi⟩ := hx
  refine ⟨fun n => decide (n = d.unwinding.number i), ?_⟩
  rw [GenNodeSolutionWithMarkers_mem d c node res A hA]
  refine ⟨?_, i, hi, hc, hnp node i hi, by simp⟩
  intro j hj _ _ hm
  have : d.unwinding.number j = d.unwinding.number i := by simpa using hm
  rw [hinj node j hj i hi this]
  exact hxi

theorem CheckerForEdgeLoop_spec {T : Type} [BooleanAlgebra T] (d : Duality T) (c : Covering) :
    ∀ (ocs : List Nat) (cs cs2 : List (MarkerFormula T)),
      CheckerForEdgeLoop d c ocs cs = some cs2 →
      ∃ new, cs2 = cs ++ new
        ∧ List.Forall₂ (fun oc A => ∃ res, GenNodeSolutionWithMarkers d c oc true = some (res, A))
            ocs new := by
  intro ocs
  induction ocs with
  | nil =>
    intro cs cs2 h
    simp only [CheckerForEdgeLoop, Option.some.injEq] at h
    exact ⟨[], by simp [h], List.Forall₂.nil⟩
  | cons oc ocs ih =>
    intro cs cs2 h
    unfold CheckerForEdgeLoop at h
    cases hg : GenNodeSolutionWithMarkers d c oc true with
    | none => rw [hg] at h; cases h
    | some r =>
      obtain ⟨res, A⟩ := r
      rw [hg] at h
      obtain ⟨new, hnew, hall⟩ := ih _ cs2 h
      exact ⟨A :: new, by simp [hnew], List.Forall₂.cons ⟨res, hg⟩ hall⟩

/-- After `GenSolutionFromIndSet`, the annotation of every input node is the one
`GenNodeSolutionFromIndSet` computes for it. -/
theorem GenSolutionFromIndSetLoop_spec {T : Type} [BooleanAlgebra T] (d : Duality T)
    (c : Covering) (wm : Bool) :
    ∀ (nodes : List Nat) (ann sol : Nat → MarkerFormula T),
      GenSolutionFromIndSetLoop d c wm nodes ann = some sol →
      ∀ n, (n ∈ nodes → GenNodeSolutionFromIndSet d c n wm = some (sol n))
        ∧ (n ∉ nodes → sol n = ann n) := by
  intro nodes
  induction nodes with
  | nil =>
    intro ann sol h n
    simp only [GenSolutionFromIndSetLoop, Option.some.injEq] at h
    subst h
    simp
  | cons a nodes ih =>
    intro ann sol h n
    unfold GenSolutionFromIndSetLoop at h
    cases hg : GenNodeSolutionFromIndSet d c a wm with
    | none => rw [hg] at h; cases h
    | some annot =>
      rw [hg] at h
      obtain ⟨h1, h2⟩ := ih _ sol h n
      constructor
      · intro hn
        by_cases hmem : n ∈ nodes
        · exact h1 hmem
        · have hna : n = a := by
            rcases List.mem_cons.1 hn with h | h
            · exact h
            · exact absurd h hmem
          subst hna
          rw [h2 hmem]
          simp [hg]
      · intro hn
        have hmem : n ∉ nodes := fun h => hn (List.mem_cons_of_mem _ h)
        have hna : n ≠ a := fun h => hn (by simp [h])
        rw [h2 hmem]
        simp [Function.update_noteq hna]

/-- A full scan that ends with the list of candidates empty found the check of every
input edge unsatisfiable. -/
theorem GenCandidatesScan_nil {T : Type} [BooleanAlgebra T] (d : Duality T) (c : Covering)
    (be : Backend T) (un : List Nat) :
    ∀ (edges : List InputEdge) (cands : List Candidate),
      GenCandidatesScan d c be true un edges cands = some (.ok []) →
      cands = [] ∧ ∀ e ∈ edges, ∃ q, CheckerForEdge d c e = some q
        ∧ be.Check q = check_result.unsat := by
  intro edges
  induction edges with
  | nil =>
    intro cands h
    simp only [GenCandidatesScan, Option.some.injEq, Except.ok.injEq] at h
    exact ⟨h, by simp⟩
  | cons e edges ih =>
    intro cands h
    unfold GenCandidatesScan at h
    simp only [Bool.not_true, Bool.false_and, Bool.false_eq_true, if_false] at h
    cases hq : CheckerForEdge d c e with
    | none => rw [hq] at h; cases h
    | some q =>
      rw [hq] at h
      dsimp only at h
      by_cases hchk : be.Check q = check_result.unsat
      · have hne : (be.Check q != check_result.unsat) = false := by simp [hchk]
        rw [hne] at h
        simp only [Bool.false_eq_true, if_false] at h
        obtain ⟨h1, h2⟩ := ih cands h
        refine ⟨h1, ?_⟩
        intro e2 he2
        rcases List.mem_cons.1 he2 with rfl | he2
        · exact ⟨q, hq, hchk⟩
        · exact h2 e2 he2
      · have hne : (be.Check q != check_result.unsat) = true := by simp [hchk]
        rw [hne] at h
        simp only [if_true] at h
        cases hx : ExtractCandidateFromCex d c be e q with
        | none => rw [hx] at h; cases h
        | some r =>
          rw [hx] at h
          cases r with
          | error msg => cases h
          | ok cand =>
            dsimp only at h
            obtain ⟨h1, _⟩ := ih _ h
            simp at h1

theorem Forall₂_comp_right {α β γ : Type} {R : α → γ → Prop} {S : β → γ → Prop} :
    ∀ {l1 : List α} {l3 : List γ} {l2 : List β}, List.Forall₂ R l1 l3 → List.Forall₂ S l2 l3 →
      List.Forall₂ (fun a b => ∃ x, R a x ∧ S b x) l1 l2 := by
  intro l1 l3 l2 h1
  induction h1 generalizing l2 with
  | nil => intro h2; cases h2; exact List.Forall₂.nil
  | cons hr _ ih =>
    intro h2
    cases h2 with
    | cons hs h2 => exact List.Forall₂.cons ⟨_, hr, hs⟩ (ih h2)

theorem Forall₂_choose_markers {V : Type} [Fintype V] [DecidableEq V] :
    ∀ {xs : List V} {cs : List (MarkerFormula (Finset V))},
      List.Forall₂ (fun x A => ∃ mu, x ∈ A mu) xs cs →
      ∃ xms : List (V × (Int → Bool)), xms.map Prod.fst = xs
        ∧ List.Forall₂ (fun xm A => xm.1 ∈ A xm.2) xms cs := by
  intro xs cs h
  induction h with
  | nil => exact ⟨[], rfl, List.Forall₂.nil⟩
  | cons hr _ ih =>
    obtain ⟨mu, hmu⟩ := hr
    obtain ⟨xms, h1, h2⟩ := ih
    exact ⟨(_, mu) :: xms, by simp [h1], List.Forall₂.cons hmu h2⟩

/-- The query built by `CheckerForEdge` for an input edge has a solution exactly when
the proposed solution fails to be inductive for the edge on instances that are not past
the recursion bound. -/
theorem CheckerSat_iff_EdgeViolation {V : Type} [Fintype V] [DecidableEq V]
    (sem : Nat → List V → V → Prop) (d : Duality (Finset V)) (c : Covering)
    (hinj : NumbersInjective d) (e : InputEdge) (q : Checker (Finset V))
    (hq : CheckerForEdge d c e = some q) : CheckerSat sem q ↔ EdgeViolation sem d c e := by
  unfold CheckerForEdge at hq
  cases hb : GenNodeSolutionFromIndSet d c e.Parent false with
  | none => rw [hb] at hq; cases hq
  | some bound =>
    rw [hb] at hq
    dsimp only at hq
    cases hl : CheckerForEdgeLoop d c e.Children [] with
    | none => rw [hl] at hq; cases hq
    | some cs =>
      rw [hl] at hq
      simp only [Option.some.injEq] at hq
      subst hq
      obtain ⟨new, hnew, hall⟩ := CheckerForEdgeLoop_spec d c _ _ _ hl
      simp only [List.nil_append] at hnew
      subst hnew
      constructor
      · rintro ⟨mur, xms, y, hch, hsem, hy⟩
        dsimp only at hch hsem hy
        refine ⟨xms.map Prod.fst, y, ?_, hsem, ?_⟩
        · rw [List.forall₂_map_left_iff]
          refine List.Forall₂.imp ?_ (Forall₂_comp_right hch hall)
          rintro xm ch ⟨A, hxA, res, hA⟩
          rw [GenNodeSolutionWithMarkers_mem d c ch res A hA] at hxA
          obtain ⟨h1, i, hi, hc, hp, hm⟩ := hxA
          exact ⟨i, hi, hc, hp, h1 i hi hc hp hm⟩
        · intro hex
          apply hy
          rw [GenNodeSolutionFromIndSet_mem d c e.Parent bound hb]
          exact hex
      · rintro ⟨xs, y, hch, hsem, hy⟩
        have hch2 : List.Forall₂ (fun x A => ∃ mu, x ∈ A mu) xs cs := by
          refine List.Forall₂.imp ?_ (Forall₂_comp_right hch (List.Forall₂.flip hall))
          rintro x A ⟨ch, ⟨i, hi, hc, hp, hxi⟩, res, hA⟩
          refine ⟨fun n => decide (n = d.unwinding.number i), ?_⟩
          rw [GenNodeSolutionWithMarkers_mem d c ch res A hA]
          refine ⟨?_, i, hi, hc, hp, by simp⟩
          intro j hj _ _ hm
          have : d.unwinding.number j = d.unwinding.number i := by simpa using hm
          rw [hinj ch j hj i hi this]
          exact hxi
        obtain ⟨xms, hx1, hx2⟩ := Forall₂_choose_markers hch2
        refine ⟨fun _ => false, xms, y, hx2, by rw [hx1]; exact hsem, ?_⟩
        dsimp only
        rw [GenNodeSolutionFromIndSet_mem d c e.Parent bound hb]
        exact hy

theorem Forall₂_imp_mem_right {α β : Type} {R S : α → β → Prop} :
    ∀ {l1 : List α} {l2 : List β}, List.Forall₂ R l1 l2 →
      (∀ a b, b ∈ l2 → R a b → S a b) → List.Forall₂ S l1 l2 := by
  intro l1 l2 h
  induction h with
  | nil => intro _; exact List.Forall₂.nil
  | cons hr _ ih =>
    intro himp
    exact List.Forall₂.cons (himp _ _ (List.mem_cons_self _ _) hr)
      (ih (fun a b hb => himp a b (List.mem_cons_of_mem _ hb)))

/-- When `GenCandidatesFromInductionFailure(false)` returns with no candidates, its
full scan found no candidate. -/
theorem GenCandidatesFromInductionFailure_nil {T : Type} [BooleanAlgebra T] (d : Duality T)
    (c : Covering) (be : Backend T) (w w0 : Worklist) (ann ann0 : Nat → MarkerFormula T)
    (level level0 : Nat)
    (h : GenCandidatesFromInductionFailure d c be false w ann level
      = some (.ok (w0, ann0, level0)))
    (h0 : w0.candidates = []) :
    ∃ un, GenCandidatesScan d c be true un d.edges [] = some (.ok []) := by
  unfold GenCandidatesFromInductionFailure at h
  cases hb : GenCandidatesFromInductionFailureBody d c be false w ann level with
  | none => rw [hb] at h; cases h
  | some r =>
    rw [hb] at h
    cases r with
    | error msg => cases h
    | ok r1 =>
      obtain ⟨w1, ann1, level1⟩ := r1
      dsimp only at h
      by_cases hemp : w1.candidates.isEmpty = true
      · simp only [Bool.not_false, Bool.true_and, hemp, if_true] at h
        have hw1 : w1.candidates = [] := List.isEmpty_iff.1 hemp
        unfold GenCandidatesFromInductionFailureBody at h
        cases hg : GenSolutionFromIndSet d c true ann1 with
        | none => rw [hg] at h; cases h
        | some ann2 =>
          rw [hg] at h
          dsimp only at h
          cases hs : GenCandidatesScan d c be true w1.updated_nodes d.edges w1.candidates with
          | none => rw [hs] at h; cases h
          | some r2 =>
            rw [hs] at h
            cases r2 with
            | error msg => cases h
            | ok cands =>
              dsimp only at h
              cases hcc : CheckCandsFromIndSet d c be cands level1 with
              | none => rw [hcc] at h; cases h
              | some r3 =>
                rw [hcc] at h
                cases r3 with
                | error msg => cases h
                | ok level2 =>
                  simp only [Option.some.injEq, Except.ok.injEq, Prod.mk.injEq] at h
                  obtain ⟨hw, _, _⟩ := h
                  rw [← hw] at h0
                  simp only at h0
                  rw [hw1, h0] at hs
                  exact ⟨_, hs⟩
      · have hemp2 : w1.candidates.isEmpty = false := by simpa using hemp
        simp only [hemp2, Bool.and_false, Bool.false_eq_true, if_false, Option.some.injEq,
          Except.ok.injEq, Prod.mk.injEq] at h
        obtain ⟨hw, _, _⟩ := h
        rw [hw, List.isEmpty_iff.2 h0] at hemp2
        cases hemp2

/-- When `SolveMain` leaves its loop with `true`, the full scan of
`GenCandidatesFromInductionFailure` has just found no candidate, and the annotation
written to the input nodes is the one `GenSolutionFromIndSet` computes without
markers. -/
theorem SolveMainExit_true {T : Type} [BooleanAlgebra T] (d : Duality T) (c : Covering)
    (be : Backend T) (w : Worklist) (ann sol : Nat → MarkerFormula T) (level : Nat)
    (h : SolveMainExit d c be w ann level = some (.ok (some sol))) :
    (∃ un, GenCandidatesScan d c be true un d.edges [] = some (.ok []))
      ∧ ∃ ann1, GenSolutionFromIndSet d c false ann1 = some sol := by
  unfold SolveMainExit at h
  cases hp : ProduceCandidatesFromPostponed d c be w ann level with
  | none => rw [hp] at h; cases h
  | some r =>
    rw [hp] at h
    cases r with
    | error msg => cases h
    | ok r1 =>
      obtain ⟨w1, ann1, level1⟩ := r1
      dsimp only at h
      by_cases hemp : w1.candidates.isEmpty = true
      · rw [if_pos hemp] at h
        have hw1 : w1.candidates = [] := List.isEmpty_iff.1 hemp
        cases hg : GenSolutionFromIndSet d c false ann1 with
        | none => rw [hg] at h; cases h
        | some sol1 =>
          rw [hg] at h
          simp only [Option.some.injEq, Except.ok.injEq] at h
          subst h
          refine ⟨?_, ann1, hg⟩
          unfold ProduceCandidatesFromPostponed at hp
          by_cases hwc : w.candidates.isEmpty = true
          · rw [if_pos hwc] at hp
            dsimp only at hp
            by_cases hwp : w.postponed_candidates.isEmpty = true
            · rw [if_pos hwp] at hp
              cases hgen : GenCandidatesFromInductionFailure d c be false w ann level with
              | none => rw [hgen] at hp; cases hp
              | some r2 =>
                rw [hgen] at hp
                cases r2 with
                | error msg => cases hp
                | ok r3 =>
                  obtain ⟨w0, ann0, level0⟩ := r3
                  dsimp only at hp
                  apply GenCandidatesFromInductionFailure_nil d c be w w0 ann ann0 level level0 hgen
                  cases hw0 : w0.candidates with
                  | nil => rfl
                  | cons cand rest =>
                    rw [hw0] at hp
                    simp only [Option.some.injEq, Except.ok.injEq, Prod.mk.injEq] at hp
                    obtain ⟨hp1, _, _⟩ := hp
                    rw [← hp1] at hw1
                    simp at hw1
            · rw [if_neg hwp] at hp
              cases hpp : w.postponed_candidates with
              | nil => rw [hpp] at hwp; simp at hwp
              | cons cand rest =>
                rw [hpp] at hp
                simp only [Option.some.injEq, Except.ok.injEq, Prod.mk.injEq] at hp
                obtain ⟨hp1, _, _⟩ := hp
                rw [← hp1] at hw1
                simp at hw1
          · rw [if_neg hwc] at hp
            simp only [Option.some.injEq, Except.ok.injEq, Prod.mk.injEq] at hp
            obtain ⟨hp1, _, _⟩ := hp
            rw [hp1] at hwc
            exact absurd hemp hwc
      · rw [if_neg hemp] at h
        simp at h

/-- The core of C1: when `SolveMain` leaves its loop with `true` and the backend
answered correctly, no input edge is violated on instances that are not past the
recursion bound. -/
theorem SolveMainExit_no_violation {V : Type} [Fintype V] [DecidableEq V]
    (sem : Nat → List V → V → Prop) (d : Duality (Finset V)) (c : Covering)
    (be : Backend (Finset V)) (w : Worklist) (ann sol : Nat → MarkerFormula (Finset V))
    (level : Nat) (hbe : BackendCorrect sem d c be) (hinj : NumbersInjective d)
    (h : SolveMainExit d c be w ann level = some (.ok (some sol))) :
    ∀ e ∈ d.edges, ¬ EdgeViolation sem d c e := by
  obtain ⟨⟨un, hscan⟩, _⟩ := SolveMainExit_true d c be w ann sol level h
  obtain ⟨_, hall⟩ := GenCandidatesScan_nil d c be un d.edges [] hscan
  intro e he hv
  obtain ⟨q, hq, hunsat⟩ := hall e he
  exact (hbe e he q hq).1 hunsat ((CheckerSat_iff_EdgeViolation sem d c hinj e q hq).2 hv)

/-- C1 (amended): if `SolveMain` returns true with bounded recursion disabled
(`RecursionBound < 0`), the annotation emitted for the input nodes is inductive with
respect to every input edge: for every input edge with parent `p`, children `c1..ck`
and transformer `F`, `F` maps tuples of the emitted annotations of `c1..ck` into the
emitted annotation of `p`; the answers of the backend's `Check` are assumed correct. -/
theorem C1_solution_inductive {V : Type} [Fintype V] [DecidableEq V]
    (sem : Nat → List V → V → Prop) (d : Duality (Finset V)) (c : Covering)
    (be : Backend (Finset V)) (w : Worklist) (ann sol : Nat → MarkerFormula (Finset V))
    (level : Nat) (hbe : BackendCorrect sem d c be) (hin : InputClosed d)
    (hinj : NumbersInjective d) (hrb : d.RecursionBound < 0)
    (h : SolveMainExit d c be w ann level = some (.ok (some sol))) :
    SolutionInductive sem d.edges sol := by
  have hnv := SolveMainExit_no_violation sem d c be w ann sol level hbe hinj h
  obtain ⟨_, ann1, hsol⟩ := SolveMainExit_true d c be w ann sol level h
  have hspec := GenSolutionFromIndSetLoop_spec d c false d.nodes ann1 sol hsol
  intro e he mu xs y hxs hsem
  by_contra hy
  apply hnv e he
  refine ⟨xs, y, ?_, hsem, ?_⟩
  · refine Forall₂_imp_mem_right hxs ?_
    intro x ch hch hx
    have hg := (hspec ch).1 ((hin e he).2 ch hch)
    rw [GenNodeSolutionFromIndSet_mem d c ch (sol ch) hg] at hx
    obtain ⟨i, hi, hc, hxi⟩ := hx
    exact ⟨i, hi, hc, NodePastRecursionBound_of_neg d hrb i, hxi⟩
  · intro hex
    apply hy
    have hg := (hspec e.Parent).1 (hin e he).1
    rw [GenNodeSolutionFromIndSet_mem d c e.Parent (sol e.Parent) hg]
    exact hex

theorem exBounded_numbers_injective : NumbersInjective exBounded := by
  intro m i _ j _ h
  have h2 : (i : Int) + 1 = (j : Int) + 1 := h
  omega

theorem exUnbounded_numbers_injective : NumbersInjective exUnbounded := by
  intro m i _ j _ h
  have h2 : (i : Int) + 1 = (j : Int) + 1 := h
  omega

theorem exBounded_input_closed : InputClosed exBounded := by
  intro e he
  have he2 : e = { F := 1, Parent := 0, Children := [] }
      ∨ e = { F := 2, Parent := 0, Children := [0] } := by
    simpa [exBounded] using he
  rcases he2 with rfl | rfl
  · exact ⟨by decide, by simp⟩
  · exact ⟨by decide, by simp [exBounded]⟩

theorem exBounded_no_violation :
    ∀ e ∈ exBounded.edges, ¬ EdgeViolation exSemSucc exBounded Covering.new e := by
  intro e he
  have he2 : e = { F := 1, Parent := 0, Children := [] }
      ∨ e = { F := 2, Parent := 0, Children := [0] } := by
    simpa [exBounded] using he
  rcases he2 with rfl | rfl
  · rintro ⟨xs, y, _, hsem, hy⟩
    apply hy
    have hy0 : y = 0 := by
      rcases hsem with ⟨_, _, h⟩ | ⟨h, _⟩
      · exact h
      · simp at h
    subst hy0
    exact ⟨1, by decide, by decide, by decide⟩
  · rintro ⟨xs, y, hch, hsem, hy⟩
    apply hy
    rcases hsem with ⟨h, _⟩ | ⟨_, x, hxs, hyx⟩
    · simp at h
    · subst hxs
      rw [List.forall₂_cons] at hch
      obtain ⟨⟨i, hi, _, hp, hxi⟩, _⟩ := hch
      have hi2 : i = 0 ∨ i = 1 ∨ i = 2 := by simpa [exBounded] using hi
      rcases hi2 with rfl | rfl | rfl
      · simp [exBounded, exChainUnwinding] at hxi
      · have hx0 : x = 0 := by simpa [exBounded, exChainUnwinding] using hxi
        subst hx0
        have hy1 : y = 1 := by
          apply Fin.ext
          simpa using hyx
        subst hy1
        exact ⟨2, by decide, by decide, by decide⟩
      · have : NodePastRecursionBound exBounded 2 = true := by decide
        rw [this] at hp
        cases hp

/-- Counterexample to C1 as stated, for the rules `P(0)` and `P(x + 1) :- P(x)` with
`RecursionBound = 0`.  The backend answers `unsat`, correctly, to the check of both
edges, because `GenNodeSolutionWithMarkers` leaves the past-bound instance 2 out of the
children's formula; `SolveMain` returns true and emits the union `{0, 1}` of the
annotations of all three instances, which the recursive rule maps to a set containing
2: the tuple 1 is in the emitted annotation, the rule derives 2 from it, and 2 is not
in the emitted annotation. -/
theorem C1_solution_inductive_counterexample :
    BackendCorrect exSemSucc exBounded Covering.new exBackendUnsat
      ∧ InputClosed exBounded ∧ NumbersInjective exBounded
      ∧ exBounded.RecursionBound = 0
      ∧ SolveMainExit exBounded Covering.new exBackendUnsat {} (fun _ _ => ∅) 0
          = some (.ok (some (exSolution exBounded)))
      ∧ ¬ SolutionInductive exSemSucc exBounded.edges (exSolution exBounded) := by
  refine ⟨?_, exBounded_input_closed, exBounded_numbers_injective, rfl, rfl, ?_⟩
  · intro e he q hq
    constructor
    · intro _
      rw [CheckerSat_iff_EdgeViolation exSemSucc exBounded Covering.new
        exBounded_numbers_injective e q hq]
      exact exBounded_no_violation e he
    · intro _
      rfl
  · intro hind
    have h := hind { F := 2, Parent := 0, Children := [0] } (by simp [exBounded])
      (fun _ => false) [1] 2
      (List.Forall₂.cons (by decide) List.Forall₂.nil)
      (Or.inr ⟨rfl, 1, rfl, by decide⟩)
    revert h
    decide

theorem exUnbounded_input_closed : InputClosed exUnbounded := exBounded_input_closed

theorem exUnbounded_no_violation :
    ∀ e ∈ exUnbounded.edges, ¬ EdgeViolation exSemCapped exUnbounded Covering.new e := by
  intro e he
  have he2 : e = { F := 1, Parent := 0, Children := [] }
      ∨ e = { F := 2, Parent := 0, Children := [0] } := by
    simpa [exUnbounded, exBounded] using he
  rcases he2 with rfl | rfl
  · rintro ⟨xs, y, _, hsem, hy⟩
    apply hy
    have hy0 : y = 0 := by
      rcases hsem with ⟨_, _, h⟩ | ⟨h, _⟩
      · exact h
      · simp at h
    subst hy0
    exact ⟨1, by decide, by decide, by decide⟩
  · rintro ⟨xs, y, _, hsem, hy⟩
    apply hy
    rcases hsem with ⟨h, _⟩ | ⟨_, x, _, hyx, hx⟩
    · simp at h
    · have hy1 : y = 1 := by
        apply Fin.ext
        have : y.val = 1 := by omega
        simpa using this
      subst hy1
      exact ⟨2, by decide, by decide, by decide⟩

/-- Witness for C1: the rules `P(0)` and `P(x + 1) :- P(x), x < 1` with bounded
recursion disabled; `SolveMain` returns true with the annotation `{0, 1}`, which is
inductive. -/
theorem C1_solution_inductive_witness :
    BackendCorrect exSemCapped exUnbounded Covering.new exBackendUnsat
      ∧ InputClosed exUnbounded ∧ NumbersInjective exUnbounded
      ∧ exUnbounded.RecursionBound < 0
      ∧ SolveMainExit exUnbounded Covering.new exBackendUnsat {} (fun _ _ => ∅) 0
          = some (.ok (some (exSolution exUnbounded)))
      ∧ SolutionInductive exSemCapped exUnbounded.edges (exSolution exUnbounded) :=
  have hbe : BackendCorrect exSemCapped exUnbounded Covering.new exBackendUnsat := by
    intro e he q hq
    constructor
    · intro _
      rw [CheckerSat_iff_EdgeViolation exSemCapped exUnbounded Covering.new
        exUnbounded_numbers_injective e q hq]
      exact exUnbounded_no_violation e he
    · intro _
      rfl
  ⟨hbe, exUnbounded_input_closed, exUnbounded_numbers_injective, by decide, rfl,
    C1_solution_inductive exSemCapped exUnbounded Covering.new exBackendUnsat {}
      (fun _ _ => ∅) (exSolution exUnbounded) 0 hbe exUnbounded_input_closed
      exUnbounded_numbers_injective (by decide) rfl⟩

/-! ### The counterexample stored by `Solve` -/

namespace Flow

theorem Holds_pure {α : Type} (a : α) (P : SolverState → Prop)
    (Q : α → SolverState → Prop) (h : ∀ s, P s → Q a s) : Holds (pureM a) P Q := by
  intro s hs b s1 hr
  simp only [pureM, Option.some.injEq, Except.ok.injEq, Prod.mk.injEq] at hr
  obtain ⟨rfl, rfl⟩ := hr
  exact h s hs

theorem Holds_bind {α β : Type} (m : M α) (f : α → M β) (P : SolverState → Prop)
    (R : α → SolverState → Prop) (Q : β → SolverState → Prop)
    (h1 : Holds m P R) (h2 : ∀ a, Holds (f a) (R a) Q) : Holds (bindM m f) P Q := by
  intro s hs b s2 hr
  unfold bindM at hr
  cases hm : m s with
  | none => rw [hm] at hr; cases hr
  | some r =>
    rw [hm] at hr
    cases r with
    | error e => cases hr
    | ok r1 =>
      obtain ⟨a, s1⟩ := r1
      exact h2 a s1 (h1 s hs a s1 hm) b s2 hr

theorem Holds_throw {α : Type} (msg : String) (P : SolverState → Prop)
    (Q : α → SolverState → Prop) : Holds (throwM msg) P Q := by
  intro s _ b s1 hr
  simp [throwM] at hr

theorem Holds_outOfFuel {α : Type} (P : SolverState → Prop) (Q : α → SolverState → Prop) :
    Holds (outOfFuel) P Q := by
  intro s _ b s1 hr
  simp [outOfFuel] at hr

theorem Holds_weaken {α : Type} (m : M α) (P P2 : SolverState → Prop)
    (Q Q2 : α → SolverState → Prop) (h : Holds m P Q) (hP : ∀ s, P2 s → P s)
    (hQ : ∀ a s, Q a s → Q2 a s) : Holds m P2 Q2 :=
  fun s hs a s1 hr => hQ a s1 (h s (hP s hs) a s1 hr)

theorem Holds_ite {α : Type} (b : Bool) (m1 m2 : M α) (P : SolverState → Prop)
    (Q : α → SolverState → Prop) (h1 : b = true → Holds m1 P Q)
    (h2 : b = false → Holds m2 P Q) : Holds (if b = true then m1 else m2) P Q := by
  cases b with
  | true => simpa using h1 rfl
  | false => simpa using h2 rfl

theorem Holds_choose (o : Nat → Nat) (P : SolverState → Prop) (hP : Stable P) :
    Holds (choose o) P (fun _ => P) := by
  intro s hs b s1 hr
  simp only [choose, Option.some.injEq, Except.ok.injEq, Prod.mk.injEq] at hr
  obtain ⟨_, rfl⟩ := hr
  exact hP s (s.tick + 1) s.trees hs

theorem Holds_chooseBool (o : Nat → Nat) (P : SolverState → Prop) (hP : Stable P) :
    Holds (chooseBool o) P (fun _ => P) := by
  intro s hs b s1 hr
  simp only [chooseBool, Option.some.injEq, Except.ok.injEq, Prod.mk.injEq] at hr
  obtain ⟨_, rfl⟩ := hr
  exact hP s (s.tick + 1) s.trees hs

theorem Holds_newTree (P : SolverState → Prop) (hP : Stable P) :
    Holds newTree P (fun _ => P) := by
  intro s hs b s1 hr
  simp only [newTree, Option.some.injEq, Except.ok.injEq, Prod.mk.injEq] at hr
  obtain ⟨_, rfl⟩ := hr
  exact hP s s.tick (s.trees + 1) hs

theorem Holds_setCex (t : Option Nat) (P : SolverState → Prop)
    (Q : Unit → SolverState → Prop) (h : ∀ s, P s → Q () { s with cex_tree := t }) :
    Holds (setCex t) P Q := by
  intro s hs b s1 hr
  simp only [setCex, Option.some.injEq, Except.ok.injEq, Prod.mk.injEq] at hr
  obtain ⟨_, rfl⟩ := hr
  exact h s hs

theorem Holds_getCex (P : SolverState → Prop) :
    Holds getCex P (fun t s => P s ∧ t = s.cex_tree) := by
  intro s hs b s1 hr
  simp only [getCex, Option.some.injEq, Except.ok.injEq, Prod.mk.injEq] at hr
  obtain ⟨rfl, rfl⟩ := hr
  exact ⟨hs, rfl⟩

theorem Holds_repeatM (m : M Unit) (P : SolverState → Prop) (h : Holds m P (fun _ => P)) :
    ∀ k, Holds (repeatM k m) P (fun _ => P) := by
  intro k
  induction k with
  | zero => exact Holds_pure _ _ _ (fun _ hs => hs)
  | succ k ih => exact Holds_bind _ _ _ _ _ h (fun _ => ih)

theorem Holds_allM (m : M Bool) (P : SolverState → Prop) (Q : SolverState → Prop)
    (h : Holds m P (fun b s => P s ∧ (b = false → Q s))) :
    ∀ k, Holds (allM k m) P (fun b s => P s ∧ (b = false → Q s)) := by
  intro k
  induction k with
  | zero => exact Holds_pure _ _ _ (fun _ hs => ⟨hs, fun h => by cases h⟩)
  | succ k ih =>
    refine Holds_bind _ _ _ (fun b s => P s ∧ (b = false → Q s)) _ h ?_
    intro r
    cases r with
    | true => exact Holds_weaken _ _ _ _ _ ih (fun _ hs => hs.1) (fun _ _ h => h)
    | false => exact Holds_pure _ _ _ (fun _ hs => ⟨hs.1, fun _ => hs.2 rfl⟩)

theorem UnderapproxInv_stable (opt : Options) : Stable (UnderapproxInv opt) :=
  fun _ _ _ hs => hs

theorem Holds_ExpandNode (o : Nat → Nat) (P : SolverState → Prop) (hP : Stable P) :
    Holds (ExpandNode o) P (fun _ => P) := by
  unfold ExpandNode
  refine Holds_bind _ _ _ (fun _ => P) _ (Holds_chooseBool o P hP) ?_
  intro thrown
  exact Holds_ite _ _ _ _ _ (fun _ => Holds_throw _ _ _)
    (fun _ => Holds_pure _ _ _ (fun _ hs => hs))

/-- `ExpandNodeFromCoverFail` is only run with underapproximations switched on, where
it keeps the invariant. -/
theorem Holds_ExpandNodeFromCoverFail (opt : Options) (o : Nat → Nat)
    (hu : opt.UseUnderapprox = true) :
    Holds (ExpandNodeFromCoverFail o) (UnderapproxInv opt) (fun _ => UnderapproxInv opt) := by
  have hall : ∀ s, UnderapproxInv opt s := fun s h => by rw [hu] at h; cases h
  intro s _ b s1 _
  exact hall s1

theorem Holds_SatisfyUpperBoundBody (opt : Options) (o : Nat → Nat) (derive : M (Bool × Nat))
    (hd : Holds derive (UnderapproxInv opt) (fun _ => UnderapproxInv opt)) :
    Holds (SatisfyUpperBoundBody o derive) (UnderapproxInv opt)
      (fun b s => UnderapproxInv opt s ∧ (b = false → s.cex_tree ≠ none)) := by
  unfold SatisfyUpperBoundBody
  refine Holds_bind _ _ _ (fun _ => UnderapproxInv opt) _
    (Holds_chooseBool o _ (UnderapproxInv_stable opt)) ?_
  intro full
  refine Holds_ite _ _ _ _ _ (fun _ => Holds_pure _ _ _ (fun _ hs => ⟨hs, fun h => by cases h⟩))
    (fun _ => ?_)
  refine Holds_bind _ _ _ (fun _ => UnderapproxInv opt) _ hd ?_
  intro r
  refine Holds_bind _ _ _
    (fun _ s => UnderapproxInv opt s ∧ (r.1 = true → s.cex_tree ≠ none)) _ ?_ ?_
  · refine Holds_ite _ _ _ _ _ (fun _ => Holds_setCex _ _ _ (fun s hs => ⟨hs, fun _ => by simp⟩))
      (fun hr => Holds_pure _ _ _ (fun _ hs => ⟨hs, fun h => by rw [hr] at h; cases h⟩))
  · intro _
    refine Holds_pure _ _ _ (fun s hs => ⟨hs.1, fun h => hs.2 ?_⟩)
    simpa using h

theorem Holds_ProveConjectureWith (opt : Options) (o : Nat → Nat) (sat : M Bool)
    (hs : Holds sat (UnderapproxInv opt) (fun _ => UnderapproxInv opt)) :
    Holds (ProveConjectureWith opt o sat) (UnderapproxInv opt)
      (fun _ => UnderapproxInv opt) := by
  unfold ProveConjectureWith
  refine Holds_bind _ _ _ (fun _ => UnderapproxInv opt) _ hs ?_
  intro ok
  refine Holds_ite _ _ _ _ _ (fun _ => Holds_pure _ _ _ (fun _ h => h)) (fun _ => ?_)
  refine Holds_bind _ _ _ (fun _ => UnderapproxInv opt) _ ?_ ?_
  · refine Holds_ite _ _ _ _ _ (fun hu => ?_) (fun _ => Holds_pure _ _ _ (fun _ h => h))
    refine Holds_bind _ _ _ (fun _ => UnderapproxInv opt) _
      (Holds_chooseBool o _ (UnderapproxInv_stable opt)) ?_
    intro many
    refine Holds_ite _ _ _ _ _ (fun _ => ?_) (fun _ => Holds_pure _ _ _ (fun _ h => h))
    exact Holds_bind _ _ _ (fun _ => UnderapproxInv opt) _
      (Holds_ExpandNodeFromCoverFail opt o hu) (fun _ => Holds_pure _ _ _ (fun _ h => h))
  · intro _
    exact Holds_bind _ _ _ (fun _ => UnderapproxInv opt) _
      (Holds_setCex _ _ _ (fun _ h => h)) (fun _ => Holds_pure _ _ _ (fun _ h => h))

theorem Holds_TryExpandNodeWith (opt : Options) (o : Nat → Nat) (sat : M Bool)
    (hs : Holds sat (UnderapproxInv opt) (fun _ => UnderapproxInv opt)) :
    Holds (TryExpandNodeWith opt o sat) (UnderapproxInv opt)
      (fun _ => UnderapproxInv opt) := by
  have hconj : Holds (ConjectureWith opt o sat) (UnderapproxInv opt)
      (fun _ => UnderapproxInv opt) := by
    unfold ConjectureWith
    refine Holds_bind _ _ _ (fun _ => UnderapproxInv opt) _
      (Holds_chooseBool o _ (UnderapproxInv_stable opt)) ?_
    intro some_other
    refine Holds_ite _ _ _ _ _ (fun _ => ?_) (fun _ => Holds_pure _ _ _ (fun _ h => h))
    refine Holds_bind _ _ _ (fun _ => UnderapproxInv opt) _
      (Holds_ProveConjectureWith opt o sat hs) ?_
    intro proved
    exact Holds_ite _ _ _ _ _ (fun _ => Holds_pure _ _ _ (fun _ h => h))
      (fun _ => Holds_pure _ _ _ (fun _ h => h))
  unfold TryExpandNodeWith
  refine Holds_bind _ _ _ (fun _ => UnderapproxInv opt) _
    (Holds_chooseBool o _ (UnderapproxInv_stable opt)) ?_
  intro closed
  refine Holds_ite _ _ _ _ _ (fun _ => Holds_pure _ _ _ (fun _ h => h)) (fun _ => ?_)
  refine Holds_bind _ _ _ (fun _ => UnderapproxInv opt) _ ?_ ?_
  · exact Holds_ite _ _ _ _ _ (fun _ => hconj) (fun _ => Holds_pure _ _ _ (fun _ h => h))
  · intro conjectured
    refine Holds_ite _ _ _ _ _ (fun _ => Holds_pure _ _ _ (fun _ h => h)) (fun _ => ?_)
    refine Holds_bind _ _ _ (fun _ => UnderapproxInv opt) _
      (Holds_chooseBool o _ (UnderapproxInv_stable opt)) ?_
    intro contains
    exact Holds_ite _ _ _ _ _ (fun _ => Holds_pure _ _ _ (fun _ h => h))
      (fun _ => Holds_ExpandNode o _ (UnderapproxInv_stable opt))

theorem Holds_MakeLeafWith (opt : Options) (o : Nat → Nat) (sat : M Bool) (dne : Bool)
    (hs : Holds sat (UnderapproxInv opt) (fun _ => UnderapproxInv opt)) :
    Holds (MakeLeafWith opt o sat dne) (UnderapproxInv opt)
      (fun _ => UnderapproxInv opt) := by
  unfold MakeLeafWith
  exact Holds_ite _ _ _ _ _ (fun _ => Holds_TryExpandNodeWith opt o sat hs)
    (fun _ => Holds_pure _ _ _ (fun _ h => h))

theorem Holds_DeriveWith (opt : Options) (o : Nat → Nat) (sat : M Bool) (t : Option Nat)
    (hs : Holds sat (UnderapproxInv opt) (fun _ => UnderapproxInv opt)) :
    Holds (DeriveWith opt o sat t) (UnderapproxInv opt) (fun _ => UnderapproxInv opt) := by
  have hget : Holds (GetNodeOutgoingWith opt o sat) (UnderapproxInv opt)
      (fun _ => UnderapproxInv opt) := by
    unfold GetNodeOutgoingWith
    refine Holds_bind _ _ _ (fun _ => UnderapproxInv opt) _
      (Holds_chooseBool o _ (UnderapproxInv_stable opt)) ?_
    intro overapprox
    refine Holds_ite _ _ _ _ _ (fun _ => Holds_pure _ _ _ (fun _ h => h)) (fun _ => ?_)
    refine Holds_bind _ _ _ (fun _ => UnderapproxInv opt) _
      (Holds_chooseBool o _ (UnderapproxInv_stable opt)) ?_
    intro covered_leaf
    refine Holds_ite _ _ _ _ _ (fun _ => Holds_pure _ _ _ (fun _ h => h)) (fun _ => ?_)
    refine Holds_bind _ _ _ (fun _ => UnderapproxInv opt) _
      (Holds_choose o _ (UnderapproxInv_stable opt)) ?_
    intro k
    exact Holds_repeatM _ _ (Holds_MakeLeafWith opt o sat false hs) k
  unfold DeriveWith
  refine Holds_bind _ _ _ (fun _ => UnderapproxInv opt) _ ?_ ?_
  · cases t with
    | none => exact Holds_newTree _ (UnderapproxInv_stable opt)
    | some t1 => exact Holds_pure _ _ _ (fun _ h => h)
  · intro tree
    refine Holds_bind _ _ _ (fun _ => UnderapproxInv opt) _
      (Holds_choose o _ (UnderapproxInv_stable opt)) ?_
    intro k
    refine Holds_bind _ _ _ (fun _ => UnderapproxInv opt) _ (Holds_repeatM _ _ hget k) ?_
    intro _
    exact Holds_bind _ _ _ (fun _ => UnderapproxInv opt) _
      (Holds_chooseBool o _ (UnderapproxInv_stable opt))
      (fun _ => Holds_pure _ _ _ (fun _ h => h))

/-- At every normal return of `SatisfyUpperBound` the invariant holds, and `cex.tree`
is not null when the result is false. -/
theorem Holds_SatisfyUpperBound (opt : Options) (o : Nat → Nat) :
    ∀ fuel, Holds (SatisfyUpperBound opt o fuel) (UnderapproxInv opt)
      (fun b s => UnderapproxInv opt s ∧ (b = false → s.cex_tree ≠ none)) := by
  intro fuel
  induction fuel with
  | zero => exact Holds_outOfFuel _ _
  | succ fuel ih =>
    unfold SatisfyUpperBound
    exact Holds_SatisfyUpperBoundBody opt o _
      (Holds_DeriveWith opt o _ none (Holds_weaken _ _ _ _ _ ih (fun _ h => h) (fun _ _ h => h.1)))

theorem Holds_SatisfyUpperBound_inv (opt : Options) (o : Nat → Nat) (fuel : Nat) :
    Holds (SatisfyUpperBound opt o fuel) (UnderapproxInv opt) (fun _ => UnderapproxInv opt) :=
  Holds_weaken _ _ _ _ _ (Holds_SatisfyUpperBound opt o fuel) (fun _ h => h) (fun _ _ h => h.1)

end Flow

namespace Flow

theorem Holds_frame {α : Type} (m : M α) (P : SolverState → Prop)
    (Q : α → SolverState → Prop) (φ : Prop) (h : Holds m P Q) :
    Holds m (fun s => P s ∧ φ) (fun a s => Q a s ∧ φ) :=
  fun s hs a s1 hr => ⟨h s hs.1 a s1 hr, hs.2⟩

theorem CexKept_stable (opt : Options) (t : Option Nat) : Stable (CexKept opt t) :=
  fun _ _ _ hs => hs

theorem Holds_Derive (opt : Options) (o : Nat → Nat) (fuel : Nat) (t : Option Nat) :
    Holds (Derive opt o fuel t) (UnderapproxInv opt) (fun _ => UnderapproxInv opt) :=
  Holds_DeriveWith opt o _ t (Holds_SatisfyUpperBound_inv opt o fuel)

theorem Holds_TryExpandNode (opt : Options) (o : Nat → Nat) (fuel : Nat) :
    Holds (TryExpandNode opt o fuel) (UnderapproxInv opt) (fun _ => UnderapproxInv opt) :=
  Holds_TryExpandNodeWith opt o _ (Holds_SatisfyUpperBound_inv opt o fuel)

theorem Holds_MakeLeaf (opt : Options) (o : Nat → Nat) (fuel : Nat) (dne : Bool) :
    Holds (MakeLeaf opt o fuel dne) (UnderapproxInv opt) (fun _ => UnderapproxInv opt) :=
  Holds_MakeLeafWith opt o _ dne (Holds_SatisfyUpperBound_inv opt o fuel)

/-- With underapproximations switched off, `ExpandUnderapproxNodes` leaves `cex.tree`
as it is: the map is empty, so no derivation is run. -/
theorem Holds_ExpandUnderapproxNodes (opt : Options) (o : Nat → Nat) (fuel : Nat)
    (t : Option Nat) :
    ∀ depth tree, Holds (ExpandUnderapproxNodes opt o fuel depth tree) (CexKept opt t)
      (fun _ => CexKept opt t) := by
  intro depth
  induction depth with
  | zero => intro tree; exact Holds_outOfFuel _ _
  | succ depth ih =>
    intro tree
    unfold ExpandUnderapproxNodes
    refine Holds_bind _ _ _ (fun _ => CexKept opt t) _
      (Holds_chooseBool o _ (CexKept_stable opt t)) ?_
    intro found s hs b s1 hr
    by_cases hc : (found && !s.underapprox_map.isEmpty) = true
    · have hu : opt.UseUnderapprox = true := by
        by_contra hne
        have hf : opt.UseUnderapprox = false := by simpa using hne
        have := hs.1 hf
        rw [this] at hc
        simp at hc
      show UnderapproxInv opt s1 ∧ (opt.UseUnderapprox = false → s1.cex_tree = t)
      exact ⟨fun h => (by rw [hu] at h; cases h), fun h => (by rw [hu] at h; cases h)⟩
    · dsimp only at hr
      rw [if_neg hc] at hr
      exact Holds_bind _ _ _ (fun _ => CexKept opt t) _
        (Holds_choose o _ (CexKept_stable opt t))
        (fun k => Holds_repeatM _ _ (ih tree) k) s hs b s1 hr

theorem Holds_BuildFullCex (opt : Options) (o : Nat → Nat) (fuel : Nat) :
    Holds (BuildFullCex opt o fuel) (UnderapproxInv opt)
      (fun _ s => UnderapproxInv opt s ∧ s.cex_tree ≠ none) := by
  unfold BuildFullCex
  refine Holds_bind _ _ _ (fun _ => UnderapproxInv opt) _ (Holds_Derive opt o fuel none) ?_
  intro r
  exact Holds_ite _ _ _ _ _ (fun _ => Holds_throw _ _ _)
    (fun _ => Holds_setCex _ _ _ (fun s hs => ⟨hs, by simp⟩))

/-- At every normal return of `Extend` with the result false, `cex.tree` is not
null. -/
theorem Holds_Extend (opt : Options) (o : Nat → Nat) (fuel : Nat) :
    Holds (Extend opt o fuel) (UnderapproxInv opt) (Refuted opt) := by
  unfold Extend
  refine Holds_bind _ _ _ (Refuted opt) _ (Holds_SatisfyUpperBound opt o fuel) ?_
  intro res
  cases res with
  | true =>
    simp only [if_true]
    refine Holds_bind _ _ _ (fun _ => UnderapproxInv opt) _
      (Holds_weaken _ _ _ _ _ (Holds_TryExpandNode opt o fuel) (fun _ h => h.1)
        (fun _ _ h => h)) ?_
    intro _
    exact Holds_pure _ _ _ (fun _ hs => ⟨hs, fun h => by cases h⟩)
  | false =>
    simp only [Bool.false_eq_true, if_false]
    refine Holds_bind _ _ _
      (fun tree s => CexKept opt tree s ∧ tree ≠ none) _ ?_ ?_
    · intro s hs tree s1 hr
      obtain ⟨h1, h2⟩ := Holds_getCex (Refuted opt false) s hs tree s1 hr
      exact ⟨⟨h1.1, fun _ => h2.symm⟩, by rw [h2]; exact h1.2 rfl⟩
    · intro tree
      refine Holds_bind _ _ _ (fun _ s => CexKept opt tree s ∧ tree ≠ none) _
        (Holds_frame _ _ _ _ (Holds_ExpandUnderapproxNodes opt o fuel tree fuel tree)) ?_
      intro _
      refine Holds_bind _ _ _ (fun _ s => UnderapproxInv opt s ∧ s.cex_tree ≠ none) _ ?_ ?_
      · refine Holds_ite _ _ _ _ _ (fun _ => ?_) (fun hu => ?_)
        · exact Holds_weaken _ _ _ _ _ (Holds_BuildFullCex opt o fuel) (fun _ h => h.1.1)
            (fun _ _ h => h)
        · refine Holds_pure _ _ _ (fun s hs => ⟨hs.1.1, ?_⟩)
          rw [hs.1.2 hu]
          exact hs.2
      · intro _
        exact Holds_pure _ _ _ (fun _ hs => ⟨hs.1, fun _ => hs.2⟩)

theorem Holds_DoStratifiedInlining (opt : Options) (o : Nat → Nat) (fuel : Nat) :
    Holds (DoStratifiedInlining opt o fuel) (UnderapproxInv opt) (Refuted opt) := by
  unfold DoStratifiedInlining
  refine Holds_bind _ _ _ (fun _ => UnderapproxInv opt) _
    (Holds_choose o _ (UnderapproxInv_stable opt)) ?_
  intro leaves
  refine Holds_bind _ _ _ (Refuted opt) _
    (Holds_allM _ _ (fun s => s.cex_tree ≠ none) (Holds_SatisfyUpperBound opt o fuel) leaves) ?_
  intro ok
  cases ok with
  | false =>
    simp only [Bool.not_false, if_true]
    exact Holds_pure _ _ _ (fun _ hs => hs)
  | true =>
    simp only [Bool.not_true, Bool.false_eq_true, if_false]
    refine Holds_bind _ _ _ (fun _ => UnderapproxInv opt) _
      (Holds_weaken _ _ _ _ _ (Holds_choose o _ (UnderapproxInv_stable opt)) (fun _ h => h.1)
        (fun _ _ h => h)) ?_
    intro dangling
    refine Holds_bind _ _ _ (fun _ => UnderapproxInv opt) _
      (Holds_repeatM _ _ (Holds_MakeLeaf opt o fuel true) dangling) ?_
    intro _
    exact Holds_pure _ _ _ (fun _ hs => ⟨hs, fun h => by cases h⟩)

theorem Holds_ProduceCandidatesForExtension (opt : Options) (o : Nat → Nat) (fuel : Nat) :
    Holds (ProduceCandidatesForExtension opt o fuel) (UnderapproxInv opt)
      (fun _ => UnderapproxInv opt) := by
  unfold ProduceCandidatesForExtension
  refine Holds_bind _ _ _ (fun _ => UnderapproxInv opt) _
    (Holds_choose o _ (UnderapproxInv_stable opt)) ?_
  intro tried
  refine Holds_bind _ _ _ (fun _ => UnderapproxInv opt) _
    (Holds_repeatM _ _ (Holds_TryExpandNode opt o fuel) tried) ?_
  intro _
  refine Holds_bind _ _ _ (fun _ => UnderapproxInv opt) _
    (Holds_chooseBool o _ (UnderapproxInv_stable opt)) ?_
  intro thrown
  exact Holds_ite _ _ _ _ _ (fun _ => Holds_throw _ _ _)
    (fun _ => Holds_pure _ _ _ (fun _ h => h))

theorem Holds_SolveMainLoop (opt : Options) (o : Nat → Nat) (fuel : Nat) :
    ∀ iters, Holds (SolveMainLoop opt o fuel iters) (UnderapproxInv opt) (Refuted opt) := by
  intro iters
  induction iters with
  | zero => exact Holds_outOfFuel _ _
  | succ iters ih =>
    unfold SolveMainLoop
    refine Holds_bind _ _ _ (fun _ => UnderapproxInv opt) _
      (Holds_ProduceCandidatesForExtension opt o fuel) ?_
    intro _
    refine Holds_bind _ _ _ (fun _ => UnderapproxInv opt) _
      (Holds_chooseBool o _ (UnderapproxInv_stable opt)) ?_
    intro no_candidates
    refine Holds_ite _ _ _ _ _
      (fun _ => Holds_pure _ _ _ (fun _ hs => ⟨hs, fun h => by cases h⟩)) (fun _ => ?_)
    refine Holds_bind _ _ _ (fun _ => UnderapproxInv opt) _
      (Holds_chooseBool o _ (UnderapproxInv_stable opt)) ?_
    intro feasible
    refine Holds_ite _ _ _ _ _ (fun _ => ?_) (fun _ => ih)
    refine Holds_bind _ _ _ (Refuted opt) _ (Holds_Extend opt o fuel) ?_
    intro extended
    cases extended with
    | false =>
      simp only [Bool.not_false, if_true]
      exact Holds_pure _ _ _ (fun _ hs => hs)
    | true =>
      simp only [Bool.not_true, Bool.false_eq_true, if_false]
      exact Holds_weaken _ _ _ _ _ ih (fun _ h => h.1) (fun _ _ h => h)

theorem Holds_SolveMain (opt : Options) (o : Nat → Nat) (fuel iters : Nat) :
    Holds (SolveMain opt o fuel iters) (UnderapproxInv opt) (Refuted opt) := by
  unfold SolveMain
  refine Holds_bind _ _ _
    (fun inlined s => UnderapproxInv opt s
      ∧ (opt.StratifiedInlining = true → inlined = false → s.cex_tree ≠ none)) _ ?_ ?_
  · refine Holds_ite _ _ _ _ _ (fun _ => ?_) (fun hsi => ?_)
    · exact Holds_weaken _ _ _ _ _ (Holds_DoStratifiedInlining opt o fuel) (fun _ h => h)
        (fun _ _ h => ⟨h.1, fun _ => h.2⟩)
    · exact Holds_pure _ _ _ (fun _ hs => ⟨hs, fun h => by rw [hsi] at h; cases h⟩)
  · intro inlined
    refine Holds_ite _ _ _ _ _ (fun hc => ?_) (fun _ => ?_)
    · refine Holds_pure _ _ _ (fun _ hs => ⟨hs.1, fun _ => ?_⟩)
      rw [Bool.and_eq_true] at hc
      exact hs.2 hc.1 (by simpa using hc.2)
    · exact Holds_weaken _ _ _ _ _ (Holds_SolveMainLoop opt o fuel iters) (fun _ h => h.1)
        (fun _ _ h => h)

theorem Holds_Solve (opt : Options) (o : Nat → Nat) (fuel iters : Nat) :
    Holds (Solve opt o fuel iters) (UnderapproxInv opt) (Refuted opt) := by
  unfold Solve
  refine Holds_bind _ _ _ (fun _ => UnderapproxInv opt) _
    (Holds_setCex _ _ _ (fun _ h => h)) ?_
  intro _
  refine Holds_bind _ _ _ (fun _ => UnderapproxInv opt) _ ?_ ?_
  · unfold CreateLeaves
    refine Holds_bind _ _ _ (fun _ => UnderapproxInv opt) _
      (Holds_choose o _ (UnderapproxInv_stable opt)) ?_
    intro nodes
    refine Holds_repeatM _ _ ?_ nodes
    exact Holds_ite _ _ _ _ _ (fun _ => Holds_MakeLeaf opt o fuel false)
      (fun _ => Holds_pure _ _ _ (fun _ h => h))
  · intro _
    refine Holds_bind _ _ _ (fun _ => UnderapproxInv opt) _ ?_
      (fun _ => Holds_SolveMain opt o fuel iters)
    refine Holds_ite _ _ _ _ _ (fun _ => ?_) (fun _ => Holds_pure _ _ _ (fun _ h => h))
    refine Holds_ite _ _ _ _ _ (fun _ => Holds_pure _ _ _ (fun _ h => h)) (fun _ => ?_)
    unfold InstantiateAllEdges
    refine Holds_bind _ _ _ (fun _ => UnderapproxInv opt) _
      (Holds_choose o _ (UnderapproxInv_stable opt)) ?_
    intro edges
    refine Holds_repeatM _ _ ?_ edges
    exact Holds_bind _ _ _ (Refuted opt) _ (Holds_Extend opt o fuel)
      (fun _ => Holds_pure _ _ _ (fun _ h => h.1))

end Flow

theorem Flow.run_eq_of_toOption {α : Type} (m : Flow.M α) (s : Flow.SolverState)
    (x : α × Flow.SolverState) (h : (m s).bind Except.toOption = some x) :
    m s = some (.ok x) := by
  cases hm : m s with
  | none => rw [hm] at h; cases h
  | some r =>
    rw [hm] at h
    cases r with
    | error e => cases h
    | ok y =>
      simp only [Option.some_bind, Except.toOption, Option.some.injEq] at h
      rw [h]

/-- C3: whenever `Solve`, run on a freshly constructed solver (`underapprox_map`
empty; a counterexample may have been handed over by `LearnFrom`), returns false
normally, `cex.tree` is not null at return, so that the next `GetCounterexample`
returns a counterexample whose tree is not null; this holds for every setting of the
options, whether the refutation comes from a failed `Extend` in the main loop or from
stratified inlining. -/
theorem C3_Solve_false_stores_cex (opt : Flow.Options) (o : Nat → Nat) (fuel iters : Nat)
    (s s1 : Flow.SolverState) (hfresh : s.underapprox_map = [])
    (h : Flow.Solve opt o fuel iters s = some (.ok (false, s1))) :
    s1.cex_tree ≠ none
      ∧ ∃ t s2, Flow.GetCounterexample s1 = some (.ok (some t, s2)) := by
  have hc : s1.cex_tree ≠ none :=
    (Flow.Holds_Solve opt o fuel iters s (fun _ => hfresh) false s1 h).2 rfl
  refine ⟨hc, ?_⟩
  cases ht : s1.cex_tree with
  | none => exact absurd ht hc
  | some t =>
    exact ⟨t, { s1 with cex_tree := none }, by
      simp [Flow.GetCounterexample, Flow.bindM, Flow.getCex, Flow.setCex, Flow.pureM, ht]⟩

/-- Witness for C3: a run with the default options in which `Extend` fails in the main
loop, and a run with stratified inlining in which `DoStratifiedInlining` fails; both
end with `cex.tree` not null. -/
theorem C3_Solve_false_stores_cex_witness :
    Flow.SolverState.new.underapprox_map = []
      ∧ (Flow.Solve Flow.exOptions Flow.exOracle 3 2 Flow.SolverState.new).bind Except.toOption
          = some (false, { cex_tree := some 2, underapprox_map := [], trees := 2, tick := 16 })
      ∧ (Flow.Solve Flow.exOptionsSI Flow.exOracleSI 3 2 Flow.SolverState.new).bind
            Except.toOption
          = some (false, { cex_tree := some 1, underapprox_map := [], trees := 1, tick := 5 })
      ∧ (some 2 : Option Nat) ≠ none
      ∧ ∃ t s2, Flow.GetCounterexample
            { cex_tree := some 2, underapprox_map := [], trees := 2, tick := 16 }
          = some (.ok (some t, s2)) :=
  ⟨rfl, by decide!, by decide!,
    C3_Solve_false_stores_cex Flow.exOptions Flow.exOracle 3 2 Flow.SolverState.new
      { cex_tree := some 2, underapprox_map := [], trees := 2, tick := 16 } rfl
      (Flow.run_eq_of_toOption _ _ _ (by decide!))⟩

/-! ### The bound of the emitted annotation -/

theorem exUnsafe_numbers_injective : NumbersInjective exUnsafe := by
  intro m i _ j _ h
  have h2 : (i : Int) = (j : Int) := h
  omega

theorem exUnsafe_no_violation :
    ∀ e ∈ exUnsafe.edges, ¬ EdgeViolation exSemUnsafe exUnsafe exUnsafeCovering e := by
  intro e he
  have he2 : e = { F := 1, Parent := 0, Children := [] } := by
    simpa [exUnsafe] using he
  subst he2
  rintro ⟨xs, y, _, _, hy⟩
  apply hy
  exact ⟨2, by decide, by decide, by simp [exUnsafe]⟩

theorem exUnsafe_backend_correct :
    BackendCorrect exSemUnsafe exUnsafe exUnsafeCovering exBackendUnsat := by
  intro e he q hq
  constructor
  · intro _
    rw [CheckerSat_iff_EdgeViolation exSemUnsafe exUnsafe exUnsafeCovering
      exUnsafe_numbers_injective e q hq]
    exact exUnsafe_no_violation e he
  · intro _
    rfl

/-- C2 (failing input): the input with one node `P`, the rule `P(x) :- x >= 0` and the
bound `P(x) -> x < 0`, solved with `feasible_edges` off.  In the control flow of `Solve`
the call of `Extend` made by `InstantiateAllEdges` returns false (the bound of the new
instance is refuted) and `Solve` nevertheless goes on and returns true.  In the state in
which `SolveMain` then leaves its loop the backend answers `unsat`, correctly, to the
check of the rule, and the annotation emitted for `P` is the full relation, which is
not contained in the bound `{0}` of `P`: the rule derives the tuple 1, which lies
outside the bound. -/
theorem C2_Solve_true_violates_bound :
    (Flow.Extend Flow.exOptionsAllEdges Flow.exOracleAllEdges 3
        { cex_tree := none, underapprox_map := [], trees := 0, tick := 6 }).bind
          Except.toOption
        = some (false, { cex_tree := some 2, underapprox_map := [], trees := 2, tick := 15 })
      ∧ (Flow.Solve Flow.exOptionsAllEdges Flow.exOracleAllEdges 3 2
            Flow.SolverState.new).bind Except.toOption
          = some (true, { cex_tree := some 2, underapprox_map := [], trees := 2, tick := 22 })
      ∧ exUnsafe.FeasibleEdges = false
      ∧ BackendCorrect exSemUnsafe exUnsafe exUnsafeCovering exBackendUnsat
      ∧ SolveMainExit exUnsafe exUnsafeCovering exBackendUnsat exUnsafeWorklist
            (fun _ _ => ∅) 0
          = some (.ok (some exUnsafeSolution))
      ∧ (∀ mu, exUnsafeSolution 0 mu = Finset.univ)
      ∧ (∀ mu, ¬ exUnsafeSolution 0 mu ≤ exUnsafe.unwinding.Bound 2)
      ∧ exSemUnsafe 1 [] 1 ∧ (1 : Fin 2) ∉ exUnsafe.unwinding.Bound 2 := by
  refine ⟨by decide!, by decide!, rfl, exUnsafe_backend_correct, rfl, fun _ => rfl, ?_,
    ⟨rfl, rfl, rfl⟩, by decide⟩
  intro mu
  have h : exUnsafeSolution 0 mu = Finset.univ := rfl
  rw [h]
  decide

/-! ### `Covering::Update` -/

/-- C11: after `Covering::Update(node, new_annot)` in a state reachable through the
operations of `Covering`, in which covers join instances of the same input node, the
flag `some_updates` is set and no instance remains covered on account of `node`:
no other instance has `covered_by` equal to `node`, and no instance that `node`
precedes in the cover order among the instances of its input node carries a
`CoverByAll` mark. -/
theorem C11_Update_removes_coverings {T : Type} [BooleanAlgebra T]
    [DecidableRel ((· ≤ ·) : T → T → Prop)] (d : Duality T) (hwf : UnwindingWF d)
    (c : Covering) (hreach : CoveringReachable d c) (hsame : SameNodeCovers d c)
    (node : Nat) :
    (Covering.Update d c node).some_updates = true
      ∧ ∀ other, ¬ CoveredOnAccountOf d (Covering.Update d c node) node other := by
  refine ⟨rfl, ?_⟩
  have hinv := CoverInv_reachable d hwf c hreach
  have hcb : ∀ x, (Covering.Update d c node).covered_by x
      = if x ∈ d.all_of_node (d.unwinding.map node) ∧ CoverOrder d node x = true
        then none else c.covered_by x := by
    intro x
    have := RemoveCoveringsBy_covered_by d c node x
    simpa [Covering.Update, Covering.covered_by] using this
  intro other hcov
  rcases hcov with ⟨hne, hby⟩ | ⟨hby, hmap, hco⟩
  · rw [hcb] at hby
    by_cases hc : other ∈ d.all_of_node (d.unwinding.map node)
        ∧ CoverOrder d node other = true
    · rw [if_pos hc] at hby
      cases hby
    · rw [if_neg hc] at hby
      obtain ⟨hb, hrest⟩ := hinv other node hby
      obtain ⟨_, hco, _⟩ := hrest (fun h => hne h.symm)
      apply hc
      refine ⟨?_, hco⟩
      rw [hsame other node hby]
      exact hwf.all_of_node other hb
  · rw [hcb] at hby
    by_cases hc : other ∈ d.all_of_node (d.unwinding.map node)
        ∧ CoverOrder d node other = true
    · rw [if_pos hc] at hby
      cases hby
    · rw [if_neg hc] at hby
      obtain ⟨hb, _⟩ := hinv other other hby
      apply hc
      refine ⟨?_, hco⟩
      rw [hmap]
      exact hwf.all_of_node other hb

theorem SameNodeCovers_of_OnlyRemoves {T : Type} (d : Duality T) {c1 c2 : Covering}
    (h : OnlyRemoves c1 c2) (hs : SameNodeCovers d c1) : SameNodeCovers d c2 := by
  intro b a hba
  rcases h b with h1 | h1
  · rw [h1] at hba
    exact hs b a hba
  · rw [h1] at hba
    cases hba

theorem SameNodeCovers_set {T : Type} (d : Duality T) (c : Covering) (b a : Nat)
    (hs : SameNodeCovers d c) (hab : d.unwinding.map a = d.unwinding.map b) :
    SameNodeCovers d (c.set_covered_by b (some a)) := by
  intro x y hxy
  rw [covered_by_set_covered_by] at hxy
  by_cases hx : x = b
  · rw [if_pos hx] at hxy
    cases hxy
    rw [hx]
    exact hab
  · rw [if_neg hx] at hxy
    exact hs x y hxy

theorem exCover_c2_same_node : SameNodeCovers exCover exCover_c2 := by
  have hnew : SameNodeCovers exCover Covering.new := by
    intro b a hba
    cases hba
  have h1 : SameNodeCovers exCover exCover_c1 := by
    obtain ⟨others, r, _, hr, _, _, htrue⟩ :=
      CoverByAll_spec exCover Covering.new 2 exCover_wf.children exCover_wf.parents
        (by decide) (fun i hi => ⟨exCover_wf.insts _ i hi,
          exCover_wf.reach_outgoing i (exCover_wf.insts _ i hi)⟩)
    have hr2 : CoverByAll exCover Covering.new 2 = some (true, exCover_c1) := rfl
    rw [hr2] at hr
    cases hr
    exact SameNodeCovers_of_OnlyRemoves exCover (htrue rfl).1
      (SameNodeCovers_set exCover Covering.new 2 2 hnew rfl)
  obtain ⟨chk, r, _, hr, _, _, _, htrue⟩ :=
    CoverByNode_spec exCover exCover_c1 3 0 exCover_wf.children exCover_wf.parents
      (by decide) (by decide) (exCover_wf.reach_outgoing 0 (by decide))
  have hr2 : CoverByNode exCover exCover_c1 3 0 = some (true, exCover_c2) := rfl
  rw [hr2] at hr
  cases hr
  exact SameNodeCovers_of_OnlyRemoves exCover (htrue rfl).1
    (SameNodeCovers_set exCover exCover_c1 3 0 h1 (by decide))

/-- Witness for C11 on `exCover`, in the state reached by `CoverByAll(2)` and
`CoverByNode(3, 0)`, for `Update(0)`, which removes the cover of instance 3 by
instance 0. -/
theorem C11_Update_removes_coverings_witness :
    UnwindingWF exCover ∧ CoveringReachable exCover exCover_c2
      ∧ SameNodeCovers exCover exCover_c2
      ∧ exCover_c2.covered_by 3 = some 0
      ∧ (Covering.Update exCover exCover_c2 0).covered_by 3 = none
      ∧ (Covering.Update exCover exCover_c2 0).some_updates = true
      ∧ ∀ other, ¬ CoveredOnAccountOf exCover (Covering.Update exCover exCover_c2 0) 0 other :=
  ⟨exCover_wf, exCover_c2_reachable, exCover_c2_same_node, by decide, by decide,
    C11_Update_removes_coverings exCover exCover_wf exCover_c2 exCover_c2_reachable
      exCover_c2_same_node 0⟩

/-! ### The descent `CloseDescendants` -/

theorem IsHeight_of_B {T : Type} (d : Duality T) (rank : Nat → Nat)
    (h : IsHeightB d rank = true) : IsHeight d rank := by
  unfold IsHeightB at h
  rw [List.all_eq_true] at h
  constructor
  · intro x hx y hy
    obtain ⟨e, he, hye⟩ := hy
    have := h x hx
    rw [he] at this
    simp only [Bool.and_eq_true, decide_eq_true_eq, List.all_eq_true] at this
    exact this.2 y hye
  · intro x hx
    have := h x hx
    simp only [Bool.and_eq_true, decide_eq_true_eq] at this
    exact this.1

/-- `Close` returns on every allocated node of a well-formed unwinding, and leaves the
cover relation unchanged when it returns false. -/
theorem Close_total {T : Type} [BooleanAlgebra T]
    [DecidableRel ((· ≤ ·) : T → T → Prop)] (d : Duality T) (hwf : UnwindingWF d)
    (c : Covering) (node : Nat) (hnode : node ∈ d.unwinding.nodes) :
    ∃ r, Close d c node = some r ∧ (r.1 = false → r.2 = c) := by
  obtain ⟨others, rA, _, hA, _, hfalse, _⟩ :=
    CoverByAll_spec d c node hwf.children hwf.parents hnode
      (fun i hi => ⟨hwf.insts _ i hi, hwf.reach_outgoing i (hwf.insts _ i hi)⟩)
  by_cases hcov : (c.covered_by node).isSome = true
  · exact ⟨(true, c), by simp [Close, hcov], by simp⟩
  · exact ⟨rA, by simp [Close, hcov, hA], hfalse⟩

theorem Reach_cases {T : Type} (d : Duality T) (x y : Nat) (h : Reach d x y) :
    y = x ∨ ∃ ch, Child d x ch ∧ Reach d ch y := by
  rcases Relation.ReflTransGen.cases_head h with h1 | ⟨ch, hch, hr⟩
  · exact Or.inl h1.symm
  · exact Or.inr ⟨ch, hch, hr⟩

theorem CloseDescendantsLoop_first {T : Type} [BooleanAlgebra T]
    [DecidableRel ((· ≤ ·) : T → T → Prop)] (d : Duality T) (c : Covering)
    (call : List Nat → Covering → Nat → Option (Bool × Covering × List Nat))
    (good : Nat → Prop)
    (hcall : ∀ memo n, good n → (∀ m ∈ memo, ∀ y, Reach d m y → CloseFails d c y) →
      ∃ r, call memo c n = some r
        ∧ (r.1 = false → r.2.1 = c ∧ (∀ m ∈ r.2.2, ∀ y, Reach d m y → CloseFails d c y)
            ∧ memo ⊆ r.2.2 ∧ n ∈ r.2.2)
        ∧ (r.1 = true → ∃ x, Reach d n x ∧ Close d c x = some (true, r.2.1)
            ∧ ∀ y, Reach d x y → y ≠ x → CloseFails d c y)) :
    ∀ (chs memo : List Nat), (∀ ch ∈ chs, good ch) →
      (∀ m ∈ memo, ∀ y, Reach d m y → CloseFails d c y) →
      ∃ r, CloseDescendantsLoop call chs memo c = some r
        ∧ (r.1 = false → r.2.1 = c ∧ (∀ m ∈ r.2.2, ∀ y, Reach d m y → CloseFails d c y)
            ∧ memo ⊆ r.2.2 ∧ ∀ ch ∈ chs, ch ∈ r.2.2)
        ∧ (r.1 = true → ∃ ch ∈ chs, ∃ x, Reach d ch x ∧ Close d c x = some (true, r.2.1)
            ∧ ∀ y, Reach d x y → y ≠ x → CloseFails d c y) := by
  intro chs
  induction chs with
  | nil =>
    intro memo _ hmemo
    exact ⟨(false, c, memo), rfl, fun _ => ⟨rfl, hmemo, fun _ h => h, by simp⟩, by simp⟩
  | cons ch chs ih =>
    intro memo hgood hmemo
    obtain ⟨r1, hr1, hf1, ht1⟩ := hcall memo ch (hgood ch (List.mem_cons_self _ _)) hmemo
    obtain ⟨b1, c1, m1⟩ := r1
    cases b1 with
    | true =>
      refine ⟨(true, c1, m1), by simp [CloseDescendantsLoop, hr1], by simp, fun _ => ?_⟩
      obtain ⟨x, hx, hcl, hd⟩ := ht1 rfl
      exact ⟨ch, List.mem_cons_self _ _, x, hx, hcl, hd⟩
    | false =>
      obtain ⟨hc1, hm1, hsub1, hch1⟩ := hf1 rfl
      dsimp only at hc1 hm1 hsub1 hch1
      subst hc1
      obtain ⟨r, hr, hf, ht⟩ :=
        ih m1 (fun x hx => hgood x (List.mem_cons_of_mem _ hx)) hm1
      refine ⟨r, by simp [CloseDescendantsLoop, hr1, hr], ?_, ?_⟩
      · intro hb
        obtain ⟨h1, h2, h3, h4⟩ := hf hb
        refine ⟨h1, h2, fun _ h => h3 (hsub1 h), ?_⟩
        intro x hx
        rcases List.mem_cons.1 hx with rfl | hx
        · exact h3 hch1
        · exact h4 x hx
      · intro hb
        obtain ⟨ch2, hch2, x, hx⟩ := ht hb
        exact ⟨ch2, List.mem_cons_of_mem _ hch2, x, hx⟩

theorem CloseDescendantsRec_first {T : Type} [BooleanAlgebra T]
    [DecidableRel ((· ≤ ·) : T → T → Prop)] (d : Duality T) (hwf : UnwindingWF d)
    (rank : Nat → Nat)
    (hrank : ∀ x ∈ d.unwinding.nodes, ∀ y, Child d x y → rank y < rank x) (c : Covering) :
    ∀ (fuel : Nat) (memo : List Nat) (node : Nat),
      node ∈ d.unwinding.nodes → rank node < fuel →
      (∀ m ∈ memo, ∀ y, Reach d m y → CloseFails d c y) →
      ∃ r, CloseDescendantsRec d fuel memo c node = some r
        ∧ (r.1 = false → r.2.1 = c ∧ (∀ m ∈ r.2.2, ∀ y, Reach d m y → CloseFails d c y)
            ∧ memo ⊆ r.2.2 ∧ node ∈ r.2.2)
        ∧ (r.1 = true → ∃ x, Reach d node x ∧ Close d c x = some (true, r.2.1)
            ∧ ∀ y, Reach d x y → y ≠ x → CloseFails d c y) := by
  intro fuel
  induction fuel with
  | zero => intro memo node _ h; omega
  | succ f ih =>
    intro memo node hnode hfuel hmemo
    unfold CloseDescendantsRec
    by_cases hm : node ∈ memo
    · rw [if_pos hm]
      exact ⟨(false, c, memo), rfl, fun _ => ⟨rfl, hmemo, fun _ h => h, hm⟩, by simp⟩
    · rw [if_neg hm]
      have hout := hwf.outgoing node hnode
      obtain ⟨e, he⟩ := Option.isSome_iff_exists.1 hout
      rw [he]
      have hchild : ∀ ch ∈ e.Children, ch ∈ d.unwinding.nodes ∧ rank ch < f := by
        intro ch hch
        have hc : Child d node ch := ⟨e, he, hch⟩
        exact ⟨hwf.children node hnode ch hc, by have := hrank node hnode ch hc; omega⟩
      obtain ⟨r, hr, hf, ht⟩ :=
        CloseDescendantsLoop_first d c (CloseDescendantsRec d f)
          (fun n => n ∈ d.unwinding.nodes ∧ rank n < f)
          (fun memo n hn hmemo => ih memo n hn.1 hn.2 hmemo) e.Children memo hchild hmemo
      dsimp only
      rw [hr]
      obtain ⟨b, c2, memo2⟩ := r
      cases b with
      | true =>
        refine ⟨(true, c2, memo2), rfl, by simp, fun _ => ?_⟩
        obtain ⟨ch, hch, x, hx, hcl, hd⟩ := ht rfl
        exact ⟨x, Relation.ReflTransGen.head ⟨e, he, hch⟩ hx, hcl, hd⟩
      | false =>
        obtain ⟨hc2, hm2, hsub, hchs⟩ := hf rfl
        dsimp only at hc2 hm2 hsub hchs
        subst hc2
        have hbelow : ∀ y, Reach d node y → y ≠ node → CloseFails d c2 y := by
          intro y hy hne
          rcases Reach_cases d node y hy with h1 | ⟨ch, ⟨e2, he2, hch⟩, hr2⟩
          · exact absurd h1 hne
          · rw [he] at he2
            cases he2
            exact hm2 ch (hchs ch hch) y hr2
        obtain ⟨rc, hrc, hrcf⟩ := Close_total d hwf c2 node hnode
        dsimp only
        rw [hrc]
        obtain ⟨bc, c3⟩ := rc
        cases bc with
        | true =>
          exact ⟨(true, c3, memo2), rfl, by simp,
            fun _ => ⟨node, Relation.ReflTransGen.refl, hrc, hbelow⟩⟩
        | false =>
          have hc3 : c3 = c2 := hrcf rfl
          subst hc3
          refine ⟨(false, c3, node :: memo2), rfl, fun _ => ⟨rfl, ?_, ?_, by simp⟩, by simp⟩
          · intro m hmem y hy
            rcases List.mem_cons.1 hmem with rfl | hmem
            · by_cases hyn : y = m
              · subst hyn
                exact ⟨c3, hrc⟩
              · exact hbelow y hy hyn
            · exact hm2 m hmem y hy
          · exact fun _ h => List.mem_cons_of_mem _ (hsub h)

/-- C12 (amended): on a well-formed unwinding without cycles, `CloseDescendants(node)`
returns; it tries `Close` on the nodes reachable from `node` through `Outgoing`
children, the children of a node before the node itself, and stops at the first
`Close` that succeeds.  It returns false iff `Close` fails on every reachable node,
and then the cover relation is unchanged; when it returns true, the cover relation is
the one left by a successful `Close(x)` at a reachable node `x` all of whose proper
descendants `Close` fails on. -/
theorem C12_CloseDescendants {T : Type} [BooleanAlgebra T]
    [DecidableRel ((· ≤ ·) : T → T → Prop)] (d : Duality T) (hwf : UnwindingWF d)
    (rank : Nat → Nat) (hrank : IsHeight d rank) (c : Covering) (node : Nat)
    (hnode : node ∈ d.unwinding.nodes) :
    ∃ r, CloseDescendants d c node = some r
      ∧ (r.1 = false ↔ ∀ x, Reach d node x → CloseFails d c x)
      ∧ (r.1 = false → r.2 = c)
      ∧ (r.1 = true → ∃ x, Reach d node x ∧ Close d c x = some (true, r.2)
          ∧ ∀ y, Reach d x y → y ≠ x → CloseFails d c y) := by
  obtain ⟨r, hr, hf, ht⟩ :=
    CloseDescendantsRec_first d hwf rank hrank.1 c (d.unwinding.nodes.length + 1) [] node
      hnode (by have := hrank.2 node hnode; omega) (by simp)
  refine ⟨(r.1, r.2.1), by simp [CloseDescendants, hr], ?_, fun h => (hf h).1, ht⟩
  constructor
  · intro h x hx
    obtain ⟨_, hm, _, hn⟩ := hf h
    exact hm node hn x hx
  · intro h
    cases hb : r.1 with
    | false => rfl
    | true =>
      obtain ⟨x, hx, hcl, _⟩ := ht hb
      obtain ⟨cx, hcx⟩ := h x hx
      rw [hcl] at hcx
      cases hcx

theorem exTwoChildren_wf : UnwindingWF exTwoChildren :=
  UnwindingWF_of_B exTwoChildren [0]
    (fun m hm => by
      have h0 : m ≠ 0 := fun h => hm (by simp [h])
      simp [exTwoChildren, h0])
    (by decide) (by decide) (by decide) (by decide) (by decide) (by decide)

/-- Witness for C12 on `exTwoChildren`: `CloseDescendants(3)` returns true with the
cover relation left by `Close(1)`. -/
theorem C12_CloseDescendants_witness :
    UnwindingWF exTwoChildren
      ∧ IsHeight exTwoChildren (fun n => if n = 3 then 1 else 0)
      ∧ (3 : Nat) ∈ exTwoChildren.unwinding.nodes
      ∧ ∃ r, CloseDescendants exTwoChildren Covering.new 3 = some r
          ∧ (r.1 = false ↔ ∀ x, Reach exTwoChildren 3 x →
              CloseFails exTwoChildren Covering.new x)
          ∧ (r.1 = false → r.2 = Covering.new)
          ∧ (r.1 = true → ∃ x, Reach exTwoChildren 3 x
              ∧ Close exTwoChildren Covering.new x = some (true, r.2)
              ∧ ∀ y, Reach exTwoChildren x y → y ≠ x →
                  CloseFails exTwoChildren Covering.new y) :=
  ⟨exTwoChildren_wf, IsHeight_of_B _ _ (by decide), by decide,
    C12_CloseDescendants exTwoChildren exTwoChildren_wf (fun n => if n = 3 then 1 else 0)
      (IsHeight_of_B _ _ (by decide)) Covering.new 3 (by decide)⟩

/-- Counterexample to C12 as stated, on `exTwoChildren`: `CloseDescendants(3)` returns
as soon as `Close(1)` has succeeded, so that instance 2 is left uncovered, whereas
applying `Close` to every descendant covers instance 2 as well, and `Close(2)` does
succeed in the state that `CloseDescendants(3)` returns. -/
theorem C12_CloseDescendants_counterexample :
    (CloseDescendants exTwoChildren Covering.new 3).map
        (fun r => (r.1, r.2.covered_by 1, r.2.covered_by 2))
      = some (true, some 1, none)
    ∧ (CloseEveryDescendant exTwoChildren Covering.new 3).map
        (fun c => (c.covered_by 1, c.covered_by 2))
      = some (some 1, some 2)
    ∧ ((CloseDescendants exTwoChildren Covering.new 3).bind
        (fun r => Close exTwoChildren r.2 2)).map (fun r => (r.1, r.2.covered_by 2))
      = some (true, some 2) := by
  decide

/-! ### The dominance test `Covering::Dominates` -/

theorem DominatesLoop_true_iff {T : Type} (d : Duality T) (c : Covering) :
    ∀ (ncs ocs : List Nat),
      DominatesLoop d c ncs ocs = some true ↔ List.Forall₂ (ChildDominated d c) ncs ocs := by
  intro ncs
  induction ncs with
  | nil =>
    intro ocs
    cases ocs with
    | nil => simp [DominatesLoop]
    | cons oc ocs => simp [DominatesLoop]
  | cons nc ncs ih =>
    intro ocs
    cases ocs with
    | nil => simp [DominatesLoop]
    | cons oc ocs =>
      rw [List.forall₂_cons]
      unfold DominatesLoop
      by_cases heq : nc = oc
      · rw [if_pos heq, ih]
        exact ⟨fun h => ⟨Or.inl heq, h⟩, fun h => h.2⟩
      · rw [if_neg heq]
        cases hO : d.unwinding.Outgoing oc with
        | none =>
          constructor
          · intro h; cases h
          · rintro ⟨h | ⟨e, he, _⟩, _⟩
            · exact absurd h heq
            · rw [hO] at he; cases he
        | some e =>
          dsimp only
          by_cases hcond : (e.map = none || c.dominates nc oc) = true
          · rw [if_pos hcond, ih]
            refine ⟨fun h => ⟨Or.inr ⟨e, hO, ?_⟩, h⟩, fun h => h.2⟩
            simpa using hcond
          · rw [if_neg hcond]
            constructor
            · intro h; cases h
            · rintro ⟨h | ⟨e2, he2, h2⟩, _⟩
              · exact absurd h heq
              · rw [hO] at he2
                cases he2
                exact absurd (by simpa using h2) hcond

/-- The characterisation of `Dominates` by the test on the children. -/
theorem Dominates_true_iff {T : Type} (d : Duality T) (c : Covering) (a b : Nat) :
    Dominates d c a b = some true ↔
      a ≠ b ∧ ∃ oe, d.unwinding.Outgoing b = some oe ∧
        (oe.map = none ∨ ∃ ne, d.unwinding.Outgoing a = some ne ∧ ne.map = oe.map
          ∧ List.Forall₂ (ChildDominated d c) ne.Children oe.Children) := by
  unfold Dominates
  by_cases hab : a = b
  · rw [if_pos hab]
    constructor
    · intro h; cases h
    · intro h; exact absurd hab h.1
  · rw [if_neg hab]
    cases hO : d.unwinding.Outgoing b with
    | none =>
      constructor
      · intro h; cases h
      · rintro ⟨_, oe, he, _⟩; cases he
    | some oe =>
      dsimp only
      by_cases hleaf : oe.map = none
      · rw [if_pos hleaf]
        exact ⟨fun _ => ⟨hab, oe, rfl, Or.inl hleaf⟩, fun _ => rfl⟩
      · rw [if_neg hleaf]
        cases hN : d.unwinding.Outgoing a with
        | none =>
          constructor
          · intro h; cases h
          · rintro ⟨_, oe2, he2, h | ⟨ne, hne, _⟩⟩
            · cases he2; exact absurd h hleaf
            · cases hne
        | some ne =>
          dsimp only
          by_cases hmap : ne.map = oe.map
          · rw [if_pos hmap, DominatesLoop_true_iff]
            constructor
            · intro h
              exact ⟨hab, oe, rfl, Or.inr ⟨ne, rfl, hmap, h⟩⟩
            · rintro ⟨_, oe2, he2, h | ⟨ne2, hne2, _, h⟩⟩
              · cases he2; exact absurd h hleaf
              · cases he2; cases hne2; exact h
          · rw [if_neg hmap]
            constructor
            · intro h; cases h
            · rintro ⟨_, oe2, he2, h | ⟨ne2, hne2, h2, _⟩⟩
              · cases he2; exact absurd h hleaf
              · cases he2; cases hne2; exact absurd h2 hmap

/-- C13 (amended): `Dominates(a, b)` is true iff `a` and `b` are different instances
and either the `Outgoing` edge of `b` is a lower-bound edge, or `a` and `b` instantiate
the same input edge, with as many children, and at every child position the two
children are equal, or the child of `b` has a lower-bound edge, or the child of `a` is
recorded in its set `dominates` as dominating the child of `b`. -/
theorem C13_Dominates_iff {T : Type} (d : Duality T) (c : Covering) (a b : Nat) :
    Dominates d c a b = some true ↔
      a ≠ b ∧ ∃ oe, d.unwinding.Outgoing b = some oe ∧
        (oe.map = none ∨ ∃ ne, d.unwinding.Outgoing a = some ne ∧ ne.map = oe.map
          ∧ List.Forall₂ (ChildDominated d c) ne.Children oe.Children) := by
  constructor
  · intro h
    exact (Dominates_true_iff d c a b).1 h
  · intro h
    exact (Dominates_true_iff d c a b).2 h

/-- Counterexample to C13 as stated, on `exDominates`: instances 2 and 3 are different
instances of the same input edge, their children 0 and 1 are different instances of
one input edge without children, so that `Dominates(0, 1)` is true and the relation
of the claim holds of the pair (2, 3); but `Add(0)` ran before instance 1 was
expanded, the set `dominates(0)` is empty, and `Dominates(2, 3)` is false. -/
theorem C13_Dominates_counterexample :
    Dominates exDominates exDominates_c 0 1 = some true
      ∧ DominatesRec exDominates 2 2 3
      ∧ (exDominates_c.cm 0).dominates = []
      ∧ Dominates exDominates exDominates_c 2 3 = some false := by
  refine ⟨by decide, ?_, by decide, by decide⟩
  refine ⟨by decide, _, rfl, Or.inr ⟨_, rfl, rfl, ?_⟩⟩
  refine List.Forall₂.cons (Or.inr (Or.inr ?_)) List.Forall₂.nil
  exact ⟨by decide, _, rfl, Or.inr ⟨_, rfl, rfl, List.Forall₂.nil⟩⟩

theorem Forall₂_trans_of {α : Type} (R : α → α → Prop)
    (htrans : ∀ x y z, R x y → R y z → R x z) :
    ∀ (l1 l2 l3 : List α), List.Forall₂ R l1 l2 → List.Forall₂ R l2 l3 →
      List.Forall₂ R l1 l3 := by
  intro l1 l2 l3 h12
  induction h12 generalizing l3 with
  | nil => intro h; cases h; exact List.Forall₂.nil
  | cons hxy _ ih =>
    intro h
    cases h with
    | cons hyz ht => exact List.Forall₂.cons (htrans _ _ _ hxy hyz) (ih _ ht)

/-- Dominance composes between different end points when the test on the children
does. -/
theorem Dominates_trans_of {T : Type} (d : Duality T) (c : Covering)
    (htrans : ∀ x y z, ChildDominated d c x y → ChildDominated d c y z →
      ChildDominated d c x z)
    (a b e : Nat) (hae : a ≠ e) (hab : Dominates d c a b = some true)
    (hbe : Dominates d c b e = some true) : Dominates d c a e = some true := by
  rw [Dominates_true_iff] at hab hbe ⊢
  obtain ⟨_, be, hbO, hb⟩ := hab
  obtain ⟨_, ee, heO, he⟩ := hbe
  refine ⟨hae, ee, heO, ?_⟩
  rcases he with hleaf | ⟨be2, hbO2, hmap2, hall2⟩
  · exact Or.inl hleaf
  · rw [hbO] at hbO2
    cases hbO2
    rcases hb with hleafb | ⟨ae, haO, hmap1, hall1⟩
    · by_cases hel : ee.map = none
      · exact Or.inl hel
      · right
        exfalso
        rw [hleafb] at hmap2
        exact hel hmap2.symm
    · exact Or.inr ⟨ae, haO, hmap1.trans hmap2,
        Forall₂_trans_of _ htrans _ _ _ hall1 hall2⟩

theorem DominatesLoop_congr {T : Type} (d d2 : Duality T) (c c2 : Covering) :
    ∀ (ncs ocs : List Nat),
      (∀ oc ∈ ocs, d2.unwinding.Outgoing oc = d.unwinding.Outgoing oc) →
      (∀ nc ∈ ncs, ∀ oc, c2.dominates nc oc = c.dominates nc oc) →
      DominatesLoop d2 c2 ncs ocs = DominatesLoop d c ncs ocs := by
  intro ncs
  induction ncs with
  | nil =>
    intro ocs _ _
    cases ocs <;> rfl
  | cons nc ncs ih =>
    intro ocs hO hD
    cases ocs with
    | nil => rfl
    | cons oc ocs =>
      have ih2 := ih ocs (fun x hx => hO x (List.mem_cons_of_mem _ hx))
        (fun x hx => hD x (List.mem_cons_of_mem _ hx))
      unfold DominatesLoop
      rw [ih2, hO oc (List.mem_cons_self _ _), hD nc (List.mem_cons_self _ _) oc]

/-- The answer of `Dominates(a, b)` depends on the `Outgoing` edges of `a`, of `b` and
of the children of `b`, and on the `dominates` sets of the children of `a`. -/
theorem Dominates_congr {T : Type} (d d2 : Duality T) (c c2 : Covering) (a b : Nat)
    (ha : d2.unwinding.Outgoing a = d.unwinding.Outgoing a)
    (hb : d2.unwinding.Outgoing b = d.unwinding.Outgoing b)
    (hbc : ∀ e, d.unwinding.Outgoing b = some e → ∀ oc ∈ e.Children,
      d2.unwinding.Outgoing oc = d.unwinding.Outgoing oc)
    (hac : ∀ e, d.unwinding.Outgoing a = some e → ∀ nc ∈ e.Children, ∀ oc,
      c2.dominates nc oc = c.dominates nc oc) :
    Dominates d2 c2 a b = Dominates d c a b := by
  unfold Dominates
  rw [ha, hb]
  by_cases hab : a = b
  · rw [if_pos hab, if_pos hab]
  · rw [if_neg hab, if_neg hab]
    cases hO : d.unwinding.Outgoing b with
    | none => rfl
    | some oe =>
      dsimp only
      by_cases hleaf : oe.map = none
      · rw [if_pos hleaf, if_pos hleaf]
      · rw [if_neg hleaf, if_neg hleaf]
        cases hN : d.unwinding.Outgoing a with
        | none => rfl
        | some ne =>
          dsimp only
          by_cases hmap : ne.map = oe.map
          · rw [if_pos hmap, if_pos hmap]
            exact DominatesLoop_congr d d2 c c2 _ _ (hbc oe hO) (hac ne hN)
          · rw [if_neg hmap, if_neg hmap]

theorem ChildDominated_mono {T : Type} (d : Duality T) (c c2 : Covering)
    (hmono : ∀ x y, c.dominates x y = true → c2.dominates x y = true) (x y : Nat)
    (h : ChildDominated d c x y) : ChildDominated d c2 x y := by
  rcases h with h | ⟨e, he, h | h⟩
  · exact Or.inl h
  · exact Or.inr ⟨e, he, Or.inl h⟩
  · exact Or.inr ⟨e, he, Or.inr (hmono x y h)⟩

/-- A pair that `Dominates` accepts stays accepted when the `dominates` sets grow. -/
theorem Dominates_mono {T : Type} (d : Duality T) (c c2 : Covering)
    (hmono : ∀ x y, c.dominates x y = true → c2.dominates x y = true) (a b : Nat)
    (h : Dominates d c a b = some true) : Dominates d c2 a b = some true := by
  rw [Dominates_true_iff] at h ⊢
  obtain ⟨hab, oe, hO, h⟩ := h
  refine ⟨hab, oe, hO, ?_⟩
  rcases h with h | ⟨ne, hN, hmap, hall⟩
  · exact Or.inl h
  · exact Or.inr ⟨ne, hN, hmap, hall.imp (fun x y hxy => ChildDominated_mono d c c2 hmono x y hxy)⟩

theorem AddLoop_cons_true {T : Type} (d : Duality T) (node other : Nat) (insts : List Nat)
    (c : Covering) (h : Dominates d c node other = some true) :
    AddLoop d node (other :: insts) c = AddLoop d node insts (AddInsert c node other) := by
  rw [AddLoop, h]
  rfl

theorem AddLoop_cons_false {T : Type} (d : Duality T) (node other : Nat) (insts : List Nat)
    (c : Covering) (h : Dominates d c node other = some false) :
    AddLoop d node (other :: insts) c = AddLoop d node insts c := by
  rw [AddLoop, h]

theorem AddInsert_dominates (c : Covering) (node other : Nat) (hne : node ≠ other)
    (x y : Nat) :
    (AddInsert c node other).dominates x y = true
      ↔ c.dominates x y = true ∨ (x = node ∧ y = other) := by
  simp only [AddInsert, Covering.dominates, decide_eq_true_eq]
  by_cases hxo : x = other
  · have hxn : x ≠ node := fun e => hne (e.symm.trans hxo)
    rw [hxo, Function.update_same]
    rw [hxo] at hxn
    simp [Function.update_noteq hxn, hxn]
  · rw [Function.update_noteq hxo]
    by_cases hxn : x = node
    · rw [hxn, Function.update_same]
      by_cases hin : other ∈ (c.cm node).dominates
      · simp only [if_pos hin, true_and]
        constructor
        · exact fun h => Or.inl h
        · rintro (h | h)
          · exact h
          · rw [h]; exact hin
      · simp only [if_neg hin, true_and, List.mem_append, List.mem_singleton]
    · rw [Function.update_noteq hxn]
      simp [hxn]

/-- The `dominates` sets after the loop of `Add(node)`: `node` is recorded as
dominating the members of the list that `Dominates` accepts, and nothing else
changes. -/
theorem AddLoop_dominates {T : Type} (d : Duality T) (node : Nat)
    (hself : ∀ e, d.unwinding.Outgoing node = some e → node ∉ e.Children) :
    ∀ (insts : List Nat) (c c2 : Covering), AddLoop d node insts c = some c2 →
      ∀ x y, c2.dominates x y = true ↔
        c.dominates x y = true
          ∨ (x = node ∧ y ∈ insts ∧ Dominates d c node y = some true) := by
  intro insts
  induction insts with
  | nil =>
    intro c c2 h x y
    simp only [AddLoop, Option.some.injEq] at h
    rw [h]
    simp
  | cons other insts ih =>
    intro c c2 h x y
    cases hD : Dominates d c node other with
    | none =>
      rw [AddLoop, hD] at h
      cases h
    | some b =>
      cases b with
      | false =>
        rw [AddLoop_cons_false d node other insts c hD] at h
        rw [ih c c2 h x y]
        constructor
        · rintro (h1 | ⟨h1, h2, h3⟩)
          · exact Or.inl h1
          · exact Or.inr ⟨h1, List.mem_cons_of_mem _ h2, h3⟩
        · rintro (h1 | ⟨h1, h2, h3⟩)
          · exact Or.inl h1
          · rcases List.mem_cons.1 h2 with e | h2
            · rw [e, hD] at h3
              cases h3
            · exact Or.inr ⟨h1, h2, h3⟩
      | true =>
        rw [AddLoop_cons_true d node other insts c hD] at h
        have hne : node ≠ other := by
          intro e
          rw [← e] at hD
          simp [Dominates] at hD
        have hcongr : ∀ y, Dominates d (AddInsert c node other) node y
            = Dominates d c node y := by
          intro y
          apply Dominates_congr d d _ _ node y rfl rfl (fun _ _ _ _ => rfl)
          intro e he nc hnc oc
          have hncn : nc ≠ node := fun e2 => hself e he (e2 ▸ hnc)
          have h1 := AddInsert_dominates c node other hne nc oc
          cases h2 : Covering.dominates c nc oc with
          | true => exact h1.2 (Or.inl h2)
          | false =>
            cases h3 : (AddInsert c node other).dominates nc oc with
            | false => rfl
            | true =>
              rcases h1.1 h3 with h4 | ⟨h4, _⟩
              · rw [h2] at h4; cases h4
              · exact absurd h4 hncn
        rw [ih _ c2 h x y, hcongr, AddInsert_dominates c node other hne]
        constructor
        · rintro ((h1 | ⟨h1, h2⟩) | ⟨h1, h2, h3⟩)
          · exact Or.inl h1
          · rw [h2]
            exact Or.inr ⟨h1, List.mem_cons_self _ _, hD⟩
          · exact Or.inr ⟨h1, List.mem_cons_of_mem _ h2, h3⟩
        · rintro (h1 | ⟨h1, h2, h3⟩)
          · exact Or.inl (Or.inl h1)
          · rcases List.mem_cons.1 h2 with e | h2
            · exact Or.inl (Or.inr ⟨h1, e⟩)
            · exact Or.inr ⟨h1, h2, h3⟩

/-- In a state with the invariant `DomInv` the test that `Dominates` makes on the
children is transitive. -/
theorem ChildDominated_trans_of_DomInv {T : Type} (d : Duality T) (c : Covering)
    (hI : DomInv d c) :
    ∀ x y z, ChildDominated d c x y → ChildDominated d c y z → ChildDominated d c x z := by
  intro x y z hxy hyz
  by_cases hxz : x = z
  · exact Or.inl hxz
  rcases hyz with hyz | ⟨ez, hez, hz⟩
  · rw [← hyz]; exact hxy
  rcases hz with hz | hz
  · exact Or.inr ⟨ez, hez, Or.inl hz⟩
  rcases hxy with hxy | ⟨ey, hey, hy⟩
  · rw [hxy]; exact Or.inr ⟨ez, hez, Or.inr hz⟩
  rcases hy with hy | hy
  · have hs := (Dominates_true_iff d c y z).1 (hI.sound y z hz)
    obtain ⟨_, oe, hoe, hcase⟩ := hs
    rw [hez] at hoe
    cases hoe
    rcases hcase with hleaf | ⟨ne, hne, hmap, _⟩
    · exact Or.inr ⟨ez, hez, Or.inl hleaf⟩
    · rw [hey] at hne
      cases hne
      rw [hy] at hmap
      exact Or.inr ⟨ez, hez, Or.inl hmap.symm⟩
  · exact Or.inr ⟨ez, hez, Or.inr (hI.closed x y z hy hz hxz)⟩

theorem DomInv_init {T : Type} (d : Duality T) (hn : d.unwinding.nodes = [])
    (hi : ∀ m, d.insts_of_node m = []) : DomInv d Covering.new := by
  have hnew : ∀ x y, Covering.new.dominates x y = false := by
    intro x y
    simp [Covering.dominates, Covering.new, cover_info.default]
  refine ⟨?_, ?_, ?_, ?_, ?_, ?_⟩
  · intro x hx; rw [hn] at hx; cases hx
  · intro m x hx; rw [hi] at hx; cases hx
  · intro x y h; rw [hnew] at h; cases h
  · intro x y h; rw [hnew] at h; cases h
  · intro x y h; rw [hnew] at h; cases h
  · intro x y z h; rw [hnew] at h; cases h

theorem DomInv_frame {T : Type} (d d2 : Duality T) (c c2 : Covering) (hI : DomInv d c)
    (hn : d2.unwinding.nodes = d.unwinding.nodes)
    (hO : d2.unwinding.Outgoing = d.unwinding.Outgoing)
    (hm : d2.unwinding.map = d.unwinding.map)
    (hi : ∀ m x, x ∈ d2.insts_of_node m ↔ x ∈ d.insts_of_node m)
    (hc : ∀ x, (c2.cm x).dominates = (c.cm x).dominates) : DomInv d2 c2 := by
  have hdom : ∀ x y, c2.dominates x y = c.dominates x y := by
    intro x y
    simp [Covering.dominates, hc]
  have hD : ∀ a b, Dominates d2 c2 a b = Dominates d c a b := by
    intro a b
    exact Dominates_congr d d2 c c2 a b (by rw [hO]) (by rw [hO])
      (fun _ _ _ _ => by rw [hO]) (fun _ _ _ _ oc => hdom _ oc)
  refine ⟨?_, ?_, ?_, ?_, ?_, ?_⟩
  · intro x hx
    rw [hn] at hx
    rw [hO, hn]
    exact hI.out x hx
  · intro m x hx
    rw [hn, hm]
    exact hI.insts m x ((hi m x).1 hx)
  · intro x y h
    rw [hn]
    exact hI.stored_alloc x y (by rw [← hdom]; exact h)
  · intro x y h
    rw [hm, hi]
    exact hI.stored_insts x y (by rw [← hdom]; exact h)
  · intro x y h
    rw [hD]
    exact hI.sound x y (by rw [← hdom]; exact h)
  · intro x y z h1 h2 hxz
    rw [hdom] at h1 h2 ⊢
    exact hI.closed x y z h1 h2 hxz

theorem DomInv_expand {T : Type} (d : Duality T) (c : Covering) (node : Nat)
    (hI : DomInv d c) (hnode : node ∈ d.unwinding.nodes) :
    DomInv (ExpandNodeInsts d node) c := by
  have hmem : ∀ m x, x ∈ d.insts_of_node m → x ∈ (ExpandNodeInsts d node).insts_of_node m := by
    intro m x hx
    simp only [ExpandNodeInsts]
    by_cases hm : m = d.unwinding.map node
    · rw [hm, Function.update_same]
      rw [hm] at hx
      exact List.mem_append_left _ hx
    · rw [Function.update_noteq hm]
      exact hx
  refine ⟨hI.out, ?_, hI.stored_alloc, ?_, ?_, hI.closed⟩
  · intro m x hx
    simp only [ExpandNodeInsts] at hx
    by_cases hm : m = d.unwinding.map node
    · rw [hm, Function.update_same, List.mem_append, List.mem_singleton] at hx
      rcases hx with hx | hx
      · rw [hm]; exact hI.insts _ x hx
      · rw [hx, hm]; exact ⟨hnode, rfl⟩
    · rw [Function.update_noteq hm] at hx
      exact hI.insts m x hx
  · intro x y h
    exact hmem _ y (hI.stored_insts x y h)
  · intro x y h
    have := hI.sound x y h
    rw [← this]
    exact Dominates_congr d _ c c x y rfl rfl (fun _ _ _ _ => rfl) (fun _ _ _ _ _ => rfl)

/-- A new instance with an `Outgoing` edge over instances that exist keeps the
invariant. -/
theorem DomInv_fresh {T : Type} (d d2 : Duality T) (c : Covering) (inst : Nat) (e : Edge)
    (hI : DomInv d c) (hfresh : inst ∉ d.unwinding.nodes)
    (hnodes : d2.unwinding.nodes = d.unwinding.nodes ++ [inst])
    (hout : ∀ x, x ≠ inst → d2.unwinding.Outgoing x = d.unwinding.Outgoing x)
    (hmap : ∀ x, x ≠ inst → d2.unwinding.map x = d.unwinding.map x)
    (hinsts : d2.insts_of_node = d.insts_of_node)
    (he : d2.unwinding.Outgoing inst = some e)
    (hch : ∀ y ∈ e.Children, y ∈ d.unwinding.nodes) : DomInv d2 c := by
  have hne : ∀ x ∈ d.unwinding.nodes, x ≠ inst := fun x hx e => hfresh (e ▸ hx)
  refine ⟨?_, ?_, ?_, ?_, ?_, hI.closed⟩
  · intro x hx
    rw [hnodes, List.mem_append, List.mem_singleton] at hx
    rcases hx with hx | hx
    · obtain ⟨e2, he2, hc2⟩ := hI.out x hx
      refine ⟨e2, by rw [hout x (hne x hx)]; exact he2, ?_⟩
      intro y hy
      rw [hnodes]
      exact ⟨List.mem_append_left _ (hc2 y hy).1, (hc2 y hy).2⟩
    · rw [hx]
      refine ⟨e, he, ?_⟩
      intro y hy
      rw [hnodes]
      exact ⟨List.mem_append_left _ (hch y hy), hne y (hch y hy)⟩
  · intro m x hx
    rw [hinsts] at hx
    obtain ⟨h1, h2⟩ := hI.insts m x hx
    rw [hnodes, hmap x (hne x h1)]
    exact ⟨List.mem_append_left _ h1, h2⟩
  · intro x y h
    rw [hnodes]
    exact List.mem_append_left _ (hI.stored_alloc x y h)
  · intro x y h
    rw [hinsts, hmap x (hne x (hI.stored_alloc x y h))]
    exact hI.stored_insts x y h
  · intro x y h
    have hx := hI.stored_alloc x y h
    have hy := (hI.insts _ y (hI.stored_insts x y h)).1
    rw [← hI.sound x y h]
    apply Dominates_congr d d2 c c x y (hout x (hne x hx)) (hout y (hne y hy))
    · intro e2 he2 oc hoc
      obtain ⟨e3, he3, hc3⟩ := hI.out y hy
      rw [he2] at he3
      cases he3
      exact hout oc (hne oc (hc3 oc hoc).1)
    · intro _ _ _ _ _
      rfl

theorem DomInv_extend {T : Type} [BooleanAlgebra T] (d : Duality T) (c : Covering)
    (edge : InputEdge) (children : List Nat) (inst : Nat) (number : Int) (bound : T)
    (hI : DomInv d c) (hfresh : inst ∉ d.unwinding.nodes)
    (hch : ∀ ch ∈ children, ch ∈ d.unwinding.nodes) :
    DomInv (CreateEdgeInstance (CreateNodeInstance d edge.Parent inst number bound) edge inst
      children) c := by
  apply DomInv_fresh d _ c inst { map := some edge.F, Parent := inst, Children := children }
    hI hfresh
  · rfl
  · intro x hx
    simp [CreateEdgeInstance, CreateNodeInstance, Function.update_noteq hx]
  · intro x hx
    simp [CreateEdgeInstance, CreateNodeInstance, Function.update_noteq hx]
  · rfl
  · simp [CreateEdgeInstance, CreateNodeInstance]
  · exact hch

theorem DomInv_leaf {T : Type} [BooleanAlgebra T] (d : Duality T) (c : Covering)
    (node inst : Nat) (number : Int) (bound : T)
    (hI : DomInv d c) (hfresh : inst ∉ d.unwinding.nodes) :
    DomInv (CreateLowerBoundEdge (CreateNodeInstance d node inst number bound) inst) c := by
  apply DomInv_fresh d _ c inst { map := none, Parent := inst, Children := [] } hI hfresh
  · rfl
  · intro x hx
    simp [CreateLowerBoundEdge, CreateNodeInstance, Function.update_noteq hx]
  · intro x hx
    simp [CreateLowerBoundEdge, CreateNodeInstance, Function.update_noteq hx]
  · rfl
  · simp [CreateLowerBoundEdge, CreateNodeInstance]
  · intro y hy
    cases hy

/-- The call `Add(node)` on an instance that is not expanded keeps the invariant. -/
theorem DomInv_add {T : Type} (d : Duality T) (c c2 : Covering) (node : Nat)
    (hI : DomInv d c) (hnode : node ∈ d.unwinding.nodes)
    (hun : node ∉ d.insts_of_node (d.unwinding.map node))
    (hadd : Covering.Add d c node = some c2) : DomInv d c2 := by
  have hself : ∀ e, d.unwinding.Outgoing node = some e → node ∉ e.Children := by
    intro e he hmem
    obtain ⟨e2, he2, hc2⟩ := hI.out node hnode
    rw [he] at he2
    cases he2
    exact (hc2 node hmem).2 rfl
  have hchar := AddLoop_dominates d node hself _ c c2 hadd
  have hmono : ∀ x y, c.dominates x y = true → c2.dominates x y = true :=
    fun x y h => (hchar x y).2 (Or.inl h)
  have htr := ChildDominated_trans_of_DomInv d c hI
  -- every recorded pair ends in an expanded instance, which `node` is not
  have hend : ∀ x y, c2.dominates x y = true → y ≠ node := by
    intro x y h e
    have hin : y ∈ d.insts_of_node (d.unwinding.map x) := by
      rcases (hchar x y).1 h with h1 | ⟨h1, h2, _⟩
      · exact hI.stored_insts x y h1
      · rw [h1]; exact h2
    have hmap := (hI.insts _ y hin).2
    rw [← hmap, e] at hin
    exact hun hin
  have hsound : ∀ x y, c2.dominates x y = true → Dominates d c x y = some true := by
    intro x y h
    rcases (hchar x y).1 h with h1 | ⟨h1, _, h3⟩
    · exact hI.sound x y h1
    · rw [h1]; exact h3
  refine ⟨hI.out, hI.insts, ?_, ?_, ?_, ?_⟩
  · intro x y h
    rcases (hchar x y).1 h with h1 | ⟨h1, _, _⟩
    · exact hI.stored_alloc x y h1
    · rw [h1]; exact hnode
  · intro x y h
    rcases (hchar x y).1 h with h1 | ⟨h1, h2, _⟩
    · exact hI.stored_insts x y h1
    · rw [h1]; exact h2
  · intro x y h
    exact Dominates_mono d c c2 hmono x y (hsound x y h)
  · intro x y z hxy hyz hxz
    have hyn : y ≠ node := hend x y hxy
    have hyz1 : c.dominates y z = true := by
      rcases (hchar y z).1 hyz with h1 | ⟨h1, _, _⟩
      · exact h1
      · exact absurd h1 hyn
    rcases (hchar x y).1 hxy with h1 | ⟨h1, h2, h3⟩
    · exact hmono x z (hI.closed x y z h1 hyz1 hxz)
    · apply (hchar x z).2
      right
      refine ⟨h1, ?_, ?_⟩
      · have hmy : d.unwinding.map y = d.unwinding.map node := (hI.insts _ y h2).2
        rw [← hmy]
        exact hI.stored_insts y z hyz1
      · exact Dominates_trans_of d c htr node y z (h1 ▸ hxz) h3 (hI.sound y z hyz1)

/-- Every state that the solver reaches with stratified inlining off has the invariant
`DomInv`. -/
theorem DomInv_of_reachable {T : Type} [BooleanAlgebra T] (d : Duality T) (c : Covering)
    (h : DomReachable d c) : DomInv d c := by
  induction h with
  | init d hn hi => exact DomInv_init d hn hi
  | extend d c edge children inst number bound _ hfresh hch ih =>
    exact DomInv_extend d c edge children inst number bound ih hfresh hch
  | leaf d c node inst number bound _ hfresh ih =>
    exact DomInv_leaf d c node inst number bound ih hfresh
  | add d c c2 node _ hnode hun hadd ih => exact DomInv_add d c c2 node ih hnode hun hadd
  | expand d c node _ hnode ih => exact DomInv_expand d c node ih hnode
  | frame d d2 c c2 _ hn hO hm hi hc ih => exact DomInv_frame d d2 c c2 ih hn hO hm hi hc

/-- C14 (amended): `Dominates` is irreflexive, `Dominates(a, a)` being false for every
instance.  It is transitive between different end points, `Dominates(a, b)` and
`Dominates(b, c)` giving `Dominates(a, c)` when `a` and `c` differ, provided the test
that `Dominates` makes on the children (equal, or the second a leaf, or recorded in
`dominates`) is transitive; and that test is transitive, and dominance with it, in every
state that the solver reaches with stratified inlining off. -/
theorem C14_Dominates_order {T : Type} [BooleanAlgebra T] (d : Duality T) (c : Covering) :
    (∀ a, Dominates d c a a = some false)
      ∧ ((∀ x y z, ChildDominated d c x y → ChildDominated d c y z →
            ChildDominated d c x z) →
          ∀ a b e, a ≠ e → Dominates d c a b = some true → Dominates d c b e = some true →
            Dominates d c a e = some true)
      ∧ (DomReachable d c →
          (∀ x y z, ChildDominated d c x y → ChildDominated d c y z →
            ChildDominated d c x z)
          ∧ ∀ a b e, a ≠ e → Dominates d c a b = some true → Dominates d c b e = some true →
            Dominates d c a e = some true) := by
  refine ⟨?_, ?_, ?_⟩
  · intro a
    simp [Dominates]
  · intro htrans a b e hae hab hbe
    exact Dominates_trans_of d c htrans a b e hae hab hbe
  · intro hr
    have htrans := ChildDominated_trans_of_DomInv d c (DomInv_of_reachable d c hr)
    exact ⟨htrans, fun a b e hae hab hbe => Dominates_trans_of d c htrans a b e hae hab hbe⟩

/-- The run `exDomRun` is a run of the solver with stratified inlining off. -/
theorem exDomRun_reachable : DomReachable exDomRun exDomRun_c3 := by
  have h0 : DomReachable exDomRun0 Covering.new := DomReachable.init _ rfl (fun _ => rfl)
  have h1 : DomReachable exDomRun1 Covering.new :=
    DomReachable.expand _ _ 0
      (DomReachable.extend _ _ exDomEdge5 [] 0 1 true h0 (by decide) (by simp)) (by decide)
  have h2 : DomReachable exDomRun2 Covering.new :=
    DomReachable.extend _ _ exDomEdge5 [] 1 2 true h1 (by decide) (by simp)
  have h2c : DomReachable exDomRun2 exDomRun_c1 :=
    DomReachable.add _ _ _ 1 h2 (by decide) (by decide) rfl
  have h3a : DomReachable
      (ExpandNodeInsts
        (CreateEdgeInstance (CreateNodeInstance (ExpandNodeInsts exDomRun2 1) 1 2 3 true)
          exDomEdge6 2 [0]) 2) exDomRun_c1 :=
    DomReachable.expand _ _ 2
      (DomReachable.extend _ _ exDomEdge6 [0] 2 3 true
        (DomReachable.expand _ _ 1 h2c (by decide)) (by decide) (by decide)) (by decide)
  have h3 : DomReachable exDomRun3 exDomRun_c1 :=
    DomReachable.extend _ _ exDomEdge6 [1] 3 4 true h3a (by decide) (by decide)
  have h3c : DomReachable exDomRun3 exDomRun_c2 :=
    DomReachable.add _ _ _ 3 h3 (by decide) (by decide) rfl
  have h4 : DomReachable exDomRun4 exDomRun_c2 :=
    DomReachable.extend _ _ exDomEdge6 [0] 4 5 true
      (DomReachable.expand _ _ 3 h3c (by decide)) (by decide) (by decide)
  have h4c : DomReachable exDomRun4 exDomRun_c3 :=
    DomReachable.add _ _ _ 4 h4 (by decide) (by decide) rfl
  exact DomReachable.expand _ _ 4 h4c (by decide)

/-- Witness for C14 on the run `exDomRun`: instance 3 dominates instance 4 by the pair
recorded for their children 1 and 0, instance 4 dominates instance 2, whose child is its
own, and instance 3 dominates instance 2. -/
theorem C14_Dominates_order_witness :
    DomReachable exDomRun exDomRun_c3
      ∧ exDomRun_c3.dominates 1 0 = true
      ∧ Dominates exDomRun exDomRun_c3 3 4 = some true
      ∧ Dominates exDomRun exDomRun_c3 4 2 = some true
      ∧ Dominates exDomRun exDomRun_c3 3 2 = some true :=
  ⟨exDomRun_reachable, by decide, by decide, by decide,
    ((C14_Dominates_order exDomRun exDomRun_c3).2.2 exDomRun_reachable).2 3 4 2 (by decide)
      (by decide) (by decide)⟩

/-- The ranks that `DoTopoSort` gives the input nodes of the run of `exStratified`: input
node 0 ranks below input node 1, so `GetNodeOutgoing` on the leaf of input node 1 takes
the leaf of input node 0 as the child, and on the leaf of input node 0, whose child does
not rank below it, makes a stratified leaf. -/
theorem exStratifiedInput_TopoSort :
    DoTopoSort exStratifiedInput = some ([(1, 3), (0, 2)], 4) := by
  decide

/-- Counterexample to C14 as stated.  On `exTwoChildren`, `Dominates(1, 1)` is false, so
the relation is not reflexive, and the leaves 1 and 2 dominate each other while 1 does
not dominate 1, so it is not transitive.  On `exStratified`, a state of a run with
stratified inlining, it is not transitive between different end points either: `Add(2)`
recorded that the stratified leaf 2 dominates the leaf 1 while the leaf 1 had its
lower-bound edge, and the leaf 1 got the edge 1 afterwards; instance 5 dominates
instance 1, whose child 2 is a leaf, instance 1 dominates instance 4 by the recorded
pair of their children 2 and 1, and instance 5 does not dominate instance 4, no pair
being recorded for their children 3 and 1. -/
theorem C14_Dominates_order_counterexample :
    Dominates exTwoChildren Covering.new 1 1 = some false
      ∧ Dominates exTwoChildren Covering.new 1 2 = some true
      ∧ Dominates exTwoChildren Covering.new 2 1 = some true
      ∧ Dominates exStratifiedBefore Covering.new 2 1 = some true
      ∧ exStratified_c.dominates 2 1 = true
      ∧ exStratified_c.dominates 3 1 = false
      ∧ Dominates exStratified exStratified_c 5 1 = some true
      ∧ Dominates exStratified exStratified_c 1 4 = some true
      ∧ Dominates exStratified exStratified_c 5 4 = some false := by
  decide

/-! ### Back-edge counters -/

theorem counterGet_counterSet (m : List (Nat × Int)) (k : Nat) (v : Int) (k2 : Nat) :
    counterGet (counterSet m k v) k2 = if k2 = k then v else counterGet m k2 := by
  induction m with
  | nil =>
    by_cases h : k2 = k
    · simp [counterSet, counterGet, h]
    · have h2 : ¬ k = k2 := fun e => h e.symm
      simp [counterSet, counterGet, h, h2]
  | cons p m ih =>
    obtain ⟨k1, v1⟩ := p
    unfold counterSet
    by_cases h1 : k1 = k
    · rw [if_pos h1]
      by_cases h : k2 = k
      · simp [counterGet, h]
      · have h2 : ¬ k = k2 := fun e => h e.symm
        have h3 : ¬ k1 = k2 := fun e => h (by rw [← e, h1])
        simp [counterGet, h, h2, h3]
    · rw [if_neg h1]
      unfold counterGet
      by_cases h3 : k1 = k2
      · have h : ¬ k2 = k := fun e => h1 (by rw [h3, e])
        simp [h3, h]
      · rw [if_neg h3, if_neg h3, ih]

theorem counterSet_keys (m : List (Nat × Int)) (k : Nat) (v : Int) (x : Nat) :
    x ∈ (counterSet m k v).map Prod.fst ↔ x = k ∨ x ∈ m.map Prod.fst := by
  induction m with
  | nil => simp [counterSet]
  | cons p m ih =>
    obtain ⟨k1, v1⟩ := p
    unfold counterSet
    by_cases h1 : k1 = k
    · rw [if_pos h1]
      simp only [List.map_cons, List.mem_cons]
      rw [h1]
      tauto
    · rw [if_neg h1]
      simp only [List.map_cons, List.mem_cons]
      rw [ih]
      tauto

theorem counterSet_nodup (m : List (Nat × Int)) (k : Nat) (v : Int)
    (h : (m.map Prod.fst).Nodup) : ((counterSet m k v).map Prod.fst).Nodup := by
  induction m with
  | nil => simp [counterSet]
  | cons p m ih =>
    obtain ⟨k1, v1⟩ := p
    simp only [List.map_cons, List.nodup_cons] at h
    unfold counterSet
    by_cases h1 : k1 = k
    · rw [if_pos h1]
      simp only [List.map_cons, List.nodup_cons]
      rw [← h1]
      exact h
    · rw [if_neg h1]
      simp only [List.map_cons, List.nodup_cons]
      refine ⟨?_, ih h.2⟩
      rw [counterSet_keys]
      rintro (h2 | h2)
      · exact h1 h2
      · exact h.1 h2

theorem counterGet_of_not_key (m : List (Nat × Int)) (k : Nat)
    (h : k ∉ m.map Prod.fst) : counterGet m k = 0 := by
  induction m with
  | nil => rfl
  | cons p m ih =>
    obtain ⟨k1, v1⟩ := p
    simp only [List.map_cons, List.mem_cons, not_or] at h
    unfold counterGet
    rw [if_neg (fun e => h.1 e.symm)]
    exact ih h.2

theorem counterGet_of_mem (m : List (Nat × Int)) (h : (m.map Prod.fst).Nodup) (k : Nat)
    (v : Int) (hm : (k, v) ∈ m) : counterGet m k = v := by
  induction m with
  | nil => cases hm
  | cons p m ih =>
    obtain ⟨k1, v1⟩ := p
    simp only [List.map_cons, List.nodup_cons] at h
    unfold counterGet
    rcases List.mem_cons.1 hm with heq | hm2
    · cases heq
      simp
    · have hne : k1 ≠ k := by
        intro e
        apply h.1
        rw [e]
        exact List.mem_map.2 ⟨(k, v), hm2, rfl⟩
      rw [if_neg hne]
      exact ih h.2 hm2

theorem counterGet_mem (m : List (Nat × Int)) (k : Nat) (h : counterGet m k ≠ 0) :
    (k, counterGet m k) ∈ m := by
  induction m with
  | nil => exact absurd rfl h
  | cons p m ih =>
    obtain ⟨k1, v1⟩ := p
    unfold counterGet at h ⊢
    by_cases h1 : k1 = k
    · rw [if_pos h1] at h ⊢
      rw [h1]
      exact List.mem_cons_self _ _
    · rw [if_neg h1] at h ⊢
      exact List.mem_cons_of_mem _ (ih h)

theorem counterGet_nonneg (m : List (Nat × Int)) (h : ∀ it ∈ m, 0 ≤ it.2) (k : Nat) :
    0 ≤ counterGet m k := by
  by_cases h0 : counterGet m k = 0
  · omega
  · exact h _ (counterGet_mem m k h0)

theorem counterGet_le (m : List (Nat × Int)) (B : Int) (hB : 0 ≤ B) (h : ∀ it ∈ m, it.2 ≤ B)
    (k : Nat) : counterGet m k ≤ B := by
  by_cases h0 : counterGet m k = 0
  · omega
  · exact h _ (counterGet_mem m k h0)

/-- The join of the counters `chv` into `nov` is the pointwise maximum. -/
theorem counter_join (chv : List (Nat × Int)) :
    ∀ (nov : List (Nat × Int)), (chv.map Prod.fst).Nodup → (∀ m, 0 ≤ counterGet nov m) →
      ∀ m, counterGet (chv.foldl
          (fun nov it => counterSet nov it.1 (max (counterGet nov it.1) it.2)) nov) m
        = max (counterGet nov m) (counterGet chv m) := by
  induction chv with
  | nil =>
    intro nov _ hnn m
    have := hnn m
    simp only [List.foldl_nil, counterGet]
    omega
  | cons p chv ih =>
    intro nov hnd hnn m
    obtain ⟨k, v⟩ := p
    simp only [List.map_cons, List.nodup_cons] at hnd
    rw [List.foldl_cons]
    have hnn1 : ∀ m, 0 ≤ counterGet (counterSet nov k (max (counterGet nov k) v)) m := by
      intro m
      rw [counterGet_counterSet]
      by_cases hm : m = k
      · rw [if_pos hm]
        have := hnn k
        omega
      · rw [if_neg hm]
        exact hnn m
    have hcons : counterGet ((k, v) :: chv) m = if k = m then v else counterGet chv m := rfl
    rw [ih _ hnd.2 hnn1 m, counterGet_counterSet, hcons]
    by_cases hm : m = k
    · rw [if_pos hm, if_pos hm.symm]
      subst hm
      rw [counterGet_of_not_key chv m hnd.1]
      have := hnn m
      omega
    · rw [if_neg hm, if_neg (fun e => hm e.symm)]

theorem UpdateBackEdgesStep_spec {T : Type} (d : Duality T) (node : Nat)
    (be : Nat → List (Nat × Int)) (child : Nat) (hwf : CounterWF (be child))
    (hnn : ∀ m, 0 ≤ counterGet (be node) m) :
    (∀ m, counterGet (UpdateBackEdgesStep d node be child node) m
        = max (counterGet (be node) m)
            (if m = d.unwinding.map child
                ∧ d.TopoSort (d.unwinding.map child) ≥ d.TopoSort (d.unwinding.map node)
             then counterGet (be child) m + 1 else counterGet (be child) m))
      ∧ ∀ x, x ≠ node → UpdateBackEdgesStep d node be child x = be x := by
  constructor
  · intro m
    unfold UpdateBackEdgesStep
    simp only [Function.update_same]
    by_cases hb : d.TopoSort (d.unwinding.map child) ≥ d.TopoSort (d.unwinding.map node)
    · simp only [hb, decide_True, if_true, and_true]
      rw [counter_join _ _ (counterSet_nodup _ _ _ hwf.1) hnn m, counterGet_counterSet]
      by_cases hm : m = d.unwinding.map child
      · rw [if_pos hm, if_pos hm, hm]
      · rw [if_neg hm, if_neg hm]
    · simp only [hb, decide_False, and_false, if_false, Bool.false_eq_true]
      rw [counter_join _ _ hwf.1 hnn m]
  · intro x hx
    unfold UpdateBackEdgesStep
    simp [Function.update_noteq hx]

theorem foldl_max_ge_init (l : List Int) : ∀ (a : Int), a ≤ l.foldl max a := by
  induction l with
  | nil => intro a; simp
  | cons x l ih =>
    intro a
    rw [List.foldl_cons]
    have := ih (max a x)
    omega

theorem foldl_max_ge_mem (l : List Int) : ∀ (a x : Int), x ∈ l → x ≤ l.foldl max a := by
  induction l with
  | nil => intro a x h; cases h
  | cons y l ih =>
    intro a x h
    rw [List.foldl_cons]
    rcases List.mem_cons.1 h with rfl | h
    · have := foldl_max_ge_init l (max a x)
      omega
    · exact ih _ x h

theorem foldl_max_le (l : List Int) (B : Int) (h : ∀ x ∈ l, x ≤ B) :
    ∀ (a : Int), a ≤ B → l.foldl max a ≤ B := by
  induction l with
  | nil => intro a ha; simpa using ha
  | cons y l ih =>
    intro a ha
    rw [List.foldl_cons]
    apply ih (fun x hx => h x (List.mem_cons_of_mem _ hx))
    have := h y (List.mem_cons_self _ _)
    omega

theorem UpdateBackEdges_loop {T : Type} (d : Duality T) (node : Nat) :
    ∀ (chs : List Nat) (be : Nat → List (Nat × Int)),
      node ∉ chs → (∀ ch ∈ chs, be ch = d.back_edges ch) →
      (∀ ch ∈ chs, CounterWF (d.back_edges ch)) → (∀ m, 0 ≤ counterGet (be node) m) →
      (∀ m, counterGet (chs.foldl (UpdateBackEdgesStep d node) be node) m
          = (chs.map (fun ch => childCounter d node ch m)).foldl max (counterGet (be node) m))
        ∧ ∀ x, x ≠ node → chs.foldl (UpdateBackEdgesStep d node) be x = be x := by
  intro chs
  induction chs with
  | nil => intro be _ _ _ _; simp
  | cons ch chs ih =>
    intro be hnot hbe hwf hnn
    have hch : ch ≠ node := fun e => hnot (by simp [e])
    have hwf1 : CounterWF (be ch) := by
      rw [hbe ch (List.mem_cons_self _ _)]
      exact hwf ch (List.mem_cons_self _ _)
    obtain ⟨hs1, hs2⟩ := UpdateBackEdgesStep_spec d node be ch hwf1 hnn
    have hnn1 : ∀ m, 0 ≤ counterGet (UpdateBackEdgesStep d node be ch node) m := by
      intro m
      rw [hs1]
      have := hnn m
      omega
    obtain ⟨h1, h2⟩ := ih (UpdateBackEdgesStep d node be ch)
      (fun h => hnot (List.mem_cons_of_mem _ h))
      (fun x hx => by
        have hxn : x ≠ node := fun e => hnot (by simp [← e, hx])
        rw [hs2 x hxn]
        exact hbe x (List.mem_cons_of_mem _ hx))
      (fun x hx => hwf x (List.mem_cons_of_mem _ hx)) hnn1
    constructor
    · intro m
      rw [List.foldl_cons, h1 m, hs1 m, List.map_cons, List.foldl_cons]
      unfold childCounter
      rw [hbe ch (List.mem_cons_self _ _)]
    · intro x hx
      rw [List.foldl_cons, h2 x hx, hs2 x hx]

/-- C24: after `UpdateBackEdges(n)` on a freshly created instance `n` with the children
`c1..ck`, for every input node `m` the counter `back_edges[n][m]` is the maximum over
`i` of `v_i(m)`, where `v_i(m)` is `back_edges[c_i][m] + 1` if `m = c_i.map` and
`TopoSort[c_i.map] >= TopoSort[n.map]`, and `back_edges[c_i][m]` otherwise (0 without
children); the counters of the other instances are unchanged, each counter of `n` is at
least the counter of each child, and the parent of a past-bound child is past bound. -/
theorem C24_UpdateBackEdges_max {T : Type} (d : Duality T) (node : Nat) (e : Edge)
    (hO : d.unwinding.Outgoing node = some e) (hfresh : d.back_edges node = [])
    (hnot : node ∉ e.Children) (hwf : ∀ ch ∈ e.Children, CounterWF (d.back_edges ch)) :
    ∃ d2, UpdateBackEdges d node = some d2
      ∧ (∀ m, counterGet (d2.back_edges node) m
          = (e.Children.map (fun ch => childCounter d node ch m)).foldl max 0)
      ∧ (∀ x, x ≠ node → d2.back_edges x = d.back_edges x)
      ∧ (∀ ch ∈ e.Children, ∀ m,
          counterGet (d.back_edges ch) m ≤ counterGet (d2.back_edges node) m)
      ∧ (∀ ch ∈ e.Children, NodePastRecursionBound d ch = true →
          NodePastRecursionBound d2 node = true) := by
  obtain ⟨h1, h2⟩ := UpdateBackEdges_loop d node e.Children d.back_edges hnot
    (fun _ _ => rfl) hwf (by rw [hfresh]; intro m; simp [counterGet])
  have hget : ∀ m, counterGet
      (e.Children.foldl (UpdateBackEdgesStep d node) d.back_edges node) m
      = (e.Children.map (fun ch => childCounter d node ch m)).foldl max 0 := by
    intro m
    rw [h1 m, hfresh]
    rfl
  have hge : ∀ ch ∈ e.Children, ∀ m, counterGet (d.back_edges ch) m
      ≤ counterGet (e.Children.foldl (UpdateBackEdgesStep d node) d.back_edges node) m := by
    intro ch hch m
    rw [hget m]
    have hmem : childCounter d node ch m
        ∈ e.Children.map (fun ch => childCounter d node ch m) :=
      List.mem_map.2 ⟨ch, hch, rfl⟩
    have := foldl_max_ge_mem _ 0 _ hmem
    have hc : counterGet (d.back_edges ch) m ≤ childCounter d node ch m := by
      unfold childCounter
      split <;> omega
    omega
  refine ⟨{ d with back_edges := e.Children.foldl (UpdateBackEdgesStep d node) d.back_edges },
    by simp only [UpdateBackEdges, hO], hget, h2, hge, ?_⟩
  intro ch hch hpast
  unfold NodePastRecursionBound at hpast ⊢
  by_cases hrb : d.RecursionBound < 0
  · rw [if_pos hrb] at hpast
    cases hpast
  · rw [if_neg hrb] at hpast
    dsimp only
    rw [if_neg hrb]
    rw [List.any_eq_true] at hpast ⊢
    obtain ⟨⟨k, v⟩, hkv, hv⟩ := hpast
    simp only [decide_eq_true_eq] at hv
    have hgk := counterGet_of_mem _ (hwf ch hch).1 k v hkv
    have hle := hge ch hch k
    rw [hgk] at hle
    refine ⟨(k, _), counterGet_mem _ k (by omega), ?_⟩
    simp only [decide_eq_true_eq]
    omega

/-- Witness for C24: in the state `exBeforeCounters`, `UpdateBackEdges(2)` for the
instance 2 with the child 1, reached over a back edge, gives the counter 1 for the
input node 0. -/
theorem C24_UpdateBackEdges_max_witness :
    exBeforeCounters.unwinding.Outgoing 2 = some { map := some 2, Parent := 2, Children := [1] }
      ∧ (UpdateBackEdges exBeforeCounters 2).map (fun d2 => d2.back_edges 2)
          = some [(0, 1)]
      ∧ ∃ d2, UpdateBackEdges exBeforeCounters 2 = some d2
        ∧ (∀ m, counterGet (d2.back_edges 2) m
            = ([1].map (fun ch => childCounter exBeforeCounters 2 ch m)).foldl max 0)
        ∧ (∀ x, x ≠ 2 → d2.back_edges x = exBeforeCounters.back_edges x)
        ∧ (∀ ch ∈ [1], ∀ m,
            counterGet (exBeforeCounters.back_edges ch) m ≤ counterGet (d2.back_edges 2) m)
        ∧ (∀ ch ∈ [1], NodePastRecursionBound exBeforeCounters ch = true →
            NodePastRecursionBound d2 2 = true) :=
  ⟨rfl, by decide,
    C24_UpdateBackEdges_max exBeforeCounters 2 { map := some 2, Parent := 2, Children := [1] }
      rfl rfl (by decide) (fun ch _ => ⟨by simp [exBeforeCounters], by simp [exBeforeCounters]⟩)⟩

theorem counterSet_allLe (m : List (Nat × Int)) (k : Nat) (v B : Int)
    (h : ∀ it ∈ m, it.2 ≤ B) (hv : v ≤ B) : ∀ it ∈ counterSet m k v, it.2 ≤ B := by
  induction m with
  | nil =>
    intro it hit
    simp only [counterSet, List.mem_singleton] at hit
    rw [hit]
    exact hv
  | cons p m ih =>
    obtain ⟨k1, v1⟩ := p
    intro it hit
    unfold counterSet at hit
    by_cases h1 : k1 = k
    · rw [if_pos h1] at hit
      rcases List.mem_cons.1 hit with rfl | hit
      · exact hv
      · exact h it (List.mem_cons_of_mem _ hit)
    · rw [if_neg h1] at hit
      rcases List.mem_cons.1 hit with rfl | hit
      · exact h _ (List.mem_cons_self _ _)
      · exact ih (fun x hx => h x (List.mem_cons_of_mem _ hx)) it hit

theorem counter_join_allLe (B : Int) (hB : 0 ≤ B) (chv : List (Nat × Int)) :
    ∀ (nov : List (Nat × Int)), (∀ it ∈ chv, it.2 ≤ B) → (∀ it ∈ nov, it.2 ≤ B) →
      ∀ it ∈ chv.foldl
          (fun nov it => counterSet nov it.1 (max (counterGet nov it.1) it.2)) nov,
        it.2 ≤ B := by
  induction chv with
  | nil => intro nov _ hnov; simpa using hnov
  | cons p chv ih =>
    intro nov hchv hnov
    rw [List.foldl_cons]
    apply ih _ (fun x hx => hchv x (List.mem_cons_of_mem _ hx))
    apply counterSet_allLe _ _ _ _ hnov
    have h1 := counterGet_le nov B hB hnov p.1
    have h2 := hchv p (List.mem_cons_self _ _)
    omega

theorem not_past_bound_allLe {T : Type} (d : Duality T) (hrb : 0 ≤ d.RecursionBound)
    (ch : Nat) (h : NodePastRecursionBound d ch = false) :
    ∀ it ∈ d.back_edges ch, it.2 ≤ d.RecursionBound := by
  unfold NodePastRecursionBound at h
  rw [if_neg (by omega)] at h
  intro it hit
  by_contra hlt
  have : (d.back_edges ch).any (fun it => decide (it.2 > d.RecursionBound)) = true :=
    List.any_eq_true.2 ⟨it, hit, by simp only [decide_eq_true_eq]; omega⟩
  rw [this] at h
  cases h

theorem UpdateBackEdges_loop_allLe {T : Type} (d : Duality T) (node : Nat) (B : Int)
    (hB : 1 ≤ B) :
    ∀ (chs : List Nat) (be : Nat → List (Nat × Int)),
      node ∉ chs → (∀ ch ∈ chs, ∀ it ∈ be ch, it.2 + 1 ≤ B) →
      (∀ it ∈ be node, it.2 ≤ B) →
      ∀ it ∈ chs.foldl (UpdateBackEdgesStep d node) be node, it.2 ≤ B := by
  intro chs
  induction chs with
  | nil => intro be _ _ h; simpa using h
  | cons ch chs ih =>
    intro be hnot hch hnode
    rw [List.foldl_cons]
    have hne : ∀ x ∈ chs, x ≠ node := fun x hx e => hnot (by simp [← e, hx])
    apply ih _ (fun h => hnot (List.mem_cons_of_mem _ h))
    · intro x hx it hit
      have : UpdateBackEdgesStep d node be ch x = be x := by
        unfold UpdateBackEdgesStep
        simp [Function.update_noteq (hne x hx)]
      rw [this] at hit
      exact hch x (List.mem_cons_of_mem _ hx) it hit
    · unfold UpdateBackEdgesStep
      simp only [Function.update_same]
      apply counter_join_allLe B (by omega) _ _ _ hnode
      have h0 : ∀ it ∈ be ch, it.2 + 1 ≤ B := hch ch (List.mem_cons_self _ _)
      have h1 : ∀ it ∈ be ch, it.2 ≤ B := fun it hit => by have := h0 it hit; omega
      split
      · apply counterSet_allLe _ _ _ _ h1
        by_cases hz : counterGet (be ch) (d.unwinding.map ch) = 0
        · omega
        · have := h0 _ (counterGet_mem _ _ hz)
          exact this
      · exact h1

/-! ### The recursion bound -/

theorem CandidateFeasible_true_not_past {T : Type} [BooleanAlgebra T] (d : Duality T)
    (c : Covering) (be : Backend T) (cand : Candidate) (level l : Nat)
    (hfe : d.FeasibleEdges = true)
    (h : CandidateFeasible d c be cand level = some (true, l)) :
    ∀ ch ∈ cand.Children, NodePastRecursionBound d ch = false := by
  unfold CandidateFeasible at h
  simp only [hfe, Bool.not_true, Bool.false_eq_true, if_false] at h
  by_cases hany : cand.Children.any (NodePastRecursionBound d) = true
  · rw [if_pos hany] at h
    cases h
  · intro ch hch
    cases hp : NodePastRecursionBound d ch with
    | false => rfl
    | true => exact absurd (List.any_eq_true.2 ⟨ch, hch, hp⟩) hany

/-- C15 (amended): with `RecursionBound = k >= 0` and `feasible_edges` on, the instance
that `Extend` creates for a candidate that `CandidateFeasible` accepted has all of its
back-edge counters at most `k + 1`: the children of the candidate are not past the
bound, and `UpdateBackEdges` adds at most one to a counter of a child. -/
theorem C15_counters_bounded {T : Type} [BooleanAlgebra T] (d : Duality T) (c : Covering)
    (be : Backend T) (cand : Candidate) (level l inst : Nat) (number : Int) (bound : T)
    (hfe : d.FeasibleEdges = true) (hrb : 0 ≤ d.RecursionBound)
    (hfeas : CandidateFeasible d c be cand level = some (true, l))
    (hfresh : d.back_edges inst = []) (hnot : inst ∉ cand.Children) :
    ∃ d2, ExtendInstance d cand inst number bound = some d2
      ∧ ∀ it ∈ d2.back_edges inst, it.2 ≤ d.RecursionBound + 1 := by
  have hch := CandidateFeasible_true_not_past d c be cand level l hfe hfeas
  have hO : (CreateEdgeInstance (CreateNodeInstance d cand.edge.Parent inst number bound)
      cand.edge inst cand.Children).unwinding.Outgoing inst
      = some { map := some cand.edge.F, Parent := inst, Children := cand.Children } := by
    simp [CreateEdgeInstance]
  refine ⟨{ (CreateEdgeInstance (CreateNodeInstance d cand.edge.Parent inst number bound)
      cand.edge inst cand.Children) with
    back_edges := cand.Children.foldl
      (UpdateBackEdgesStep (CreateEdgeInstance
        (CreateNodeInstance d cand.edge.Parent inst number bound) cand.edge inst
        cand.Children) inst) d.back_edges },
    by simp only [ExtendInstance, UpdateBackEdges, hO]; rfl, ?_⟩
  dsimp only
  apply UpdateBackEdges_loop_allLe _ inst (d.RecursionBound + 1) (by omega) cand.Children
    d.back_edges hnot
  · intro ch hc it hit
    have := not_past_bound_allLe d hrb ch (hch ch hc) it hit
    omega
  · rw [hfresh]
    intro it hit
    cases hit

/-- Witness for C15: the candidate `exCandidate` is feasible in `exBeforeExtend`, and
the instance 2 made for it has the counter 1 for the input node 0. -/
theorem C15_counters_bounded_witness :
    exBeforeExtend.FeasibleEdges = true ∧ 0 ≤ exBeforeExtend.RecursionBound
      ∧ CandidateFeasible exBeforeExtend Covering.new exBackendSat exCandidate 0
          = some (true, 0)
      ∧ exBeforeExtend.back_edges 2 = [] ∧ 2 ∉ exCandidate.Children
      ∧ ∃ d2, ExtendInstance exBeforeExtend exCandidate 2 3 Finset.univ = some d2
          ∧ ∀ it ∈ d2.back_edges 2, it.2 ≤ exBeforeExtend.RecursionBound + 1 :=
  ⟨rfl, by decide, rfl, rfl, by decide,
    C15_counters_bounded exBeforeExtend Covering.new exBackendSat exCandidate 0 0 2 3
      Finset.univ rfl (by decide) rfl rfl (by decide)⟩

/-- Counterexample to C15 as stated, for the rules `P(0)` and `P(x + 1) :- P(x)` with
`RecursionBound = 0`: the candidate on instance 1, which is not past the bound, is
feasible, and the instance 2 that `Extend` creates for it has the counter 1 for the
input node `P`, which exceeds the bound 0. -/
theorem C15_counters_bounded_counterexample :
    exBeforeExtend.RecursionBound = 0
      ∧ CandidateFeasible exBeforeExtend Covering.new exBackendSat exCandidate 0
          = some (true, 0)
      ∧ (ExtendInstance exBeforeExtend exCandidate 2 3 Finset.univ).map
          (fun d2 => (d2.back_edges 2, NodePastRecursionBound d2 2))
          = some ([(0, 1)], true) := by
  refine ⟨rfl, rfl, ?_⟩
  decide

/-- C16 (amended): with `feasible_edges` on, `CandidateFeasible` returns false for every
candidate one of whose children is past the recursion bound, so that the main loop,
which extends only with candidates that `CandidateFeasible` accepts, does not extend
with it; and with a negative `RecursionBound` no node is past the bound. -/
theorem C16_CandidateFeasible_past_bound {T : Type} [BooleanAlgebra T] (d : Duality T)
    (c : Covering) (be : Backend T) (cand : Candidate) (level : Nat) :
    (d.FeasibleEdges = true → (∃ ch ∈ cand.Children, NodePastRecursionBound d ch = true) →
        (CandidateFeasible d c be cand level).map Prod.fst = some false)
      ∧ (d.RecursionBound < 0 → ∀ n, NodePastRecursionBound d n = false) := by
  constructor
  · intro hfe hch
    have hany : cand.Children.any (NodePastRecursionBound d) = true := by
      obtain ⟨ch, hc, hp⟩ := hch
      exact List.any_eq_true.2 ⟨ch, hc, hp⟩
    unfold CandidateFeasible
    simp [hfe, hany]
  · intro hrb n
    unfold NodePastRecursionBound
    rw [if_pos hrb]

/-- Witness for C16: in `exBounded` (`RecursionBound = 0`, `feasible_edges` on) the
candidate on the past-bound instance 2 is rejected. -/
theorem C16_CandidateFeasible_past_bound_witness :
    exBounded.FeasibleEdges = true
      ∧ (∃ ch ∈ exCandidatePastBound.Children, NodePastRecursionBound exBounded ch = true)
      ∧ exUnbounded.RecursionBound < 0
      ∧ ((exBounded.FeasibleEdges = true →
            (∃ ch ∈ exCandidatePastBound.Children,
              NodePastRecursionBound exBounded ch = true) →
            (CandidateFeasible exBounded Covering.new exBackendSat exCandidatePastBound
              0).map Prod.fst = some false)
          ∧ (exBounded.RecursionBound < 0 →
              ∀ n, NodePastRecursionBound exBounded n = false))
      ∧ ∀ n, NodePastRecursionBound exUnbounded n = false :=
  ⟨rfl, ⟨2, by decide, by decide⟩, by decide,
    C16_CandidateFeasible_past_bound exBounded Covering.new exBackendSat exCandidatePastBound 0,
    (C16_CandidateFeasible_past_bound exUnbounded Covering.new exBackendSat
      exCandidatePastBound 0).2 (by decide)⟩

/-- Counterexample to C16 as stated: with `feasible_edges` off and `RecursionBound =
0`, `CandidateFeasible` returns true for the candidate on the past-bound instance 2,
because it begins with `if(!FeasibleEdges) return true;`. -/
theorem C16_CandidateFeasible_counterexample :
    ({ exBounded with FeasibleEdges := false } : Duality (Finset (Fin 3))).RecursionBound = 0
      ∧ NodePastRecursionBound
          ({ exBounded with FeasibleEdges := false } : Duality (Finset (Fin 3))) 2 = true
      ∧ CandidateFeasible ({ exBounded with FeasibleEdges := false } : Duality (Finset (Fin 3)))
          Covering.new exBackendSat exCandidatePastBound 0 = some (true, 0) := by
  refine ⟨rfl, by decide, rfl⟩

/-- C17 (failing input): in `exBounded` (`RecursionBound = 0`, `feasible_edges` on) the
candidate on the past-bound instance 2 makes `CandidateFeasible` return false from
inside the loop over the children, after `checker->Push()` and without
`checker->Pop(1)`: entered at scope level 0 it returns at level 1.  The candidate on
instance 1, which is not past the bound, takes the path through `Pop(1)` and returns
at level 0. -/
theorem C17_CandidateFeasible_scope_level :
    CandidateFeasible exBounded Covering.new exBackendSat exCandidatePastBound 0
        = some (false, 1)
      ∧ CandidateFeasible exBounded Covering.new exBackendSat exCandidate 0
        = some (true, 0) := by
  exact ⟨rfl, rfl⟩

/-! ### `UpdateNodeToNode` and `MakeLeaf` -/

theorem mem_setInsert (s : List Nat) (x : Nat) : x ∈ setInsert s x := by
  unfold setInsert
  by_cases h : x ∈ s
  · rw [if_pos h]; exact h
  · rw [if_neg h]; simp

/-- C30: `UpdateNodeToNode(node, top)` returns true iff `node.Annotation` is not a
subset of `top.Annotation` before the call; in both cases `node.Annotation` afterwards
is the intersection of its old value with `top.Annotation`, hence a subset of the old
value and of `top.Annotation`; when it returns true, `node.map` is in `updated_nodes`;
and an immediately repeated call returns false and changes nothing. -/
theorem C30_UpdateNodeToNode {T : Type} [BooleanAlgebra T]
    [DecidableRel ((· ≤ ·) : T → T → Prop)] (d : Duality T) (c : Covering) (w : Worklist)
    (node : Nat) (top : T) :
    ((UpdateNodeToNode d c w node top).1 = true ↔ ¬ d.unwinding.Annotation node ≤ top)
      ∧ (UpdateNodeToNode d c w node top).2.1.unwinding.Annotation node
          = d.unwinding.Annotation node ⊓ top
      ∧ (UpdateNodeToNode d c w node top).2.1.unwinding.Annotation node
          ≤ d.unwinding.Annotation node
      ∧ (UpdateNodeToNode d c w node top).2.1.unwinding.Annotation node ≤ top
      ∧ ((UpdateNodeToNode d c w node top).1 = true →
          d.unwinding.map node ∈ (UpdateNodeToNode d c w node top).2.2.2.updated_nodes)
      ∧ UpdateNodeToNode (UpdateNodeToNode d c w node top).2.1
            (UpdateNodeToNode d c w node top).2.2.1
            (UpdateNodeToNode d c w node top).2.2.2 node top
          = (false, (UpdateNodeToNode d c w node top).2.1,
              (UpdateNodeToNode d c w node top).2.2.1,
              (UpdateNodeToNode d c w node top).2.2.2) := by
  by_cases h : d.unwinding.Annotation node ≤ top
  · have hr : UpdateNodeToNode d c w node top = (false, d, c, w) := by
      simp [UpdateNodeToNode, SubsetEq, h]
    rw [hr]
    refine ⟨by simp [h], ?_, le_refl _, h, by simp, hr⟩
    exact (inf_eq_left.2 h).symm
  · have hr : UpdateNodeToNode d c w node top
        = (true,
           { d with
             unwinding :=
               { d.unwinding with
                 Annotation := Function.update d.unwinding.Annotation node
                   (d.unwinding.Annotation node ⊓ top) } },
           Covering.Update d c node,
           { w with updated_nodes := setInsert w.updated_nodes (d.unwinding.map node) }) := by
      simp [UpdateNodeToNode, SubsetEq, h]
    rw [hr]
    refine ⟨by simp [h], by simp, by simp, by simp, fun _ => mem_setInsert _ _, ?_⟩
    simp [UpdateNodeToNode, SubsetEq]

/-- C27 (amended): after `MakeLeaf(node, true)`, `node` has a lower-bound `Outgoing`
edge without children, and its `Annotation` is empty when stratified inlining is off
and full when it is on. -/
theorem C27_MakeLeaf {T : Type} [BooleanAlgebra T] (d : Duality T) (w : Worklist)
    (node : Nat) :
    (MakeLeafNoExpand d w node).1.unwinding.Outgoing node
        = some { map := none, Parent := node, Children := [] }
      ∧ (d.StratifiedInlining = false →
          (MakeLeafNoExpand d w node).1.unwinding.Annotation node = ⊥)
      ∧ (d.StratifiedInlining = true →
          (MakeLeafNoExpand d w node).1.unwinding.Annotation node = ⊤) := by
  refine ⟨?_, ?_, ?_⟩
  · unfold MakeLeafNoExpand
    cases d.StratifiedInlining <;> simp
  · intro h
    simp [MakeLeafNoExpand, h]
  · intro h
    simp [MakeLeafNoExpand, h]

/-- Counterexample to C27 as stated.  With stratified inlining on, the `Annotation` of
the node after `MakeLeaf(node, true)` is the full relation, not the empty one.  With
stratified inlining off, on instance 1 of the input node 0 in `exUnsafe`,
`updated_nodes` receives the instance 1 and the input node 0 is not a member. -/
theorem C27_MakeLeaf_counterexample :
    (MakeLeafNoExpand ({ exTree with StratifiedInlining := true } : Duality Bool) {} 1).1.unwinding.Annotation 1
        = true
      ∧ (⊥ : Bool) = false
      ∧ exUnsafe.StratifiedInlining = false ∧ exUnsafe.unwinding.map 1 = 0
      ∧ (MakeLeafNoExpand exUnsafe {} 1).2.updated_nodes = [1]
      ∧ exUnsafe.unwinding.map 1 ∉ (MakeLeafNoExpand exUnsafe {} 1).2.updated_nodes := by
  refine ⟨rfl, rfl, rfl, rfl, rfl, ?_⟩
  decide

/-! ### The solution of one input node -/

theorem GenNodeSolutionFromIndSetLoop_union {T : Type} [BooleanAlgebra T] (d : Duality T)
    (c : Covering) :
    ∀ (insts : List Nat) (annot : MarkerFormula T),
      (∀ i ∈ insts, (Contains d c i).isSome) →
      ∃ f, GenNodeSolutionFromIndSetLoop d c false insts annot = some f
        ∧ ∀ mu, f mu = (insts.filter (fun i => Contains d c i == some true)).foldl
            (fun acc i => acc ⊔ d.unwinding.Annotation i) (annot mu) := by
  intro insts
  induction insts with
  | nil => intro annot _; exact ⟨annot, rfl, fun _ => rfl⟩
  | cons i insts ih =>
    intro annot htot
    obtain ⟨b, hb⟩ := Option.isSome_iff_exists.1 (htot i (List.mem_cons_self _ _))
    have htot2 : ∀ j ∈ insts, (Contains d c j).isSome :=
      fun j hj => htot j (List.mem_cons_of_mem _ hj)
    unfold GenNodeSolutionFromIndSetLoop
    rw [hb]
    cases b with
    | true =>
      obtain ⟨f, hf, hfm⟩ := ih (UnionAnnotations d annot i false) htot2
      refine ⟨f, hf, fun mu => ?_⟩
      rw [hfm mu]
      simp [List.filter_cons, hb, UnionAnnotations]
    | false =>
      obtain ⟨f, hf, hfm⟩ := ih annot htot2
      refine ⟨f, hf, fun mu => ?_⟩
      rw [hfm mu]
      simp [List.filter_cons, hb]

/-- C21: `GenNodeSolutionFromIndSet(n, annot)` returns with `annot` the union of the
annotations of exactly those members of `insts_of_node[n]` that are in the inductive
subset (`Contains`), the empty relation when there is none; and this is the annotation
that `SolveMain` writes to every input node when it returns true. -/
theorem C21_GenNodeSolutionFromIndSet {T : Type} [BooleanAlgebra T] (d : Duality T)
    (c : Covering) (n : Nat) (htot : ∀ i ∈ d.insts_of_node n, (Contains d c i).isSome) :
    ∃ f, GenNodeSolutionFromIndSet d c n false = some f
      ∧ (∀ mu, f mu = UnionOfAnnotations d
          ((d.insts_of_node n).filter (fun i => Contains d c i == some true)))
      ∧ ((∀ i ∈ d.insts_of_node n, Contains d c i ≠ some true) → ∀ mu, f mu = ⊥)
      ∧ ∀ (be : Backend T) (w : Worklist) (ann sol : Nat → MarkerFormula T) (level : Nat),
          SolveMainExit d c be w ann level = some (.ok (some sol)) → n ∈ d.nodes →
          sol n = f := by
  obtain ⟨f, hf, hfm⟩ := GenNodeSolutionFromIndSetLoop_union d c (d.insts_of_node n)
    (fun _ => ⊥) htot
  refine ⟨f, hf, hfm, ?_, ?_⟩
  · intro hnone mu
    rw [hfm mu]
    have : (d.insts_of_node n).filter (fun i => Contains d c i == some true) = [] := by
      rw [List.filter_eq_nil_iff]
      intro i hi
      simpa using hnone i hi
    rw [this]
    rfl
  · intro be w ann sol level h hn
    obtain ⟨_, ann1, hsol⟩ := SolveMainExit_true d c be w ann sol level h
    have := (GenSolutionFromIndSetLoop_spec d c false d.nodes ann1 sol hsol n).1 hn
    have hf2 : GenNodeSolutionFromIndSet d c n false = some f := hf
    rw [hf2] at this
    cases this
    rfl

/-- Witness for C21 on `exUnsafe`: the annotation of the input node 0 is the union of
the annotations of the instances 1 and 2, the full relation. -/
theorem C21_GenNodeSolutionFromIndSet_witness :
    (∀ i ∈ exUnsafe.insts_of_node 0, (Contains exUnsafe exUnsafeCovering i).isSome)
      ∧ (exUnsafe.insts_of_node 0).filter
          (fun i => Contains exUnsafe exUnsafeCovering i == some true) = [1, 2]
      ∧ ∃ f, GenNodeSolutionFromIndSet exUnsafe exUnsafeCovering 0 false = some f
        ∧ (∀ mu, f mu = UnionOfAnnotations exUnsafe
            ((exUnsafe.insts_of_node 0).filter
              (fun i => Contains exUnsafe exUnsafeCovering i == some true)))
        ∧ ((∀ i ∈ exUnsafe.insts_of_node 0, Contains exUnsafe exUnsafeCovering i ≠ some true) →
            ∀ mu, f mu = ⊥)
        ∧ ∀ (be : Backend (Finset (Fin 2))) (w : Worklist)
            (ann sol : Nat → MarkerFormula (Finset (Fin 2))) (level : Nat),
            SolveMainExit exUnsafe exUnsafeCovering be w ann level = some (.ok (some sol)) →
            0 ∈ exUnsafe.nodes → sol 0 = f :=
  ⟨by decide, by decide,
    C21_GenNodeSolutionFromIndSet exUnsafe exUnsafeCovering 0 (by decide)⟩

/-! ### `SetOption` -/

theorem SetBoolOption_invalid (opt : Bool) (value : String) (h0 : value ≠ "0")
    (h1 : value ≠ "1") : SetBoolOption opt value = (false, opt) := by
  simp [SetBoolOption, h0, h1]

theorem SetBoolOption_boolText (opt b : Bool) : SetBoolOption opt (boolText b) = (true, b) := by
  cases b <;> simp [SetBoolOption, boolText]

/-- C22: `SetOption(name, value)` returns false and leaves the solver unchanged when
`name` is not one of the seven option names, or when `name` is one of the six Boolean
options and `value` is neither `0` nor `1`; otherwise it returns true and changes only
the named option: a Boolean option to the value that `0` or `1` stands for, and
`recursion_bound` to `atoi(value)`. -/
theorem C22_SetOption {T : Type} (atoi : String → Int) (d : Duality T) (name value : String) :
    (name ∉ boolOptionNames → name ≠ "recursion_bound" →
        SetOption atoi d name value = (false, d))
      ∧ (name ∈ boolOptionNames → value ≠ "0" → value ≠ "1" →
        SetOption atoi d name value = (false, d))
      ∧ (∀ b : Bool,
        SetOption atoi d "full_expand" (boolText b) = (true, { d with FullExpand := b })
        ∧ SetOption atoi d "no_conj" (boolText b) = (true, { d with NoConj := b })
        ∧ SetOption atoi d "feasible_edges" (boolText b)
            = (true, { d with FeasibleEdges := b })
        ∧ SetOption atoi d "use_underapprox" (boolText b)
            = (true, { d with UseUnderapprox := b })
        ∧ SetOption atoi d "report" (boolText b) = (true, { d with Report := b })
        ∧ SetOption atoi d "stratified_inlining" (boolText b)
            = (true, { d with StratifiedInlining := b }))
      ∧ SetOption atoi d "recursion_bound" value
          = (true, { d with RecursionBound := atoi value }) := by
  refine ⟨?_, ?_, ?_, ?_⟩
  · intro hn hr
    simp only [boolOptionNames, List.mem_cons, List.mem_singleton, List.not_mem_nil,
      or_false, not_or] at hn
    obtain ⟨h1, h2, h3, h4, h5, h6⟩ := hn
    simp [SetOption, h1, h2, h3, h4, h5, h6, hr]
  · intro hn h0 h1
    simp only [boolOptionNames, List.mem_cons, List.mem_singleton, List.not_mem_nil,
      or_false] at hn
    rcases hn with rfl | rfl | rfl | rfl | rfl | rfl <;>
      simp [SetOption, SetBoolOption_invalid _ _ h0 h1]
  · intro b
    refine ⟨?_, ?_, ?_, ?_, ?_, ?_⟩ <;> simp [SetOption, SetBoolOption_boolText]
  · simp [SetOption, SetIntOption]

/-! ### Markers of instances past the recursion bound -/

theorem ExtractCandidateInst_find {T : Type} (d : Duality T) (c : Covering)
    (be : Backend T) (q : Checker T) (j : Nat) :
    ∀ (insts : List Nat), (∀ i ∈ insts, (Contains d c i).isSome) →
      ExtractCandidateInst d c be q j insts
        = some (insts.find? (CandidateInstOK d c be q j)) := by
  intro insts
  induction insts with
  | nil => intro _; rfl
  | cons i insts ih =>
    intro htot
    obtain ⟨b, hb⟩ := Option.isSome_iff_exists.1 (htot i (List.mem_cons_self _ _))
    have ih2 := ih (fun k hk => htot k (List.mem_cons_of_mem _ hk))
    unfold ExtractCandidateInst
    rw [hb]
    cases b with
    | true =>
      dsimp only
      by_cases hc : (be.Empty q j || be.Eval q j (d.unwinding.number i)) = true
      · rw [if_pos hc]
        have : CandidateInstOK d c be q j i = true := by
          simp only [CandidateInstOK, hb, hc, beq_self_eq_true, Bool.and_self]
        rw [List.find?_cons_of_pos _ this]
      · rw [if_neg hc, ih2]
        have : ¬ CandidateInstOK d c be q j i = true := by
          simp only [CandidateInstOK, Bool.and_eq_true, not_and]
          exact fun _ => hc
        rw [List.find?_cons_of_neg _ this]
    | false =>
      dsimp only
      rw [ih2]
      have : ¬ CandidateInstOK d c be q j i = true := by
        simp [CandidateInstOK, hb]
      rw [List.find?_cons_of_neg _ this]

theorem ExtractCandidateLoop_picks {T : Type} (d : Duality T) (c : Covering)
    (be : Backend T) (q : Checker T) :
    ∀ (chs : List Nat) (j : Nat) (children : List Nat),
      (∀ ch ∈ chs, ∀ i ∈ d.insts_of_node ch, (Contains d c i).isSome) →
      (none ∉ CandidatePicks d c be q j chs →
          ∃ cs, ExtractCandidateLoop d c be q j chs children = some (.ok (children ++ cs))
            ∧ cs.map some = CandidatePicks d c be q j chs)
        ∧ (none ∈ CandidatePicks d c be q j chs →
          ExtractCandidateLoop d c be q j chs children
            = some (.error "No candidate from induction failure")) := by
  intro chs
  induction chs with
  | nil =>
    intro j children _
    constructor
    · intro _
      exact ⟨[], by simp [ExtractCandidateLoop], rfl⟩
    · intro h
      simp [CandidatePicks] at h
  | cons ch chs ih =>
    intro j children htot
    have hfind := ExtractCandidateInst_find d c be q j (d.insts_of_node ch)
      (htot ch (List.mem_cons_self _ _))
    have hpicks : CandidatePicks d c be q j (ch :: chs)
        = (d.insts_of_node ch).find? (CandidateInstOK d c be q j)
          :: CandidatePicks d c be q (j + 1) chs := by
      simp [CandidatePicks, List.enumFrom_cons]
    rw [hpicks]
    unfold ExtractCandidateLoop
    rw [hfind]
    cases hf : (d.insts_of_node ch).find? (CandidateInstOK d c be q j) with
    | none =>
      constructor
      · intro h
        exact absurd (List.mem_cons_self _ _) h
      · intro _
        rfl
    | some inst =>
      dsimp only
      obtain ⟨ih1, ih2⟩ := ih (j + 1) (children ++ [inst])
        (fun x hx => htot x (List.mem_cons_of_mem _ hx))
      constructor
      · intro h
        obtain ⟨cs, hcs, hmap⟩ := ih1 (fun hn => h (List.mem_cons_of_mem _ hn))
        refine ⟨inst :: cs, ?_, by simp [hmap]⟩
        rw [hcs]
        simp
      · intro h
        rcases List.mem_cons.1 h with h | h
        · cases h
        · exact ih2 h

theorem CandidatePicks_mem {T : Type} (d : Duality T) (c : Covering) (be : Backend T)
    (q : Checker T) :
    ∀ (chs : List Nat) (j : Nat) (cs : List Nat),
      cs.map some = CandidatePicks d c be q j chs →
      List.Forall₂ (fun inst ch => inst ∈ d.insts_of_node ch) cs chs := by
  intro chs
  induction chs with
  | nil =>
    intro j cs h
    cases cs with
    | nil => exact List.Forall₂.nil
    | cons x xs => simp [CandidatePicks] at h
  | cons ch chs ih =>
    intro j cs h
    have hpicks : CandidatePicks d c be q j (ch :: chs)
        = (d.insts_of_node ch).find? (CandidateInstOK d c be q j)
          :: CandidatePicks d c be q (j + 1) chs := by
      simp [CandidatePicks, List.enumFrom_cons]
    rw [hpicks] at h
    cases cs with
    | nil => simp at h
    | cons x xs =>
      simp only [List.map_cons, List.cons.injEq] at h
      obtain ⟨hx, hxs⟩ := h
      exact List.Forall₂.cons (List.mem_of_find?_eq_some hx.symm) (ih (j + 1) xs hxs)

/-- C26: `ExtractCandidateFromCex(edge, ...)` picks, for each child position `j` of
`edge`, the first instance in `insts_of_node[edge.Children[j]]`, in forward order, that
is in the inductive subset and whose marker is true in the model of the checker (the
first one in the inductive subset when the checker's child node is empty); the
candidate has one child per position, each an expanded instance of the input child at
that position; and the error `No candidate from induction failure` is raised iff some
position has no such instance. -/
theorem C26_ExtractCandidateFromCex {T : Type} (d : Duality T) (c : Covering)
    (be : Backend T) (edge : InputEdge) (q : Checker T)
    (htot : ∀ ch ∈ edge.Children, ∀ i ∈ d.insts_of_node ch, (Contains d c i).isSome) :
    (none ∉ CandidatePicks d c be q 0 edge.Children →
        ∃ cand, ExtractCandidateFromCex d c be edge q = some (.ok cand)
          ∧ cand.edge = edge
          ∧ cand.Children.map some = CandidatePicks d c be q 0 edge.Children
          ∧ cand.Children.length = edge.Children.length
          ∧ List.Forall₂ (fun inst ch => inst ∈ d.insts_of_node ch) cand.Children
              edge.Children)
      ∧ (none ∈ CandidatePicks d c be q 0 edge.Children ↔
          ExtractCandidateFromCex d c be edge q
            = some (.error "No candidate from induction failure")) := by
  obtain ⟨h1, h2⟩ := ExtractCandidateLoop_picks d c be q edge.Children 0 [] htot
  have hok : none ∉ CandidatePicks d c be q 0 edge.Children →
      ∃ cand, ExtractCandidateFromCex d c be edge q = some (.ok cand)
        ∧ cand.edge = edge
        ∧ cand.Children.map some = CandidatePicks d c be q 0 edge.Children
        ∧ cand.Children.length = edge.Children.length
        ∧ List.Forall₂ (fun inst ch => inst ∈ d.insts_of_node ch) cand.Children
            edge.Children := by
    intro hn
    obtain ⟨cs, hcs, hmap⟩ := h1 hn
    have hall := CandidatePicks_mem d c be q edge.Children 0 cs hmap
    refine ⟨{ edge := edge, Children := cs }, ?_, rfl, hmap, hall.length_eq, hall⟩
    unfold ExtractCandidateFromCex
    rw [hcs]
    rfl
  refine ⟨hok, ?_, ?_⟩
  · intro hn
    unfold ExtractCandidateFromCex
    rw [h2 hn]
  · intro herr
    by_contra hn
    obtain ⟨cand, hc, _⟩ := hok hn
    rw [hc] at herr
    cases herr

/-- Witness for C26 on `exBounded` and the rule with one child: with a model in which
every marker is true the first expanded instance 0 is picked; with a model in which
every marker is false no instance qualifies and the error is raised. -/
theorem C26_ExtractCandidateFromCex_witness :
    (∀ ch ∈ [0], ∀ i ∈ exBounded.insts_of_node ch, (Contains exBounded Covering.new i).isSome)
      ∧ ExtractCandidateFromCex exBounded Covering.new exBackendSat
          { F := 2, Parent := 0, Children := [0] } exChecker
          = some (.ok { edge := { F := 2, Parent := 0, Children := [0] }, Children := [0] })
      ∧ (none ∈ CandidatePicks exBounded Covering.new exBackendUnsat exChecker 0 [0] ↔
          ExtractCandidateFromCex exBounded Covering.new exBackendUnsat
            { F := 2, Parent := 0, Children := [0] } exChecker
            = some (.error "No candidate from induction failure"))
      ∧ none ∈ CandidatePicks exBounded Covering.new exBackendUnsat exChecker 0 [0] :=
  ⟨by decide, rfl,
    (C26_ExtractCandidateFromCex exBounded Covering.new exBackendUnsat
      { F := 2, Parent := 0, Children := [0] } exChecker (by decide)).2,
    by decide⟩

/-! ### The replay heuristic -/

/-- Counterexample to C20 as stated: `ReplayHeuristic::ChooseExpand` with `high_priority`
set and an old counterexample present, on the derivation tree `exReplayTree` whose root
is already matched and whose leaf `Q` is the only choice.  The old counterexample has
the child `R` in that place, so the leaf is unmatched, `matched` is empty, and the call
returns with `best` empty although `choices` is not: the guard `matched.empty() &&
!high_priority` does not hold while `high_priority` is set, and the default heuristic is
run on the empty set `matched`.  When the old counterexample has the child `Q`, the
leaf is matched and selected. -/
theorem C20_ReplayHeuristic_counterexample :
    (ReplayChooseExpand exReplayTree (some exReplayOld) 0 (fun _ => false) Heuristic.new
        [(0, some 0)] [1] [] true false).bind Except.toOption
      = some ([], [(0, some 0), (1, none)])
    ∧ (ReplayMatchLoop exReplayTree exReplayOld 0 (fun _ => false) [1]
        ([], [], [(0, some 0)])).bind Except.toOption
      = some ([], [1], [(0, some 0), (1, none)])
    ∧ (ReplayChooseExpand exReplayTree (some exReplayTree) 0 (fun _ => false) Heuristic.new
        [(0, some 0)] [1] [] true false).bind Except.toOption
      = some ([1], [(0, some 0), (1, some 1)]) := by
  refine ⟨by decide, by decide, by decide⟩

theorem cexMapGet_of_not_has (m : List (Nat × Option Nat)) (n : Nat)
    (h : cexMapHas m n = false) : cexMapGet m n = none := by
  unfold cexMapGet
  have hf : m.find? (fun p => p.1 == n) = none := by
    rw [List.find?_eq_none]
    intro x hx hp
    have : cexMapHas m n = true := List.any_eq_true.2 ⟨x, hx, hp⟩
    rw [h] at this
    cases this
  rw [hf]

theorem cexMapGet_set_none (m : List (Nat × Option Nat)) (n : Nat)
    (h : cexMapHas m n = false) : cexMapGet (cexMapSet m n none) n = none := by
  have hf : m.find? (fun p => p.1 == n) = none := by
    rw [List.find?_eq_none]
    intro x hx hp
    have : cexMapHas m n = true := List.any_eq_true.2 ⟨x, hx, hp⟩
    rw [h] at this
    cases this
  unfold cexMapSet cexMapGet
  rw [h]
  simp [List.find?_append, hf]

/-- The value `old_node = cex_map[node]` read at the label `matching_done` does not
depend on whether `operator[]` has to make the entry. -/
theorem cexMapGet_default (m : List (Nat × Option Nat)) (n : Nat) :
    cexMapGet (if cexMapHas m n then m else cexMapSet m n none) n = cexMapGet m n := by
  by_cases h : cexMapHas m n = true
  · rw [if_pos h]
  · have h2 : cexMapHas m n = false := by simpa using h
    rw [if_neg h, cexMapGet_set_none m n h2, cexMapGet_of_not_has m n h2]

theorem ReplayMatchLoop_append {T : Type} (tree old : RPFP T) (old_root : Nat)
    (old_empty : Nat → Bool) (pre post : List Nat) :
    ∀ st, ReplayMatchLoop tree old old_root old_empty (pre ++ post) st
      = match ReplayMatchLoop tree old old_root old_empty pre st with
        | some (.ok st1) => ReplayMatchLoop tree old old_root old_empty post st1
        | some (.error e) => some (.error e)
        | none => none := by
  induction pre with
  | nil => intro st; rfl
  | cons n pre ih =>
    intro st
    obtain ⟨ma, un, m⟩ := st
    simp only [List.cons_append, ReplayMatchLoop]
    cases hn : ReplayMatchNode tree old old_root m n with
    | none => rfl
    | some r =>
      cases r with
      | error e => rfl
      | ok m1 =>
        dsimp only
        cases hg : cexMapGet (if cexMapHas m1 n then m1 else cexMapSet m1 n none) n with
        | none => dsimp only; exact ih _
        | some o =>
          dsimp only
          by_cases he : old_empty o = true
          · rw [if_pos he, if_pos he]; exact ih _
          · rw [if_neg he, if_neg he]; exact ih _

/-- The loop of `ReplayHeuristic::ChooseExpand` only appends to `matched` and
`unmatched`, and every choice is appended to exactly one of them. -/
theorem ReplayMatchLoop_acc {T : Type} (tree old : RPFP T) (old_root : Nat)
    (old_empty : Nat → Bool) (choices : List Nat) :
    ∀ ma un m ma2 un2 m2,
      ReplayMatchLoop tree old old_root old_empty choices (ma, un, m) = some (.ok (ma2, un2, m2)) →
      ∃ ma_new un_new, ma2 = ma ++ ma_new ∧ un2 = un ++ un_new
        ∧ ∀ n, ma_new.count n + un_new.count n = choices.count n := by
  induction choices with
  | nil =>
    intro ma un m ma2 un2 m2 h
    simp only [ReplayMatchLoop, Option.some.injEq, Except.ok.injEq, Prod.mk.injEq] at h
    obtain ⟨h1, h2, _⟩ := h
    exact ⟨[], [], by simp [h1], by simp [h2], by simp⟩
  | cons c choices ih =>
    intro ma un m ma2 un2 m2 h
    simp only [ReplayMatchLoop] at h
    cases hn : ReplayMatchNode tree old old_root m c with
    | none => rw [hn] at h; cases h
    | some r =>
      cases r with
      | error e => rw [hn] at h; cases h
      | ok m1 =>
        rw [hn] at h
        dsimp only at h
        have hun : ∀ m3, ReplayMatchLoop tree old old_root old_empty choices
            (ma, un ++ [c], m3) = some (.ok (ma2, un2, m2)) →
            ∃ ma_new un_new, ma2 = ma ++ ma_new ∧ un2 = un ++ un_new
              ∧ ∀ n, ma_new.count n + un_new.count n = (c :: choices).count n := by
          intro m3 h3
          obtain ⟨a, u, ha, hu, hc⟩ := ih _ _ _ _ _ _ h3
          refine ⟨a, c :: u, ha, by rw [hu, List.append_assoc]; rfl, ?_⟩
          intro n
          have := hc n
          simp only [List.count_cons]
          split <;> omega
        cases hg : cexMapGet (if cexMapHas m1 c then m1 else cexMapSet m1 c none) c with
        | none =>
          rw [hg] at h
          exact hun _ h
        | some o =>
          rw [hg] at h
          dsimp only at h
          by_cases he : old_empty o = true
          · rw [if_pos he] at h
            exact hun _ h
          · rw [if_neg he] at h
            obtain ⟨a, u, ha, hu, hc⟩ := ih _ _ _ _ _ _ h
            refine ⟨c :: a, u, by rw [ha, List.append_assoc]; rfl, hu, ?_⟩
            intro n
            have := hc n
            simp only [List.count_cons]
            split <;> omega

/-- One round of the loop of `ReplayHeuristic::ChooseExpand`: the choice goes to
`matched` exactly when the value `old_node` read for it is a node that is not empty in
the old counterexample. -/
theorem ReplayMatchLoop_step {T : Type} (tree old : RPFP T) (old_root : Nat)
    (old_empty : Nat → Bool) (c : Nat) (ma un : List Nat) (m : List (Nat × Option Nat))
    (st : List Nat × List Nat × List (Nat × Option Nat))
    (h : ReplayMatchLoop tree old old_root old_empty [c] (ma, un, m) = some (.ok st)) :
    ∃ m1, ReplayMatchNode tree old old_root m c = some (.ok m1)
      ∧ ((∃ o, cexMapGet m1 c = some o ∧ old_empty o = false) → st.1 = ma ++ [c] ∧ st.2.1 = un)
      ∧ ((¬ ∃ o, cexMapGet m1 c = some o ∧ old_empty o = false) →
          st.1 = ma ∧ st.2.1 = un ++ [c]) := by
  simp only [ReplayMatchLoop] at h
  cases hn : ReplayMatchNode tree old old_root m c with
  | none => rw [hn] at h; cases h
  | some r =>
    cases r with
    | error e => rw [hn] at h; cases h
    | ok m1 =>
      rw [hn] at h
      dsimp only at h
      rw [cexMapGet_default] at h
      refine ⟨m1, rfl, ?_, ?_⟩
      · rintro ⟨o, ho, he⟩
        rw [ho] at h
        dsimp only at h
        rw [he] at h
        simp only [Bool.false_eq_true, if_false, Option.some.injEq, Except.ok.injEq] at h
        rw [← h]
        exact ⟨rfl, rfl⟩
      · intro hno
        cases hg : cexMapGet m1 c with
        | none =>
          rw [hg] at h
          simp only [Option.some.injEq, Except.ok.injEq] at h
          rw [← h]
          exact ⟨rfl, rfl⟩
        | some o =>
          rw [hg] at h
          dsimp only at h
          have he : old_empty o = true := by
            by_contra hc
            exact hno ⟨o, hg, by simpa using hc⟩
          rw [if_pos he] at h
          simp only [Option.some.injEq, Except.ok.injEq] at h
          rw [← h]
          exact ⟨rfl, rfl⟩

theorem ChooseExpand_default_mem {T : Type} (tree : RPFP T) (h : Heuristic)
    (choices : List Nat) (best_only : Bool) (n : Nat) :
    n ∈ ChooseExpand tree h choices [] false best_only ↔
      n ∈ choices ∧ h.scores (tree.map n)
        ≤ (if best_only = true then (ChooseExpandScan tree h choices (INT_MAX, 0)).1
            else (ChooseExpandScan tree h choices (INT_MAX, 0)).1
              + ((ChooseExpandScan tree h choices (INT_MAX, 0)).2
                  - (ChooseExpandScan tree h choices (INT_MAX, 0)).1).tdiv 2) := by
  unfold ChooseExpand
  simp only [Bool.false_eq_true, if_false]
  rw [mem_foldl_insert_iff]
  simp

/-- The default heuristic, started with an empty `best` and without priority, selects
one of the choices when there is one. -/
theorem ChooseExpand_default_ne_nil {T : Type} (tree : RPFP T) (h : Heuristic)
    (choices : List Nat) (best_only : Bool) (hne : choices ≠ [])
    (hrange : ∀ n ∈ choices, 0 ≤ h.scores (tree.map n) ∧ h.scores (tree.map n) ≤ INT_MAX) :
    ChooseExpand tree h choices [] false best_only ≠ [] := by
  obtain ⟨⟨⟨n1, hn1, hlo⟩, hlo2⟩, ⟨⟨n2, hn2, hhi⟩, _⟩⟩ :=
    ChooseExpandScan_min_max tree h choices hne hrange
  have hin : n1 ∈ ChooseExpand tree h choices [] false best_only := by
    rw [ChooseExpand_default_mem]
    refine ⟨hn1, ?_⟩
    rw [← hlo]
    cases best_only with
    | true => simp
    | false =>
      simp only [Bool.false_eq_true, if_false]
      have hle : (ChooseExpandScan tree h choices (INT_MAX, 0)).1
          ≤ (ChooseExpandScan tree h choices (INT_MAX, 0)).2 := by
        rw [hhi]; exact hlo2 n2 hn2
      have := Int.tdiv_nonneg (sub_nonneg.2 hle) (by decide : (0 : Int) ≤ 2)
      omega
  intro hnil
  rw [hnil] at hin
  cases hin

/-- C20 (amended): `ReplayHeuristic::ChooseExpand` with `high_priority` set and an old
counterexample present, where the loop over the choices returns the sets `matched` and
`unmatched`.  The result is the selection of the default heuristic among `matched`.
Every choice is in exactly one of the two sets, and a choice is in `matched` exactly
when the value `old_node` read for it, after the rounds for the choices before it, is a
node that is not empty in the old counterexample.  The selection holds only matched
choices; it is not empty when `matched` is not, and it is empty when `matched` is:
the choices in `unmatched` are never selected. -/
theorem C20_ReplayHeuristic_matched_only {T : Type} (tree old : RPFP T) (old_root : Nat)
    (old_empty : Nat → Bool) (h : Heuristic) (cex_map : List (Nat × Option Nat))
    (choices : List Nat) (best_only : Bool) (matched unmatched : List Nat)
    (m : List (Nat × Option Nat)) (hnd : choices.Nodup)
    (hrange : ∀ n ∈ choices, 0 ≤ h.scores (tree.map n) ∧ h.scores (tree.map n) ≤ INT_MAX)
    (hloop : ReplayMatchLoop tree old old_root old_empty choices ([], [], cex_map)
      = some (.ok (matched, unmatched, m))) :
    ReplayChooseExpand tree (some old) old_root old_empty h cex_map choices [] true best_only
        = some (.ok (ChooseExpand tree h matched [] false false, m))
      ∧ (∀ n, n ∈ choices ↔ n ∈ matched ∨ n ∈ unmatched)
      ∧ (∀ n ∈ matched, n ∉ unmatched)
      ∧ (∀ pre n post, choices = pre ++ n :: post →
          ∃ ma un mp m1,
            ReplayMatchLoop tree old old_root old_empty pre ([], [], cex_map)
              = some (.ok (ma, un, mp))
            ∧ ReplayMatchNode tree old old_root mp n = some (.ok m1)
            ∧ (n ∈ matched ↔ ∃ o, cexMapGet m1 n = some o ∧ old_empty o = false))
      ∧ (∀ n ∈ ChooseExpand tree h matched [] false false, n ∈ matched)
      ∧ (matched ≠ [] → ChooseExpand tree h matched [] false false ≠ [])
      ∧ (matched = [] → ChooseExpand tree h matched [] false false = []) := by
  obtain ⟨ma0, un0, hma, hun, hcount⟩ :=
    ReplayMatchLoop_acc tree old old_root old_empty choices _ _ _ _ _ _ hloop
  simp only [List.nil_append] at hma hun
  subst hma hun
  have hmem : ∀ n, n ∈ choices ↔ n ∈ matched ∨ n ∈ unmatched := by
    intro n
    have := hcount n
    rw [← List.count_pos_iff, ← List.count_pos_iff, ← List.count_pos_iff]
    omega
  refine ⟨?_, hmem, ?_, ?_, ?_, ?_, ?_⟩
  · simp [ReplayChooseExpand, hloop]
  · intro n hn hn2
    have h1 := List.count_pos_iff.2 hn
    have h2 := List.count_pos_iff.2 hn2
    have h3 := List.nodup_iff_count_le_one.1 hnd n
    have := hcount n
    omega
  · intro pre n post hsplit
    subst hsplit
    have hnd2 := hnd
    rw [List.nodup_append] at hnd2
    obtain ⟨_, hnd3, hdisj⟩ := hnd2
    have hnpre : n ∉ pre := fun hx => hdisj hx (List.mem_cons_self _ _)
    have hnpost : n ∉ post := (List.nodup_cons.1 hnd3).1
    rw [ReplayMatchLoop_append] at hloop
    cases hpre : ReplayMatchLoop tree old old_root old_empty pre ([], [], cex_map) with
    | none => rw [hpre] at hloop; cases hloop
    | some r =>
      cases r with
      | error e => rw [hpre] at hloop; cases hloop
      | ok st1 =>
        obtain ⟨ma1, un1, mp⟩ := st1
        rw [hpre] at hloop
        dsimp only at hloop
        have hsplit2 : n :: post = [n] ++ post := rfl
        rw [hsplit2, ReplayMatchLoop_append] at hloop
        cases hone : ReplayMatchLoop tree old old_root old_empty [n] (ma1, un1, mp) with
        | none => rw [hone] at hloop; cases hloop
        | some r2 =>
          cases r2 with
          | error e => rw [hone] at hloop; cases hloop
          | ok st2 =>
            obtain ⟨ma2, un2, m2⟩ := st2
            rw [hone] at hloop
            dsimp only at hloop
            obtain ⟨m1, hm1, hyes, hno⟩ :=
              ReplayMatchLoop_step tree old old_root old_empty n ma1 un1 mp _ hone
            obtain ⟨a1, u1, ha1, _, hc1⟩ :=
              ReplayMatchLoop_acc tree old old_root old_empty pre _ _ _ _ _ _ hpre
            obtain ⟨a3, u3, ha3, _, hc3⟩ :=
              ReplayMatchLoop_acc tree old old_root old_empty post _ _ _ _ _ _ hloop
            have hna1 : n ∉ a1 := by
              intro hx
              have h1 := List.count_pos_iff.2 hx
              have h2 := hc1 n
              have h3 := List.count_eq_zero_of_not_mem hnpre
              omega
            have hna3 : n ∉ a3 := by
              intro hx
              have h1 := List.count_pos_iff.2 hx
              have h2 := hc3 n
              have h3 := List.count_eq_zero_of_not_mem hnpost
              omega
            simp only [List.nil_append] at ha1
            refine ⟨ma1, un1, mp, m1, rfl, hm1, ?_⟩
            constructor
            · intro hn
              by_contra hc
              obtain ⟨h1, _⟩ := hno hc
              dsimp only at h1
              rw [ha3, h1, ha1, List.mem_append] at hn
              rcases hn with hn | hn
              · exact hna1 hn
              · exact hna3 hn
            · intro hc
              obtain ⟨h1, _⟩ := hyes hc
              dsimp only at h1
              rw [ha3, h1]
              simp
  · intro n hn
    exact ((ChooseExpand_default_mem tree h matched false n).1 hn).1
  · intro hne
    exact ChooseExpand_default_ne_nil tree h matched false hne
      (fun n hn => hrange n ((hmem n).2 (Or.inl hn)))
  · intro he
    rw [he]
    rfl

/-- Witness for C20 on the derivation tree `exReplayTree2`, whose leaves `Q` and `S` are
the choices, with the old counterexample `exReplayOld2`: the leaf `Q` is matched with the
leaf `Q` of the old counterexample, which is not empty, the leaf `S` finds the leaf `R`
in its place and is unmatched, and the selection is the leaf `Q` alone. -/
theorem C20_ReplayHeuristic_matched_only_witness :
    ([1, 2] : List Nat).Nodup
      ∧ ReplayMatchLoop exReplayTree2 exReplayOld2 0 (fun _ => false) [1, 2]
            ([], [], [(0, some 0)])
          = some (.ok ([1], [2], [(0, some 0), (1, some 1), (2, none)]))
      ∧ ChooseExpand exReplayTree2 Heuristic.new [1] [] false false = [1]
      ∧ ReplayChooseExpand exReplayTree2 (some exReplayOld2) 0 (fun _ => false) Heuristic.new
          [(0, some 0)] [1, 2] [] true false
        = some (.ok (ChooseExpand exReplayTree2 Heuristic.new [1] [] false false,
            [(0, some 0), (1, some 1), (2, none)])) :=
  ⟨by decide, rfl, by decide,
    (C20_ReplayHeuristic_matched_only exReplayTree2 exReplayOld2 0 (fun _ => false)
      Heuristic.new [(0, some 0)] [1, 2] false [1] [2] [(0, some 0), (1, some 1), (2, none)]
      (by decide)
      (by
        intro n hn
        have hn1 : n = 1 ∨ n = 2 := by simpa using hn
        rcases hn1 with rfl | rfl <;> decide)
      rfl).1⟩

/-! ### The bisection `ExpansionChoicesRec` -/

theorem slice_split (l : List Nat) (a m b : Nat) (h1 : a ≤ m) (h2 : m ≤ b) :
    slice l a b = slice l a m ++ slice l m b := by
  unfold slice
  have hb : b - a = (m - a) + (b - m) := by omega
  rw [hb, List.take_add, List.drop_drop]
  have hm : a + (m - a) = m := by omega
  rw [hm]

theorem slice_single (l : List Nat) (a : Nat) (h : a < l.length) :
    slice l a (a + 1) = [l.getD a 0] := by
  unfold slice
  have h1 : a + 1 - a = 1 := by omega
  rw [h1]
  induction l generalizing a with
  | nil => simp at h
  | cons x xs ih =>
    cases a with
    | zero => simp
    | succ n =>
      simp only [List.drop_succ_cons, List.getD_cons_succ]
      exact ih n (by simpa using h) (by omega)

/-- C28: `ExpansionChoicesRec(unused_set, used_set, choices, from, to)` returns for
every range `from <= to` within `used_set`; each leaf of `used_set[from..to)` ends up
either inserted into `choices` or appended to `unused_set`, never both, and nothing
else is added; and if `top` has an `Outgoing` edge and the check on `unused_set` is not
unsat on entry, the check on the final `unused_set` is not unsat either. -/
theorem C28_ExpansionChoicesRec (check : List Nat → check_result) (top_outgoing : Bool)
    (used_set : List Nat) :
    ∀ (fuel : Nat) (unused_set choices : List Nat) (a b : Nat),
      a ≤ b → b ≤ used_set.length → b - a < fuel →
      ∃ U C, ExpansionChoicesRec check top_outgoing used_set fuel unused_set choices a b
          = some (unused_set ++ U, C.foldl setInsert choices)
        ∧ List.Perm (U ++ C) (slice used_set a b)
        ∧ (top_outgoing = true → check unused_set ≠ check_result.unsat →
            check (unused_set ++ U) ≠ check_result.unsat) := by
  intro fuel
  induction fuel with
  | zero => intro _ _ a b _ _ h; omega
  | succ f ih =>
    intro unused_set choices a b hab hb hfuel
    unfold ExpansionChoicesRec
    by_cases heq : a = b
    · rw [if_pos heq]
      subst heq
      refine ⟨[], [], by simp, ?_, ?_⟩
      · simp [slice]
      · intro _ h
        simpa using h
    · rw [if_neg heq, if_neg (by omega)]
      dsimp only
      by_cases hcond : (!top_outgoing
          || check (unused_set ++ slice used_set a b) == check_result.unsat) = true
      · rw [if_pos hcond]
        by_cases hone : b - a = 1
        · rw [if_pos hone]
          have hb1 : b = a + 1 := by omega
          refine ⟨[], [used_set.getD a 0], by simp, ?_, ?_⟩
          · rw [hb1, slice_single used_set a (by omega)]
            simp
          · intro _ h
            simpa using h
        · rw [if_neg hone]
          have hmid1 : a ≤ a + (b - a) / 2 := by omega
          have hmid2 : a + (b - a) / 2 ≤ b := by omega
          obtain ⟨U1, C1, hr1, hp1, hs1⟩ := ih unused_set choices a (a + (b - a) / 2)
            hmid1 (by omega) (by omega)
          rw [hr1]
          dsimp only
          obtain ⟨U2, C2, hr2, hp2, hs2⟩ := ih (unused_set ++ U1) (C1.foldl setInsert choices)
            (a + (b - a) / 2) b hmid2 hb (by omega)
          rw [hr2]
          refine ⟨U1 ++ U2, C1 ++ C2, by simp [List.foldl_append], ?_, ?_⟩
          · rw [slice_split used_set a (a + (b - a) / 2) b hmid1 hmid2]
            have h1 : List.Perm (U1 ++ U2 ++ (C1 ++ C2)) ((U1 ++ C1) ++ (U2 ++ C2)) := by
              rw [List.append_assoc, List.append_assoc]
              apply List.Perm.append_left
              rw [← List.append_assoc, ← List.append_assoc]
              exact List.Perm.append_right _ List.perm_append_comm
            exact h1.trans (List.Perm.append hp1 hp2)
          · intro ht h
            have := hs2 ht (hs1 ht h)
            simpa [List.append_assoc] using this
      · rw [if_neg hcond]
        refine ⟨slice used_set a b, [], by simp, by simp, ?_⟩
        intro ht _
        intro hun
        apply hcond
        simp [ht, hun]

/-- Witness for C28: on the leaves 5, 6, 7 with a check that fails exactly when 6 is
underapproximated, the bisection puts 6 into `choices` and 5 and 7 into
`unused_set`. -/
theorem C28_ExpansionChoicesRec_witness :
    ExpansionChoicesRec exCheckLeaves true [5, 6, 7] 4 [] [] 0 3 = some ([5, 7], [6])
      ∧ ∃ U C, ExpansionChoicesRec exCheckLeaves true [5, 6, 7] 4 [] [] 0 3
          = some ([] ++ U, C.foldl setInsert [])
        ∧ List.Perm (U ++ C) (slice [5, 6, 7] 0 3)
        ∧ (true = true → exCheckLeaves [] ≠ check_result.unsat →
            exCheckLeaves ([] ++ U) ≠ check_result.unsat) :=
  ⟨by decide,
    C28_ExpansionChoicesRec exCheckLeaves true [5, 6, 7] 4 [] [] 0 3 (by decide) (by decide)
      (by decide)⟩

/-! ### Scope levels in `SatisfyUpperBound` -/

namespace Flow

namespace Level

theorem Safe_pure {α : Type} (bad : String) (a : α) (P : SolverState → Prop)
    (Q : α → SolverState → Prop) (h : ∀ s, P s → Q a s) : Safe bad (pureM a) P Q :=
  fun s hs => h s hs

theorem Safe_bind {α β : Type} (bad : String) (m : M α) (f : α → M β)
    (P : SolverState → Prop) (R : α → SolverState → Prop) (Q : β → SolverState → Prop)
    (h1 : Safe bad m P R) (h2 : ∀ a, Safe bad (f a) (R a) Q) : Safe bad (bindM m f) P Q := by
  intro s hs
  have hm := h1 s hs
  unfold bindM
  cases hr : m s with
  | none => trivial
  | some r =>
    rw [hr] at hm
    cases r with
    | error e => exact hm
    | ok r1 =>
      obtain ⟨a, s1⟩ := r1
      exact h2 a s1 hm

theorem Safe_throw {α : Type} (bad msg : String) (hne : msg ≠ bad) (P : SolverState → Prop)
    (Q : α → SolverState → Prop) : Safe bad (throwM msg) P Q :=
  fun _ _ => hne

theorem Safe_outOfFuel {α : Type} (bad : String) (P : SolverState → Prop)
    (Q : α → SolverState → Prop) : Safe bad (outOfFuel : M α) P Q :=
  fun _ _ => trivial

theorem Safe_weaken {α : Type} (bad : String) (m : M α) (P P2 : SolverState → Prop)
    (Q Q2 : α → SolverState → Prop) (h : Safe bad m P Q) (hP : ∀ s, P2 s → P s)
    (hQ : ∀ a s, Q a s → Q2 a s) : Safe bad m P2 Q2 := by
  intro s hs
  have hm := h s (hP s hs)
  cases hr : m s with
  | none => trivial
  | some r =>
    rw [hr] at hm
    cases r with
    | error e => exact hm
    | ok r1 =>
      obtain ⟨a, s1⟩ := r1
      exact hQ a s1 hm

theorem Safe_choose (bad : String) (o : Nat → Nat) (l : Nat) :
    Safe bad (choose o) (AtLevel l) (fun _ => AtLevel l) :=
  fun _ hs => hs

theorem Safe_chooseBool (bad : String) (o : Nat → Nat) (l : Nat) :
    Safe bad (chooseBool o) (AtLevel l) (fun _ => AtLevel l) :=
  fun _ hs => hs

theorem Safe_repeatM (bad : String) (m : M Unit) (P : SolverState → Prop)
    (h : Safe bad m P (fun _ => P)) : ∀ k, Safe bad (repeatM k m) P (fun _ => P) := by
  intro k
  induction k with
  | zero => exact Safe_pure _ _ _ _ (fun _ hs => hs)
  | succ k ih => exact Safe_bind _ _ _ _ _ _ h (fun _ => ih)

theorem Safe_getLevel (bad : String) (l : Nat) :
    Safe bad getLevel (AtLevel l) (fun a s => a = l ∧ AtLevel l s) :=
  fun _ hs => ⟨hs, hs⟩

theorem Safe_Push (bad : String) (l : Nat) :
    Safe bad Push (AtLevel l) (fun _ => AtLevel (l + 1)) := by
  intro s hs
  show s.level + 1 = l + 1
  rw [hs]

theorem Safe_Pop (bad : String) (l : Nat) :
    Safe bad Pop (AtLevel (l + 1)) (fun _ => AtLevel l) := by
  intro s hs
  have hl : s.level = l + 1 := hs
  unfold Pop
  rw [if_neg (by omega)]
  show s.level - 1 = l
  omega

theorem Safe_ExpandNode (o : Nat → Nat) (l : Nat) :
    Safe outOfSync (ExpandNode o) (AtLevel l) (fun _ => AtLevel l) := by
  unfold ExpandNode
  refine Safe_bind _ _ _ _ (fun _ => AtLevel l) _ (Safe_choose _ o l) (fun n => ?_)
  apply Safe_repeatM
  refine Safe_bind _ _ _ _ (fun _ => AtLevel (l + 1)) _ (Safe_Push _ l) (fun _ => ?_)
  refine Safe_bind _ _ _ _ (fun _ => AtLevel (l + 1)) _ (Safe_chooseBool _ o _) (fun b => ?_)
  cases b with
  | true => exact Safe_throw _ _ (by decide) _ _
  | false => exact Safe_Pop _ l

theorem Safe_ite {α : Type} (bad : String) (b : Bool) (m1 m2 : M α)
    (P : SolverState → Prop) (Q : α → SolverState → Prop) (h1 : Safe bad m1 P Q)
    (h2 : Safe bad m2 P Q) : Safe bad (if b = true then m1 else m2) P Q := by
  cases b with
  | true => exact h1
  | false => exact h2

theorem Safe_skip {α : Type} (bad : String) (a : α) (l : Nat) :
    Safe bad (pureM a) (AtLevel l) (fun _ => AtLevel l) :=
  Safe_pure _ _ _ _ (fun _ hs => hs)

theorem Safe_ExpandNodeFromCoverFail (o : Nat → Nat) (l : Nat) :
    Safe outOfSync (ExpandNodeFromCoverFail o) (AtLevel l) (fun _ => AtLevel l) := by
  unfold ExpandNodeFromCoverFail
  refine Safe_bind _ _ _ _ (fun _ => AtLevel l) _ (Safe_chooseBool _ o l) (fun b1 => ?_)
  refine Safe_ite _ _ _ _ _ _ (Safe_skip _ _ l) ?_
  refine Safe_bind _ _ _ _ (fun _ => AtLevel l) _ (Safe_chooseBool _ o l) (fun b2 => ?_)
  refine Safe_ite _ _ _ _ _ _ (Safe_skip _ _ l) ?_
  exact Safe_bind _ _ _ _ (fun _ => AtLevel l) _ (Safe_ExpandNode o l)
    (fun _ => Safe_skip _ _ l)

theorem Safe_ProveConjectureWith (opt : Options) (o : Nat → Nat) (sat : M Bool) (l : Nat)
    (hsat : Safe outOfSync sat (AtLevel l) (fun _ => AtLevel l)) :
    Safe outOfSync (ProveConjectureWith opt o sat) (AtLevel l) (fun _ => AtLevel l) := by
  unfold ProveConjectureWith
  refine Safe_bind _ _ _ _ (fun _ => AtLevel l) _ hsat (fun ok => ?_)
  refine Safe_ite _ _ _ _ _ _ (Safe_skip _ _ l) ?_
  refine Safe_bind _ _ _ _ (fun _ => AtLevel l) _ ?_ (fun _ => Safe_skip _ _ l)
  refine Safe_ite _ _ _ _ _ _ ?_ (Safe_skip _ _ l)
  refine Safe_bind _ _ _ _ (fun _ => AtLevel l) _ (Safe_chooseBool _ o l) (fun b => ?_)
  refine Safe_ite _ _ _ _ _ _ ?_ (Safe_skip _ _ l)
  exact Safe_bind _ _ _ _ (fun _ => AtLevel l) _ (Safe_ExpandNodeFromCoverFail o l)
    (fun _ => Safe_skip _ _ l)

theorem Safe_TryExpandNodeWith (opt : Options) (o : Nat → Nat) (sat : M Bool) (l : Nat)
    (hsat : Safe outOfSync sat (AtLevel l) (fun _ => AtLevel l)) :
    Safe outOfSync (TryExpandNodeWith opt o sat) (AtLevel l) (fun _ => AtLevel l) := by
  unfold TryExpandNodeWith
  refine Safe_bind _ _ _ _ (fun _ => AtLevel l) _ (Safe_chooseBool _ o l) (fun closed => ?_)
  refine Safe_ite _ _ _ _ _ _ (Safe_skip _ _ l) ?_
  refine Safe_bind _ _ _ _ (fun _ => AtLevel l) _ ?_ (fun conj => ?_)
  · refine Safe_ite _ _ _ _ _ _ ?_ (Safe_skip _ _ l)
    refine Safe_bind _ _ _ _ (fun _ => AtLevel l) _ (Safe_chooseBool _ o l) (fun b => ?_)
    exact Safe_ite _ _ _ _ _ _ (Safe_ProveConjectureWith opt o sat l hsat) (Safe_skip _ _ l)
  · refine Safe_ite _ _ _ _ _ _ (Safe_skip _ _ l) ?_
    refine Safe_bind _ _ _ _ (fun _ => AtLevel l) _ (Safe_chooseBool _ o l) (fun b => ?_)
    exact Safe_ite _ _ _ _ _ _ (Safe_skip _ _ l) (Safe_ExpandNode o l)

theorem Safe_GetNodeOutgoingWith (opt : Options) (o : Nat → Nat) (sat : M Bool) (l : Nat)
    (hsat : Safe outOfSync sat (AtLevel l) (fun _ => AtLevel l)) :
    Safe outOfSync (GetNodeOutgoingWith opt o sat) (AtLevel l) (fun _ => AtLevel l) := by
  unfold GetNodeOutgoingWith
  refine Safe_bind _ _ _ _ (fun _ => AtLevel l) _ (Safe_chooseBool _ o l) (fun b1 => ?_)
  refine Safe_ite _ _ _ _ _ _ (Safe_skip _ _ l) ?_
  refine Safe_bind _ _ _ _ (fun _ => AtLevel l) _ (Safe_chooseBool _ o l) (fun b2 => ?_)
  refine Safe_ite _ _ _ _ _ _ (Safe_skip _ _ l) ?_
  refine Safe_bind _ _ _ _ (fun _ => AtLevel l) _ (Safe_choose _ o l) (fun n => ?_)
  exact Safe_repeatM _ _ _ (Safe_TryExpandNodeWith opt o sat l hsat) n

theorem Safe_ExpandSomeNodesWith (opt : Options) (o : Nat → Nat) (sat : M Bool)
    (mx frames l : Nat) (hsat : Safe outOfSync sat (AtLevel l) (fun _ => AtLevel l)) :
    Safe outOfSync (ExpandSomeNodesWith opt o sat mx frames) (AtLevel l)
      (fun _ => AtLevel l) := by
  unfold ExpandSomeNodesWith
  refine Safe_bind _ _ _ _ (fun _ => AtLevel l) _ (Safe_chooseBool _ o l) (fun b => ?_)
  refine Safe_ite _ _ _ _ _ _ (Safe_throw _ _ (by decide) _ _) ?_
  refine Safe_bind _ _ _ _ (fun _ => AtLevel l) _ (Safe_choose _ o l) (fun n => ?_)
  refine Safe_bind _ _ _ _ (fun _ => AtLevel l) _ ?_ (fun _ => Safe_skip _ _ l)
  apply Safe_repeatM
  by_cases hf : frames = 0
  · rw [if_pos hf]
    exact Safe_throw _ _ (by decide) _ _
  · rw [if_neg hf]
    exact Safe_GetNodeOutgoingWith opt o sat l hsat

end Level

end Flow

namespace Flow

namespace Level

theorem Safe_assume {α : Type} (bad : String) (m : M α) (φ : Prop) (P : SolverState → Prop)
    (Q : α → SolverState → Prop) (h : φ → Safe bad m P Q) :
    Safe bad m (fun s => φ ∧ P s) Q :=
  fun s hs => h hs.1 s hs.2

theorem Safe_BuildBacktrack (o : Nat → Nat) (l0 : Nat) :
    ∀ (rest : List Nat) (top : Nat), StackOK l0 (top :: rest) →
      Safe outOfSync (BuildBacktrack o (top :: rest)) (AtLevel top)
        (fun st s => ∃ t r, st = t :: r ∧ StackOK l0 (t :: r) ∧ AtLevel t s) := by
  intro rest
  induction rest with
  | nil =>
    intro top _
    exact Safe_throw _ _ (by decide) _ _
  | cons next rest ih =>
    intro top hok
    obtain ⟨htop, hok2⟩ := hok
    subst htop
    unfold BuildBacktrack
    refine Safe_bind _ _ _ _ (fun _ => AtLevel (next + 1)) _ (Safe_chooseBool _ o _)
      (fun plu => ?_)
    refine Safe_bind _ _ _ _ (fun _ => AtLevel next) _ (Safe_Pop _ next) (fun _ => ?_)
    refine Safe_ite _ _ _ _ _ _ ?_ (ih next hok2)
    exact Safe_pure _ _ _ _ (fun s hs => ⟨next, rest, rfl, hok2, hs⟩)

theorem Safe_BuildPopAll (l0 : Nat) :
    ∀ (rest : List Nat) (top : Nat), StackOK l0 (top :: rest) →
      Safe outOfSync (BuildPopAll (top :: rest)) (AtLevel top) (fun _ => AtLevel l0) := by
  intro rest
  induction rest with
  | nil =>
    intro top hok
    have : top = l0 := hok
    subst this
    exact Safe_pure _ _ _ _ (fun _ hs => hs)
  | cons next rest ih =>
    intro top hok
    obtain ⟨htop, hok2⟩ := hok
    subst htop
    unfold BuildPopAll
    exact Safe_bind _ _ _ _ (fun _ => AtLevel next) _ (Safe_Pop _ next)
      (fun _ => ih next hok2)

theorem Safe_BuildLoop (opt : Options) (o : Nat → Nat) (sat : M Bool)
    (hsat : ∀ l, Safe outOfSync sat (AtLevel l) (fun _ => AtLevel l)) (l0 : Nat) :
    ∀ (iters : Nat) (rest : List Nat) (top : Nat), StackOK l0 (top :: rest) →
      Safe outOfSync (BuildLoop opt o sat iters (top :: rest)) (AtLevel top)
        (fun _ => AtLevel l0) := by
  intro iters
  induction iters with
  | zero => intro rest top _; exact Safe_outOfFuel _ _ _
  | succ n ih =>
    intro rest top hok
    unfold BuildLoop
    dsimp only
    refine Safe_bind _ _ _ _ (fun a s => a = top ∧ AtLevel top s) _ (Safe_getLevel _ top)
      (fun a => ?_)
    apply Safe_assume
    intro ha
    subst ha
    rw [if_neg (by simp)]
    refine Safe_bind _ _ _ _ (fun _ => AtLevel a) _ (Safe_chooseBool _ o a) (fun unsat => ?_)
    refine Safe_ite _ _ _ _ _ _ ?_ ?_
    · refine Safe_bind _ _ _ _ _ _ (Safe_BuildBacktrack o l0 rest a hok) (fun st => ?_)
      cases st with
      | nil =>
        intro s hs
        obtain ⟨t, r, h, _⟩ := hs
        cases h
      | cons t r =>
        have hpre : ∀ s, (∃ t2 r2, t :: r = t2 :: r2 ∧ StackOK l0 (t2 :: r2) ∧ AtLevel t2 s) →
            StackOK l0 (t :: r) ∧ AtLevel t s := by
          intro s hs
          obtain ⟨t2, r2, h, h1, h2⟩ := hs
          cases h
          exact ⟨h1, h2⟩
        refine Safe_weaken _ _ (fun s => StackOK l0 (t :: r) ∧ AtLevel t s) _ _ _ ?_ hpre
          (fun _ _ h => h)
        apply Safe_assume
        intro hok2
        by_cases hlen : (t :: r).length = 1
        · rw [if_pos hlen]
          cases r with
          | nil =>
            have : t = l0 := hok2
            subst this
            exact Safe_pure _ _ _ _ (fun _ hs => hs)
          | cons x xs => simp at hlen
        · rw [if_neg hlen]
          exact ih r t hok2
    · refine Safe_bind _ _ _ _ (fun _ => AtLevel (a + 1)) _ (Safe_Push _ a) (fun _ => ?_)
      refine Safe_bind _ _ _ _ (fun lv s => lv = a + 1 ∧ AtLevel (a + 1) s) _
        (Safe_getLevel _ (a + 1)) (fun lv => ?_)
      apply Safe_assume
      intro hlv
      subst hlv
      refine Safe_bind _ _ _ _ (fun _ => AtLevel (a + 1)) _
        (Safe_ExpandSomeNodesWith opt o sat 1 _ (a + 1) (hsat (a + 1))) (fun expanded => ?_)
      refine Safe_ite _ _ _ _ _ _ (ih (a :: rest) (a + 1) ⟨rfl, hok⟩) ?_
      exact Safe_bind _ _ _ _ (fun _ => AtLevel l0) _
        (Safe_BuildPopAll l0 (a :: rest) (a + 1) ⟨rfl, hok⟩)
        (fun _ => Safe_pure _ _ _ _ (fun _ hs => hs))

theorem Safe_DeriveWith (opt : Options) (o : Nat → Nat) (sat : M Bool) (iters : Nat)
    (hsat : ∀ l, Safe outOfSync sat (AtLevel l) (fun _ => AtLevel l)) (l : Nat) :
    Safe outOfSync (DeriveWith opt o sat iters) (AtLevel l) (fun _ => AtLevel l) := by
  unfold DeriveWith
  refine Safe_bind _ _ _ _ (fun _ => AtLevel (l + 1)) _ (Safe_Push _ l) (fun _ => ?_)
  refine Safe_bind _ _ _ _ (fun _ => AtLevel (l + 1)) _ ?_ (fun res => ?_)
  · unfold Build
    refine Safe_bind _ _ _ _ (fun a s => a = l + 1 ∧ AtLevel (l + 1) s) _
      (Safe_getLevel _ (l + 1)) (fun a => ?_)
    apply Safe_assume
    intro ha
    subst ha
    exact Safe_BuildLoop opt o sat hsat (l + 1) iters [] (l + 1) rfl
  · exact Safe_bind _ _ _ _ (fun _ => AtLevel l) _ (Safe_Pop _ l)
      (fun _ => Safe_pure _ _ _ _ (fun _ hs => hs))

theorem Safe_SatisfyUpperBound (opt : Options) (o : Nat → Nat) (iters : Nat) :
    ∀ (fuel l : Nat),
      Safe outOfSync (SatisfyUpperBound opt o iters fuel) (AtLevel l) (fun _ => AtLevel l) := by
  intro fuel
  induction fuel with
  | zero => intro l; exact Safe_outOfFuel _ _ _
  | succ f ih =>
    intro l
    unfold SatisfyUpperBound
    refine Safe_bind _ _ _ _ (fun _ => AtLevel l) _ (Safe_chooseBool _ o l) (fun full => ?_)
    refine Safe_ite _ _ _ _ _ _ (Safe_skip _ _ l) ?_
    exact Safe_bind _ _ _ _ (fun _ => AtLevel l) _ (Safe_DeriveWith opt o _ iters ih l)
      (fun _ => Safe_pure _ _ _ _ (fun _ hs => hs))

end Level

end Flow

theorem Safe_result {α : Type} (bad : String) (m : Flow.M α)
    (P : Flow.SolverState → Prop) (Q : α → Flow.SolverState → Prop)
    (h : Flow.Level.Safe bad m P Q) (s : Flow.SolverState) (hs : P s) :
    (∀ a s1, m s = some (.ok (a, s1)) → Q a s1) ∧ m s ≠ some (.error bad) := by
  have hm := h s hs
  constructor
  · intro a s1 hr
    rw [hr] at hm
    exact hm
  · intro hr
    rw [hr] at hm
    exact hm rfl

/-- C18: at every normal return from `SatisfyUpperBound` the scope level of the
backend solver is the level on entry, and so it is at every normal return from
`DerivationTreeSlow::Build`; at each loop head of `Build` the level recorded in the top
stack frame is the scope level of the solver, so that `stacks out of sync!` is never
thrown.  `Push` raises the level by one, `Pop(1)` lowers it by one and every other call
on the backend preserves it. -/
theorem C18_scope_level (opt : Flow.Options) (o : Nat → Nat) (iters fuel : Nat)
    (s : Flow.SolverState) :
    (∀ b s1, Flow.Level.SatisfyUpperBound opt o iters fuel s = some (.ok (b, s1)) →
        s1.level = s.level)
      ∧ Flow.Level.SatisfyUpperBound opt o iters fuel s ≠ some (.error "stacks out of sync!")
      ∧ (∀ b s1, Flow.Level.Build opt o (Flow.Level.SatisfyUpperBound opt o iters fuel) iters s
          = some (.ok (b, s1)) → s1.level = s.level)
      ∧ Flow.Level.Build opt o (Flow.Level.SatisfyUpperBound opt o iters fuel) iters s
          ≠ some (.error "stacks out of sync!") := by
  have h1 := Safe_result _ _ _ _
    (Flow.Level.Safe_SatisfyUpperBound opt o iters fuel s.level) s rfl
  have hb : Flow.Level.Safe Flow.Level.outOfSync
      (Flow.Level.Build opt o (Flow.Level.SatisfyUpperBound opt o iters fuel) iters)
      (Flow.Level.AtLevel s.level) (fun _ => Flow.Level.AtLevel s.level) := by
    unfold Flow.Level.Build
    refine Flow.Level.Safe_bind _ _ _ _
      (fun a st => a = s.level ∧ Flow.Level.AtLevel s.level st) _
      (Flow.Level.Safe_getLevel _ s.level) (fun a => ?_)
    apply Flow.Level.Safe_assume
    intro ha
    subst ha
    exact Flow.Level.Safe_BuildLoop opt o _
      (Flow.Level.Safe_SatisfyUpperBound opt o iters fuel) s.level iters [] s.level rfl
  have h2 := Safe_result _ _ _ _ hb s rfl
  exact ⟨h1.1, h1.2, h2.1, h2.2⟩

/-- Witness for C18: a run of `SatisfyUpperBound` that proves the bound after one
expansion and a run that finds a counterexample, both entered at scope level 3, return
at level 3. -/
theorem C18_scope_level_witness :
    (Flow.Level.SatisfyUpperBound Flow.exOptions Flow.Level.exOracleProved 5 2
        { cex_tree := none, underapprox_map := [], trees := 0, tick := 0, level := 3 }).bind
          Except.toOption
      = some (true,
          { cex_tree := none, underapprox_map := [], trees := 0, tick := 7, level := 3 })
    ∧ (Flow.Level.SatisfyUpperBound Flow.exOptions Flow.Level.exOracleCex 5 2
        { cex_tree := none, underapprox_map := [], trees := 0, tick := 0, level := 3 }).bind
          Except.toOption
      = some (false,
          { cex_tree := none, underapprox_map := [], trees := 0, tick := 8, level := 3 })
    ∧ Flow.Level.SatisfyUpperBound Flow.exOptions Flow.Level.exOracleProved 5 2
        { cex_tree := none, underapprox_map := [], trees := 0, tick := 0, level := 3 }
      ≠ some (.error "stacks out of sync!") :=
  ⟨by decide!, by decide!,
    (C18_scope_level Flow.exOptions Flow.Level.exOracleProved 5 2
      { cex_tree := none, underapprox_map := [], trees := 0, tick := 0, level := 3 }).2.1⟩

/-- C29 (failing input): an unsat answer to the very first check of
`DerivationTreeSlow::Build`.  The stack then holds the single frame that the
constructor pushed, and the backtracking loop calls `LevelUsedInProof(stack.size()-2)`,
whose index is not a position of the stack; the run of the model ends there. -/
theorem C29_Build_first_check_unsat :
    Flow.Level.SatisfyUpperBound Flow.exOptions Flow.Level.exOracleFirstUnsat 5 2
        Flow.SolverState.new
      = some (.error "undefined: stack[stack.size()-2] on a stack of one frame")
    ∧ Flow.Level.BuildBacktrack Flow.Level.exOracleFirstUnsat [1]
        { cex_tree := none, underapprox_map := [], trees := 0, tick := 2, level := 1 }
      = some (.error "undefined: stack[stack.size()-2] on a stack of one frame")
    ∧ ¬ 2 ≤ ([1] : List Nat).length := by
  refine ⟨rfl, rfl, by decide⟩

/-! ### Temporary bounds -/

/-- C19 (failing input): `ExpandUnderapproxNodes`, which `Extend` calls when
`SatisfyUpperBound` fails, on a counterexample tree whose root is a copy of the
underapproximation node 4 made for instance 3 of `exCover`.  The method assigns the
constraint of the root to `orig->Bound`, the bound of instance 3, and returns without
putting the saved bound back: the bound of instance 3, which was `true` on entry, is
`false` at return.  A failed `ProveConjecture`, in contrast, returns with the bound of
its node as it was on entry. -/
theorem C19_Bound_not_restored :
    exCover.underapprox_map (exCexTree.map 0) = some 3
      ∧ exCover.unwinding.Bound 3 = true
      ∧ ((ExpandUnderapproxNodes (fun _ => false) (fun tree _ => (true, 1, tree)) 3 exCover
            exCexTree 0).bind Except.toOption).map (fun r => r.1.unwinding.Bound 3)
          = some false
      ∧ (ProveConjecture (fun d => (false, d)) exCover 3 false).2.unwinding.Bound 3
          = exCover.unwinding.Bound 3 := by
  refine ⟨by decide, rfl, by decide, by decide⟩

/-! ## The topological sort of the input nodes -/

theorem hasKey_iff (m : List (Nat × Int)) (node : Nat) :
    hasKey m node = true ↔ node ∈ m.map Prod.fst := by
  simp [hasKey]

theorem unranked_mono {T : Type} (g : RPFP T) (ts ts2 : List (Nat × Int))
    (h : ∀ k ∈ ts.map Prod.fst, k ∈ ts2.map Prod.fst) : unranked g ts2 ≤ unranked g ts := by
  unfold unranked
  apply List.Sublist.length_le
  apply List.monotone_filter_right
  intro a ha
  simp only [decide_eq_true_eq] at ha ⊢
  exact fun hk => ha (h a hk)

theorem unranked_lt {T : Type} (g : RPFP T) (ts ts2 : List (Nat × Int)) (node : Nat)
    (hn : node ∈ g.nodes) (hk : node ∉ ts.map Prod.fst) (hk2 : node ∈ ts2.map Prod.fst)
    (h : ∀ k ∈ ts.map Prod.fst, k ∈ ts2.map Prod.fst) : unranked g ts2 < unranked g ts := by
  unfold unranked
  refine lt_of_le_of_lt ?_ (filter_not_mem_cons_lt node _ hk g.nodes hn)
  apply List.Sublist.length_le
  apply List.monotone_filter_right
  intro a ha
  simp only [decide_eq_true_eq, List.mem_cons, not_or] at ha ⊢
  refine ⟨fun e => ha (e ▸ hk2), fun hm => ha (h a hm)⟩

theorem TopoInv_enter {T : Type} (g : RPFP T) (A : Prop) (ts : List (Nat × Int)) (ctr : Int)
    (S : List Nat) (node : Nat) (hI : TopoInv g A ts ctr S) (hn : node ∈ g.nodes)
    (hk : node ∉ ts.map Prod.fst) :
    TopoInv g A (counterSet ts node ctr) (ctr + 1) (node :: S) := by
  have hne : ∀ k ∈ ts.map Prod.fst, k ≠ node := fun k hm e => hk (e ▸ hm)
  refine ⟨?_, ?_, ?_, ?_⟩
  · intro k hm
    rcases (counterSet_keys _ _ _ _).1 hm with e | hm
    · exact e ▸ hn
    · exact hI.keys_nodes k hm
  · intro k hm
    rw [counterGet_counterSet]
    rcases (counterSet_keys _ _ _ _).1 hm with e | hm
    · rw [if_pos e]; omega
    · rw [if_neg (hne k hm)]
      have := hI.lt k hm
      omega
  · intro k1 h1 k2 h2
    rw [counterGet_counterSet, counterGet_counterSet]
    rcases (counterSet_keys _ _ _ _).1 h1 with e1 | h1 <;>
      rcases (counterSet_keys _ _ _ _).1 h2 with e2 | h2
    · intro _; rw [e1, e2]
    · rw [if_pos e1, if_neg (hne k2 h2)]
      intro e
      have := hI.lt k2 h2
      omega
    · rw [if_neg (hne k1 h1), if_pos e2]
      intro e
      have := hI.lt k1 h1
      omega
    · rw [if_neg (hne k1 h1), if_neg (hne k2 h2)]
      exact hI.inj k1 h1 k2 h2
  · intro hA x hx hxS e he y hy
    simp only [List.mem_cons, not_or] at hxS
    have hx2 : x ∈ ts.map Prod.fst := by
      rcases (counterSet_keys _ _ _ _).1 hx with e | hm
      · exact absurd e hxS.1
      · exact hm
    obtain ⟨h1, h2, h3⟩ := hI.done hA x hx2 hxS.2 e he y hy
    refine ⟨(counterSet_keys _ _ _ _).2 (Or.inr h1), ?_, ?_⟩
    · simp only [List.mem_cons, not_or]
      exact ⟨hne y h1, h2⟩
    · rw [counterGet_counterSet, counterGet_counterSet, if_neg (hne y h1), if_neg hxS.1]
      exact h3

theorem TopoInv_leave {T : Type} (g : RPFP T) (A : Prop) (ts : List (Nat × Int)) (ctr : Int)
    (S : List Nat) (node : Nat) (hI : TopoInv g A ts ctr (node :: S))
    (hk : node ∈ ts.map Prod.fst)
    (hch : A → ∀ e, g.Outgoing node = some e → ∀ y ∈ e.Children,
      y ∈ ts.map Prod.fst ∧ y ∉ S ∧ y ≠ node) :
    TopoInv g A (counterSet ts node ctr) (ctr + 1) S := by
  have hkeys : ∀ k, k ∈ (counterSet ts node ctr).map Prod.fst → k ∈ ts.map Prod.fst := by
    intro k hm
    rcases (counterSet_keys _ _ _ _).1 hm with e | hm
    · exact e ▸ hk
    · exact hm
  refine ⟨?_, ?_, ?_, ?_⟩
  · intro k hm
    exact hI.keys_nodes k (hkeys k hm)
  · intro k hm
    rw [counterGet_counterSet]
    by_cases e : k = node
    · rw [if_pos e]; omega
    · rw [if_neg e]
      have := hI.lt k (hkeys k hm)
      omega
  · intro k1 h1 k2 h2
    rw [counterGet_counterSet, counterGet_counterSet]
    by_cases e1 : k1 = node <;> by_cases e2 : k2 = node
    · intro _; rw [e1, e2]
    · rw [if_pos e1, if_neg e2]
      intro e
      have := hI.lt k2 (hkeys k2 h2)
      omega
    · rw [if_neg e1, if_pos e2]
      intro e
      have := hI.lt k1 (hkeys k1 h1)
      omega
    · rw [if_neg e1, if_neg e2]
      exact hI.inj k1 (hkeys k1 h1) k2 (hkeys k2 h2)
  · intro hA x hx hxS e he y hy
    by_cases ex : x = node
    · subst ex
      obtain ⟨h1, h2, h3⟩ := hch hA e he y hy
      refine ⟨(counterSet_keys _ _ _ _).2 (Or.inr h1), h2, ?_⟩
      rw [counterGet_counterSet, counterGet_counterSet, if_neg h3, if_pos rfl]
      exact hI.lt y h1
    · have hxS2 : x ∉ node :: S := by
        simp only [List.mem_cons, not_or]
        exact ⟨ex, hxS⟩
      obtain ⟨h1, h2, h3⟩ := hI.done hA x (hkeys x hx) hxS2 e he y hy
      simp only [List.mem_cons, not_or] at h2
      refine ⟨(counterSet_keys _ _ _ _).2 (Or.inr h1), h2.2, ?_⟩
      rw [counterGet_counterSet, counterGet_counterSet, if_neg h2.1, if_neg ex]
      exact h3

theorem DoTopoSortLoop_spec {T : Type} (g : RPFP T) (A : Prop) (h : Nat → Nat) (S : List Nat)
    (n : Nat) (call : List (Nat × Int) × Int → Nat → Option (List (Nat × Int) × Int))
    (hcall : ∀ st ch, ch ∈ g.nodes → (A → ∀ s ∈ S, h ch < h s) →
      TopoInv g A st.1 st.2 S → unranked g st.1 < n →
      ∃ r, call st ch = some r ∧ TopoPost g A S st ch r) :
    ∀ (chs : List Nat) (st : List (Nat × Int) × Int),
      (∀ ch ∈ chs, ch ∈ g.nodes ∧ (A → ∀ s ∈ S, h ch < h s)) →
      TopoInv g A st.1 st.2 S → unranked g st.1 < n →
      ∃ r, DoTopoSortLoop call chs st = some r ∧ TopoInv g A r.1 r.2 S
        ∧ (∀ k ∈ st.1.map Prod.fst, k ∈ r.1.map Prod.fst)
        ∧ (∀ ch ∈ chs, ch ∈ r.1.map Prod.fst)
        ∧ ∀ k ∈ st.1.map Prod.fst, counterGet r.1 k = counterGet st.1 k := by
  intro chs
  induction chs with
  | nil =>
    intro st _ hI _
    exact ⟨st, rfl, hI, fun _ hk => hk, by simp, fun _ _ => rfl⟩
  | cons ch chs ih =>
    intro st hchs hI hm
    obtain ⟨r1, hr1, hI1, hmono1, hch1, hsame1⟩ :=
      hcall st ch (hchs ch (List.mem_cons_self _ _)).1 (hchs ch (List.mem_cons_self _ _)).2
        hI hm
    obtain ⟨r, hr, hI2, hmono2, hch2, hsame2⟩ :=
      ih r1 (fun c hc => hchs c (List.mem_cons_of_mem _ hc)) hI1
        (lt_of_le_of_lt (unranked_mono g _ _ hmono1) hm)
    refine ⟨r, ?_, hI2, fun k hk => hmono2 k (hmono1 k hk), ?_, ?_⟩
    · simp only [DoTopoSortLoop, hr1]
      exact hr
    · intro c hc
      rcases List.mem_cons.1 hc with e | hc
      · exact e ▸ hmono2 ch hch1
      · exact hch2 c hc
    · intro k hk
      rw [hsame2 k (hmono1 k hk), hsame1 k hk]

theorem DoTopoSortRec_spec {T : Type} (g : RPFP T) (A : Prop) (h : Nat → Nat)
    (hA : A → GraphHeight g h) (hcl : GraphClosed g) :
    ∀ (fuel : Nat) (S : List Nat) (st : List (Nat × Int) × Int) (node : Nat),
      node ∈ g.nodes → (A → ∀ s ∈ S, h node < h s) →
      TopoInv g A st.1 st.2 S → unranked g st.1 < fuel →
      ∃ r, DoTopoSortRec g fuel st node = some r ∧ TopoPost g A S st node r := by
  intro fuel
  induction fuel with
  | zero => intro _ _ _ _ _ _ hm; omega
  | succ fuel ih =>
    intro S st node hn hS hI hm
    unfold DoTopoSortRec
    by_cases hk : hasKey st.1 node = true
    · rw [if_pos hk]
      exact ⟨st, rfl, hI, fun _ hx => hx, (hasKey_iff _ _).1 hk, fun _ _ => rfl⟩
    · rw [if_neg hk]
      have hk2 : node ∉ st.1.map Prod.fst := fun hx => hk ((hasKey_iff _ _).2 hx)
      have hne : ∀ k ∈ st.1.map Prod.fst, k ≠ node := fun k hx e => hk2 (e ▸ hx)
      have hI1 := TopoInv_enter g A st.1 st.2 S node hI hn hk2
      have hmono1 : ∀ k ∈ st.1.map Prod.fst,
          k ∈ (counterSet st.1 node st.2).map Prod.fst :=
        fun k hx => (counterSet_keys _ _ _ _).2 (Or.inr hx)
      have hnode1 : node ∈ (counterSet st.1 node st.2).map Prod.fst :=
        (counterSet_keys _ _ _ _).2 (Or.inl rfl)
      have hm1 : unranked g (counterSet st.1 node st.2) < fuel := by
        have := unranked_lt g st.1 _ node hn hk2 hnode1 hmono1
        omega
      cases he : g.Outgoing node with
      | none =>
        refine ⟨_, rfl, ?_, ?_, ?_, ?_⟩
        · apply TopoInv_leave g A _ _ S node hI1 hnode1
          intro _ e he2
          rw [he] at he2
          cases he2
        · intro k hx
          exact (counterSet_keys _ _ _ _).2 (Or.inr (hmono1 k hx))
        · exact (counterSet_keys _ _ _ _).2 (Or.inl rfl)
        · intro k hx
          show counterGet (counterSet (counterSet st.1 node st.2) node (st.2 + 1)) k = _
          rw [counterGet_counterSet, counterGet_counterSet, if_neg (hne k hx),
            if_neg (hne k hx)]
      | some edge =>
        have hchs : ∀ ch ∈ edge.Children,
            ch ∈ g.nodes ∧ (A → ∀ s ∈ node :: S, h ch < h s) := by
          intro ch hc
          refine ⟨hcl node hn edge he ch hc, ?_⟩
          intro a s hs
          have hlt := hA a node hn edge he ch hc
          rcases List.mem_cons.1 hs with e | hs
          · rw [e]; exact hlt
          · exact lt_trans hlt (hS a s hs)
        obtain ⟨r, hr, hI2, hmono2, hch2, hsame2⟩ :=
          DoTopoSortLoop_spec g A h (node :: S) fuel (DoTopoSortRec g fuel)
            (fun st2 ch h1 h2 h3 h4 => ih (node :: S) st2 ch h1 h2 h3 h4)
            edge.Children (counterSet st.1 node st.2, st.2 + 1) hchs hI1 hm1
        refine ⟨(counterSet r.1 node r.2, r.2 + 1), ?_, ?_, ?_, ?_, ?_⟩
        · simp only [hr]
        · apply TopoInv_leave g A _ _ S node hI2 (hmono2 node hnode1)
          intro a e he2 y hy
          rw [he] at he2
          cases he2
          have hlt := hA a node hn edge he y hy
          refine ⟨hch2 y hy, ?_, ?_⟩
          · intro hyS
            have := hS a y hyS
            omega
          · intro e2
            rw [e2] at hlt
            omega
        · intro k hx
          exact (counterSet_keys _ _ _ _).2 (Or.inr (hmono2 k (hmono1 k hx)))
        · exact (counterSet_keys _ _ _ _).2 (Or.inl rfl)
        · intro k hx
          show counterGet (counterSet r.1 node r.2) k = _
          rw [counterGet_counterSet, if_neg (hne k hx), hsame2 k (hmono1 k hx),
            counterGet_counterSet, if_neg (hne k hx)]

theorem GraphClosed_of_B {T : Type} (g : RPFP T) (hb : GraphClosedB g = true) :
    GraphClosed g := by
  intro x hx e he y hy
  unfold GraphClosedB at hb
  have h1 := List.all_eq_true.1 hb x hx
  rw [he] at h1
  have h2 := List.all_eq_true.1 h1 y hy
  simpa using h2

theorem DoTopoSort_spec {T : Type} (g : RPFP T) (A : Prop) (h : Nat → Nat)
    (hA : A → GraphHeight g h) (hcl : GraphClosed g) :
    ∃ r, DoTopoSort g = some r ∧ TopoInv g A r.1 r.2 [] ∧ ∀ x ∈ g.nodes, x ∈ r.1.map Prod.fst := by
  have hI0 : TopoInv g A ([] : List (Nat × Int)) 0 [] := by
    refine ⟨?_, ?_, ?_, ?_⟩ <;> simp
  have hm0 : unranked g [] < g.nodes.length + 1 := by
    unfold unranked
    have := List.length_filter_le (fun x => decide (x ∉ ([] : List (Nat × Int)).map Prod.fst))
      g.nodes
    omega
  obtain ⟨r, hr, hI, _, hall, _⟩ :=
    DoTopoSortLoop_spec g A h [] (g.nodes.length + 1) (DoTopoSortRec g (g.nodes.length + 1))
      (fun st ch h1 h2 h3 h4 =>
        DoTopoSortRec_spec g A h hA hcl (g.nodes.length + 1) [] st ch h1 h2 h3 h4)
      g.nodes ([], 0) (fun ch hc => ⟨hc, fun _ s hs => by simp at hs⟩) hI0 hm0
  exact ⟨r, hr, hI, hall⟩

/-- Claim C25: on every input graph whose edges stay inside it, cyclic ones included,
`DoTopoSort` returns; every input node has a rank in the resulting map, different nodes
have different ranks, and when the graph of the `Outgoing` edges has a height function,
that is, has no cycle, every child of the `Outgoing` edge of a node has a smaller rank
than the node. -/
theorem C25_DoTopoSort {T : Type} (g : RPFP T) (hcl : GraphClosed g) :
    ∃ r, DoTopoSort g = some r
      ∧ (∀ x ∈ g.nodes, hasKey r.1 x = true)
      ∧ (∀ x ∈ g.nodes, ∀ y ∈ g.nodes, x ≠ y → counterGet r.1 x ≠ counterGet r.1 y)
      ∧ ∀ h : Nat → Nat, GraphHeight g h →
          ∀ x ∈ g.nodes, ∀ e, g.Outgoing x = some e → ∀ y ∈ e.Children,
            counterGet r.1 y < counterGet r.1 x := by
  obtain ⟨r, hr, hI, hall⟩ := DoTopoSort_spec g False (fun _ => 0) (fun a => a.elim) hcl
  refine ⟨r, hr, fun x hx => (hasKey_iff _ _).2 (hall x hx), ?_, ?_⟩
  · intro x hx y hy hne e
    exact hne (hI.inj x (hall x hx) y (hall y hy) e)
  · intro h hh x hx e he y hy
    obtain ⟨r2, hr2, hI2, hall2⟩ := DoTopoSort_spec g True h (fun _ => hh) hcl
    rw [hr] at hr2
    cases hr2
    exact (hI2.done trivial x (hall2 x hx) (by simp) e he y hy).2.2

theorem exInputAcyclic_closed : GraphClosed exInputAcyclic :=
  GraphClosed_of_B _ (by decide)

/-- The run of `DoTopoSort` on the example graph with a cycle returns; the child 0 of
node 1, whose call was in progress, has the larger rank. -/
theorem exInputCyclic_run :
    DoTopoSort exInputCyclic = some ([(0, 5), (1, 4), (2, 3)], 6) := by
  decide

/-- The example graph without a cycle has a height function. -/
theorem exInputAcyclic_height : GraphHeight exInputAcyclic (fun n => 2 - n) := by
  intro x hx e he y hy
  have hx2 : x = 0 ∨ x = 1 ∨ x = 2 := by simpa [exInputAcyclic] using hx
  rcases hx2 with rfl | rfl | rfl
  · simp only [exInputAcyclic, if_true] at he
    cases he
    have hy2 : y = 1 ∨ y = 2 := by simpa using hy
    rcases hy2 with rfl | rfl <;> decide
  · simp only [exInputAcyclic] at he
    cases he
    have hy2 : y = 2 := by simpa using hy
    subst hy2
    decide
  · simp [exInputAcyclic] at he

/-- Witness of C25 on the example graph without a cycle. -/
theorem C25_DoTopoSort_witness :
    GraphClosed exInputAcyclic ∧ GraphHeight exInputAcyclic (fun n => 2 - n) ∧
    ∃ r, DoTopoSort exInputAcyclic = some r
      ∧ (∀ x ∈ exInputAcyclic.nodes, hasKey r.1 x = true)
      ∧ (∀ x ∈ exInputAcyclic.nodes, ∀ y ∈ exInputAcyclic.nodes, x ≠ y →
          counterGet r.1 x ≠ counterGet r.1 y)
      ∧ ∀ h : Nat → Nat, GraphHeight exInputAcyclic h →
          ∀ x ∈ exInputAcyclic.nodes, ∀ e, exInputAcyclic.Outgoing x = some e →
            ∀ y ∈ e.Children, counterGet r.1 y < counterGet r.1 x :=
  ⟨exInputAcyclic_closed, exInputAcyclic_height,
    C25_DoTopoSort exInputAcyclic exInputAcyclic_closed⟩

end Z3Duality
